import Mathlib

/-!
# Grammar normalisation passes of the Automata repository

A shallow embedding of `src/cnf.cpp` (identical passes in `src/cnf2.cpp`) and
`src/gnf.cpp` (identical passes in `src/gnf2.cpp`).

* A `std::string` is the list of its bytes (`Sym`); `"ε"` is the two bytes
  `0xCE 0xB5` of its UTF-8 encoding, so `size() == 2` for it.
* A `std::map<string, vector<vector<string>>>` is an association list kept in
  ascending key order (`Rules`); `operator[]` on an absent key creates the entry
  with an empty vector (`Rules.touch`).
* Loops whose number of rounds is not fixed by their input take a `fuel`
  argument and return `none` when it runs out; `none` is also the result where
  the C++ has undefined behaviour (`rhs[0]` on an empty vector, `push_back` on
  the vector a range-`for` is walking).
-/

namespace Automata

/-- A `std::string`, as the list of its bytes. -/
abbrev Sym := List Nat

/-- One right-hand side, a `vector<string>`. -/
abbrev Alt := List Sym

/-- The value type of `Grammar::rules`: the map in ascending key order. -/
abbrev Rules := List (Sym × List Alt)

/-- The string literal `"ε"` (UTF-8 bytes `CE B5`). -/
def eps : Sym := [206, 181]

/-- The `operator<` of `std::string`: lexicographic comparison of the bytes. -/
def strLt : Sym → Sym → Bool
  | [], [] => false
  | [], _ :: _ => true
  | _ :: _, [] => false
  | a :: as, b :: bs => if a < b then true else if b < a then false else strLt as bs

/-- The `islower` of the C locale on a byte (a byte above 127, a negative `char`
for which the call is not defined, counts as not lower case). -/
def islower (c : Nat) : Bool := decide (97 ≤ c) && decide (c ≤ 122)

/-- The `isupper` of the C locale on a byte (a byte above 127 counts as not upper
case). -/
def isupper (c : Nat) : Bool := decide (65 ≤ c) && decide (c ≤ 90)

/-- The function `isTerminal`: `s.size() == 1 && islower(s[0])`. -/
def isTerminal : Sym → Bool
  | [c] => islower c
  | _ => false

/-- The function `isNonTerminal`: `s.size() == 1 && isupper(s[0])`. -/
def isNonTerminal : Sym → Bool
  | [c] => isupper c
  | _ => false

/-- The function `std::to_string` on a non-negative `int`: the decimal digits as bytes. -/
def toStr (n : Nat) : Sym := (Nat.toDigits 10 n).map Char.toNat

/-- The struct `Grammar` (`startSymbol` is called `start` in gnf.cpp). -/
structure Grammar where
  startSymbol : Sym
  rules : Rules
deriving DecidableEq

namespace Rules

/-- The keys in iteration order. -/
def keys (m : Rules) : List Sym := m.map Prod.fst

/-- The call `m.find(k)`: the mapped vector, if the key is present. -/
def find : Rules → Sym → Option (List Alt)
  | [], _ => none
  | (k', v) :: rest, k => if k = k' then some v else find rest k

/-- The call `m.count(k)`. -/
def count (m : Rules) (k : Sym) : Bool := (find m k).isSome

/-- The vector that `m[k]` refers to (empty when the key is created by the access). -/
def get (m : Rules) (k : Sym) : List Alt := (find m k).getD []

/-- The assignment `m[k] = v`: replace the mapped vector, or insert the entry at its place in
key order. -/
def set : Rules → Sym → List Alt → Rules
  | [], k, v => [(k, v)]
  | (k', v') :: rest, k, v =>
    if k = k' then (k, v) :: rest
    else if strLt k k' then (k, v) :: (k', v') :: rest
    else (k', v') :: set rest k v

/-- The side effect of evaluating `m[k]`: an absent key is inserted with an
empty vector. -/
def touch (m : Rules) (k : Sym) : Rules :=
  if count m k then m else set m k []

/-- Mutation through the reference `m[k]`. -/
def update (m : Rules) (k : Sym) (f : List Alt → List Alt) : Rules :=
  set m k (f (get m k))

/-- The representation invariant of `std::map`: keys strictly ascending. -/
def WF (m : Rules) : Prop := (keys m).Pairwise (fun a b => strLt a b = true)

instance (m : Rules) : Decidable (WF m) := by
  unfold WF; infer_instance

end Rules

/-- The test `r.size() == 1 && r[0] == "ε"` of both epsilon passes. -/
def isEpsAlt (r : Alt) : Bool := decide (r = [eps])

/-- The test `r.size() == 1 && isNonTerminal(r[0])` of both unit passes. -/
def isUnit : Alt → Bool
  | [s] => isNonTerminal s
  | _ => false

/-- The first loop of both epsilon passes: the `set<string> nullable` of the keys
that have an alternative `[ε]`, in ascending order. -/
def nullable (m : Rules) : List Sym :=
  (m.filter fun e => e.2.any isEpsAlt).map Prod.fst

/-- The loop over `i` of both epsilon passes for one `rhs`: every copy of `rhs`
with one occurrence of `A` erased, provided `rhs.size() > 1`. -/
def dropOnce (A : Sym) (rhs : Alt) : List Alt :=
  (List.range rhs.length).filterMap fun i =>
    if rhs[i]? = some A ∧ 1 < rhs.length then some (rhs.eraseIdx i) else none

/-- The loop over the map of both epsilon passes for one nullable `A`: every
entry gets its `newRules` appended. -/
def addDropped (A : Sym) (m : Rules) : Rules :=
  m.map fun e => (e.1, e.2 ++ e.2.flatMap (dropOnce A))

/-- The `erase(remove_if(...))` of both epsilon passes. -/
def stripEps (v : List Alt) : List Alt := v.filter fun r => !isEpsAlt r

/-- The `erase(remove_if(...))` of both unit passes. -/
def stripUnits (v : List Alt) : List Alt := v.filter fun r => !isUnit r

/-- The key `k` lies after the cursor of an iteration over the map (`none` is
the position before `begin()`). -/
def isAfter : Option Sym → Sym → Bool
  | none, _ => true
  | some c, k => strLt c k

/-- Incrementing a map iterator: the first key after the cursor. -/
def nextKey (m : Rules) (cur : Option Sym) : Option Sym := m.keys.find? (isAfter cur)

/-- A range-`for` over the live map whose body may insert keys: the body runs at
the entry after the cursor until there is none. -/
def sweep (body : Sym → Rules → Bool → Rules × Bool) :
    Nat → Option Sym → Rules → Bool → Option (Rules × Bool)
  | 0, _, _, _ => none
  | fuel + 1, cur, m, changed =>
    match nextKey m cur with
    | none => some (m, changed)
    | some lhs => sweep body fuel (some lhs) (body lhs m changed).1 (body lhs m changed).2

/-- The `while (changed)` loop of both unit passes; `rounds` bounds the number
of sweeps, `inner` the number of entries one sweep may visit. -/
def unitLoop (body : Sym → Rules → Bool → Rules × Bool) (inner : Rules → Nat) :
    Nat → Rules → Option Rules
  | 0, _ => none
  | rounds + 1, m =>
    match sweep body (inner m) none m false with
    | none => none
    | some (m1, true) => unitLoop body inner rounds m1
    | some (m1, false) => some m1

/-- The symbols of the unit alternatives of a map. -/
def unitTargets (m : Rules) : List Sym :=
  m.flatMap fun e => (e.2.filter isUnit).map fun r => r.headD []

/-- A bound on the entries one sweep of a unit pass visits: the entries present
plus one per unit alternative (each can create at most one entry). -/
def sweepBound (m : Rules) : Nat := m.length + (unitTargets m).length + 1

namespace Cnf

/-- One nullable `A` of `removeEpsilonProductions`: the loop over the map, then
the erasure of `[ε]` from `G.rules[A]`. -/
def epsStep (m : Rules) (A : Sym) : Rules := (addDropped A m).update A stripEps

/-- The function `removeEpsilonProductions` of cnf.cpp. -/
def removeEpsilonProductions (G : Grammar) : Grammar :=
  let nullable := nullable G.rules
  let m := nullable.foldl epsStep G.rules
  { G with rules :=
      if G.startSymbol ∈ nullable then m.update G.startSymbol (fun v => v ++ [[eps]]) else m }

/-- The loop over `rhsList` in `removeUnitProductions` for one `rhs`; the state
is the map, `toAdd` and `changed`. -/
def unitScan (lhs : Sym) (st : Rules × List Alt × Bool) (rhs : Alt) : Rules × List Alt × Bool :=
  if isUnit rhs then
    let B := rhs.headD []
    let m := st.1.touch B
    (m.get B).foldl
      (fun acc r2 => if r2 = [lhs] then acc else (acc.1, acc.2.1 ++ [r2], true))
      (m, st.2.1, st.2.2)
  else st

/-- The body of the loop over the map in `removeUnitProductions`. -/
def unitBody (lhs : Sym) (m : Rules) (changed : Bool) : Rules × Bool :=
  let st := (m.get lhs).foldl (unitScan lhs) (m, [], changed)
  (st.1.update lhs fun rhsList => stripUnits (rhsList ++ st.2.1), st.2.2)

/-- The function `removeUnitProductions` of cnf.cpp, for at most `rounds` sweeps. -/
def removeUnitProductions (rounds : Nat) (G : Grammar) : Option Grammar :=
  (unitLoop unitBody sweepBound rounds G.rules).map fun m => { G with rules := m }

/-- The locals `terminalMap` and `counter` of `replaceTerminalsInMixedRHS`,
with the map being rewritten. -/
structure IsoState where
  terminalMap : List (Sym × Sym)
  counter : Nat
  rules : Rules
deriving DecidableEq

/-- The name `"X" + to_string(n)`. -/
def xName (n : Nat) : Sym := 88 :: toStr n

/-- The name `"Y" + to_string(n)`. -/
def yName (n : Nat) : Sym := 89 :: toStr n

/-- The body of the loop over `sym` in `replaceTerminalsInMixedRHS`, `size`
being `rhs.size()`; the result is the state and the value left in `sym`.
Creating a variable whose name is `lhs` pushes onto the vector the enclosing
range-`for` is walking: undefined, `none`. -/
def isoSym (lhs : Sym) (size : Nat) (st : IsoState) (sym : Sym) : Option (IsoState × Sym) :=
  if isTerminal sym && decide (1 < size) then
    match st.terminalMap.lookup sym with
    | some v => some (st, v)
    | none =>
      let newVar := xName (st.counter + 1)
      if newVar = lhs then none
      else some ({ terminalMap := (sym, newVar) :: st.terminalMap,
                   counter := st.counter + 1,
                   rules := st.rules.update newVar fun v => v ++ [[sym]] }, newVar)
  else some (st, sym)

/-- The loop over `sym` for one `rhs` of size `size`. -/
def isoAlt (lhs : Sym) (size : Nat) : IsoState → Alt → Option (IsoState × Alt)
  | st, [] => some (st, [])
  | st, sym :: rest =>
    match isoSym lhs size st sym with
    | none => none
    | some (st1, s1) =>
      match isoAlt lhs size st1 rest with
      | none => none
      | some (st2, r) => some (st2, s1 :: r)

/-- The loop over the alternatives of `lhs`. -/
def isoAlts (lhs : Sym) : IsoState → List Alt → Option (IsoState × List Alt)
  | st, [] => some (st, [])
  | st, rhs :: rest =>
    match isoAlt lhs rhs.length st rhs with
    | none => none
    | some (st1, r1) =>
      match isoAlts lhs st1 rest with
      | none => none
      | some (st2, rs) => some (st2, r1 :: rs)

/-- The body of the loop over the copied keys: the alternatives of `lhs` are
rewritten in place. -/
def isoKey (st : IsoState) (lhs : Sym) : Option IsoState :=
  match isoAlts lhs st (st.rules.get lhs) with
  | none => none
  | some (st1, alts) => some { st1 with rules := st1.rules.set lhs alts }

/-- The loop over the copied keys. -/
def isoKeys : IsoState → List Sym → Option IsoState
  | st, [] => some st
  | st, lhs :: rest =>
    match isoKey st lhs with
    | none => none
    | some st1 => isoKeys st1 rest

/-- The function `replaceTerminalsInMixedRHS` of cnf.cpp. -/
def replaceTerminalsInMixedRHS (G : Grammar) : Option Grammar :=
  (isoKeys { terminalMap := [], counter := 0, rules := G.rules } G.rules.keys).map
    fun st => { G with rules := st.rules }

/-- The `while (rhs.size() > 2)` loop of `binarizeGrammar`; the state is
`binCount` and the map. `fuel` is `rhs.size()`, which the loop cannot use up.
A new variable named `lhs` pushes onto the vector the enclosing range-`for`
is walking: undefined, `none`. -/
def binAlt (lhs : Sym) : Nat → Nat × Rules → Alt → Option ((Nat × Rules) × Alt)
  | fuel, st, s0 :: s1 :: s2 :: rest =>
    match fuel with
    | 0 => none
    | fuel + 1 =>
      let newVar := yName (st.1 + 1)
      if newVar = lhs then none
      else binAlt lhs fuel (st.1 + 1, st.2.update newVar fun v => v ++ [[s1, s2]])
             (s0 :: (rest ++ [newVar]))
  | _, st, rhs => some (st, rhs)

/-- The loop over the alternatives of `lhs` in `binarizeGrammar`, collecting
`newRules`. -/
def binAlts (lhs : Sym) : Nat × Rules → List Alt → Option ((Nat × Rules) × List Alt)
  | st, [] => some (st, [])
  | st, rhs :: rest =>
    match binAlt lhs rhs.length st rhs with
    | none => none
    | some (st1, r1) =>
      match binAlts lhs st1 rest with
      | none => none
      | some (st2, rs) => some (st2, r1 :: rs)

/-- The loop over the copied keys of `binarizeGrammar`. -/
def binKeys : Nat × Rules → List Sym → Option (Nat × Rules)
  | st, [] => some st
  | st, lhs :: rest =>
    match binAlts lhs st (st.2.get lhs) with
    | none => none
    | some (st1, newRules) => binKeys (st1.1, st1.2.set lhs newRules) rest

/-- The function `binarizeGrammar` of cnf.cpp. -/
def binarizeGrammar (G : Grammar) : Option Grammar :=
  (binKeys (0, G.rules) G.rules.keys).map fun st => { G with rules := st.2 }

/-- The function `convertToCNF` of cnf.cpp, the unit pass being given `rounds`
sweeps. -/
def convertToCNF (rounds : Nat) (G : Grammar) : Option Grammar :=
  (removeUnitProductions rounds (removeEpsilonProductions G)).bind fun G2 =>
    (replaceTerminalsInMixedRHS G2).bind binarizeGrammar

end Cnf

namespace Gnf

/-- The function `removeEpsilons` of gnf.cpp: the new rules for every nullable
`A`, then the erasure of `[ε]` from every nullable `A` but the start symbol. -/
def removeEpsilons (G : Grammar) : Grammar :=
  let nullable := nullable G.rules
  let m := nullable.foldl (fun m A => addDropped A m) G.rules
  { G with rules :=
      nullable.foldl (fun m A => if A ≠ G.startSymbol then m.update A stripEps else m) m }

/-- The loop over `rhss` in `removeUnits` for one `rhs`; the state is the map
and `add`. -/
def unitScan (A : Sym) (st : Rules × List Alt) (rhs : Alt) : Rules × List Alt :=
  if isUnit rhs then
    let B := rhs.headD []
    let m := st.1.touch B
    (m, st.2 ++ (m.get B).filter fun prod => decide (prod ≠ [A]))
  else st

/-- The body of the loop over the map in `removeUnits`. -/
def unitBody (A : Sym) (m : Rules) (changed : Bool) : Rules × Bool :=
  let st := (m.get A).foldl (unitScan A) (m, [])
  let before := (st.1.get A).length
  let m1 := st.1.update A fun rhss => stripUnits (rhss ++ st.2)
  (m1, changed || decide ((m1.get A).length ≠ before))

/-- The function `removeUnits` of gnf.cpp, for at most `rounds` sweeps. -/
def removeUnits (rounds : Nat) (G : Grammar) : Option Grammar :=
  (unitLoop unitBody sweepBound rounds G.rules).map fun m => { G with rules := m }

/-- The loop `while (G.rules.count(Aprime)) Aprime += "'"`. -/
def primed (m : Rules) : Nat → Sym → Option Sym
  | fuel, name =>
    if m.count name then
      match fuel with
      | 0 => none
      | fuel + 1 => primed m fuel (name ++ [39])
    else some name

/-- The length of the longest key. -/
def maxKeyLen (m : Rules) : Nat := (m.keys.map List.length).foldr max 0

/-- The function `removeLeftRecursion` of gnf.cpp on the map. `rhs[0]` on an empty
alternative is undefined: `none`. The probing loop gets more rounds than a
key has bytes, which it cannot use up. -/
def removeLeftRecursion (m : Rules) (A : Sym) : Option Rules :=
  let m0 := m.touch A
  let rhss := m0.get A
  if rhss.any List.isEmpty then none
  else
    let alpha := rhss.filter fun rhs => decide (rhs.head? = some A)
    let beta := rhss.filter fun rhs => !decide (rhs.head? = some A)
    if alpha.isEmpty then some m0
    else
      (primed m0 (maxKeyLen m0 + 1) (A ++ [39])).map fun Aprime =>
        let m1 := m0.set A (beta.map fun b => b ++ [Aprime])
        m1.update Aprime fun v => v ++ alpha.map (fun a => a.tail ++ [Aprime]) ++ [[eps]]

/-- The call `distance(vars.begin(), find(vars.begin(), vars.end(), s))`: the
index of the first occurrence, `vars.size()` when there is none. -/
def findIdx (s : Sym) : List Sym → Nat
  | [] => 0
  | x :: xs => if x = s then 0 else findIdx s xs + 1

/-- The body of the loop over `G.rules[Ai]` in `convertToGNF` for one `rhs`;
the state is the map, `newR` and `repeat`. -/
def substScan (vars : List Sym) (i : Nat) (st : Rules × List Alt × Bool) (rhs : Alt) :
    Option (Rules × List Alt × Bool) :=
  match rhs with
  | [] => none
  | h :: t =>
    if isNonTerminal h && decide (findIdx h vars < vars.length) && decide (findIdx h vars < i) then
      let m := st.1.touch h
      some (m, st.2.1 ++ (m.get h).map (fun gamma => gamma ++ t), true)
    else some (st.1, st.2.1 ++ [h :: t], st.2.2)

/-- The loop over `G.rules[Ai]`. -/
def substScans (vars : List Sym) (i : Nat) :
    Rules × List Alt × Bool → List Alt → Option (Rules × List Alt × Bool)
  | st, [] => some st
  | st, rhs :: rest =>
    match substScan vars i st rhs with
    | none => none
    | some st1 => substScans vars i st1 rest

/-- One round of `while (repeat)`: the new map and the value of `repeat`. -/
def substRound (vars : List Sym) (i : Nat) (Ai : Sym) (m : Rules) : Option (Rules × Bool) :=
  let m0 := m.touch Ai
  (substScans vars i (m0, [], false) (m0.get Ai)).map fun st => (st.1.set Ai st.2.1, st.2.2)

/-- The loop `while (repeat)` for `Ai`, for at most `fuel` rounds. -/
def substLoop (vars : List Sym) (i : Nat) (Ai : Sym) : Nat → Rules → Option Rules
  | 0, _ => none
  | fuel + 1, m =>
    match substRound vars i Ai m with
    | none => none
    | some (m1, true) => substLoop vars i Ai fuel m1
    | some (m1, false) => some m1

/-- The loop over `i` of `convertToGNF`, from index `i` on (`rest` is the tail of
`vars` from there). -/
def gnfOrder (fuel : Nat) (vars : List Sym) : Nat → List Sym → Rules → Option Rules
  | _, [], m => some m
  | i, Ai :: rest, m =>
    match substLoop vars i Ai fuel m with
    | none => none
    | some m1 =>
      match removeLeftRecursion m1 Ai with
      | none => none
      | some m2 => gnfOrder fuel vars (i + 1) rest m2

/-- Insertion of a string into an ascending list. -/
def insertSorted (k : Sym) : List Sym → List Sym
  | [] => [k]
  | x :: xs => if strLt x k then x :: insertSorted k xs else k :: x :: xs

/-- The call `sort(vars.begin(), vars.end())`. -/
def sortStrings : List Sym → List Sym
  | [] => []
  | x :: xs => insertSorted x (sortStrings xs)

/-- The final cleanup of `convertToGNF`. -/
def cleanup (m : Rules) : Rules :=
  m.map fun e => (e.1, e.2.filter fun r => !(r.isEmpty || !(isTerminal (r.headD []))))

/-- The function `convertToGNF` of gnf.cpp, every substitution loop being given
`fuel` rounds. -/
def convertToGNF (fuel : Nat) (G : Grammar) : Option Grammar :=
  let vars := sortStrings G.rules.keys
  (gnfOrder fuel vars 0 vars G.rules).map fun m => { G with rules := cleanup m }

/-- The three calls of `main` in gnf.cpp. -/
def toGNF (rounds fuel : Nat) (G : Grammar) : Option Grammar :=
  (removeUnits rounds (removeEpsilons G)).bind (convertToGNF fuel)

end Gnf

/-- One derivation step: an occurrence of a key is replaced by one of its
alternatives, the alternative `[ε]` standing for the empty string. -/
inductive Step (m : Rules) : List Sym → List Sym → Prop
  | mk (u v : List Sym) (A : Sym) (rhs : Alt) :
      rhs ∈ m.get A → Step m (u ++ A :: v) (u ++ (if rhs = [eps] then [] else rhs) ++ v)

/-- A vector of alternatives without unit alternative. -/
def NoUnits (v : List Alt) : Prop := ∀ r ∈ v, isUnit r = false

/-- What the two unit passes share in the body of their loop over the map. -/
structure UnitLike (body : Sym → Rules → Bool → Rules × Bool) : Prop where
  keys_sub : ∀ lhs m ch x, x ∈ (body lhs m ch).1.keys →
    x ∈ m.keys ∨ x = lhs ∨ ∃ r ∈ m.get lhs, isUnit r = true ∧ r.headD [] = x
  get_self : ∀ lhs m ch, NoUnits ((body lhs m ch).1.get lhs)
  get_other : ∀ lhs m ch k, k ≠ lhs → (body lhs m ch).1.get k = m.get k
  wf : ∀ lhs m ch, m.WF → (body lhs m ch).1.WF
  idle : ∀ lhs m ch, m.WF → lhs ∈ m.keys → NoUnits (m.get lhs) → body lhs m ch = (m, ch)

/-- Derivation in any number of steps. -/
def Derives (m : Rules) : List Sym → List Sym → Prop := Relation.ReflTransGen (Step m)

/-- The word `w`, a string of terminals, is generated by `G`. -/
def Generates (G : Grammar) (w : List Sym) : Prop :=
  (∀ s ∈ w, isTerminal s = true) ∧ Derives G.rules [G.startSymbol] w

/-! ## Definitions for the stated properties -/

/-- The map after the accesses `G.rules[B]` of a unit pass for the alternatives `l`. -/
def touchUnits (l : List Alt) (m : Rules) : Rules :=
  l.foldl (fun m r => if isUnit r then m.touch (r.headD []) else m) m

/-- The keys one sweep can still visit: keys and unit symbols after the cursor. -/
def pending (cur : Option Sym) (m : Rules) : Finset Sym :=
  ((m.keys ++ unitTargets m).toFinset).filter fun k => isAfter cur k = true

/-- The one-byte string of an ASCII character. -/
def ch (c : Char) : Sym := [c.toNat]

/-- The grammar of `main` in cnf.cpp: `S → ASB`, `A → aAS | a | ε`,
`B → SbS | A | bb`. -/
def cnfMain : Grammar :=
  ⟨ch 'S', [(ch 'A', [[ch 'a', ch 'A', ch 'S'], [ch 'a'], [eps]]),
            (ch 'B', [[ch 'S', ch 'b', ch 'S'], [ch 'A'], [ch 'b', ch 'b']]),
            (ch 'S', [[ch 'A', ch 'S', ch 'B']])]⟩

/-- In the alternatives of the map, `ε` occurs only as a whole alternative. -/
def EpsWhole (m : Rules) : Prop := ∀ k, ∀ r ∈ m.get k, eps ∈ r → r = [eps]

/-- The input condition of the conversions: keys ascending, every key a single
uppercase letter, every alternative either `[ε]` or a non-empty sequence of
single lowercase and single uppercase letters. -/
def WellFormedInput (G : Grammar) : Prop :=
  G.rules.WF ∧ ∀ e ∈ G.rules, isNonTerminal e.1 = true ∧
    ∀ r ∈ e.2, r = [eps] ∨ (r ≠ [] ∧ ∀ s ∈ r, isTerminal s = true ∨ isNonTerminal s = true)

instance (G : Grammar) : Decidable (WellFormedInput G) := by
  unfold WellFormedInput; infer_instance

/-- A nonterminal of a converted grammar: a single uppercase letter, or a
generated name `X<n>` or `Y<n>`. -/
def isVariable (s : Sym) : Bool :=
  isNonTerminal s ||
    match s with
    | c :: d :: ds => (c == 88 || c == 89) && (d :: ds).all fun b => decide (48 ≤ b ∧ b ≤ 57)
    | _ => false

/-- An alternative in Chomsky normal form: one terminal or two nonterminals. -/
def isCnfAlt : Alt → Bool
  | [t] => isTerminal t
  | [a, b] => isVariable a && isVariable b
  | _ => false

/-- The CNF postcondition: every alternative is one terminal or two
nonterminals, the start symbol possibly having `[ε]` as well. -/
def CnfForm (G : Grammar) : Prop :=
  ∀ e ∈ G.rules, ∀ r ∈ e.2, isCnfAlt r = true ∨ (e.1 = G.startSymbol ∧ r = [eps])

instance (G : Grammar) : Decidable (CnfForm G) := by
  unfold CnfForm; infer_instance

/-- The grammar `A → S | b`, `S → aA | ε` with start symbol `S`. -/
def startInUnit : Grammar :=
  ⟨ch 'S', [(ch 'A', [[ch 'S'], [ch 'b']]), (ch 'S', [[ch 'a', ch 'A'], [eps]])]⟩

/-- What `convertToCNF` makes of `startInUnit`: `A → b | X1A | ε`,
`S → X1A | ε`, `X1 → a`. -/
def startInUnitCnf : Grammar :=
  ⟨ch 'S', [(ch 'A', [[ch 'b'], [Cnf.xName 1, ch 'A'], [eps]]),
            (ch 'S', [[Cnf.xName 1, ch 'A'], [eps]]),
            (Cnf.xName 1, [[ch 'a']])]⟩

/-- The grammar `S → ABCD`, `A → a`, `B → b`, `C → c`, `D → d`. -/
def fourLong : Grammar :=
  ⟨ch 'S', [(ch 'A', [[ch 'a']]), (ch 'B', [[ch 'b']]), (ch 'C', [[ch 'c']]),
            (ch 'D', [[ch 'd']]), (ch 'S', [[ch 'A', ch 'B', ch 'C', ch 'D']])]⟩

/-- What `convertToCNF` makes of `fourLong`: `S → AY2`, `Y1 → BC`, `Y2 → DY1`. -/
def fourLongCnf : Grammar :=
  ⟨ch 'S', [(ch 'A', [[ch 'a']]), (ch 'B', [[ch 'b']]), (ch 'C', [[ch 'c']]),
            (ch 'D', [[ch 'd']]), (ch 'S', [[ch 'A', Cnf.yName 2]]),
            (Cnf.yName 1, [[ch 'B', ch 'C']]), (Cnf.yName 2, [[ch 'D', Cnf.yName 1]])]⟩

/-- The only terminal string each symbol of `fourLongCnf` derives. -/
def fourLongYield (s : Sym) : List Sym :=
  if s = ch 'A' then [ch 'a'] else if s = ch 'B' then [ch 'b']
  else if s = ch 'C' then [ch 'c'] else if s = ch 'D' then [ch 'd']
  else if s = Cnf.yName 1 then [ch 'b', ch 'c']
  else if s = Cnf.yName 2 then [ch 'd', ch 'b', ch 'c']
  else if s = ch 'S' then [ch 'a', ch 'd', ch 'b', ch 'c']
  else [s]

/-- The grammar `S → Sa | b`. -/
def leftRec : Grammar := ⟨ch 'S', [(ch 'S', [[ch 'S', ch 'a'], [ch 'b']])]⟩

/-- What the three passes of gnf.cpp make of `leftRec`: `S → bS'`, `S' → aS'`. -/
def leftRecGnf : Grammar :=
  ⟨ch 'S', [(ch 'S', [[ch 'b', [83, 39]]]), ([83, 39], [[ch 'a', [83, 39]]])]⟩

/-- The grammar `S → A`, `A → ε`. -/
def nullChain : Grammar := ⟨ch 'S', [(ch 'A', [[eps]]), (ch 'S', [[ch 'A']])]⟩

/-- The grammar `S → AB`, `A → ε`, `B → A`. -/
def nullTrans : Grammar :=
  ⟨ch 'S', [(ch 'A', [[eps]]), (ch 'B', [[ch 'A']]), (ch 'S', [[ch 'A', ch 'B']])]⟩

/-- The grammar `S → T`, `T → U`, `U → u`. -/
def unitChain : Grammar :=
  ⟨ch 'S', [(ch 'S', [[ch 'T']]), (ch 'T', [[ch 'U']]), (ch 'U', [[ch 'u']])]⟩

/-- What both unit passes make of `unitChain`: `S` has no alternative left,
`T → u`, `U → u`. -/
def unitChainOut : Grammar :=
  ⟨ch 'S', [(ch 'S', []), (ch 'T', [[ch 'u']]), (ch 'U', [[ch 'u']])]⟩

/-- Every value of `terminalMap` is a name that is no terminal. -/
def TMok (st : Cnf.IsoState) : Prop :=
  ∀ t v, st.terminalMap.lookup t = some v → isTerminal v = false

/-- How the scan of the alternatives of `lhs` changes the state: other vectors
only grow by alternatives of size 1, the vector of `lhs` is not pushed to. -/
structure IsoRel (lhs : Sym) (st st1 : Cnf.IsoState) : Prop where
  wf : st.rules.WF → st1.rules.WF
  tm : TMok st → TMok st1
  grow : ∀ k, ∃ ex, st1.rules.get k = st.rules.get k ++ ex ∧ ∀ r ∈ ex, r.length = 1
  same : st1.rules.get lhs = st.rules.get lhs

/-- Alternatives of size above 1 hold no terminal. -/
def Isolated (v : List Alt) : Prop := ∀ r ∈ v, 1 < r.length → ∀ s ∈ r, isTerminal s = false

/-- Alternatives of size 1 of `G` are found unchanged at their index in `m`. -/
def KeepsSingles (G m : Rules) : Prop :=
  ∀ (k : Sym) (i : Nat) (r : Alt), (G.get k)[i]? = some r → r.length = 1 → (m.get k)[i]? = some r

/-- The grammar `X1 → ab`, whose only key is the first name the terminal
isolation generates. -/
def xCollide : Grammar := ⟨ch 'S', [(Cnf.xName 1, [[ch 'a', ch 'b']])]⟩

/-- The test of `convertToGNF` on an alternative of `Ai`: its first symbol is a
single uppercase letter found in `vars` at an index below `i`. -/
def isBad (vars : List Sym) (i : Nat) : Alt → Bool
  | [] => false
  | h :: _ =>
    isNonTerminal h && decide (Gnf.findIdx h vars < vars.length) && decide (Gnf.findIdx h vars < i)

/-- What one round of the substitution loop puts into `newR` for `rhs`. -/
def substAlt (vars : List Sym) (i : Nat) (m : Rules) (rhs : Alt) : List Alt :=
  if isBad vars i rhs then (m.get (rhs.headD [])).map fun gamma => gamma ++ rhs.tail else [rhs]

/-- The index in `vars` of the first symbol of an alternative when that symbol is
a single uppercase letter of `vars`, and `vars.length` otherwise. -/
def lead (vars : List Sym) : Alt → Nat
  | [] => vars.length
  | h :: _ =>
    if isNonTerminal h && decide (Gnf.findIdx h vars < vars.length) then Gnf.findIdx h vars
    else vars.length

/-- No alternative of the map is empty. -/
def NoEmpty (m : Rules) : Prop := ∀ k, ∀ r ∈ m.get k, r ≠ []

/-- Every alternative of a nonterminal of `vars` of index below `i` begins
beyond that index: the nonterminals already processed by `convertToGNF`. -/
def Processed (vars : List Sym) (i : Nat) (m : Rules) : Prop :=
  ∀ v, Gnf.findIdx v vars < i → Gnf.findIdx v vars < vars.length →
    ∀ r ∈ m.get v, Gnf.findIdx v vars < lead vars r

/-- The grammar of `main` in gnf.cpp: `S → AB | b`, `A → aA | a`, `B → b`. -/
def gnfMain : Grammar :=
  ⟨ch 'S', [(ch 'A', [[ch 'a', ch 'A'], [ch 'a']]), (ch 'B', [[ch 'b']]),
            (ch 'S', [[ch 'A', ch 'B'], [ch 'b']])]⟩

/-- Every alternative has at most two symbols. -/
def Short (v : List Alt) : Prop := ∀ r ∈ v, r.length ≤ 2

/-- How binarizing the alternatives of a nonterminal changes the state: vectors
only grow by alternatives of size 2, and only those of names `Y<n>`. -/
structure BinRel (st st1 : Nat × Rules) : Prop where
  wf : st.2.WF → st1.2.WF
  grow : ∀ k, ∃ ex, st1.2.get k = st.2.get k ++ ex ∧ ∀ r ∈ ex, r.length = 2
  same : ∀ k, (∀ n, k ≠ Cnf.yName n) → st1.2.get k = st.2.get k

/-- The vector `v1` holds, index by index, the binarized alternatives of `v`: an
alternative of at most two symbols as it was, a longer one as its first symbol
followed by a name `Y<n>`. -/
def BinImage (v v1 : List Alt) : Prop :=
  v1.length = v.length ∧
    ∀ (i : Nat) (r : Alt), v[i]? = some r →
      ∃ r1, v1[i]? = some r1 ∧ (r.length ≤ 2 → r1 = r) ∧
        (2 < r.length → ∃ j, r1 = [r.headD [], Cnf.yName j])

/-- The grammar `S → ab`, `X1 → c`: the name `X1` is taken. -/
def xTaken : Grammar :=
  ⟨ch 'S', [(ch 'S', [[ch 'a', ch 'b']]), (Cnf.xName 1, [[ch 'c']])]⟩

/-- What `replaceTerminalsInMixedRHS` makes of `xTaken`: `S → X1X2`, `X1 → c | a`,
`X2 → b`. -/
def xTakenOut : Grammar :=
  ⟨ch 'S', [(ch 'S', [[Cnf.xName 1, Cnf.xName 2]]), (Cnf.xName 1, [[ch 'c'], [ch 'a']]),
            (Cnf.xName 2, [[ch 'b']])]⟩

/-- The grammar `S → ABC`, `Y1 → d`: the name `Y1` is taken. -/
def yTaken : Grammar :=
  ⟨ch 'S', [(ch 'S', [[ch 'A', ch 'B', ch 'C']]), (Cnf.yName 1, [[ch 'd']])]⟩

/-- What `binarizeGrammar` makes of `yTaken`: `S → AY1`, `Y1 → d | BC`. -/
def yTakenOut : Grammar :=
  ⟨ch 'S', [(ch 'S', [[ch 'A', Cnf.yName 1]]), (Cnf.yName 1, [[ch 'd'], [ch 'B', ch 'C']])]⟩

/-- What the three passes of gnf.cpp make of its `main` grammar: `A → aA | a`,
`B → b`, `S → aAB | aB | b`. -/
def gnfMainOut : Grammar :=
  ⟨ch 'S', [(ch 'A', [[ch 'a', ch 'A'], [ch 'a']]), (ch 'B', [[ch 'b']]),
            (ch 'S', [[ch 'a', ch 'A', ch 'B'], [ch 'a', ch 'B'], [ch 'b']])]⟩

/-- What `convertToCNF` makes of the `main` grammar of cnf.cpp:
`A → X1Y1 | a | X1S`, `B → SY2 | X2X2 | X1Y3 | a | X1S`, `S → AY4 | SB`,
`X1 → a`, `X2 → b`, `Y1 → AS`, `Y2 → X2S`, `Y3 → AS`, `Y4 → SB`. -/
def cnfMainOut : Grammar :=
  ⟨ch 'S', [(ch 'A', [[Cnf.xName 1, Cnf.yName 1], [ch 'a'], [Cnf.xName 1, ch 'S']]),
            (ch 'B', [[ch 'S', Cnf.yName 2], [Cnf.xName 2, Cnf.xName 2],
                      [Cnf.xName 1, Cnf.yName 3], [ch 'a'], [Cnf.xName 1, ch 'S']]),
            (ch 'S', [[ch 'A', Cnf.yName 4], [ch 'S', ch 'B']]),
            (Cnf.xName 1, [[ch 'a']]), (Cnf.xName 2, [[ch 'b']]),
            (Cnf.yName 1, [[ch 'A', ch 'S']]), (Cnf.yName 2, [[Cnf.xName 2, ch 'S']]),
            (Cnf.yName 3, [[ch 'A', ch 'S']]), (Cnf.yName 4, [[ch 'S', ch 'B']])]⟩

/-- A map on which the unit pass, the terminal isolation and the binarization
find nothing to do. -/
def Settled (m : Rules) : Prop :=
  ∀ k, NoUnits (m.get k) ∧ Isolated (m.get k) ∧ Short (m.get k)

/-- The nonterminal `A` occurs in no alternative of more than one symbol: the
epsilon passes derive no alternative for it. -/
def QuietFor (A : Sym) (m : Rules) : Prop := ∀ k, ∀ r ∈ m.get k, 1 < r.length → A ∉ r

/-- The grammar `S → AA`, `A → a | ε`. -/
def twiceA : Grammar := ⟨ch 'S', [(ch 'A', [[ch 'a'], [eps]]), (ch 'S', [[ch 'A', ch 'A']])]⟩

/-- The grammar `A → B | a`, `B → a`. -/
def unitTwice : Grammar := ⟨ch 'A', [(ch 'A', [[ch 'B'], [ch 'a']]), (ch 'B', [[ch 'a']])]⟩

/-- What both unit passes make of `unitTwice`: `A → a | a`, `B → a`. -/
def unitTwiceOut : Grammar := ⟨ch 'A', [(ch 'A', [[ch 'a'], [ch 'a']]), (ch 'B', [[ch 'a']])]⟩

/-- The grammar `S → ε | AB`, `A → a`, `B → b`, in Chomsky normal form. -/
def epsFirst : Grammar :=
  ⟨ch 'S', [(ch 'A', [[ch 'a']]), (ch 'B', [[ch 'b']]), (ch 'S', [[eps], [ch 'A', ch 'B']])]⟩

/-- What `convertToCNF` makes of `epsFirst`: `S → AB | ε`. -/
def epsFirstOut : Grammar :=
  ⟨ch 'S', [(ch 'A', [[ch 'a']]), (ch 'B', [[ch 'b']]), (ch 'S', [[ch 'A', ch 'B'], [eps]])]⟩

/-- The grammar `S → SA | a | ε`, `A → a`, in Chomsky normal form. -/
def startOnRight : Grammar :=
  ⟨ch 'S', [(ch 'A', [[ch 'a']]), (ch 'S', [[ch 'S', ch 'A'], [ch 'a'], [eps]])]⟩

/-- What `convertToCNF` makes of `startOnRight`: `S → SA | a | ε | a`. -/
def startOnRightOut : Grammar :=
  ⟨ch 'S', [(ch 'A', [[ch 'a']]), (ch 'S', [[ch 'S', ch 'A'], [ch 'a'], [eps], [ch 'a']])]⟩

/-- The grammar `S → AB | ε`, `A → a`, `B → b`, in Chomsky normal form. -/
def epsLast : Grammar :=
  ⟨ch 'S', [(ch 'A', [[ch 'a']]), (ch 'B', [[ch 'b']]), (ch 'S', [[ch 'A', ch 'B'], [eps]])]⟩

/-- A transition table `map<pair<string, char>, tuple<string, char, char>>`: key
`(state, read)`, value `(newState, write, move)`. -/
abbrev Table := List ((Sym × Nat) × (Sym × Nat × Nat))

/-- The call `transitions.find(key)`. -/
def Table.find (t : Table) (key : Sym × Nat) : Option (Sym × Nat × Nat) :=
  (List.find? (fun e => decide (e.1 = key)) t).map Prod.snd

/-- The state name `"q0"`. -/
def q0 : Sym := [113, 48]

/-- The state name `"q1"`. -/
def q1 : Sym := [113, 49]

/-- The state name `"q2"`. -/
def q2 : Sym := [113, 50]

/-- The state name `"q3"`. -/
def q3 : Sym := [113, 51]

/-- The byte of an ASCII character. -/
def byte (c : Char) : Nat := c.toNat

namespace Lba

/-- The table `transitions` of lba.cpp. -/
def transitions : Table :=
  [((q0, byte 'a'), (q1, byte 'X', byte 'R')),
   ((q0, byte 'X'), (q0, byte 'X', byte 'R')),
   ((q0, byte 'Y'), (q3, byte 'Y', byte 'S')),
   ((q1, byte 'a'), (q1, byte 'a', byte 'R')),
   ((q1, byte 'Y'), (q1, byte 'Y', byte 'R')),
   ((q1, byte 'b'), (q2, byte 'Y', byte 'L')),
   ((q2, byte 'a'), (q0, byte 'a', byte 'S')),
   ((q2, byte 'X'), (q2, byte 'X', byte 'L')),
   ((q2, byte 'Y'), (q2, byte 'Y', byte 'L'))]

/-- The loop `while (true)` of `simulateLBA` in lba.cpp from the configuration
`tape`, `state`, `head`, for at most `fuel` rounds. -/
def run : Nat → List Nat → Sym → Int → Option Bool
  | 0, _, _, _ => none
  | fuel + 1, tape, state, head =>
    if head < 0 then some (tape.all fun c => decide (c = byte 'X' ∨ c = byte 'Y'))
    else if head ≥ (tape.length : Int) then some false
    else
      match transitions.find (state, tape.getD head.toNat 0) with
      | none => some (decide (state = q3))
      | some (newState, write, move) =>
        if move = byte 'R' then run fuel (tape.set head.toNat write) newState (head + 1)
        else if move = byte 'L' then run fuel (tape.set head.toNat write) newState (head - 1)
        else if move = byte 'S' ∧ newState = q3 then some true
        else run fuel (tape.set head.toNat write) newState head

/-- The function `simulateLBA` of lba.cpp, for at most `fuel` rounds of its loop. -/
def simulateLBA (fuel : Nat) (input : List Nat) : Option Bool := run fuel input q0 0

end Lba

namespace Lba2

/-- The loop `while (true)` of `simulateLBA` in lba2.cpp from the configuration
`tape`, `state`, `head`, for at most `fuel` rounds. -/
def run (transitions : Table) (acceptState : Sym) : Nat → List Nat → Sym → Int → Option Bool
  | 0, _, _, _ => none
  | fuel + 1, tape, state, head =>
    if head < 0 then some (decide (state = acceptState))
    else if head ≥ (tape.length : Int) then some false
    else
      match transitions.find (state, tape.getD head.toNat 0) with
      | none => some (decide (state = acceptState))
      | some (newState, write, move) =>
        if move = byte 'R' then
          run transitions acceptState fuel (tape.set head.toNat write) newState (head + 1)
        else if move = byte 'L' then
          run transitions acceptState fuel (tape.set head.toNat write) newState (head - 1)
        else if move = byte 'S' ∧ newState = acceptState then some true
        else run transitions acceptState fuel (tape.set head.toNat write) newState head

/-- The function `simulateLBA` of lba2.cpp, for at most `fuel` rounds of its loop. -/
def simulateLBA (transitions : Table) (startState acceptState : Sym) (fuel : Nat)
    (input : List Nat) : Option Bool :=
  run transitions acceptState fuel input startState 0

/-- The table `exampleTransitions` of lba2.cpp. -/
def exampleTransitions : Table :=
  [((q0, byte 'a'), (q1, byte 'X', byte 'R')),
   ((q0, byte 'X'), (q0, byte 'X', byte 'R')),
   ((q0, byte 'Y'), (q3, byte 'Y', byte 'S')),
   ((q1, byte 'a'), (q1, byte 'a', byte 'R')),
   ((q1, byte 'Y'), (q1, byte 'Y', byte 'R')),
   ((q1, byte 'b'), (q2, byte 'Y', byte 'L')),
   ((q2, byte 'a'), (q0, byte 'a', byte 'S')),
   ((q2, byte 'X'), (q2, byte 'X', byte 'L')),
   ((q2, byte 'Y'), (q2, byte 'Y', byte 'L'))]

end Lba2

/-- The string `a^n b^n`. -/
def anbn (n : Nat) : List Nat := List.replicate n (byte 'a') ++ List.replicate n (byte 'b')

/-! ### Printing and building the map -/

/-- The bytes of the literal `" → "`. -/
def arrow : List Nat := [32, 226, 134, 146, 32]

/-- The bytes of the literal `" | "`. -/
def bar : List Nat := [32, 124, 32]

/-- What the body of the loop of `printGrammar` writes for one entry of the map:
the key, the arrow, the alternatives separated by bars, a newline. -/
def printLine (e : Sym × List Alt) : List Nat :=
  e.1 ++ arrow ++ bar.intercalate (e.2.map List.flatten) ++ [10]

/-- The text `printGrammar` of cnf.cpp writes. -/
def printGrammar (G : Grammar) (title : List Nat) : List Nat :=
  (if title = [] then [] else [10] ++ title ++ [10]) ++ G.rules.flatMap printLine

/-- The map after the assignments `G.rules[k] = v` for the pairs of `ins`, in
their order, on an empty map. -/
def build (ins : List (Sym × List Alt)) : Rules := ins.foldl (fun m e => m.set e.1 e.2) []

/-- The assignments of `main` in cnf.cpp, in their order: `S`, then `A`, then `B`. -/
def cnfMainInserts : List (Sym × List Alt) :=
  [(ch 'S', [[ch 'A', ch 'S', ch 'B']]),
   (ch 'A', [[ch 'a', ch 'A', ch 'S'], [ch 'a'], [eps]]),
   (ch 'B', [[ch 'S', ch 'b', ch 'S'], [ch 'A'], [ch 'b', ch 'b']])]

/-- Two assignments, `S` first and `A` second, each with a terminal to isolate. -/
def twoInserts : List (Sym × List Alt) :=
  [(ch 'S', [[ch 'a', ch 'B']]), (ch 'A', [[ch 'b', ch 'B']])]

/-! ### The final cleanup of the GNF conversion -/

/-- The number of alternatives the final cleanup of `convertToGNF` erases from the map `m`:
those on which the predicate given to `remove_if` holds. -/
def discarded (m : Rules) : Nat :=
  (m.map fun e => (e.2.filter fun r => r.isEmpty || !(isTerminal (r.headD []))).length).sum

/-- The map of `convertToGNF` when the loop over the ordered nonterminals is left, before the
final cleanup. -/
def beforeCleanup (fuel : Nat) (G : Grammar) : Option Rules :=
  Gnf.gnfOrder fuel (Gnf.sortStrings G.rules.keys) 0 (Gnf.sortStrings G.rules.keys) G.rules

/-- The grammar `A → Sb | a`, `S → a`: the cleanup erases `Sb`. -/
def oneDropped : Grammar :=
  ⟨ch 'S', [(ch 'A', [[ch 'S', ch 'b'], [ch 'a']]), (ch 'S', [[ch 'a']])]⟩

/-- The grammar `A → a`, `S → a`: the cleanup erases nothing. -/
def noneDropped : Grammar := ⟨ch 'S', [(ch 'A', [[ch 'a']]), (ch 'S', [[ch 'a']])]⟩

/-! ### The derivation search and the pushdown simulation -/

/-- An `unordered_map<char, vector<string>>`: the entries as a list (only looked up by key,
never walked). -/
abbrev CharMap := List (Nat × List (List Nat))

/-- The call `grammar.count(c)`. -/
def CharMap.count (g : CharMap) (c : Nat) : Bool := g.any fun e => decide (e.1 = c)

/-- The vector `grammar[c]` (empty when the access creates the entry). -/
def CharMap.get (g : CharMap) (c : Nat) : List (List Nat) :=
  ((g.find? fun e => decide (e.1 = c)).map Prod.snd).getD []

/-- The grammar `grammar['S'] = {"aSb", "ab"}` of cfg.cpp, cfg-pda.cpp and pda-cfg.cpp. -/
def exampleGrammar : CharMap :=
  [(byte 'S', [[byte 'a', byte 'S', byte 'b'], [byte 'a', byte 'b']])]

namespace Cfg

/-- The loop over `i` of `simulateCFG` in cfg.cpp from position `pre.length` on: the strings
pushed for the first upper-case character, `pre` being the characters before it. -/
def expand (g : CharMap) : List Nat → List Nat → List (List Nat)
  | _, [] => []
  | pre, symbol :: post =>
    if isupper symbol then (g.get symbol).map fun prod => pre ++ prod ++ post
    else expand g (pre ++ [symbol]) post

/-- The loop `while (!q.empty())` of `simulateCFG` in cfg.cpp on the queue `q` of derived
strings (the derivation steps kept with each string are only printed), for at most `fuel`
rounds. -/
def run (g : CharMap) (input : List Nat) : Nat → List (List Nat) → Option Bool
  | _, [] => some false
  | 0, _ :: _ => none
  | fuel + 1, current :: q =>
    if current = input then some true
    else if current.length > input.length then run g input fuel q
    else run g input fuel (q ++ expand g [] current)

/-- The function `simulateCFG` of cfg.cpp, for at most `fuel` rounds of its loop. -/
def simulateCFG (fuel : Nat) (input : List Nat) : Option Bool :=
  run exampleGrammar input fuel [[byte 'S']]

end Cfg

namespace PdaCfg

/-- The loop over `i` of `simulateCFG` in pda-cfg.cpp from position `pre.length` on: the
strings pushed for the first character that is a key of the grammar. -/
def expand (g : CharMap) : List Nat → List Nat → List (List Nat)
  | _, [] => []
  | pre, c :: post =>
    if g.count c then (g.get c).map fun prod => pre ++ prod ++ post
    else expand g (pre ++ [c]) post

/-- The loop `while (!q.empty())` of `simulateCFG` in pda-cfg.cpp on the queue of derived
strings (the path kept with each string is only printed), for at most `fuel` rounds. -/
def run (g : CharMap) (input : List Nat) : Nat → List (List Nat) → Option Bool
  | _, [] => some false
  | 0, _ :: _ => none
  | fuel + 1, current :: q =>
    if current = input then some true
    else if current.length > input.length then run g input fuel q
    else run g input fuel (q ++ expand g [] current)

/-- The function `simulateCFG` of pda-cfg.cpp, for at most `fuel` rounds of its loop. -/
def simulateCFG (fuel : Nat) (input : List Nat) (grammar : CharMap) : Option Bool :=
  run grammar input fuel [[byte 'S']]

end PdaCfg

namespace CfgPda

/-- The loop `while (!q.empty())` of `simulateCFGtoPDA` in cfg-pda.cpp on the queue of
configurations `(stackContent, inputIndex)`, the top of the stack being the last character
(the path kept with each configuration is only printed), for at most `fuel` rounds. -/
def run (g : CharMap) (input : List Nat) : Nat → List (List Nat × Nat) → Option Bool
  | _, [] => some false
  | 0, _ :: _ => none
  | fuel + 1, (stackContent, inputIndex) :: q =>
    if stackContent = [] ∧ inputIndex = input.length then some true
    else if stackContent = [] ∨ inputIndex > input.length then run g input fuel q
    else
      let top := stackContent.getLastD 0
      let remainingStack := stackContent.dropLast
      if g.count top then
        run g input fuel (q ++ (g.get top).map fun prod => (remainingStack ++ prod.reverse, inputIndex))
      else if inputIndex < input.length ∧ top = input.getD inputIndex 0 then
        run g input fuel (q ++ [(remainingStack, inputIndex + 1)])
      else run g input fuel q

/-- The function `simulateCFGtoPDA` of cfg-pda.cpp, for at most `fuel` rounds of its loop. -/
def simulateCFGtoPDA (fuel : Nat) (input : List Nat) (grammar : CharMap) : Option Bool :=
  run grammar input fuel [([byte 'S'], 0)]

end CfgPda

/-- The first test of the loop body of `simulateCFGtoPDA`: stack empty and input read. -/
def pdaAccepting (input : List Nat) (c : List Nat × Nat) : Bool :=
  decide (c.1 = [] ∧ c.2 = input.length)

/-- The configurations the loop body of `simulateCFGtoPDA` pushes for the configuration `c`
when it does not accept it. -/
def pdaNext (g : CharMap) (input : List Nat) (c : List Nat × Nat) : List (List Nat × Nat) :=
  if c.1 = [] ∨ c.2 > input.length then []
  else if g.count (c.1.getLastD 0) then
    (g.get (c.1.getLastD 0)).map fun prod => (c.1.dropLast ++ prod.reverse, c.2)
  else if c.2 < input.length ∧ c.1.getLastD 0 = input.getD c.2 0 then [(c.1.dropLast, c.2 + 1)]
  else []

/-- An accepted configuration can be reached from `c` along pushed configurations. -/
inductive PdaAccepts (g : CharMap) (input : List Nat) : List Nat × Nat → Prop
  | here (c : List Nat × Nat) : pdaAccepting input c = true → PdaAccepts g input c
  | next (c d : List Nat × Nat) : pdaAccepting input c = false → d ∈ pdaNext g input c →
      PdaAccepts g input d → PdaAccepts g input c

/-- A measure that decreases from a configuration to the configurations pushed for it: twice
the number of characters still to read, plus one when `S` is on top of the stack. -/
def pdaMeasure (input : List Nat) (c : List Nat × Nat) : Nat :=
  2 * (input.length + 1 - c.2) + (if c.1.getLastD 0 = byte 'S' then 1 else 0)

/-- The size of the full binary tree of height `n`. -/
def treeBound : Nat → Nat
  | 0 => 1
  | n + 1 => 2 * treeBound n + 1

/-- A number of rounds enough for the queue `q`. -/
def pdaWeight (input : List Nat) (q : List (List Nat × Nat)) : Nat :=
  (q.map fun c => treeBound (pdaMeasure input c)).sum

/-! ### The expansion of binarized alternatives -/

/-- A name `Y<digits>`, as `binarizeGrammar` generates them. -/
def isYName : Sym → Bool
  | 89 :: d :: ds => (d :: ds).all fun b => decide (48 ≤ b ∧ b ≤ 57)
  | _ => false

/-- The expansion of an alternative through the rules of the names `Y<n>`: every symbol
`Y<n>` whose vector holds one alternative is replaced by the expansion of that alternative,
to the depth `fuel`. -/
def expandY (m : Rules) : Nat → Alt → Alt
  | 0, r => r
  | fuel + 1, r =>
    r.flatMap fun s =>
      if isYName s then
        match m.get s with
        | [alt] => expandY m fuel alt
        | _ => [s]
      else [s]

/-- The grammar `S → ABC`. -/
def threeLong : Grammar := ⟨ch 'S', [(ch 'S', [[ch 'A', ch 'B', ch 'C']])]⟩

/-- The grammar `A → B`, `B → A`, a unit cycle. -/
def unitCycle : Grammar := ⟨ch 'A', [(ch 'A', [[ch 'B']]), (ch 'B', [[ch 'A']])]⟩

/-- The grammar `S → Sa | b | Sc | d`. -/
def leftRecTwo : Grammar :=
  ⟨ch 'S', [(ch 'S', [[ch 'S', ch 'a'], [ch 'b'], [ch 'S', ch 'c'], [ch 'd']])]⟩

/-- The grammar `A → Bx`, `B → b`, `C → Ac`. -/
def chainLead : Grammar :=
  ⟨ch 'C', [(ch 'A', [[ch 'B', ch 'x']]), (ch 'B', [[ch 'b']]), (ch 'C', [[ch 'A', ch 'c']])]⟩

/-! ### The alternatives the epsilon passes derive -/

/-- The grammar `S → AbA`, `A → a | ε`. -/
def twoOccurrences : Grammar :=
  ⟨ch 'S', [(ch 'A', [[ch 'a'], [eps]]), (ch 'S', [[ch 'A', ch 'b', ch 'A']])]⟩

/-- The grammar `S → AcB`, `A → a | ε`, `B → b | ε`. -/
def twoNullables : Grammar :=
  ⟨ch 'S', [(ch 'A', [[ch 'a'], [eps]]), (ch 'B', [[ch 'b'], [eps]]),
            (ch 'S', [[ch 'A', ch 'c', ch 'B']])]⟩

/-- What the loops of both epsilon passes do for one nullable `A`, as far as membership goes:
an alternative other than `[ε]` stays, and an alternative of more than one symbol gives its
copies with one occurrence of `A` erased. -/
structure EpsStepLike (step : Rules → Sym → Rules) : Prop where
  persist : ∀ (m : Rules) (A B : Sym) (r : Alt), r ∈ m.get B → r ≠ [eps] →
    r ∈ (step m A).get B
  add : ∀ (m : Rules) (A B : Sym) (r : Alt) (i : Nat), r ∈ m.get B → 1 < r.length →
    r[i]? = some A → r.eraseIdx i ≠ [eps] → r.eraseIdx i ∈ (step m A).get B

/-! ### The names of the isolated terminals -/

/-- The number a string of decimal digits stands for. -/
def decVal : List Nat → Nat
  | [] => 0
  | c :: l => (c - 48) * 10 ^ l.length + decVal l

/-- The terminals the scan of `rhs` in `replaceTerminalsInMixedRHS` looks up in
`terminalMap`, in their order: the terminals of `rhs` when `rhs.size() > 1`. -/
def toIsolate (r : Alt) : List Sym := if 1 < r.length then r.filter isTerminal else []

/-- The list `seen` with `s` put at its end unless it is there. -/
def addNew (seen : List Sym) (s : Sym) : List Sym := if s ∈ seen then seen else seen ++ [s]

/-- The distinct symbols of `l` in the order of their first occurrence. -/
def firsts (l : List Sym) : List Sym := l.foldl addNew []

/-- The terminals that occur in alternatives of more than one symbol, in the order of their
first occurrence when the keys are taken in map order, the alternatives of a key in their
order and the symbols of an alternative in their order. -/
def isolated (m : Rules) : List Sym := firsts (m.flatMap fun e => e.2.flatMap toIsolate)

/-- The name `X<k>` for the terminal `t`, `k` being its place in `ts`, counted from 1. -/
def nameOf (ts : List Sym) (t : Sym) : Sym := Cnf.xName (Gnf.findIdx t ts + 1)

/-- The alternative `r` with every terminal replaced by its name, when `r` has more than one
symbol, and `r` itself otherwise. -/
def isoImage (ts : List Sym) (r : Alt) : Alt :=
  if 1 < r.length then r.map fun s => if isTerminal s then nameOf ts s else s else r

/-- What the loop body of `replaceTerminalsInMixedRHS` does to the list of the terminals met
so far, for one symbol of an alternative of size `size`. -/
def scanSym (size : Nat) (seen : List Sym) (sym : Sym) : List Sym :=
  if isTerminal sym && decide (1 < size) then addNew seen sym else seen

/-- The state of `replaceTerminalsInMixedRHS` when the terminals `seen` have been met, in this
order, on a grammar with the keys `K0`: the counter is their number, `terminalMap` maps each
to its name, the name number `j + 1` has the one alternative made of the terminal number `j`,
and the later names have none. -/
structure IsoInv (K0 : List Sym) (st : Cnf.IsoState) (seen : List Sym) : Prop where
  counter : st.counter = seen.length
  nodup : seen.Nodup
  lookup : ∀ t, st.terminalMap.lookup t = if t ∈ seen then some (nameOf seen t) else none
  xget : ∀ j t, seen[j]? = some t → st.rules.get (Cnf.xName (j + 1)) = [[t]]
  xfree : ∀ n, seen.length < n → st.rules.get (Cnf.xName n) = []
  keys : ∀ k, k ∈ st.rules.keys ↔ k ∈ K0 ∨ ∃ j, j < seen.length ∧ k = Cnf.xName (j + 1)

/-- What the scan of one alternative does to the list of the terminals met so far. -/
def scanAlt (seen : List Sym) (r : Alt) : List Sym := (toIsolate r).foldl addNew seen

/-! ### The two copies of the shared passes -/

/-- What a unit pass collects for `lhs` on the map `m`: for every unit alternative `[B]` of
`lhs`, in their order, the alternatives of `B` other than `[lhs]`. -/
def unitAdd (lhs : Sym) (m : Rules) : List Alt :=
  (m.get lhs).flatMap fun rhs =>
    if isUnit rhs then (m.get (rhs.headD [])).filter fun r => decide (r ≠ [lhs]) else []

/-- The two maps have the same keys and, under every key, the same alternatives, whatever
their order and number of copies. -/
def SameSets (m1 m2 : Rules) : Prop :=
  (∀ k, k ∈ m1.keys ↔ k ∈ m2.keys) ∧ ∀ k r, r ∈ m1.get k ↔ r ∈ m2.get k

/-- A grammar with a nullable start symbol and a unit alternative leading back to it:
`S → ε | aA`, `A → S | b`. -/
def sharedSample : Grammar :=
  ⟨ch 'S', [(ch 'A', [[ch 'S'], [ch 'b']]), (ch 'S', [[eps], [ch 'a', ch 'A']])]⟩

/-! ### The substitution that undoes the isolation -/

/-- The substitution that undoes `replaceTerminalsInMixedRHS`, read off its input map `inp` and
its output map `out`: a symbol that is a key of `out` and no key of `inp`, so a generated
variable, and whose rule in `out` is the one alternative made of the one symbol `t`, stands
for `t`; every other symbol stands for itself. -/
def restoreSym (inp out : Rules) (s : Sym) : Sym :=
  if inp.count s then s
  else
    match out.find s with
    | some [[t]] => t
    | _ => s

/-- The alternatives `alts` with every symbol replaced by what it stands for. -/
def restoreAlts (inp out : Rules) (alts : List Alt) : List Alt :=
  alts.map fun r => r.map (restoreSym inp out)

/-! ### Inputs with names of more than one letter -/

/-- The grammar `X1 → ab | cd`: its key is the first name the terminal isolation generates,
and the alternative scanned when that name is created is not the last one. -/
def xCollideTwo : Grammar :=
  ⟨Cnf.xName 1, [(Cnf.xName 1, [[ch 'a', ch 'b'], [ch 'c', ch 'd']])]⟩

/-- The name `A'`, of two bytes. -/
def primedA : Sym := [65, 39]

/-- The grammar `A' → a`, `B → A'b`, `C → c`: the nonterminal before `B` in sorted order has a
name of two characters. -/
def primedLead : Grammar :=
  ⟨ch 'B', [(primedA, [[ch 'a']]), (ch 'B', [[primedA, ch 'b']]), (ch 'C', [[ch 'c']])]⟩

/-! ### The weight of a sentential form -/

/-- The sum of the weights `w` of the symbols of a sentential form. -/
def weight (w : Sym → Nat) (f : List Sym) : Nat := (f.map w).sum

/-- What both epsilon passes make of `twoOccurrences`: `S → AbA | bA | Ab`, `A → a`. -/
def twoOccurrencesOut : Grammar :=
  ⟨ch 'S', [(ch 'A', [[ch 'a']]),
            (ch 'S', [[ch 'A', ch 'b', ch 'A'], [ch 'b', ch 'A'], [ch 'A', ch 'b']])]⟩

/-! ### Lists without duplicates -/

/-- The alternative `p` without its symbols from `N`. -/
def without (N : List Sym) (p : Alt) : Alt := p.filter fun s => decide (s ∉ N)

/-- The number of occurrences of `A` in the alternative `p`. -/
def occurrences (A : Sym) (p : Alt) : Nat := (p.filter fun s => decide (s = A)).length

/-- The epsilon pass derives an alternative from `p` for a nonterminal of `R`: `p` has more
than one symbol and holds a nonterminal of `R`. -/
def Drops (R : List Sym) (p : Alt) : Prop := 1 < p.length ∧ ∃ A ∈ R, A ∈ p

/-- What keeps a list of alternatives free of duplicates while the epsilon pass still has the
nonterminals `R` to go through: no alternative is there twice, none holds a nonterminal of `R`
twice, and none from which the pass derives differs from another only in symbols of `R`. -/
def DropSafe (R : List Sym) (v : List Alt) : Prop :=
  v.Nodup ∧ (∀ r ∈ v, ∀ A ∈ R, occurrences A r ≤ 1) ∧
    ∀ r ∈ v, ∀ r2 ∈ v, Drops R r → without R r = without R r2 → r = r2

/-- What a unit pass leaves to `k` on the map `m` when the alternatives of the nonterminals of
its unit alternatives are still those of `m` as the sweep gets to `k`: the alternatives of `k`
and those of the nonterminals of its unit alternatives, the unit alternatives left out. -/
def unitOut (m : Rules) (k : Sym) : List Alt := stripUnits (m.get k ++ unitAdd k m)

/-- No alternative of the grammar holds twice a nonterminal that has the alternative `[ε]`. -/
def NullableOnce (G : Grammar) : Prop :=
  ∀ A ∈ nullable G.rules, ∀ e ∈ G.rules, ∀ r ∈ e.2, occurrences A r ≤ 1

/-- No alternative from which the epsilon pass derives (one of more than one symbol that holds
a nonterminal with the alternative `[ε]`) differs from another alternative of its nonterminal
only in nonterminals that have the alternative `[ε]`: the two stay different when these
nonterminals are taken out of them. -/
def DistinctWithoutNullable (G : Grammar) : Prop :=
  ∀ e ∈ G.rules, ∀ p ∈ e.2, ∀ q ∈ e.2, Drops (nullable G.rules) p →
    without (nullable G.rules) p = without (nullable G.rules) q → p = q

/-- Every unit alternative `A → B` leads to a nonterminal `B` that has no unit alternative or
comes after `A` in the order of the names: when the sweep of a unit pass is at `A`, the
alternatives of `B` are those of the input. -/
def UnitsLeadOn (m : Rules) : Prop :=
  ∀ e ∈ m, ∀ r ∈ e.2, isUnit r = true →
    (∀ t ∈ m.get (r.headD []), isUnit t = false) ∨ strLt e.1 (r.headD []) = true

/-- For every unit alternative `A → B`, no alternative of `B` is an alternative of `A`. -/
def UnitsBringNew (m : Rules) : Prop :=
  ∀ e ∈ m, ∀ r ∈ e.2, isUnit r = true → ∀ t ∈ m.get (r.headD []), t ∉ e.2

/-- For two unit alternatives `A → B`, `A → C` of one nonterminal, no alternative of `B` is an
alternative of `C`. -/
def UnitsBringApart (m : Rules) : Prop :=
  ∀ e ∈ m, ∀ a ∈ e.2, ∀ b ∈ e.2, isUnit a = true → isUnit b = true → a ≠ b →
    ∀ t ∈ m.get (a.headD []), t ∉ m.get (b.headD [])

instance (G : Grammar) : Decidable (NullableOnce G) := by
  unfold NullableOnce; infer_instance

instance (R : List Sym) (p : Alt) : Decidable (Drops R p) := by
  unfold Drops; infer_instance

instance (G : Grammar) : Decidable (DistinctWithoutNullable G) := by
  unfold DistinctWithoutNullable; infer_instance

instance (m : Rules) : Decidable (UnitsLeadOn m) := by
  unfold UnitsLeadOn; infer_instance

instance (m : Rules) : Decidable (UnitsBringNew m) := by
  unfold UnitsBringNew; infer_instance

instance (m : Rules) : Decidable (UnitsBringApart m) := by
  unfold UnitsBringApart; infer_instance

/-- The grammar `S → Ab | b`, `A → a | ε`. -/
def dropMeets : Grammar :=
  ⟨ch 'S', [(ch 'A', [[ch 'a'], [eps]]), (ch 'S', [[ch 'A', ch 'b'], [ch 'b']])]⟩

/-- The grammar `A → B | C`, `B → b`, `C → b`. -/
def unitShared : Grammar :=
  ⟨ch 'A', [(ch 'A', [[ch 'B'], [ch 'C']]), (ch 'B', [[ch 'b']]), (ch 'C', [[ch 'b']])]⟩

/-- What both unit passes make of `unitShared`: `A → b | b`, `B → b`, `C → b`. -/
def unitSharedOut : Grammar :=
  ⟨ch 'A', [(ch 'A', [[ch 'b'], [ch 'b']]), (ch 'B', [[ch 'b']]), (ch 'C', [[ch 'b']])]⟩

/-- The grammar `A → a`, `B → A`, `C → B | a`. -/
def unitTwoSteps : Grammar :=
  ⟨ch 'C', [(ch 'A', [[ch 'a']]), (ch 'B', [[ch 'A']]), (ch 'C', [[ch 'B'], [ch 'a']])]⟩

/-- What both unit passes make of `unitTwoSteps`: `A → a`, `B → a`, `C → a | a`. -/
def unitTwoStepsOut : Grammar :=
  ⟨ch 'C', [(ch 'A', [[ch 'a']]), (ch 'B', [[ch 'a']]), (ch 'C', [[ch 'a'], [ch 'a']])]⟩

/-- The grammar `S → Ab | B`, `A → a | ε`, `B → c`. -/
def derivesApart : Grammar :=
  ⟨ch 'S', [(ch 'A', [[ch 'a'], [eps]]), (ch 'B', [[ch 'c']]),
            (ch 'S', [[ch 'A', ch 'b'], [ch 'B']])]⟩

/-! ## The order on strings and the map operations -/

theorem strLt_irrefl (a : Sym) : strLt a a = false := by
  induction a with
  | nil => rfl
  | cons x xs ih => simp [strLt, ih]

theorem strLt_trans : ∀ (a b c : Sym), strLt a b = true → strLt b c = true → strLt a c = true
  | [], [], _, h, _ => by simp [strLt] at h
  | [], _ :: _, [], _, h => by simp [strLt] at h
  | [], _ :: _, _ :: _, _, _ => by simp [strLt]
  | _ :: _, [], _, h, _ => by simp [strLt] at h
  | _ :: _, _ :: _, [], _, h => by simp [strLt] at h
  | x :: xs, y :: ys, z :: zs, h1, h2 => by
    simp only [strLt] at h1 h2 ⊢
    by_cases hxy : x < y
    · by_cases hyz : y < z
      · have : x < z := lt_trans hxy hyz
        simp [this]
      · simp only [hyz, if_false] at h2
        by_cases hzy : z < y
        · simp [hzy] at h2
        · have : y = z := by omega
          subst this; simp [hxy]
    · simp only [hxy, if_false] at h1
      by_cases hyx : y < x
      · simp [hyx] at h1
      · have hxy' : x = y := by omega
        subst hxy'
        simp only [hyx, if_false] at h1
        by_cases hxz : x < z
        · simp [hxz]
        · simp only [hxz, if_false] at h2 ⊢
          by_cases hzx : z < x
          · simp [hzx] at h2
          · simp only [hzx, if_false] at h2 ⊢
            exact strLt_trans xs ys zs h1 h2

theorem strLt_total : ∀ (a b : Sym), a = b ∨ strLt a b = true ∨ strLt b a = true
  | [], [] => Or.inl rfl
  | [], _ :: _ => Or.inr (Or.inl rfl)
  | _ :: _, [] => Or.inr (Or.inr rfl)
  | x :: xs, y :: ys => by
    simp only [strLt]
    by_cases hxy : x < y
    · simp [hxy]
    · by_cases hyx : y < x
      · simp [hyx]
      · have : x = y := by omega
        subst this
        simp only [hxy, if_false]
        rcases strLt_total xs ys with h | h | h
        · left; rw [h]
        · right; left; exact h
        · right; right; exact h

theorem strLt_asymm (a b : Sym) (h : strLt a b = true) : strLt b a = false := by
  cases hba : strLt b a with
  | false => rfl
  | true =>
    have := strLt_trans a b a h hba
    rw [strLt_irrefl] at this
    exact absurd this (by simp)

theorem strLt_ne (a b : Sym) (h : strLt a b = true) : a ≠ b := by
  intro hab
  subst hab
  rw [strLt_irrefl] at h
  exact absurd h (by simp)

namespace Rules

theorem find_set_same (m : Rules) (k : Sym) (v : List Alt) : (set m k v).find k = some v := by
  induction m with
  | nil => simp [set, find]
  | cons e rest ih =>
    obtain ⟨k', v'⟩ := e
    simp only [set]
    split_ifs with h1 h2
    · simp [find]
    · simp [find]
    · simp [find, h1, ih]

theorem find_set_other (m : Rules) (k k2 : Sym) (v : List Alt) (h : k2 ≠ k) :
    (set m k v).find k2 = m.find k2 := by
  induction m with
  | nil => simp [set, find, h]
  | cons e rest ih =>
    obtain ⟨k', v'⟩ := e
    simp only [set]
    split_ifs with h1 h2
    · subst h1; simp [find, h]
    · simp [find, h]
    · simp [find, ih]

theorem get_set_same (m : Rules) (k : Sym) (v : List Alt) : (set m k v).get k = v := by
  simp [get, find_set_same]

theorem get_set_other (m : Rules) (k k2 : Sym) (v : List Alt) (h : k2 ≠ k) :
    (set m k v).get k2 = m.get k2 := by
  simp [get, find_set_other m k k2 v h]

theorem get_update_same (m : Rules) (k : Sym) (f : List Alt → List Alt) :
    (update m k f).get k = f (m.get k) := get_set_same _ _ _

theorem get_update_other (m : Rules) (k k2 : Sym) (f : List Alt → List Alt) (h : k2 ≠ k) :
    (update m k f).get k2 = m.get k2 := get_set_other _ _ _ _ h

theorem mem_keys_iff (m : Rules) (k : Sym) : k ∈ keys m ↔ m.count k = true := by
  induction m with
  | nil => simp [keys, count, find]
  | cons e rest ih =>
    obtain ⟨k', v'⟩ := e
    simp only [keys, List.map_cons, List.mem_cons, count, find]
    by_cases h : k = k'
    · simp [h]
    · simp only [h, false_or, if_false]
      exact ih

theorem get_of_not_mem (m : Rules) (k : Sym) (h : k ∉ keys m) : m.get k = [] := by
  rw [mem_keys_iff] at h
  simp only [count, Bool.not_eq_true, Option.not_isSome, Option.isNone_iff_eq_none] at h
  simp [get, h]

theorem get_touch (m : Rules) (k k2 : Sym) : (touch m k).get k2 = m.get k2 := by
  unfold touch
  split_ifs with h
  · rfl
  · by_cases hk : k2 = k
    · subst hk
      rw [get_set_same, get_of_not_mem]
      rw [mem_keys_iff]; exact h
    · exact get_set_other _ _ _ _ hk

theorem mem_keys_set (m : Rules) (k x : Sym) (v : List Alt) :
    x ∈ keys (set m k v) ↔ x = k ∨ x ∈ keys m := by
  induction m with
  | nil => simp [set, keys]
  | cons e rest ih =>
    obtain ⟨k', v'⟩ := e
    simp only [set]
    split_ifs with h1 h2
    · subst h1; simp [keys]
    · simp [keys]
    · simp only [keys, List.map_cons, List.mem_cons] at ih ⊢
      rw [ih]; tauto

theorem mem_keys_touch (m : Rules) (k x : Sym) :
    x ∈ keys (touch m k) ↔ x = k ∨ x ∈ keys m := by
  unfold touch
  split_ifs with h
  · rw [← mem_keys_iff] at h
    constructor
    · exact Or.inr
    · rintro (rfl | h')
      · exact h
      · exact h'
  · exact mem_keys_set _ _ _ _

theorem mem_keys_update (m : Rules) (k x : Sym) (f : List Alt → List Alt) :
    x ∈ keys (update m k f) ↔ x = k ∨ x ∈ keys m := mem_keys_set _ _ _ _

theorem touch_of_mem (m : Rules) (k : Sym) (h : k ∈ keys m) : touch m k = m := by
  rw [mem_keys_iff] at h
  simp [touch, h]

theorem WF_set (m : Rules) (k : Sym) (v : List Alt) (h : WF m) : WF (set m k v) := by
  induction m with
  | nil => simp [set, WF, keys]
  | cons e rest ih =>
    obtain ⟨k', v'⟩ := e
    simp only [WF, keys, List.map_cons, List.pairwise_cons] at h
    simp only [set]
    split_ifs with h1 h2
    · subst h1
      simpa [WF, keys] using h
    · simp only [WF, keys, List.map_cons, List.pairwise_cons, List.mem_cons]
      refine ⟨?_, h⟩
      rintro x (rfl | hx)
      · exact h2
      · exact strLt_trans _ _ _ h2 (h.1 x hx)
    · have hlt : strLt k' k = true := by
        rcases strLt_total k k' with h3 | h3 | h3
        · exact absurd h3 h1
        · exact absurd h3 h2
        · exact h3
      simp only [WF, keys, List.map_cons, List.pairwise_cons]
      refine ⟨?_, ih h.2⟩
      intro x hx
      have := (mem_keys_set rest k x v).1 hx
      rcases this with rfl | hx'
      · exact hlt
      · exact h.1 x hx'

theorem WF_touch (m : Rules) (k : Sym) (h : WF m) : WF (touch m k) := by
  unfold touch
  split_ifs
  · exact h
  · exact WF_set _ _ _ h

theorem WF_update (m : Rules) (k : Sym) (f : List Alt → List Alt) (h : WF m) :
    WF (update m k f) := WF_set _ _ _ h

theorem mem_of_find (m : Rules) (k : Sym) (v : List Alt) (h : m.find k = some v) :
    (k, v) ∈ m := by
  induction m with
  | nil => simp [find] at h
  | cons e rest ih =>
    obtain ⟨k', v'⟩ := e
    simp only [find] at h
    split_ifs at h with h1
    · subst h1
      simp only [Option.some.injEq] at h
      subst h
      exact List.mem_cons_self _ _
    · exact List.mem_cons_of_mem _ (ih h)

theorem find_of_mem (m : Rules) (k : Sym) (v : List Alt) (hwf : WF m) (h : (k, v) ∈ m) :
    m.find k = some v := by
  induction m with
  | nil => simp at h
  | cons e rest ih =>
    obtain ⟨k', v'⟩ := e
    simp only [WF, keys, List.map_cons, List.pairwise_cons] at hwf
    simp only [List.mem_cons, Prod.mk.injEq] at h
    rcases h with ⟨rfl, rfl⟩ | h
    · simp [find]
    · have hk : k ∈ keys rest := List.mem_map_of_mem Prod.fst h
      have hne : k ≠ k' := fun hkk => strLt_ne _ _ (hwf.1 k hk) hkk.symm
      simp only [find, hne, if_false]
      exact ih hwf.2 h

theorem get_of_mem (m : Rules) (e : Sym × List Alt) (hwf : WF m) (h : e ∈ m) :
    m.get e.1 = e.2 := by
  simp [get, find_of_mem m e.1 e.2 hwf h]

theorem mem_of_mem_get (m : Rules) (k : Sym) (r : Alt) (h : r ∈ m.get k) :
    ∃ e ∈ m, e.1 = k ∧ r ∈ e.2 := by
  unfold get at h
  cases hf : m.find k with
  | none => simp [hf] at h
  | some v =>
    simp only [hf, Option.getD_some] at h
    exact ⟨(k, v), mem_of_find m k v hf, rfl, h⟩

theorem set_self (m : Rules) (k : Sym) (v : List Alt) (hwf : WF m) (h : m.find k = some v) :
    set m k v = m := by
  induction m with
  | nil => simp [find] at h
  | cons e rest ih =>
    obtain ⟨k', v'⟩ := e
    simp only [WF, keys, List.map_cons, List.pairwise_cons] at hwf
    simp only [find] at h
    simp only [set]
    split_ifs at h ⊢ with h1 h2
    · subst h1; simp only [Option.some.injEq] at h; subst h; rfl
    · exfalso
      have hk : k ∈ keys rest := List.mem_map_of_mem Prod.fst (mem_of_find rest k v h)
      have := strLt_asymm _ _ (hwf.1 k hk)
      rw [h2] at this
      exact absurd this (by simp)
    · rw [ih hwf.2 h]

theorem length_set_le (m : Rules) (k : Sym) (v : List Alt) : (set m k v).length ≤ m.length + 1 := by
  induction m with
  | nil => simp [set]
  | cons e rest ih =>
    obtain ⟨k', v'⟩ := e
    simp only [set]
    split_ifs <;> simp only [List.length_cons] <;> omega

end Rules

/-! ## The unit passes -/

open Rules

theorem isAfter_self (lhs : Sym) : isAfter (some lhs) lhs = false := strLt_irrefl lhs

theorem isAfter_trans (cur : Option Sym) (lhs k : Sym) (h1 : isAfter cur lhs = true)
    (h2 : isAfter (some lhs) k = true) : isAfter cur k = true := by
  cases cur with
  | none => rfl
  | some c => exact strLt_trans _ _ _ h1 h2

theorem isAfter_false (lhs k : Sym) (h : isAfter (some lhs) k = false) :
    k = lhs ∨ strLt k lhs = true := by
  rcases strLt_total k lhs with h1 | h1 | h1
  · exact Or.inl h1
  · exact Or.inr h1
  · simp only [isAfter] at h
    rw [h1] at h
    exact absurd h (by simp)

theorem find_first (p : Sym → Bool) (lhs : Sym) :
    ∀ (l : List Sym), l.Pairwise (fun a b => strLt a b = true) → l.find? p = some lhs →
      ∀ k ∈ l, strLt k lhs = true → p k = false
  | [], _, h => by simp at h
  | x :: xs, hp, h => by
    intro k hk hlt
    rw [List.pairwise_cons] at hp
    rw [List.find?_cons] at h
    cases hpx : p x with
    | true =>
      rw [hpx] at h
      simp only [Option.some.injEq] at h
      subst h
      rcases List.mem_cons.1 hk with rfl | hk'
      · rw [strLt_irrefl] at hlt
        exact absurd hlt (by simp)
      · have := strLt_asymm _ _ (hp.1 k hk')
        rw [hlt] at this
        exact absurd this (by simp)
    | false =>
      rw [hpx] at h
      rcases List.mem_cons.1 hk with rfl | hk'
      · exact hpx
      · exact find_first p lhs xs hp.2 h k hk' hlt

theorem nextKey_none (m : Rules) (cur : Option Sym) (h : nextKey m cur = none) :
    ∀ k ∈ m.keys, isAfter cur k = false := by
  intro k hk
  have := List.find?_eq_none.1 h k hk
  simpa using this

theorem nextKey_some (m : Rules) (cur : Option Sym) (lhs : Sym) (hwf : m.WF)
    (h : nextKey m cur = some lhs) :
    lhs ∈ m.keys ∧ isAfter cur lhs = true ∧
      ∀ k ∈ m.keys, strLt k lhs = true → isAfter cur k = false :=
  ⟨List.mem_of_find?_eq_some h, List.find?_some h, find_first _ lhs _ hwf h⟩

theorem sweep_post {body : Sym → Rules → Bool → Rules × Bool} (hb : UnitLike body) :
    ∀ (fuel : Nat) (cur : Option Sym) (m : Rules) (ch : Bool) (r : Rules × Bool), m.WF →
      (∀ k, isAfter cur k = false → NoUnits (m.get k)) →
      sweep body fuel cur m ch = some r → r.1.WF ∧ ∀ k, NoUnits (r.1.get k)
  | 0, _, _, _, _, _, _, h => by simp [sweep] at h
  | fuel + 1, cur, m, ch, r, hwf, hinv, h => by
    simp only [sweep] at h
    cases hn : nextKey m cur with
    | none =>
      rw [hn] at h
      simp only [Option.some.injEq] at h
      subst h
      refine ⟨hwf, fun k => ?_⟩
      by_cases hk : k ∈ m.keys
      · exact hinv k (nextKey_none m cur hn k hk)
      · rw [get_of_not_mem m k hk]
        intro r hr
        simp at hr
    | some lhs =>
      rw [hn] at h
      obtain ⟨hmem, haft, hmin⟩ := nextKey_some m cur lhs hwf hn
      refine sweep_post hb fuel (some lhs) _ _ r (hb.wf lhs m ch hwf) ?_ h
      intro k hk
      rcases isAfter_false lhs k hk with rfl | hlt
      · exact hb.get_self k m ch
      · rw [hb.get_other lhs m ch k (strLt_ne _ _ hlt)]
        by_cases hkm : k ∈ m.keys
        · exact hinv k (hmin k hkm hlt)
        · rw [get_of_not_mem m k hkm]
          intro r hr
          simp at hr

theorem sweep_idle {body : Sym → Rules → Bool → Rules × Bool} (hb : UnitLike body) :
    ∀ (fuel : Nat) (cur : Option Sym) (m : Rules) (ch : Bool) (r : Rules × Bool), m.WF →
      (∀ k, NoUnits (m.get k)) → sweep body fuel cur m ch = some r → r = (m, ch)
  | 0, _, _, _, _, _, _, h => by simp [sweep] at h
  | fuel + 1, cur, m, ch, r, hwf, hno, h => by
    simp only [sweep] at h
    cases hn : nextKey m cur with
    | none =>
      rw [hn] at h
      simp only [Option.some.injEq] at h
      exact h.symm
    | some lhs =>
      rw [hn] at h
      have hid := hb.idle lhs m ch hwf (List.mem_of_find?_eq_some hn) (hno lhs)
      simp only [hid] at h
      exact sweep_idle hb fuel (some lhs) m ch r hwf hno h

theorem mem_unitTargets (m : Rules) (x : Sym) :
    x ∈ unitTargets m ↔ ∃ e ∈ m, ∃ r ∈ e.2, isUnit r = true ∧ r.headD [] = x := by
  simp only [unitTargets, List.mem_flatMap, List.mem_map, List.mem_filter]
  constructor
  · rintro ⟨e, he, r, ⟨hr, hu⟩, hx⟩
    exact ⟨e, he, r, hr, hu, hx⟩
  · rintro ⟨e, he, r, hr, hu, hx⟩
    exact ⟨e, he, r, ⟨hr, hu⟩, hx⟩

theorem mem_unitTargets_of_get (m : Rules) (k x : Sym) (r : Alt) (hr : r ∈ m.get k)
    (hu : isUnit r = true) (hx : r.headD [] = x) : x ∈ unitTargets m := by
  obtain ⟨e, he, _, hre⟩ := mem_of_mem_get m k r hr
  exact (mem_unitTargets m x).2 ⟨e, he, r, hre, hu, hx⟩

theorem pending_step {body : Sym → Rules → Bool → Rules × Bool} (hb : UnitLike body)
    (cur : Option Sym) (m : Rules) (ch : Bool) (lhs : Sym) (hwf : m.WF)
    (hn : nextKey m cur = some lhs) :
    (pending (some lhs) (body lhs m ch).1).card < (pending cur m).card := by
  obtain ⟨hmem, haft, _⟩ := nextKey_some m cur lhs hwf hn
  apply Finset.card_lt_card
  rw [Finset.ssubset_iff_of_subset]
  · refine ⟨lhs, ?_, ?_⟩
    · simp only [pending, Finset.mem_filter, List.mem_toFinset, List.mem_append]
      exact ⟨Or.inl hmem, haft⟩
    · simp only [pending, Finset.mem_filter, List.mem_toFinset, List.mem_append, not_and]
      intro _
      rw [isAfter_self]
      simp
  · intro x hx
    simp only [pending, Finset.mem_filter, List.mem_toFinset, List.mem_append] at hx ⊢
    obtain ⟨hx1, hx2⟩ := hx
    refine ⟨?_, isAfter_trans cur lhs x haft hx2⟩
    have hne : x ≠ lhs := by
      rintro rfl
      rw [isAfter_self] at hx2
      exact absurd hx2 (by simp)
    rcases hx1 with hk | ht
    · rcases hb.keys_sub lhs m ch x hk with h | h | ⟨r, hr, hu, hx⟩
      · exact Or.inl h
      · exact absurd h hne
      · exact Or.inr (mem_unitTargets_of_get m lhs x r hr hu hx)
    · obtain ⟨e, he, r, hr, hu, hx⟩ := (mem_unitTargets _ x).1 ht
      have hget := get_of_mem _ e (hb.wf lhs m ch hwf) he
      by_cases hel : e.1 = lhs
      · exfalso
        have := hb.get_self lhs m ch r (by rw [hel] at hget; rw [hget]; exact hr)
        rw [hu] at this
        exact absurd this (by simp)
      · rw [hb.get_other lhs m ch e.1 hel] at hget
        exact Or.inr (mem_unitTargets_of_get m e.1 x r (by rw [hget]; exact hr) hu hx)

theorem sweep_terminates {body : Sym → Rules → Bool → Rules × Bool} (hb : UnitLike body) :
    ∀ (fuel : Nat) (cur : Option Sym) (m : Rules) (ch : Bool), m.WF →
      (pending cur m).card < fuel → ∃ r, sweep body fuel cur m ch = some r
  | 0, _, _, _, _, h => by simp at h
  | fuel + 1, cur, m, ch, hwf, h => by
    simp only [sweep]
    cases hn : nextKey m cur with
    | none => exact ⟨_, rfl⟩
    | some lhs =>
      have := pending_step hb cur m ch lhs hwf hn
      exact sweep_terminates hb fuel (some lhs) _ _ (hb.wf lhs m ch hwf) (by omega)

theorem pending_card_lt (m : Rules) : (pending none m).card < sweepBound m := by
  have h1 : (pending none m).card ≤ ((m.keys ++ unitTargets m).toFinset).card :=
    Finset.card_filter_le _ _
  have h2 := List.toFinset_card_le (m.keys ++ unitTargets m)
  have h3 : (m.keys ++ unitTargets m).length = m.length + (unitTargets m).length := by
    simp [keys]
  simp only [sweepBound]
  omega

theorem unitLoop_result {body : Sym → Rules → Bool → Rules × Bool} (hb : UnitLike body)
    (m : Rules) (hwf : m.WF) (rounds : Nat) (hr : 2 ≤ rounds) :
    ∃ m1, unitLoop body sweepBound rounds m = some m1 ∧ m1.WF ∧ ∀ k, NoUnits (m1.get k) := by
  obtain ⟨n, rfl⟩ : ∃ n, rounds = n + 2 := ⟨rounds - 2, by omega⟩
  obtain ⟨r, hs⟩ := sweep_terminates hb (sweepBound m) none m false hwf (pending_card_lt m)
  have hpost := sweep_post hb _ none m false r hwf (by intro k hk; simp [isAfter] at hk) hs
  obtain ⟨m1, c1⟩ := r
  simp only [unitLoop, hs]
  cases c1 with
  | false => exact ⟨m1, rfl, hpost⟩
  | true =>
    obtain ⟨r2, hs2⟩ :=
      sweep_terminates hb (sweepBound m1) none m1 false hpost.1 (pending_card_lt m1)
    have hid := sweep_idle hb _ none m1 false r2 hpost.1 hpost.2 hs2
    subst hid
    simp only [hs2]
    exact ⟨m1, rfl, hpost⟩

theorem touchUnits_get : ∀ (l : List Alt) (m : Rules) (k : Sym), (touchUnits l m).get k = m.get k
  | [], _, _ => rfl
  | r :: l, m, k => by
    simp only [touchUnits, List.foldl_cons]
    have := touchUnits_get l (if isUnit r then m.touch (r.headD []) else m) k
    simp only [touchUnits] at this
    rw [this]
    split_ifs
    · exact get_touch _ _ _
    · rfl

theorem touchUnits_WF : ∀ (l : List Alt) (m : Rules), m.WF → (touchUnits l m).WF
  | [], _, h => h
  | r :: l, m, h => by
    simp only [touchUnits, List.foldl_cons]
    apply touchUnits_WF l
    split_ifs
    · exact WF_touch _ _ h
    · exact h

theorem touchUnits_keys : ∀ (l : List Alt) (m : Rules) (x : Sym), x ∈ (touchUnits l m).keys →
    x ∈ m.keys ∨ ∃ r ∈ l, isUnit r = true ∧ r.headD [] = x
  | [], _, _, h => Or.inl h
  | r :: l, m, x, h => by
    simp only [touchUnits, List.foldl_cons] at h
    rcases touchUnits_keys l _ x h with h1 | ⟨r', hr', hu, hx⟩
    · split_ifs at h1 with hu
      · rcases (mem_keys_touch _ _ _).1 h1 with rfl | h2
        · exact Or.inr ⟨r, List.mem_cons_self _ _, hu, rfl⟩
        · exact Or.inl h2
      · exact Or.inl h1
    · exact Or.inr ⟨r', List.mem_cons_of_mem _ hr', hu, hx⟩

theorem stripUnits_noUnits (v : List Alt) : NoUnits (stripUnits v) := by
  intro r hr
  simp only [stripUnits, List.mem_filter, Bool.not_eq_true'] at hr
  exact hr.2

theorem stripUnits_of_noUnits (v : List Alt) (h : NoUnits v) : stripUnits v = v := by
  simp only [stripUnits, List.filter_eq_self, Bool.not_eq_true']
  exact h

theorem find_eq_get_of_mem (m : Rules) (k : Sym) (h : k ∈ m.keys) : m.find k = some (m.get k) := by
  rw [mem_keys_iff] at h
  simp only [count] at h
  obtain ⟨v, hv⟩ := Option.isSome_iff_exists.1 h
  simp [Rules.get, hv]

theorem cnf_unitScan_inner_fst (lhs : Sym) : ∀ (l : List Alt) (acc : Rules × List Alt × Bool),
    (l.foldl (fun acc r2 => if r2 = [lhs] then acc else (acc.1, acc.2.1 ++ [r2], true)) acc).1
      = acc.1
  | [], _ => rfl
  | r :: l, acc => by
    simp only [List.foldl_cons]
    rw [cnf_unitScan_inner_fst lhs l]
    split_ifs <;> rfl

theorem cnf_unitScan_fold_fst (lhs : Sym) : ∀ (l : List Alt) (st : Rules × List Alt × Bool),
    (l.foldl (Cnf.unitScan lhs) st).1 = touchUnits l st.1
  | [], _ => rfl
  | r :: l, st => by
    simp only [List.foldl_cons, touchUnits]
    rw [cnf_unitScan_fold_fst lhs l]
    simp only [touchUnits]
    congr 1
    unfold Cnf.unitScan
    split_ifs
    · exact cnf_unitScan_inner_fst lhs _ _
    · rfl

theorem cnf_unitScan_fold_idle (lhs : Sym) : ∀ (l : List Alt) (st : Rules × List Alt × Bool),
    NoUnits l → l.foldl (Cnf.unitScan lhs) st = st
  | [], _, _ => rfl
  | r :: l, st, h => by
    simp only [List.foldl_cons]
    have hr : isUnit r = false := h r (List.mem_cons_self _ _)
    have : Cnf.unitScan lhs st r = st := by simp [Cnf.unitScan, hr]
    rw [this]
    exact cnf_unitScan_fold_idle lhs l st fun r' hr' => h r' (List.mem_cons_of_mem _ hr')

theorem cnf_unitBody_fst (lhs : Sym) (m : Rules) (ch : Bool) :
    ∃ toAdd, (Cnf.unitBody lhs m ch).1
      = (touchUnits (m.get lhs) m).update lhs fun v => stripUnits (v ++ toAdd) := by
  refine ⟨((m.get lhs).foldl (Cnf.unitScan lhs) (m, [], ch)).2.1, ?_⟩
  simp only [Cnf.unitBody]
  rw [cnf_unitScan_fold_fst]

theorem cnf_unitBody_idle (lhs : Sym) (m : Rules) (ch : Bool) (hwf : m.WF) (hk : lhs ∈ m.keys)
    (h : NoUnits (m.get lhs)) : Cnf.unitBody lhs m ch = (m, ch) := by
  simp only [Cnf.unitBody]
  rw [cnf_unitScan_fold_idle lhs _ _ h]
  simp only [update, List.append_nil, stripUnits_of_noUnits _ h]
  rw [set_self m lhs _ hwf (find_eq_get_of_mem m lhs hk)]

theorem gnf_unitScan_fold_fst (A : Sym) : ∀ (l : List Alt) (st : Rules × List Alt),
    (l.foldl (Gnf.unitScan A) st).1 = touchUnits l st.1
  | [], _ => rfl
  | r :: l, st => by
    simp only [List.foldl_cons, touchUnits]
    rw [gnf_unitScan_fold_fst A l]
    simp only [touchUnits]
    congr 1
    unfold Gnf.unitScan
    split_ifs <;> rfl

theorem gnf_unitScan_fold_idle (A : Sym) : ∀ (l : List Alt) (st : Rules × List Alt),
    NoUnits l → l.foldl (Gnf.unitScan A) st = st
  | [], _, _ => rfl
  | r :: l, st, h => by
    simp only [List.foldl_cons]
    have hr : isUnit r = false := h r (List.mem_cons_self _ _)
    have : Gnf.unitScan A st r = st := by simp [Gnf.unitScan, hr]
    rw [this]
    exact gnf_unitScan_fold_idle A l st fun r' hr' => h r' (List.mem_cons_of_mem _ hr')

theorem gnf_unitBody_fst (A : Sym) (m : Rules) (ch : Bool) :
    ∃ add, (Gnf.unitBody A m ch).1
      = (touchUnits (m.get A) m).update A fun v => stripUnits (v ++ add) := by
  refine ⟨((m.get A).foldl (Gnf.unitScan A) (m, [])).2, ?_⟩
  simp only [Gnf.unitBody]
  rw [gnf_unitScan_fold_fst]

theorem gnf_unitBody_idle (A : Sym) (m : Rules) (ch : Bool) (hwf : m.WF) (hk : A ∈ m.keys)
    (h : NoUnits (m.get A)) : Gnf.unitBody A m ch = (m, ch) := by
  simp only [Gnf.unitBody]
  rw [gnf_unitScan_fold_idle A _ _ h]
  simp only [update, List.append_nil, stripUnits_of_noUnits _ h]
  rw [set_self m A _ hwf (find_eq_get_of_mem m A hk)]
  simp

theorem unitLike_of_fst (body : Sym → Rules → Bool → Rules × Bool)
    (hfst : ∀ lhs m ch, ∃ toAdd, (body lhs m ch).1
      = (touchUnits (m.get lhs) m).update lhs fun v => stripUnits (v ++ toAdd))
    (hidle : ∀ lhs m ch, m.WF → lhs ∈ m.keys → NoUnits (m.get lhs) → body lhs m ch = (m, ch)) :
    UnitLike body where
  keys_sub := by
    intro lhs m ch x hx
    obtain ⟨toAdd, h⟩ := hfst lhs m ch
    rw [h] at hx
    rcases (mem_keys_update _ _ _ _).1 hx with h1 | h1
    · exact Or.inr (Or.inl h1)
    · rcases touchUnits_keys _ _ _ h1 with h2 | h2
      · exact Or.inl h2
      · exact Or.inr (Or.inr h2)
  get_self := by
    intro lhs m ch
    obtain ⟨toAdd, h⟩ := hfst lhs m ch
    rw [h, get_update_same]
    exact stripUnits_noUnits _
  get_other := by
    intro lhs m ch k hk
    obtain ⟨toAdd, h⟩ := hfst lhs m ch
    rw [h, get_update_other _ _ _ _ hk, touchUnits_get]
  wf := by
    intro lhs m ch hwf
    obtain ⟨toAdd, h⟩ := hfst lhs m ch
    rw [h]
    exact WF_update _ _ _ (touchUnits_WF _ _ hwf)
  idle := hidle

theorem cnf_unitLike : UnitLike Cnf.unitBody :=
  unitLike_of_fst _ cnf_unitBody_fst cnf_unitBody_idle

theorem gnf_unitLike : UnitLike Gnf.unitBody :=
  unitLike_of_fst _ gnf_unitBody_fst gnf_unitBody_idle

theorem noUnits_entries (m : Rules) (hwf : m.WF) (h : ∀ k, NoUnits (m.get k)) :
    ∀ e ∈ m, ∀ B, isNonTerminal B = true → [B] ∉ e.2 := by
  intro e he B hB hmem
  have := h e.1 [B] (by rw [get_of_mem m e hwf he]; exact hmem)
  simp only [isUnit] at this
  rw [hB] at this
  exact absurd this (by simp)

/-- C8: on every grammar (a map with ascending keys), `removeUnitProductions` of
cnf.cpp and `removeUnits` of gnf.cpp return within two sweeps, and in the
result no nonterminal has an alternative `[B]` with `B` a single uppercase
letter. -/
theorem unit_elimination_postcondition (G : Grammar) (hwf : G.rules.WF) (rounds : Nat)
    (hr : 2 ≤ rounds) :
    (∃ G1, Cnf.removeUnitProductions rounds G = some G1 ∧
      ∀ e ∈ G1.rules, ∀ B, isNonTerminal B = true → [B] ∉ e.2) ∧
    (∃ G1, Gnf.removeUnits rounds G = some G1 ∧
      ∀ e ∈ G1.rules, ∀ B, isNonTerminal B = true → [B] ∉ e.2) := by
  constructor
  · obtain ⟨m1, h1, hwf1, hno⟩ := unitLoop_result cnf_unitLike G.rules hwf rounds hr
    exact ⟨{ G with rules := m1 }, by simp [Cnf.removeUnitProductions, h1],
      noUnits_entries m1 hwf1 hno⟩
  · obtain ⟨m1, h1, hwf1, hno⟩ := unitLoop_result gnf_unitLike G.rules hwf rounds hr
    exact ⟨{ G with rules := m1 }, by simp [Gnf.removeUnits, h1],
      noUnits_entries m1 hwf1 hno⟩

/-- C8 at the grammar of `main` in cnf.cpp, with two sweeps. -/
theorem unit_elimination_postcondition_witness :
    cnfMain.rules.WF ∧ 2 ≤ 2 ∧
    ((∃ G1, Cnf.removeUnitProductions 2 cnfMain = some G1 ∧
      ∀ e ∈ G1.rules, ∀ B, isNonTerminal B = true → [B] ∉ e.2) ∧
    (∃ G1, Gnf.removeUnits 2 cnfMain = some G1 ∧
      ∀ e ∈ G1.rules, ∀ B, isNonTerminal B = true → [B] ∉ e.2)) :=
  ⟨by decide, by decide, unit_elimination_postcondition cnfMain (by decide) 2 (by decide)⟩

/-! ## The epsilon passes -/

theorem find_addDropped (A : Sym) (k : Sym) : ∀ (m : Rules),
    (addDropped A m).find k = (m.find k).map fun v => v ++ v.flatMap (dropOnce A)
  | [] => rfl
  | e :: rest => by
    simp only [addDropped, List.map_cons, find]
    split_ifs
    · rfl
    · exact find_addDropped A k rest

theorem get_addDropped (A : Sym) (k : Sym) (m : Rules) :
    (addDropped A m).get k = m.get k ++ (m.get k).flatMap (dropOnce A) := by
  simp only [Rules.get, find_addDropped]
  cases m.find k <;> simp

theorem keys_addDropped (A : Sym) (m : Rules) : (addDropped A m).keys = m.keys := by
  simp [addDropped, keys, Function.comp_def]

theorem WF_addDropped (A : Sym) (m : Rules) (h : m.WF) : (addDropped A m).WF := by
  simpa [WF, keys_addDropped] using h

theorem mem_dropOnce (A : Sym) (rhs t : Alt) (h : t ∈ dropOnce A rhs) :
    1 < rhs.length ∧ ∃ i, t = rhs.eraseIdx i := by
  simp only [dropOnce, List.mem_filterMap, List.mem_range] at h
  obtain ⟨i, _, hi⟩ := h
  split_ifs at hi with hc
  simp only [Option.some.injEq] at hi
  exact ⟨hc.2, i, hi.symm⟩

theorem dropOnce_no_eps (A : Sym) (rhs t : Alt) (hrhs : eps ∈ rhs → rhs = [eps])
    (h : t ∈ dropOnce A rhs) : eps ∉ t := by
  obtain ⟨hlen, i, rfl⟩ := mem_dropOnce A rhs t h
  intro hmem
  have := hrhs ((List.eraseIdx_sublist rhs i).subset hmem)
  rw [this] at hlen
  simp at hlen

theorem addDropped_eps (A : Sym) (m : Rules) (hm : EpsWhole m) (k : Sym) (r : Alt)
    (hr : r ∈ (addDropped A m).get k) (he : eps ∈ r) : r ∈ m.get k := by
  rw [get_addDropped, List.mem_append] at hr
  rcases hr with hr | hr
  · exact hr
  · obtain ⟨rhs, hrhs, ht⟩ := List.mem_flatMap.1 hr
    exact absurd he (dropOnce_no_eps A rhs r (hm k rhs hrhs) ht)

theorem EpsWhole_addDropped (A : Sym) (m : Rules) (hm : EpsWhole m) :
    EpsWhole (addDropped A m) := by
  intro k r hr he
  exact hm k r (addDropped_eps A m hm k r hr he) he

theorem eps_mem_self : eps ∈ [eps] := List.mem_singleton.2 rfl

theorem mem_stripEps (v : List Alt) (r : Alt) : r ∈ stripEps v ↔ r ∈ v ∧ r ≠ [eps] := by
  simp [stripEps, isEpsAlt]

theorem EpsWhole_update_strip (A : Sym) (m : Rules) (hm : EpsWhole m) :
    EpsWhole (m.update A stripEps) := by
  intro k r hr he
  by_cases hk : k = A
  · subst hk
    rw [get_update_same] at hr
    exact hm k r ((mem_stripEps _ _).1 hr).1 he
  · rw [get_update_other _ _ _ _ hk] at hr
    exact hm k r hr he

theorem mem_nullable (m : Rules) (k : Sym) (h : [eps] ∈ m.get k) : k ∈ nullable m := by
  obtain ⟨e, he, hk, hr⟩ := mem_of_mem_get m k [eps] h
  simp only [nullable, List.mem_map, List.mem_filter, List.any_eq_true]
  exact ⟨e, ⟨he, [eps], hr, by simp [isEpsAlt]⟩, hk⟩

theorem cnf_epsStep_fold : ∀ (L : List Sym) (m : Rules), EpsWhole m → m.WF →
    (L.foldl Cnf.epsStep m).WF ∧
      ∀ k, [eps] ∈ (L.foldl Cnf.epsStep m).get k → [eps] ∈ m.get k ∧ k ∉ L
  | [], m, _, hwf => ⟨hwf, fun k h => ⟨h, by simp⟩⟩
  | A :: L, m, hm, hwf => by
    simp only [List.foldl_cons]
    have hm1 : EpsWhole (Cnf.epsStep m A) :=
      EpsWhole_update_strip A _ (EpsWhole_addDropped A m hm)
    have hwf1 : (Cnf.epsStep m A).WF := WF_update _ _ _ (WF_addDropped A m hwf)
    obtain ⟨hw, ih⟩ := cnf_epsStep_fold L (Cnf.epsStep m A) hm1 hwf1
    refine ⟨hw, fun k h => ?_⟩
    obtain ⟨h1, h2⟩ := ih k h
    by_cases hk : k = A
    · subst hk
      simp only [Cnf.epsStep, get_update_same] at h1
      exact absurd rfl ((mem_stripEps _ _).1 h1).2
    · simp only [Cnf.epsStep, get_update_other _ _ _ _ hk] at h1
      exact ⟨addDropped_eps A m hm k _ h1 eps_mem_self, by simp [hk, h2]⟩

theorem gnf_add_fold : ∀ (L : List Sym) (m : Rules), EpsWhole m → m.WF →
    (L.foldl (fun m A => addDropped A m) m).WF ∧
      ∀ k, [eps] ∈ (L.foldl (fun m A => addDropped A m) m).get k → [eps] ∈ m.get k
  | [], m, _, hwf => ⟨hwf, fun k h => h⟩
  | A :: L, m, hm, hwf => by
    simp only [List.foldl_cons]
    obtain ⟨hw, ih⟩ :=
      gnf_add_fold L (addDropped A m) (EpsWhole_addDropped A m hm) (WF_addDropped A m hwf)
    exact ⟨hw, fun k h => addDropped_eps A m hm k _ (ih k h) eps_mem_self⟩

theorem gnf_strip_fold (start : Sym) : ∀ (L : List Sym) (m : Rules), m.WF →
    (L.foldl (fun m A => if A ≠ start then m.update A stripEps else m) m).WF ∧
      ∀ k, [eps] ∈ (L.foldl (fun m A => if A ≠ start then m.update A stripEps else m) m).get k →
        [eps] ∈ m.get k ∧ (k ∈ L → k = start)
  | [], m, hwf => ⟨hwf, fun k h => ⟨h, by simp⟩⟩
  | A :: L, m, hwf => by
    simp only [List.foldl_cons]
    by_cases hA : A = start
    · simp only [hA, ne_eq, not_true_eq_false, if_false]
      obtain ⟨hw, ih⟩ := gnf_strip_fold start L m hwf
      refine ⟨hw, fun k h => ?_⟩
      obtain ⟨h1, h2⟩ := ih k h
      exact ⟨h1, fun hk => by
        rcases List.mem_cons.1 hk with rfl | hk'
        · rfl
        · exact h2 hk'⟩
    · simp only [ne_eq, hA, not_false_eq_true, if_true]
      obtain ⟨hw, ih⟩ := gnf_strip_fold start L (m.update A stripEps) (WF_update _ _ _ hwf)
      refine ⟨hw, fun k h => ?_⟩
      obtain ⟨h1, h2⟩ := ih k h
      by_cases hk : k = A
      · subst hk
        rw [get_update_same] at h1
        exact absurd rfl ((mem_stripEps _ _).1 h1).2
      · rw [get_update_other _ _ _ _ hk] at h1
        exact ⟨h1, fun hkm => by
          rcases List.mem_cons.1 hkm with rfl | hk'
          · exact absurd rfl hk
          · exact h2 hk'⟩

theorem epsWhole_of_entries (m : Rules) (h : ∀ e ∈ m, ∀ r ∈ e.2, eps ∈ r → r = [eps]) :
    EpsWhole m := by
  intro k r hr he
  obtain ⟨e, hem, _, hre⟩ := mem_of_mem_get m k r hr
  exact h e hem r hre he

/-- C5: when `ε` occurs in the grammar only as a whole alternative, after
`removeEpsilonProductions` (cnf.cpp) and after `removeEpsilons` (gnf.cpp) no
nonterminal other than the start symbol has the alternative `[ε]`. -/
theorem epsilon_pass_postcondition (G : Grammar) (hwf : G.rules.WF)
    (heps : ∀ e ∈ G.rules, ∀ r ∈ e.2, eps ∈ r → r = [eps]) :
    (∀ e ∈ (Cnf.removeEpsilonProductions G).rules, e.1 ≠ G.startSymbol → [eps] ∉ e.2) ∧
    (∀ e ∈ (Gnf.removeEpsilons G).rules, e.1 ≠ G.startSymbol → [eps] ∉ e.2) := by
  have hm := epsWhole_of_entries G.rules heps
  constructor
  · obtain ⟨hw, hfold⟩ := cnf_epsStep_fold (nullable G.rules) G.rules hm hwf
    intro e he hne hmem
    simp only [Cnf.removeEpsilonProductions] at he
    split_ifs at he with hs
    · have hget := get_of_mem _ e (WF_update _ _ _ hw) he
      rw [get_update_other _ _ _ _ hne] at hget
      obtain ⟨h1, h2⟩ := hfold e.1 (by rw [hget]; exact hmem)
      exact h2 (mem_nullable _ _ h1)
    · have hget := get_of_mem _ e hw he
      obtain ⟨h1, h2⟩ := hfold e.1 (by rw [hget]; exact hmem)
      exact h2 (mem_nullable _ _ h1)
  · obtain ⟨hw1, hadd⟩ := gnf_add_fold (nullable G.rules) G.rules hm hwf
    obtain ⟨hw2, hstrip⟩ := gnf_strip_fold G.startSymbol (nullable G.rules) _ hw1
    intro e he hne hmem
    simp only [Gnf.removeEpsilons] at he
    have hget := get_of_mem _ e hw2 he
    obtain ⟨h1, h2⟩ := hstrip e.1 (by rw [hget]; exact hmem)
    exact hne (h2 (mem_nullable _ _ (hadd _ h1)))

/-- C5 at the grammar of `main` in cnf.cpp, where `A` has the alternative `[ε]`. -/
theorem epsilon_pass_postcondition_witness :
    cnfMain.rules.WF ∧ (∀ e ∈ cnfMain.rules, ∀ r ∈ e.2, eps ∈ r → r = [eps]) ∧
    ((∀ e ∈ (Cnf.removeEpsilonProductions cnfMain).rules,
        e.1 ≠ cnfMain.startSymbol → [eps] ∉ e.2) ∧
    (∀ e ∈ (Gnf.removeEpsilons cnfMain).rules, e.1 ≠ cnfMain.startSymbol → [eps] ∉ e.2)) :=
  ⟨by decide, by decide, epsilon_pass_postcondition cnfMain (by decide) (by decide)⟩

/-! ## Derivations -/

theorem unitLoop_more (body : Sym → Rules → Bool → Rules × Bool) (inner : Rules → Nat) :
    ∀ (n k : Nat) (m r : Rules), unitLoop body inner n m = some r →
      unitLoop body inner (n + k) m = some r
  | 0, _, _, _, h => by simp [unitLoop] at h
  | n + 1, k, m, r, h => by
    rw [Nat.add_right_comm]
    simp only [unitLoop] at h ⊢
    cases hs : sweep body (inner m) none m false with
    | none => rw [hs] at h; simp at h
    | some p =>
      obtain ⟨m1, c⟩ := p
      rw [hs] at h
      cases c with
      | false => simpa using h
      | true => exact unitLoop_more body inner n k m1 r h

theorem step_of_mem (m : Rules) (u v : List Sym) (A : Sym) (rhs : Alt) (w : List Sym)
    (h : rhs ∈ m.get A) (hw : w = u ++ (if rhs = [eps] then [] else rhs) ++ v) :
    Step m (u ++ A :: v) w := by
  subst hw
  exact Step.mk u v A rhs h

theorem dead_step (m : Rules) (dead : List Sym)
    (h : ∀ A ∈ dead, ∀ rhs ∈ m.get A, rhs ≠ [eps] ∧ ∃ s ∈ rhs, s ∈ dead)
    (f g : List Sym) (hs : Step m f g) (hf : ∃ s ∈ f, s ∈ dead) : ∃ s ∈ g, s ∈ dead := by
  cases hs with
  | mk u v A rhs hr =>
    obtain ⟨s, hsf, hsd⟩ := hf
    rcases List.mem_append.1 hsf with hu | hv
    · exact ⟨s, by simp [hu], hsd⟩
    · rcases List.mem_cons.1 hv with rfl | hv'
      · obtain ⟨hne, s', hs', hd'⟩ := h s hsd rhs hr
        exact ⟨s', by simp [hne, hs'], hd'⟩
      · exact ⟨s, by simp [hv'], hsd⟩

theorem dead_derives (m : Rules) (dead : List Sym)
    (h : ∀ A ∈ dead, ∀ rhs ∈ m.get A, rhs ≠ [eps] ∧ ∃ s ∈ rhs, s ∈ dead)
    (f g : List Sym) (hd : Derives m f g) (hf : ∃ s ∈ f, s ∈ dead) : ∃ s ∈ g, s ∈ dead := by
  induction hd with
  | refl => exact hf
  | tail _ hstep ih => exact dead_step m dead h _ _ hstep ih

theorem not_generates_of_dead (G : Grammar) (dead : List Sym)
    (hstart : G.startSymbol ∈ dead) (hnt : ∀ s ∈ dead, isTerminal s = false)
    (h : ∀ A ∈ dead, ∀ rhs ∈ G.rules.get A, rhs ≠ [eps] ∧ ∃ s ∈ rhs, s ∈ dead)
    (w : List Sym) : ¬ Generates G w := by
  rintro ⟨hterm, hder⟩
  obtain ⟨s, hs, hd⟩ := dead_derives G.rules dead h _ _ hder ⟨_, List.mem_singleton.2 rfl, hstart⟩
  have := hterm s hs
  rw [hnt s hd] at this
  exact absurd this (by simp)

theorem yield_step (m : Rules) (y : Sym → List Sym)
    (hy : ∀ e ∈ m, ∀ rhs ∈ e.2, (if rhs = [eps] then [] else rhs).flatMap y = y e.1)
    (f g : List Sym) (hs : Step m f g) : f.flatMap y = g.flatMap y := by
  cases hs with
  | mk u v A rhs hr =>
    obtain ⟨e, he, hk, hre⟩ := mem_of_mem_get m A rhs hr
    have := hy e he rhs hre
    rw [hk] at this
    simp only [List.flatMap_append, List.flatMap_cons, this, List.append_assoc]

theorem yield_derives (m : Rules) (y : Sym → List Sym)
    (hy : ∀ e ∈ m, ∀ rhs ∈ e.2, (if rhs = [eps] then [] else rhs).flatMap y = y e.1)
    (f g : List Sym) (hd : Derives m f g) : f.flatMap y = g.flatMap y := by
  induction hd with
  | refl => rfl
  | tail _ hstep ih => exact ih.trans (yield_step m y hy _ _ hstep)

/-! ## The passes at particular grammars -/

theorem cnf_removeUnit_more (n k : Nat) (G G1 : Grammar)
    (h : Cnf.removeUnitProductions n G = some G1) :
    Cnf.removeUnitProductions (n + k) G = some G1 := by
  simp only [Cnf.removeUnitProductions, Option.map_eq_some'] at h ⊢
  obtain ⟨m, hm, rfl⟩ := h
  exact ⟨m, unitLoop_more _ _ n k _ _ hm, rfl⟩

theorem gnf_removeUnits_more (n k : Nat) (G G1 : Grammar)
    (h : Gnf.removeUnits n G = some G1) : Gnf.removeUnits (n + k) G = some G1 := by
  simp only [Gnf.removeUnits, Option.map_eq_some'] at h ⊢
  obtain ⟨m, hm, rfl⟩ := h
  exact ⟨m, unitLoop_more _ _ n k _ _ hm, rfl⟩

theorem cnf_convert_more (n k : Nat) (G G1 : Grammar) (h : Cnf.convertToCNF n G = some G1) :
    Cnf.convertToCNF (n + k) G = some G1 := by
  simp only [Cnf.convertToCNF, Option.bind_eq_some] at h ⊢
  obtain ⟨G2, h2, h3⟩ := h
  exact ⟨G2, cnf_removeUnit_more n k _ _ h2, h3⟩

theorem substLoop_more (vars : List Sym) (i : Nat) (Ai : Sym) :
    ∀ (n k : Nat) (m r : Rules), Gnf.substLoop vars i Ai n m = some r →
      Gnf.substLoop vars i Ai (n + k) m = some r
  | 0, _, _, _, h => by simp [Gnf.substLoop] at h
  | n + 1, k, m, r, h => by
    rw [Nat.add_right_comm]
    simp only [Gnf.substLoop] at h ⊢
    cases hs : Gnf.substRound vars i Ai m with
    | none => rw [hs] at h; simp at h
    | some p =>
      obtain ⟨m1, c⟩ := p
      rw [hs] at h
      cases c with
      | false => simpa using h
      | true => exact substLoop_more vars i Ai n k m1 r h

theorem gnfOrder_more (n k : Nat) (vars : List Sym) :
    ∀ (rest : List Sym) (i : Nat) (m r : Rules), Gnf.gnfOrder n vars i rest m = some r →
      Gnf.gnfOrder (n + k) vars i rest m = some r
  | [], _, _, _, h => by simpa [Gnf.gnfOrder] using h
  | Ai :: rest, i, m, r, h => by
    simp only [Gnf.gnfOrder] at h ⊢
    cases hs : Gnf.substLoop vars i Ai n m with
    | none => rw [hs] at h; simp at h
    | some m1 =>
      rw [hs] at h
      rw [substLoop_more vars i Ai n k m m1 hs]
      simp only at h ⊢
      cases hl : Gnf.removeLeftRecursion m1 Ai with
      | none => rw [hl] at h; simp at h
      | some m2 =>
        rw [hl] at h
        simp only at h ⊢
        exact gnfOrder_more n k vars rest (i + 1) m2 r h

theorem toGNF_more (n k f j : Nat) (G G1 : Grammar) (h : Gnf.toGNF n f G = some G1) :
    Gnf.toGNF (n + k) (f + j) G = some G1 := by
  simp only [Gnf.toGNF, Option.bind_eq_some] at h ⊢
  obtain ⟨G2, h2, h3⟩ := h
  refine ⟨G2, gnf_removeUnits_more n k _ _ h2, ?_⟩
  simp only [Gnf.convertToGNF, Option.map_eq_some'] at h3 ⊢
  obtain ⟨m, hm, rfl⟩ := h3
  exact ⟨m, gnfOrder_more f j _ _ _ _ _ hm, rfl⟩

/-- C1 at a failing input: on `A → S | b`, `S → aA | ε` (start `S`), a
grammar of single-letter symbols with `ε` only as a whole alternative, the
epsilon pass leaves the rules as they are, and `convertToCNF` returns
`A → b | X1A | ε`, `S → X1A | ε`, `X1 → a`, in which `A`, which is not the
start symbol, has the alternative `[ε]`. -/
theorem cnf_postcondition_fails :
    WellFormedInput startInUnit ∧
    (Cnf.removeEpsilonProductions startInUnit).rules
      = [(ch 'A', [[ch 'S'], [ch 'b']]), (ch 'S', [[ch 'a', ch 'A'], [eps]])] ∧
    (∀ rounds, Cnf.convertToCNF (rounds + 2) startInUnit = some startInUnitCnf) ∧
    ¬ CnfForm startInUnitCnf ∧
    ch 'A' ≠ startInUnitCnf.startSymbol ∧ [eps] ∈ startInUnitCnf.rules.get (ch 'A') :=
  ⟨by decide, by decide, fun rounds => by
      rw [Nat.add_comm]; exact cnf_convert_more 2 rounds _ _ (by decide),
    by decide, by decide, by decide⟩

/-- C2 at a failing input: on `S → ABCD`, `A → a`, `B → b`, `C → c`, `D → d`
`convertToCNF` returns `S → AY2`, `Y2 → DY1`, `Y1 → BC`; the input generates
`abcd`, the output does not (it generates `adbc`). -/
theorem cnf_language_not_preserved :
    WellFormedInput fourLong ∧
    (∀ rounds, Cnf.convertToCNF (rounds + 2) fourLong = some fourLongCnf) ∧
    Generates fourLong [ch 'a', ch 'b', ch 'c', ch 'd'] ∧
    ¬ Generates fourLongCnf [ch 'a', ch 'b', ch 'c', ch 'd'] ∧
    Generates fourLongCnf [ch 'a', ch 'd', ch 'b', ch 'c'] := by
  refine ⟨by decide, fun rounds => by
      rw [Nat.add_comm]; exact cnf_convert_more 2 rounds _ _ (by decide), ⟨by decide, ?_⟩, ?_,
      ⟨by decide, ?_⟩⟩
  · have s1 : Step fourLong.rules [ch 'S'] [ch 'A', ch 'B', ch 'C', ch 'D'] :=
      step_of_mem _ [] [] (ch 'S') [ch 'A', ch 'B', ch 'C', ch 'D'] _ (by decide) (by decide)
    have s2 : Step fourLong.rules [ch 'A', ch 'B', ch 'C', ch 'D']
        [ch 'a', ch 'B', ch 'C', ch 'D'] :=
      step_of_mem _ [] [ch 'B', ch 'C', ch 'D'] (ch 'A') [ch 'a'] _ (by decide) (by decide)
    have s3 : Step fourLong.rules [ch 'a', ch 'B', ch 'C', ch 'D']
        [ch 'a', ch 'b', ch 'C', ch 'D'] :=
      step_of_mem _ [ch 'a'] [ch 'C', ch 'D'] (ch 'B') [ch 'b'] _ (by decide) (by decide)
    have s4 : Step fourLong.rules [ch 'a', ch 'b', ch 'C', ch 'D']
        [ch 'a', ch 'b', ch 'c', ch 'D'] :=
      step_of_mem _ [ch 'a', ch 'b'] [ch 'D'] (ch 'C') [ch 'c'] _ (by decide) (by decide)
    have s5 : Step fourLong.rules [ch 'a', ch 'b', ch 'c', ch 'D']
        [ch 'a', ch 'b', ch 'c', ch 'd'] :=
      step_of_mem _ [ch 'a', ch 'b', ch 'c'] [] (ch 'D') [ch 'd'] _ (by decide) (by decide)
    exact ((((Relation.ReflTransGen.single s1).tail s2).tail s3).tail s4).tail s5
  · rintro ⟨_, hd⟩
    have := yield_derives fourLongCnf.rules fourLongYield (by decide) _ _ hd
    revert this
    decide
  · have s1 : Step fourLongCnf.rules [ch 'S'] [ch 'A', Cnf.yName 2] :=
      step_of_mem _ [] [] (ch 'S') [ch 'A', Cnf.yName 2] _ (by decide) (by decide)
    have s2 : Step fourLongCnf.rules [ch 'A', Cnf.yName 2] [ch 'a', Cnf.yName 2] :=
      step_of_mem _ [] [Cnf.yName 2] (ch 'A') [ch 'a'] _ (by decide) (by decide)
    have s3 : Step fourLongCnf.rules [ch 'a', Cnf.yName 2] [ch 'a', ch 'D', Cnf.yName 1] :=
      step_of_mem _ [ch 'a'] [] (Cnf.yName 2) [ch 'D', Cnf.yName 1] _ (by decide) (by decide)
    have s4 : Step fourLongCnf.rules [ch 'a', ch 'D', Cnf.yName 1] [ch 'a', ch 'd', Cnf.yName 1] :=
      step_of_mem _ [ch 'a'] [Cnf.yName 1] (ch 'D') [ch 'd'] _ (by decide) (by decide)
    have s5 : Step fourLongCnf.rules [ch 'a', ch 'd', Cnf.yName 1]
        [ch 'a', ch 'd', ch 'B', ch 'C'] :=
      step_of_mem _ [ch 'a', ch 'd'] [] (Cnf.yName 1) [ch 'B', ch 'C'] _ (by decide) (by decide)
    have s6 : Step fourLongCnf.rules [ch 'a', ch 'd', ch 'B', ch 'C']
        [ch 'a', ch 'd', ch 'b', ch 'C'] :=
      step_of_mem _ [ch 'a', ch 'd'] [ch 'C'] (ch 'B') [ch 'b'] _ (by decide) (by decide)
    have s7 : Step fourLongCnf.rules [ch 'a', ch 'd', ch 'b', ch 'C']
        [ch 'a', ch 'd', ch 'b', ch 'c'] :=
      step_of_mem _ [ch 'a', ch 'd', ch 'b'] [] (ch 'C') [ch 'c'] _ (by decide) (by decide)
    exact ((((((Relation.ReflTransGen.single s1).tail s2).tail s3).tail s4).tail s5).tail
      s6).tail s7

/-- C3 at a failing input: on `S → Sa | b` the loop of `convertToGNF` builds
`S → bS'`, `S' → aS' | ε`, and its final cleanup drops `S' → ε`: the passes
`removeEpsilons`, `removeUnits`, `convertToGNF` return `S → bS'`, `S' → aS'`.
The input generates `b`, the output generates no word at all. -/
theorem gnf_language_not_preserved :
    WellFormedInput leftRec ∧
    Gnf.gnfOrder 1 [ch 'S'] 0 [ch 'S'] leftRec.rules
      = some [(ch 'S', [[ch 'b', [83, 39]]]), ([83, 39], [[ch 'a', [83, 39]], [eps]])] ∧
    (∀ rounds fuel, Gnf.toGNF (rounds + 1) (fuel + 1) leftRec = some leftRecGnf) ∧
    Generates leftRec [ch 'b'] ∧ ∀ w, ¬ Generates leftRecGnf w := by
  refine ⟨by decide, by decide, fun rounds fuel => by
      rw [Nat.add_comm rounds, Nat.add_comm fuel]
      exact toGNF_more 1 rounds 1 fuel _ _ (by decide), ⟨by decide, ?_⟩, ?_⟩
  · exact Relation.ReflTransGen.single
      (step_of_mem _ [] [] (ch 'S') [ch 'b'] _ (by decide) (by decide))
  · exact not_generates_of_dead leftRecGnf [ch 'S', [83, 39]] (by decide) (by decide) (by decide)

/-- C6 at a failing input: in `S → A`, `A → ε` the start symbol derives the empty
string, but after `removeEpsilonProductions` (cnf.cpp) and after
`removeEpsilons` (gnf.cpp) it has no alternative `[ε]`. -/
theorem start_epsilon_lost :
    WellFormedInput nullChain ∧
    Derives nullChain.rules [nullChain.startSymbol] [] ∧
    [eps] ∉ (Cnf.removeEpsilonProductions nullChain).rules.get nullChain.startSymbol ∧
    [eps] ∉ (Gnf.removeEpsilons nullChain).rules.get nullChain.startSymbol := by
  refine ⟨by decide, ?_, by decide, by decide⟩
  have s1 : Step nullChain.rules [ch 'S'] [ch 'A'] :=
    step_of_mem _ [] [] (ch 'S') [ch 'A'] _ (by decide) (by decide)
  have s2 : Step nullChain.rules [ch 'A'] [] :=
    step_of_mem _ [] [] (ch 'A') [eps] _ (by decide) (by decide)
  exact (Relation.ReflTransGen.single s1).tail s2

/-- C7 at a failing input: for `S → AB`, `A → ε`, `B → A` the nullable set of
both epsilon passes is `{A}`: `B` has the alternative `[A]`, all of whose
symbols are in the set, and is not in it. -/
theorem nullable_not_closed :
    nullable nullTrans.rules = [ch 'A'] ∧
    [ch 'A'] ∈ nullTrans.rules.get (ch 'B') ∧
    (∀ s ∈ [ch 'A'], s ∈ nullable nullTrans.rules) ∧
    ch 'B' ∉ nullable nullTrans.rules := by
  decide

/-- C9 at a failing input: on the ε-free grammar `S → T`, `T → U`, `U → u` both
unit passes return `T → u`, `U → u` and no alternative for `S`; the input
generates `u` from `S`, the output generates no word. -/
theorem unit_pass_loses_words :
    WellFormedInput unitChain ∧ (∀ e ∈ unitChain.rules, [eps] ∉ e.2) ∧
    (∀ rounds, Cnf.removeUnitProductions (rounds + 2) unitChain = some unitChainOut) ∧
    (∀ rounds, Gnf.removeUnits (rounds + 2) unitChain = some unitChainOut) ∧
    Generates unitChain [ch 'u'] ∧ ∀ w, ¬ Generates unitChainOut w := by
  refine ⟨by decide, by decide, fun rounds => by
      rw [Nat.add_comm]; exact cnf_removeUnit_more 2 rounds _ _ (by decide), fun rounds => by
      rw [Nat.add_comm]; exact gnf_removeUnits_more 2 rounds _ _ (by decide),
    ⟨by decide, ?_⟩, ?_⟩
  · have s1 : Step unitChain.rules [ch 'S'] [ch 'T'] :=
      step_of_mem _ [] [] (ch 'S') [ch 'T'] _ (by decide) (by decide)
    have s2 : Step unitChain.rules [ch 'T'] [ch 'U'] :=
      step_of_mem _ [] [] (ch 'T') [ch 'U'] _ (by decide) (by decide)
    have s3 : Step unitChain.rules [ch 'U'] [ch 'u'] :=
      step_of_mem _ [] [] (ch 'U') [ch 'u'] _ (by decide) (by decide)
    exact ((Relation.ReflTransGen.single s1).tail s2).tail s3
  · exact not_generates_of_dead unitChainOut [ch 'S'] (by decide) (by decide) (by decide)

/-! ## Terminal isolation -/

theorem isTerminal_xName (n : Nat) : isTerminal (Cnf.xName n) = false := by
  unfold Cnf.xName
  cases toStr n with
  | nil => decide
  | cons a l => rfl

theorem isoRel_refl (lhs : Sym) (st : Cnf.IsoState) : IsoRel lhs st st :=
  ⟨id, id, fun _ => ⟨[], by simp, by simp⟩, rfl⟩

theorem isoRel_trans (lhs : Sym) (a b c : Cnf.IsoState) (h1 : IsoRel lhs a b)
    (h2 : IsoRel lhs b c) : IsoRel lhs a c := by
  refine ⟨fun h => h2.wf (h1.wf h), fun h => h2.tm (h1.tm h), fun k => ?_, h2.same.trans h1.same⟩
  obtain ⟨e1, he1, hs1⟩ := h1.grow k
  obtain ⟨e2, he2, hs2⟩ := h2.grow k
  refine ⟨e1 ++ e2, by rw [he2, he1, List.append_assoc], fun r hr => ?_⟩
  rcases List.mem_append.1 hr with h | h
  · exact hs1 r h
  · exact hs2 r h

theorem isoSym_spec (lhs : Sym) (size : Nat) (st st1 : Cnf.IsoState) (sym s1 : Sym)
    (h : Cnf.isoSym lhs size st sym = some (st1, s1)) :
    IsoRel lhs st st1 ∧ (size ≤ 1 → s1 = sym) ∧
      (TMok st → 1 < size → isTerminal s1 = false) := by
  unfold Cnf.isoSym at h
  split_ifs at h with hc
  · simp only [Bool.and_eq_true, decide_eq_true_eq] at hc
    cases hl : st.terminalMap.lookup sym with
    | some v =>
      rw [hl] at h
      simp only [Option.some.injEq, Prod.mk.injEq] at h
      obtain ⟨rfl, rfl⟩ := h
      exact ⟨isoRel_refl lhs st, fun hs => by omega, fun htm _ => htm sym _ hl⟩
    | none =>
      rw [hl] at h
      simp only at h
      split_ifs at h with hn
      simp only [Option.some.injEq, Prod.mk.injEq] at h
      obtain ⟨rfl, rfl⟩ := h
      refine ⟨⟨fun hw => WF_update st.rules (Cnf.xName (st.counter + 1)) (fun v => v ++ [[sym]]) hw,
        ?_, fun k => ?_, ?_⟩, fun hs => by omega,
        fun _ _ => isTerminal_xName _⟩
      · intro htm t v hv
        simp only [List.lookup_cons] at hv
        split at hv
        · simp only [Option.some.injEq] at hv
          rw [← hv]
          exact isTerminal_xName _
        · exact htm t v hv
      · by_cases hk : k = Cnf.xName (st.counter + 1)
        · subst hk
          exact ⟨[[sym]], by simp only [get_update_same], by simp⟩
        · exact ⟨[], by simp only [get_update_other _ _ _ _ hk, List.append_nil], by simp⟩
      · simp only
        exact get_update_other _ _ _ _ (fun hh => hn hh.symm)
  · simp only [Option.some.injEq, Prod.mk.injEq] at h
    obtain ⟨rfl, rfl⟩ := h
    refine ⟨isoRel_refl lhs st, fun _ => rfl, fun _ hs => ?_⟩
    simp only [Bool.and_eq_true, decide_eq_true_eq, not_and] at hc
    cases ht : isTerminal sym with
    | false => rfl
    | true => exact absurd hs (hc ht)

theorem isoAlt_spec (lhs : Sym) (size : Nat) : ∀ (l : Alt) (st st1 : Cnf.IsoState) (out : Alt),
    Cnf.isoAlt lhs size st l = some (st1, out) →
    IsoRel lhs st st1 ∧ out.length = l.length ∧ (size ≤ 1 → out = l) ∧
      (TMok st → 1 < size → ∀ s ∈ out, isTerminal s = false)
  | [], st, st1, out, h => by
    simp only [Cnf.isoAlt, Option.some.injEq, Prod.mk.injEq] at h
    obtain ⟨rfl, rfl⟩ := h
    exact ⟨isoRel_refl lhs st, rfl, fun _ => rfl, fun _ _ s hs => by simp at hs⟩
  | sym :: rest, st, st1, out, h => by
    simp only [Cnf.isoAlt] at h
    cases h1 : Cnf.isoSym lhs size st sym with
    | none => rw [h1] at h; simp at h
    | some p1 =>
      obtain ⟨sa, s1⟩ := p1
      rw [h1] at h
      simp only at h
      cases h2 : Cnf.isoAlt lhs size sa rest with
      | none => rw [h2] at h; simp at h
      | some p2 =>
        obtain ⟨sb, r⟩ := p2
        rw [h2] at h
        simp only [Option.some.injEq, Prod.mk.injEq] at h
        obtain ⟨rfl, rfl⟩ := h
        obtain ⟨r1, e1, t1⟩ := isoSym_spec lhs size st sa sym s1 h1
        obtain ⟨r2, len2, e2, t2⟩ := isoAlt_spec lhs size rest sa sb r h2
        refine ⟨isoRel_trans lhs _ _ _ r1 r2, by simp [len2], fun hs => by rw [e1 hs, e2 hs],
          fun htm hs s hmem => ?_⟩
        rcases List.mem_cons.1 hmem with rfl | hmem'
        · exact t1 htm hs
        · exact t2 (r1.tm htm) hs s hmem'

theorem isoAlts_spec (lhs : Sym) : ∀ (alts : List Alt) (st st1 : Cnf.IsoState) (out : List Alt),
    Cnf.isoAlts lhs st alts = some (st1, out) → TMok st →
    IsoRel lhs st st1 ∧ Isolated out ∧
      ∀ (i : Nat) (r : Alt), alts[i]? = some r → r.length = 1 → out[i]? = some r
  | [], st, st1, out, h, _ => by
    simp only [Cnf.isoAlts, Option.some.injEq, Prod.mk.injEq] at h
    obtain ⟨rfl, rfl⟩ := h
    exact ⟨isoRel_refl lhs st, fun r hr => by simp at hr, fun i r hi => by simp at hi⟩
  | rhs :: rest, st, st1, out, h, htm => by
    simp only [Cnf.isoAlts] at h
    cases h1 : Cnf.isoAlt lhs rhs.length st rhs with
    | none => rw [h1] at h; simp at h
    | some p1 =>
      obtain ⟨sa, o1⟩ := p1
      rw [h1] at h
      simp only at h
      cases h2 : Cnf.isoAlts lhs sa rest with
      | none => rw [h2] at h; simp at h
      | some p2 =>
        obtain ⟨sb, os⟩ := p2
        rw [h2] at h
        simp only [Option.some.injEq, Prod.mk.injEq] at h
        obtain ⟨rfl, rfl⟩ := h
        obtain ⟨r1, len1, e1, t1⟩ := isoAlt_spec lhs rhs.length rhs st sa o1 h1
        obtain ⟨r2, iso2, idx2⟩ := isoAlts_spec lhs rest sa sb os h2 (r1.tm htm)
        refine ⟨isoRel_trans lhs _ _ _ r1 r2, fun r hr hlen => ?_, fun i r hi hlen => ?_⟩
        · rcases List.mem_cons.1 hr with rfl | hr'
          · exact t1 htm (by omega)
          · exact iso2 r hr' hlen
        · cases i with
          | zero =>
            simp only [List.getElem?_cons_zero, Option.some.injEq] at hi ⊢
            subst hi
            exact e1 (by omega)
          | succ j =>
            simp only [List.getElem?_cons_succ] at hi ⊢
            exact idx2 j r hi hlen

theorem isolated_append (v ex : List Alt) (hv : Isolated v) (hex : ∀ r ∈ ex, r.length = 1) :
    Isolated (v ++ ex) := by
  intro r hr hlen
  rcases List.mem_append.1 hr with h | h
  · exact hv r h hlen
  · have := hex r h
    omega

theorem isoKey_spec (G : Rules) (lhs : Sym) (rest : List Sym) (st st1 : Cnf.IsoState)
    (h : Cnf.isoKey st lhs = some st1) (hwf : st.rules.WF) (htm : TMok st)
    (hiso : ∀ k, k ∉ lhs :: rest → Isolated (st.rules.get k)) (hkeep : KeepsSingles G st.rules)
    (hnd : lhs ∉ rest) :
    st1.rules.WF ∧ TMok st1 ∧ (∀ k, k ∉ rest → Isolated (st1.rules.get k)) ∧
      KeepsSingles G st1.rules := by
  unfold Cnf.isoKey at h
  cases ha : Cnf.isoAlts lhs st (st.rules.get lhs) with
  | none => rw [ha] at h; simp at h
  | some p =>
    obtain ⟨sa, alts⟩ := p
    rw [ha] at h
    simp only [Option.some.injEq] at h
    subst h
    obtain ⟨rel, iso, idx⟩ := isoAlts_spec lhs _ st sa alts ha htm
    refine ⟨WF_set sa.rules lhs alts (rel.wf hwf), rel.tm htm, fun k hk => ?_, fun k i r hi hlen => ?_⟩
    · by_cases hkl : k = lhs
      · subst hkl
        simp only [get_set_same]
        exact iso
      · simp only [get_set_other _ _ _ _ hkl]
        obtain ⟨ex, hex, hs⟩ := rel.grow k
        rw [hex]
        exact isolated_append _ _ (hiso k (by simp [hkl, hk])) hs
    · by_cases hkl : k = lhs
      · subst hkl
        simp only [get_set_same]
        exact idx i r (hkeep k i r hi hlen) hlen
      · simp only [get_set_other _ _ _ _ hkl]
        obtain ⟨ex, hex, _⟩ := rel.grow k
        rw [hex]
        have h0 := hkeep k i r hi hlen
        have hlt : i < (st.rules.get k).length := by
          rcases List.getElem?_eq_some.1 h0 with ⟨hl, _⟩
          exact hl
        rw [List.getElem?_append_left hlt]
        exact h0

theorem isoKeys_spec (G : Rules) : ∀ (rest : List Sym) (st st1 : Cnf.IsoState),
    Cnf.isoKeys st rest = some st1 → rest.Nodup → st.rules.WF → TMok st →
    (∀ k, k ∉ rest → Isolated (st.rules.get k)) → KeepsSingles G st.rules →
    st1.rules.WF ∧ (∀ k, Isolated (st1.rules.get k)) ∧ KeepsSingles G st1.rules
  | [], st, st1, h, _, hwf, _, hiso, hkeep => by
    simp only [Cnf.isoKeys, Option.some.injEq] at h
    subst h
    exact ⟨hwf, fun k => hiso k (by simp), hkeep⟩
  | lhs :: rest, st, st1, h, hnd, hwf, htm, hiso, hkeep => by
    simp only [Cnf.isoKeys] at h
    cases hk : Cnf.isoKey st lhs with
    | none => rw [hk] at h; simp at h
    | some sa =>
      rw [hk] at h
      rw [List.nodup_cons] at hnd
      obtain ⟨w, t, i, kp⟩ := isoKey_spec G lhs rest st sa hk hwf htm hiso hkeep hnd.1
      exact isoKeys_spec G rest sa st1 h hnd.2 w t i kp

theorem keys_nodup (m : Rules) (h : m.WF) : m.keys.Nodup :=
  List.Pairwise.imp (fun hab => strLt_ne _ _ hab) h

theorem isoSym_some (lhs : Sym) (size : Nat) (st : Cnf.IsoState) (sym : Sym)
    (hx : ∀ n, lhs ≠ Cnf.xName n) : ∃ p, Cnf.isoSym lhs size st sym = some p := by
  unfold Cnf.isoSym
  split_ifs with hc
  · cases st.terminalMap.lookup sym with
    | some v => exact ⟨_, rfl⟩
    | none =>
      simp only
      split_ifs with hn
      · exact absurd hn.symm (hx _)
      · exact ⟨_, rfl⟩
  · exact ⟨_, rfl⟩

theorem isoAlt_some (lhs : Sym) (size : Nat) (hx : ∀ n, lhs ≠ Cnf.xName n) :
    ∀ (l : Alt) (st : Cnf.IsoState), ∃ p, Cnf.isoAlt lhs size st l = some p
  | [], st => ⟨_, rfl⟩
  | sym :: rest, st => by
    obtain ⟨p1, h1⟩ := isoSym_some lhs size st sym hx
    obtain ⟨p2, h2⟩ := isoAlt_some lhs size hx rest p1.1
    simp only [Cnf.isoAlt, h1, h2]
    exact ⟨_, rfl⟩

theorem isoAlts_some (lhs : Sym) (hx : ∀ n, lhs ≠ Cnf.xName n) :
    ∀ (alts : List Alt) (st : Cnf.IsoState), ∃ p, Cnf.isoAlts lhs st alts = some p
  | [], st => ⟨_, rfl⟩
  | rhs :: rest, st => by
    obtain ⟨p1, h1⟩ := isoAlt_some lhs rhs.length hx rhs st
    obtain ⟨p2, h2⟩ := isoAlts_some lhs hx rest p1.1
    simp only [Cnf.isoAlts, h1, h2]
    exact ⟨_, rfl⟩

theorem isoKeys_some : ∀ (rest : List Sym) (st : Cnf.IsoState),
    (∀ k ∈ rest, ∀ n, k ≠ Cnf.xName n) → ∃ st1, Cnf.isoKeys st rest = some st1
  | [], st, _ => ⟨_, rfl⟩
  | lhs :: rest, st, hx => by
    obtain ⟨p, hp⟩ := isoAlts_some lhs (hx lhs (List.mem_cons_self _ _)) (st.rules.get lhs) st
    obtain ⟨st1, h1⟩ := isoKeys_some rest { p.1 with rules := p.1.rules.set lhs p.2 }
      fun k hk => hx k (List.mem_cons_of_mem _ hk)
    simp only [Cnf.isoKeys, Cnf.isoKey, hp, h1]
    exact ⟨_, rfl⟩

/-- C10 at failing inputs: on `X1 → ab` and on `X1 → ab | cd`, grammars whose key is the first
name the pass generates, `replaceTerminalsInMixedRHS` creates the variable `X1` while it scans
the alternatives of `X1` and pushes `[a]` onto `G.rules["X1"]`, the very vector its
range-`for` is walking: the run has no defined result, and in the second grammar the
alternative `cd`, of two terminals, is still to be scanned when this happens. -/
theorem terminal_isolation_undefined_on_collision :
    xCollide.rules.WF ∧ Cnf.replaceTerminalsInMixedRHS xCollide = none ∧
    xCollideTwo.rules.WF ∧ Cnf.replaceTerminalsInMixedRHS xCollideTwo = none ∧
    [ch 'c', ch 'd'] ∈ xCollideTwo.rules.get (Cnf.xName 1) ∧
    (∀ s ∈ [ch 'c', ch 'd'], isTerminal s = true) := by
  decide

/-- Where the terminal isolation has a defined result, which includes every grammar with no
nonterminal named `X<n>`, after `replaceTerminalsInMixedRHS` no alternative of size above 1
of any nonterminal holds a terminal, and every alternative of size 1 of the input is found
unchanged at its index under its nonterminal. -/
theorem terminal_isolation_postcondition (G : Grammar) (hwf : G.rules.WF) :
    (∀ G1, Cnf.replaceTerminalsInMixedRHS G = some G1 →
      (∀ e ∈ G1.rules, ∀ r ∈ e.2, 1 < r.length → ∀ s ∈ r, isTerminal s = false) ∧
      ∀ (k : Sym) (i : Nat) (r : Alt), (G.rules.get k)[i]? = some r → r.length = 1 →
        (G1.rules.get k)[i]? = some r) ∧
    ((∀ k ∈ G.rules.keys, ∀ n, k ≠ Cnf.xName n) →
      ∃ G1, Cnf.replaceTerminalsInMixedRHS G = some G1) := by
  constructor
  · intro G1 h
    simp only [Cnf.replaceTerminalsInMixedRHS, Option.map_eq_some'] at h
    obtain ⟨st1, hst, rfl⟩ := h
    obtain ⟨w, iso, kp⟩ := isoKeys_spec G.rules G.rules.keys _ st1 hst (keys_nodup _ hwf) hwf
      (fun t v hv => by simp at hv)
      (fun k hk => by
        simp only [get_of_not_mem G.rules k hk]
        intro r hr
        simp at hr)
      (fun k i r hi _ => hi)
    refine ⟨fun e he r hr => ?_, kp⟩
    have := get_of_mem st1.rules e w he
    exact iso e.1 r (by rw [this]; exact hr)
  · intro hx
    obtain ⟨st1, h1⟩ := isoKeys_some G.rules.keys
      { terminalMap := [], counter := 0, rules := G.rules } hx
    exact ⟨_, by simp only [Cnf.replaceTerminalsInMixedRHS, h1]; rfl⟩

/-- The postcondition of the terminal isolation at the grammar of `main` in cnf.cpp. -/
theorem terminal_isolation_postcondition_witness :
    cnfMain.rules.WF ∧
    ((∀ G1, Cnf.replaceTerminalsInMixedRHS cnfMain = some G1 →
      (∀ e ∈ G1.rules, ∀ r ∈ e.2, 1 < r.length → ∀ s ∈ r, isTerminal s = false) ∧
      ∀ (k : Sym) (i : Nat) (r : Alt), (cnfMain.rules.get k)[i]? = some r → r.length = 1 →
        (G1.rules.get k)[i]? = some r) ∧
    ((∀ k ∈ cnfMain.rules.keys, ∀ n, k ≠ Cnf.xName n) →
      ∃ G1, Cnf.replaceTerminalsInMixedRHS cnfMain = some G1)) :=
  ⟨by decide, terminal_isolation_postcondition cnfMain (by decide)⟩

/-! ## The conversion to Greibach normal form -/

theorem insertSorted_head (x y : Sym) (ys : List Sym) (h : strLt x y = true) :
    Gnf.insertSorted x (y :: ys) = x :: y :: ys := by
  simp [Gnf.insertSorted, strLt_asymm _ _ h]

theorem sortStrings_sorted : ∀ (l : List Sym), l.Pairwise (fun a b => strLt a b = true) →
    Gnf.sortStrings l = l
  | [], _ => rfl
  | [x], _ => rfl
  | x :: y :: ys, h => by
    rw [List.pairwise_cons] at h
    simp only [Gnf.sortStrings] at *
    have ih := sortStrings_sorted (y :: ys) h.2
    simp only [Gnf.sortStrings] at ih
    rw [ih]
    exact insertSorted_head x y ys (h.1 y (List.mem_cons_self _ _))

theorem substScans_spec (vars : List Sym) (i : Nat) (m : Rules) :
    ∀ (l : List Alt) (st : Rules × List Alt × Bool), (∀ r ∈ l, r ≠ []) →
      (∀ k, st.1.get k = m.get k) → (∀ k ∈ m.keys, k ∈ st.1.keys) → st.1.WF →
      ∃ m1, Gnf.substScans vars i st l
          = some (m1, st.2.1 ++ l.flatMap (substAlt vars i m), st.2.2 || l.any (isBad vars i)) ∧
        (∀ k, m1.get k = m.get k) ∧ (∀ k ∈ m.keys, k ∈ m1.keys) ∧ m1.WF
  | [], st, _, hg, hk, hw => ⟨st.1, by simp [Gnf.substScans], hg, hk, hw⟩
  | rhs :: rest, st, hne, hg, hk, hw => by
    have hr : rhs ≠ [] := hne rhs (List.mem_cons_self _ _)
    obtain ⟨h, t, rfl⟩ := List.exists_cons_of_ne_nil hr
    simp only [Gnf.substScans, Gnf.substScan]
    by_cases hb : isBad vars i (h :: t) = true
    · have hb' := hb
      simp only [isBad] at hb'
      rw [if_pos hb']
      obtain ⟨m1, h1, g1, k1, w1⟩ := substScans_spec vars i m rest
        (st.1.touch h, st.2.1 ++ ((st.1.touch h).get h).map (fun gamma => gamma ++ t), true)
        (fun r hr => hne r (List.mem_cons_of_mem _ hr))
        (fun k => by simp only [get_touch, hg])
        (fun k hkm => (mem_keys_touch _ _ _).2 (Or.inr (hk k hkm)))
        (WF_touch _ _ hw)
      refine ⟨m1, ?_, g1, k1, w1⟩
      simp only [get_touch, hg, List.append_assoc, Bool.true_or] at h1
      simp only [List.flatMap_cons, substAlt, hb, if_true, List.headD_cons, List.tail_cons,
        get_touch, hg, List.append_assoc, List.any_cons, Bool.true_or, Bool.or_true]
      exact h1
    · have hb' := hb
      simp only [isBad] at hb'
      rw [if_neg hb']
      obtain ⟨m1, h1, g1, k1, w1⟩ := substScans_spec vars i m rest
        (st.1, st.2.1 ++ [h :: t], st.2.2)
        (fun r hr => hne r (List.mem_cons_of_mem _ hr)) hg hk hw
      refine ⟨m1, ?_, g1, k1, w1⟩
      simp only [Bool.not_eq_true] at hb
      simp only [List.append_assoc, List.singleton_append] at h1
      simp only [List.flatMap_cons, substAlt, hb, List.append_assoc, List.any_cons,
        Bool.false_or, List.singleton_append, Bool.false_eq_true, if_false]
      exact h1

theorem findIdx_le (s : Sym) : ∀ (l : List Sym), Gnf.findIdx s l ≤ l.length
  | [] => Nat.le_refl _
  | x :: xs => by
    simp only [Gnf.findIdx]
    split_ifs
    · exact Nat.zero_le _
    · simpa using findIdx_le s xs

theorem findIdx_append (s : Sym) : ∀ (pre rest : List Sym), s ∉ pre →
    Gnf.findIdx s (pre ++ s :: rest) = pre.length
  | [], rest, _ => by simp [Gnf.findIdx]
  | x :: xs, rest, h => by
    have hx : x ≠ s := fun hh => h (by simp [hh])
    have hs : s ∉ xs := fun hh => h (List.mem_cons_of_mem _ hh)
    simp [Gnf.findIdx, hx, findIdx_append s xs rest hs]

theorem findIdx_inj (a b : Sym) : ∀ (l : List Sym), Gnf.findIdx a l < l.length →
    Gnf.findIdx a l = Gnf.findIdx b l → a = b
  | [], h, _ => by simp at h
  | x :: xs, h, he => by
    simp only [Gnf.findIdx] at h he
    by_cases hxa : x = a
    · by_cases hxb : x = b
      · exact hxa.symm.trans hxb
      · rw [if_pos hxa, if_neg hxb] at he
        omega
    · by_cases hxb : x = b
      · rw [if_neg hxa, if_pos hxb] at he
        omega
      · rw [if_neg hxa, if_neg hxb] at he
        rw [if_neg hxa] at h
        simp only [List.length_cons, Nat.add_lt_add_iff_right] at h
        exact findIdx_inj a b xs h (by omega)

theorem lead_le (vars : List Sym) (r : Alt) : lead vars r ≤ vars.length := by
  cases r with
  | nil => exact Nat.le_refl _
  | cons h t =>
    simp only [lead]
    split_ifs
    · exact findIdx_le h vars
    · exact Nat.le_refl _

theorem lead_append (vars : List Sym) (r t : Alt) (h : r ≠ []) :
    lead vars (r ++ t) = lead vars r := by
  obtain ⟨a, l, rfl⟩ := List.exists_cons_of_ne_nil h
  rfl

theorem isBad_iff (vars : List Sym) (i : Nat) (hi : i ≤ vars.length) (r : Alt) :
    isBad vars i r = true ↔ lead vars r < i := by
  cases r with
  | nil => simp only [isBad, lead]; constructor
           · intro h; exact absurd h (by simp)
           · intro h; omega
  | cons h t =>
    simp only [isBad, lead, Bool.and_eq_true, decide_eq_true_eq]
    constructor
    · rintro ⟨⟨h1, h2⟩, h3⟩
      rw [if_pos ⟨h1, h2⟩]
      exact h3
    · intro hl
      split_ifs at hl with hc
      · exact ⟨hc, hl⟩
      · omega

theorem lead_of_bad (vars : List Sym) (i : Nat) (h : Sym) (t : Alt)
    (hb : isBad vars i (h :: t) = true) :
    lead vars (h :: t) = Gnf.findIdx h vars ∧ Gnf.findIdx h vars < vars.length ∧
      Gnf.findIdx h vars < i := by
  simp only [isBad, Bool.and_eq_true, decide_eq_true_eq] at hb
  obtain ⟨⟨h1, h2⟩, h3⟩ := hb
  refine ⟨?_, h2, h3⟩
  simp only [lead, Bool.and_eq_true, decide_eq_true_eq]
  rw [if_pos ⟨h1, h2⟩]

theorem substAlt_lead (vars : List Sym) (i : Nat) (hi : i ≤ vars.length) (m : Rules)
    (hne : NoEmpty m) (hp : Processed vars i m) (rho : Nat) (r : Alt) (hr : rho ≤ lead vars r)
    (hrne : r ≠ []) (r1 : Alt) (h1 : r1 ∈ substAlt vars i m r) :
    r1 ≠ [] ∧ min (rho + 1) i ≤ lead vars r1 := by
  unfold substAlt at h1
  split_ifs at h1 with hb
  · cases r with
    | nil => simp [isBad] at hb
    | cons h t =>
      obtain ⟨hl, hlen, hlt⟩ := lead_of_bad vars i h t hb
      simp only [List.headD_cons, List.tail_cons, List.mem_map] at h1
      obtain ⟨gamma, hg, rfl⟩ := h1
      have hgne := hne h gamma hg
      refine ⟨by simp [hgne], ?_⟩
      rw [lead_append vars gamma t hgne]
      have := hp h hlt hlen gamma hg
      rw [hl] at hr
      omega
  · simp only [List.mem_singleton] at h1
    subst h1
    refine ⟨hrne, ?_⟩
    have := (isBad_iff vars i hi r1).not.1 hb
    omega

theorem substRound_spec (vars : List Sym) (i : Nat) (Ai : Sym) (m : Rules) (hne : NoEmpty m)
    (hwf : m.WF) :
    ∃ m1, Gnf.substRound vars i Ai m = some (m1, (m.get Ai).any (isBad vars i)) ∧
      m1.get Ai = (m.get Ai).flatMap (substAlt vars i m) ∧
      (∀ k, k ≠ Ai → m1.get k = m.get k) ∧ (∀ k ∈ m.keys, k ∈ m1.keys) ∧ m1.WF := by
  obtain ⟨m1, h1, g1, k1, w1⟩ := substScans_spec vars i m (m.get Ai) (m.touch Ai, [], false)
    (hne Ai) (fun k => get_touch m Ai k)
    (fun k hk => (mem_keys_touch _ _ _).2 (Or.inr hk)) (WF_touch _ _ hwf)
  refine ⟨m1.set Ai ((m.get Ai).flatMap (substAlt vars i m)), ?_, get_set_same _ _ _,
    fun k hk => by rw [get_set_other _ _ _ _ hk, g1], fun k hk =>
      (mem_keys_set _ _ _ _).2 (Or.inr (k1 k hk)), WF_set _ _ _ w1⟩
  simp only [Gnf.substRound, get_touch, h1, Option.map_some', List.nil_append, Bool.false_or]

theorem substLoop_spec (vars : List Sym) (i : Nat) (hi : i ≤ vars.length) (Ai : Sym)
    (hAi : Gnf.findIdx Ai vars = i) :
    ∀ (fuel : Nat) (m : Rules) (rho : Nat), m.WF → NoEmpty m → Processed vars i m →
      (∀ r ∈ m.get Ai, rho ≤ lead vars r) → rho ≤ i → i < rho + fuel →
      ∃ m1, Gnf.substLoop vars i Ai fuel m = some m1 ∧ m1.WF ∧ NoEmpty m1 ∧
        (∀ k, k ≠ Ai → m1.get k = m.get k) ∧ (∀ r ∈ m1.get Ai, i ≤ lead vars r) ∧
        (∀ k ∈ m.keys, k ∈ m1.keys)
  | 0, _, _, _, _, _, _, h1, h2 => by omega
  | fuel + 1, m, rho, hwf, hne, hp, hrho, hle, hfuel => by
    obtain ⟨m1, hr, hget, hoth, hkeys, hwf1⟩ := substRound_spec vars i Ai m hne hwf
    have hall : ∀ r1 ∈ m1.get Ai, r1 ≠ [] ∧ min (rho + 1) i ≤ lead vars r1 := by
      intro r1 h1
      rw [hget] at h1
      obtain ⟨r, hrm, hr1⟩ := List.mem_flatMap.1 h1
      exact substAlt_lead vars i hi m hne hp rho r (hrho r hrm) (hne Ai r hrm) r1 hr1
    have hne1 : NoEmpty m1 := by
      intro k r hk
      by_cases hkA : k = Ai
      · subst hkA
        exact (hall r hk).1
      · rw [hoth k hkA] at hk
        exact hne k r hk
    simp only [Gnf.substLoop, hr]
    cases hb : (m.get Ai).any (isBad vars i) with
    | false =>
      refine ⟨m1, rfl, hwf1, hne1, hoth, fun r1 h1 => ?_, hkeys⟩
      rw [hget] at h1
      obtain ⟨r, hrm, hr1⟩ := List.mem_flatMap.1 h1
      have hnb : isBad vars i r = false := by
        have := List.any_eq_false.1 hb r hrm
        simpa using this
      simp only [substAlt, hnb, Bool.false_eq_true, if_false, List.mem_singleton] at hr1
      subst hr1
      have := (isBad_iff vars i hi r1).not.1 (by simp [hnb])
      omega
    | true =>
      obtain ⟨r, hrm, hrb⟩ := List.any_eq_true.1 hb
      have hlt := (isBad_iff vars i hi r).1 hrb
      have hrl := hrho r hrm
      have hp1 : Processed vars i m1 := by
        intro v hv hvl r' hr'
        have hvA : v ≠ Ai := by
          rintro rfl
          omega
        rw [hoth v hvA] at hr'
        exact hp v hv hvl r' hr'
      obtain ⟨m2, h2, w2, n2, o2, l2, k2⟩ := substLoop_spec vars i hi Ai hAi fuel m1 (rho + 1) hwf1
        hne1 hp1 (fun r1 h1 => by have := (hall r1 h1).2; omega) (by omega) (by omega)
      exact ⟨m2, h2, w2, n2, fun k hk => by rw [o2 k hk, hoth k hk], l2,
        fun k hk => k2 k (hkeys k hk)⟩

theorem findIdx_mem (s : Sym) : ∀ (l : List Sym), Gnf.findIdx s l < l.length → s ∈ l
  | [], h => by simp at h
  | x :: xs, h => by
    simp only [Gnf.findIdx] at h
    by_cases hx : x = s
    · simp [hx]
    · rw [if_neg hx] at h
      simp only [List.length_cons, Nat.add_lt_add_iff_right] at h
      exact List.mem_cons_of_mem _ (findIdx_mem s xs h)

theorem le_foldr_max (k : Sym) : ∀ (l : List Sym), k ∈ l →
    k.length ≤ (l.map List.length).foldr max 0
  | [], h => by simp at h
  | x :: xs, h => by
    simp only [List.map_cons, List.foldr_cons]
    rcases List.mem_cons.1 h with rfl | h1
    · exact Nat.le_max_left _ _
    · exact Nat.le_trans (le_foldr_max k xs h1) (Nat.le_max_right _ _)

theorem le_maxKeyLen (m : Rules) (k : Sym) (h : k ∈ m.keys) : k.length ≤ Gnf.maxKeyLen m :=
  le_foldr_max k m.keys h

theorem primed_spec (m : Rules) : ∀ (fuel : Nat) (name : Sym),
    (∀ k ∈ m.keys, k.length < name.length + fuel) →
    ∃ r, Gnf.primed m fuel name = some r ∧ r ∉ m.keys
  | 0, name, h => by
    unfold Gnf.primed
    by_cases hc : m.count name = true
    · have := h name ((mem_keys_iff m name).2 hc)
      omega
    · rw [if_neg hc]
      exact ⟨name, rfl, fun hk => hc ((mem_keys_iff m name).1 hk)⟩
  | fuel + 1, name, h => by
    unfold Gnf.primed
    by_cases hc : m.count name = true
    · rw [if_pos hc]
      exact primed_spec m fuel (name ++ [39]) fun k hk => by
        have := h k hk
        simp only [List.length_append, List.length_singleton]
        omega
    · rw [if_neg hc]
      exact ⟨name, rfl, fun hk => hc ((mem_keys_iff m name).1 hk)⟩

theorem lead_gt (vars : List Sym) (i : Nat) (hi : i < vars.length) (Ai : Sym)
    (hAi : Gnf.findIdx Ai vars = i) (r : Alt) (hl : i ≤ lead vars r) (hh : r.head? ≠ some Ai) :
    i < lead vars r := by
  rcases Nat.lt_or_eq_of_le hl with h | h
  · exact h
  · exfalso
    cases r with
    | nil =>
      simp only [lead] at h
      omega
    | cons a t =>
      simp only [lead] at h
      split_ifs at h with hc
      · simp only [Bool.and_eq_true, decide_eq_true_eq] at hc
        have : a = Ai := findIdx_inj a Ai vars hc.2 (by rw [hAi, h])
        exact hh (by simp [this])
      · omega

theorem removeLeftRecursion_spec (vars : List Sym) (i : Nat) (hi : i < vars.length) (Ai : Sym)
    (hAi : Gnf.findIdx Ai vars = i) (m : Rules) (hwf : m.WF) (hne : NoEmpty m)
    (hp : Processed vars i m) (hlead : ∀ r ∈ m.get Ai, i ≤ lead vars r)
    (hkv : ∀ v ∈ vars, v ∈ m.keys) :
    ∃ m2, Gnf.removeLeftRecursion m Ai = some m2 ∧ m2.WF ∧ NoEmpty m2 ∧
      Processed vars (i + 1) m2 ∧ ∀ k ∈ m.keys, k ∈ m2.keys := by
  have hmem : Ai ∈ m.keys := hkv Ai (findIdx_mem Ai vars (by omega))
  have hany : (m.get Ai).any List.isEmpty = false := by
    rw [List.any_eq_false]
    intro r hr
    have := hne Ai r hr
    simpa using this
  have hlow : ∀ v, Gnf.findIdx v vars < i → v ≠ Ai := by
    rintro v hv rfl
    omega
  have hsame : ∀ v, Gnf.findIdx v vars < i + 1 → Gnf.findIdx v vars < vars.length →
      ¬ Gnf.findIdx v vars < i → v = Ai := fun v h1 h2 h3 =>
    findIdx_inj v Ai vars h2 (by omega)
  simp only [Gnf.removeLeftRecursion, touch_of_mem _ _ hmem, hany, Bool.false_eq_true, if_false]
  split_ifs with ha
  · refine ⟨m, rfl, hwf, hne, fun v hv hvl r hr => ?_, fun k hk => hk⟩
    by_cases hvi : Gnf.findIdx v vars < i
    · exact hp v hvi hvl r hr
    · have hv' := hsame v hv hvl hvi
      subst hv'
      rw [hAi]
      refine lead_gt vars i hi v hAi r (hlead r hr) fun hh => ?_
      have : r ∈ (m.get v).filter fun rhs => decide (rhs.head? = some v) :=
        List.mem_filter.2 ⟨hr, by simpa using hh⟩
      rw [List.isEmpty_iff.1 ha] at this
      simp at this
  · obtain ⟨Ap, hpr, hfresh⟩ := primed_spec m (Gnf.maxKeyLen m + 1) (Ai ++ [39]) fun k hk => by
      have := le_maxKeyLen m k hk
      simp only [List.length_append, List.length_singleton]
      omega
    have hApA : Ai ≠ Ap := fun hh => hfresh (hh ▸ hmem)
    have hApv : ∀ v, Gnf.findIdx v vars < vars.length → v ≠ Ap := fun v hv hh =>
      hfresh (hh ▸ hkv v (findIdx_mem v vars hv))
    simp only [hpr, Option.map_some']
    refine ⟨_, rfl, WF_update _ _ _ (WF_set _ _ _ hwf), fun k r hr => ?_,
      fun v hv hvl r hr => ?_, fun k hk =>
        (mem_keys_update _ _ _ _).2 (Or.inr ((mem_keys_set _ _ _ _).2 (Or.inr hk)))⟩
    · by_cases hk : k = Ap
      · subst hk
        rw [get_update_same] at hr
        rcases List.mem_append.1 hr with h1 | h1
        · rcases List.mem_append.1 h1 with h2 | h2
          · rw [get_set_other _ _ _ _ (fun hh => hApA hh.symm), get_of_not_mem m k hfresh] at h2
            simp at h2
          · obtain ⟨a, _, rfl⟩ := List.mem_map.1 h2
            simp
        · simp only [List.mem_singleton] at h1
          subst h1
          simp
      · rw [get_update_other _ _ _ _ hk] at hr
        by_cases hkA : k = Ai
        · subst hkA
          rw [get_set_same] at hr
          obtain ⟨b, _, rfl⟩ := List.mem_map.1 hr
          simp
        · rw [get_set_other _ _ _ _ hkA] at hr
          exact hne k r hr
    · rw [get_update_other _ _ _ _ (hApv v hvl)] at hr
      by_cases hvi : Gnf.findIdx v vars < i
      · rw [get_set_other _ _ _ _ (hlow v hvi)] at hr
        exact hp v hvi hvl r hr
      · have hv' := hsame v hv hvl hvi
        subst hv'
        rw [get_set_same] at hr
        obtain ⟨b, hb, rfl⟩ := List.mem_map.1 hr
        obtain ⟨hbm, hbh⟩ := List.mem_filter.1 hb
        have hbne := hne v b hbm
        rw [lead_append vars b _ hbne, hAi]
        exact lead_gt vars i hi v hAi b (hlead b hbm) (by simpa using hbh)

theorem gnfOrder_spec (fuel : Nat) (vars : List Sym) (hnd : vars.Nodup)
    (hf : vars.length ≤ fuel) :
    ∀ (rest pre : List Sym) (m : Rules), vars = pre ++ rest → m.WF → NoEmpty m →
      Processed vars pre.length m → (∀ v ∈ vars, v ∈ m.keys) →
      ∃ m1, Gnf.gnfOrder fuel vars pre.length rest m = some m1
  | [], _, m, _, _, _, _, _ => ⟨m, rfl⟩
  | Ai :: rest, pre, m, hv, hwf, hne, hp, hkv => by
    have hlen : pre.length < vars.length := by
      rw [hv]
      simp
    have hApre : Ai ∉ pre := by
      rw [hv] at hnd
      have := (List.nodup_append.1 hnd).2.2
      intro hmem
      exact this hmem (List.mem_cons_self _ _)
    have hAi : Gnf.findIdx Ai vars = pre.length := by
      rw [hv]
      exact findIdx_append Ai pre rest hApre
    obtain ⟨m1, h1, w1, n1, o1, l1, k1⟩ := substLoop_spec vars pre.length (Nat.le_of_lt hlen) Ai
      hAi fuel m 0 hwf hne hp (fun _ _ => Nat.zero_le _) (Nat.zero_le _) (by omega)
    have hp1 : Processed vars pre.length m1 := by
      intro v hvi hvl r hr
      have hvA : v ≠ Ai := by
        rintro rfl
        omega
      rw [o1 v hvA] at hr
      exact hp v hvi hvl r hr
    obtain ⟨m2, h2, w2, n2, p2, k2⟩ := removeLeftRecursion_spec vars pre.length hlen Ai hAi m1
      w1 n1 hp1 l1 (fun v hvm => k1 v (hkv v hvm))
    have ih := gnfOrder_spec fuel vars hnd hf rest (pre ++ [Ai]) m2 (by simp [hv]) w2 n2
      (by simpa using p2) (fun v hvm => k2 v (k1 v (hkv v hvm)))
    simp only [List.length_append, List.length_singleton] at ih
    simp only [Gnf.gnfOrder, h1, h2]
    exact ih

theorem cleanup_spec (m : Rules) : ∀ e ∈ Gnf.cleanup m, ∀ r ∈ e.2,
    ∃ t rest, r = t :: rest ∧ isTerminal t = true := by
  intro e he r hr
  simp only [Gnf.cleanup, List.mem_map] at he
  obtain ⟨e0, _, rfl⟩ := he
  simp only [List.mem_filter] at hr
  obtain ⟨_, hf⟩ := hr
  cases r with
  | nil => simp at hf
  | cons t rest =>
    refine ⟨t, rest, rfl, ?_⟩
    simpa using hf

/-- C4: on every grammar (a map with ascending keys) without empty alternative,
`convertToGNF` returns, each substitution loop needing no more rounds than
there are nonterminals, and every alternative kept for every nonterminal of
the result, generated ones included, is non-empty and begins with a terminal. -/
theorem gnf_postcondition (G : Grammar) (hwf : G.rules.WF)
    (hne : ∀ e ∈ G.rules, ∀ r ∈ e.2, r ≠ []) (fuel : Nat) (hf : G.rules.length ≤ fuel) :
    ∃ G1, Gnf.convertToGNF fuel G = some G1 ∧
      ∀ e ∈ G1.rules, ∀ r ∈ e.2, ∃ t rest, r = t :: rest ∧ isTerminal t = true := by
  have hs : Gnf.sortStrings G.rules.keys = G.rules.keys := sortStrings_sorted _ hwf
  have hne1 : NoEmpty G.rules := by
    intro k r hr
    obtain ⟨e, he, _, hre⟩ := mem_of_mem_get G.rules k r hr
    exact hne e he r hre
  obtain ⟨m1, h1⟩ := gnfOrder_spec fuel G.rules.keys (keys_nodup _ hwf)
    (by simpa [keys] using hf) G.rules.keys [] G.rules rfl hwf hne1
    (fun v hv => by simp at hv) (fun v hv => hv)
  refine ⟨{ G with rules := Gnf.cleanup m1 }, ?_, cleanup_spec m1⟩
  simp only [Gnf.convertToGNF, hs]
  simp only [List.length_nil] at h1
  rw [h1]
  rfl

/-- C4 at the grammar of `main` in gnf.cpp, with three rounds per loop. -/
theorem gnf_postcondition_witness :
    gnfMain.rules.WF ∧ (∀ e ∈ gnfMain.rules, ∀ r ∈ e.2, r ≠ []) ∧ gnfMain.rules.length ≤ 3 ∧
    ∃ G1, Gnf.convertToGNF 3 gnfMain = some G1 ∧
      ∀ e ∈ G1.rules, ∀ r ∈ e.2, ∃ t rest, r = t :: rest ∧ isTerminal t = true :=
  ⟨by decide, by decide, by decide,
    gnf_postcondition gnfMain (by decide) (by decide) 3 (by decide)⟩

/-! ## Binarization -/

theorem binRel_refl (st : Nat × Rules) : BinRel st st :=
  ⟨id, fun _ => ⟨[], by simp, by simp⟩, fun _ _ => rfl⟩

theorem binRel_trans (a b c : Nat × Rules) (h1 : BinRel a b) (h2 : BinRel b c) : BinRel a c := by
  refine ⟨fun h => h2.wf (h1.wf h), fun k => ?_, fun k hk => (h2.same k hk).trans (h1.same k hk)⟩
  obtain ⟨e1, he1, hs1⟩ := h1.grow k
  obtain ⟨e2, he2, hs2⟩ := h2.grow k
  refine ⟨e1 ++ e2, by rw [he2, he1, List.append_assoc], fun r hr => ?_⟩
  rcases List.mem_append.1 hr with h | h
  · exact hs1 r h
  · exact hs2 r h

theorem binRel_push (st : Nat × Rules) (s1 s2 : Sym) :
    BinRel st (st.1 + 1, st.2.update (Cnf.yName (st.1 + 1)) fun v => v ++ [[s1, s2]]) := by
  refine ⟨fun h => WF_update st.2 (Cnf.yName (st.1 + 1)) (fun v => v ++ [[s1, s2]]) h,
    fun k => ?_, fun k hk => ?_⟩
  · by_cases hk : k = Cnf.yName (st.1 + 1)
    · subst hk
      exact ⟨[[s1, s2]], by simp only [get_update_same], by simp⟩
    · exact ⟨[], by simp only [get_update_other _ _ _ _ hk, List.append_nil], by simp⟩
  · exact get_update_other st.2 (Cnf.yName (st.1 + 1)) k (fun v => v ++ [[s1, s2]]) (hk _)

theorem binAlt_spec (lhs : Sym) (hY : ∀ n, lhs ≠ Cnf.yName n) :
    ∀ (fuel : Nat) (st : Nat × Rules) (rhs : Alt), rhs.length ≤ fuel + 2 →
      ∃ st1 out, Cnf.binAlt lhs fuel st rhs = some (st1, out) ∧ BinRel st st1 ∧
        out.length ≤ 2 ∧ (rhs.length ≤ 2 → out = rhs) ∧
        (2 < rhs.length → ∃ j, out = [rhs.headD [], Cnf.yName j])
  | fuel, st, [], _ => ⟨st, [], by simp [Cnf.binAlt], binRel_refl st, by simp, fun _ => rfl,
      fun h => by simp at h⟩
  | fuel, st, [a], _ => ⟨st, [a], by simp [Cnf.binAlt], binRel_refl st, by simp, fun _ => rfl,
      fun h => by simp at h⟩
  | fuel, st, [a, b], _ => ⟨st, [a, b], by simp [Cnf.binAlt], binRel_refl st, by simp,
      fun _ => rfl, fun h => by simp at h⟩
  | 0, st, s0 :: s1 :: s2 :: rest, h => by simp at h
  | fuel + 1, st, s0 :: s1 :: s2 :: rest, h => by
    have hlen : (s0 :: (rest ++ [Cnf.yName (st.1 + 1)])).length ≤ fuel + 2 := by
      simp only [List.length_cons, List.length_append, List.length_singleton,
        List.length_nil] at h ⊢
      omega
    obtain ⟨st1, out, h1, r1, l1, e1, g1⟩ := binAlt_spec lhs hY fuel
      (st.1 + 1, st.2.update (Cnf.yName (st.1 + 1)) fun v => v ++ [[s1, s2]])
      (s0 :: (rest ++ [Cnf.yName (st.1 + 1)])) hlen
    refine ⟨st1, out, ?_, binRel_trans _ _ _ (binRel_push st s1 s2) r1, l1,
      fun hh => by simp at hh, fun _ => ?_⟩
    · have hne : ¬ Cnf.yName (st.1 + 1) = lhs := fun hh => hY _ hh.symm
      simp only [Cnf.binAlt, if_neg hne]
      exact h1
    · cases rest with
      | nil =>
        exact ⟨st.1 + 1, by simpa using e1 (by simp)⟩
      | cons x xs =>
        obtain ⟨j, hj⟩ := g1 (by simp)
        exact ⟨j, by simpa using hj⟩

theorem binAlts_spec (lhs : Sym) (hY : ∀ n, lhs ≠ Cnf.yName n) :
    ∀ (alts : List Alt) (st : Nat × Rules),
      ∃ st1 outs, Cnf.binAlts lhs st alts = some (st1, outs) ∧ BinRel st st1 ∧ Short outs ∧
        BinImage alts outs
  | [], st => ⟨st, [], rfl, binRel_refl st, fun r hr => by simp at hr, rfl,
      fun i r hi => by simp at hi⟩
  | rhs :: rest, st => by
    obtain ⟨sa, o1, h1, r1, l1, e1, g1⟩ := binAlt_spec lhs hY rhs.length st rhs (by omega)
    obtain ⟨sb, os, h2, r2, s2, im2⟩ := binAlts_spec lhs hY rest sa
    refine ⟨sb, o1 :: os, by simp only [Cnf.binAlts, h1, h2], binRel_trans _ _ _ r1 r2,
      fun r hr => ?_, by simp [im2.1], fun i r hi => ?_⟩
    · rcases List.mem_cons.1 hr with rfl | hr'
      · exact l1
      · exact s2 r hr'
    · cases i with
      | zero =>
        simp only [List.getElem?_cons_zero, Option.some.injEq] at hi
        subst hi
        exact ⟨o1, by simp, e1, g1⟩
      | succ j =>
        simp only [List.getElem?_cons_succ] at hi ⊢
        exact im2.2 j r hi

theorem short_append (v ex : List Alt) (hv : Short v) (hex : ∀ r ∈ ex, r.length = 2) :
    Short (v ++ ex) := by
  intro r hr
  rcases List.mem_append.1 hr with h | h
  · exact hv r h
  · exact Nat.le_of_eq (hex r h)

theorem binKeys_spec (G : Rules) : ∀ (rest : List Sym) (st : Nat × Rules), rest.Nodup →
    (∀ k ∈ rest, ∀ n, k ≠ Cnf.yName n) → st.2.WF →
    (∀ k, k ∉ rest → Short (st.2.get k)) →
    (∀ k ∈ rest, st.2.get k = G.get k) →
    (∀ k, k ∉ rest → (∀ n, k ≠ Cnf.yName n) → BinImage (G.get k) (st.2.get k)) →
    ∃ st1, Cnf.binKeys st rest = some st1 ∧ st1.2.WF ∧ (∀ k, Short (st1.2.get k)) ∧
      ∀ k, (∀ n, k ≠ Cnf.yName n) → BinImage (G.get k) (st1.2.get k)
  | [], st, _, _, hwf, hs, _, hi =>
    ⟨st, rfl, hwf, fun k => hs k (by simp), fun k hk => hi k (by simp) hk⟩
  | lhs :: rest, st, hnd, hY, hwf, hs, hg, hi => by
    rw [List.nodup_cons] at hnd
    have hYl := hY lhs (List.mem_cons_self _ _)
    obtain ⟨sa, outs, h1, rel, sh, im⟩ := binAlts_spec lhs hYl (st.2.get lhs) st
    obtain ⟨st1, h2, w2, s2, i2⟩ := binKeys_spec G rest (sa.1, sa.2.set lhs outs) hnd.2
      (fun k hk => hY k (List.mem_cons_of_mem _ hk)) (WF_set _ _ _ (rel.wf hwf))
      (fun k hk => by
        by_cases hkl : k = lhs
        · subst hkl
          simp only [get_set_same]
          exact sh
        · simp only [get_set_other _ _ _ _ hkl]
          obtain ⟨ex, hex, hl⟩ := rel.grow k
          rw [hex]
          exact short_append _ _ (hs k (by simp [hkl, hk])) hl)
      (fun k hk => by
        have hkl : k ≠ lhs := fun hh => hnd.1 (hh ▸ hk)
        simp only [get_set_other _ _ _ _ hkl]
        rw [rel.same k (hY k (List.mem_cons_of_mem _ hk))]
        exact hg k (List.mem_cons_of_mem _ hk))
      (fun k hk hYk => by
        by_cases hkl : k = lhs
        · subst hkl
          simp only [get_set_same]
          rw [← hg k (List.mem_cons_self _ _)]
          exact im
        · simp only [get_set_other _ _ _ _ hkl]
          rw [rel.same k hYk]
          exact hi k (by simp [hkl, hk]) hYk)
    exact ⟨st1, by simp only [Cnf.binKeys, h1, h2], w2, s2, i2⟩

/-- C11: on every grammar (a map with ascending keys) with no nonterminal named
`Y<n>`, `binarizeGrammar` returns a grammar in which every alternative of every
nonterminal, original or generated, has at most two symbols, and in which every
nonterminal of the input has as many alternatives as before, the one at each
index being the old one unchanged if it had at most two symbols, and its first
symbol followed by a generated name otherwise. -/
theorem binarization_postcondition (G : Grammar) (hwf : G.rules.WF)
    (hY : ∀ k ∈ G.rules.keys, ∀ n, k ≠ Cnf.yName n) :
    ∃ G1, Cnf.binarizeGrammar G = some G1 ∧
      (∀ e ∈ G1.rules, ∀ r ∈ e.2, r.length ≤ 2) ∧
      ∀ k ∈ G.rules.keys,
        (G1.rules.get k).length = (G.rules.get k).length ∧
        ∀ (i : Nat) (r : Alt), (G.rules.get k)[i]? = some r →
          ∃ r1, (G1.rules.get k)[i]? = some r1 ∧ (r.length ≤ 2 → r1 = r) ∧
            (2 < r.length → ∃ j, r1 = [r.headD [], Cnf.yName j]) := by
  obtain ⟨st1, h1, w1, s1, i1⟩ := binKeys_spec G.rules G.rules.keys (0, G.rules)
    (keys_nodup _ hwf) hY hwf
    (fun k hk => by
      simp only [get_of_not_mem G.rules k hk]
      intro r hr
      simp at hr)
    (fun _ _ => rfl)
    (fun k hk _ => by
      simp only [get_of_not_mem G.rules k hk]
      exact ⟨rfl, fun i r hi => by simp at hi⟩)
  refine ⟨{ G with rules := st1.2 }, by simp only [Cnf.binarizeGrammar, h1]; rfl,
    fun e he r hr => ?_, fun k hk => i1 k (hY k hk)⟩
  exact s1 e.1 r (by rw [get_of_mem st1.2 e w1 he]; exact hr)

/-- C11 at the grammar `S → ABCD`, `A → a`, `B → b`, `C → c`, `D → d`. -/
theorem binarization_postcondition_witness :
    fourLong.rules.WF ∧ (∀ k ∈ fourLong.rules.keys, ∀ n, k ≠ Cnf.yName n) ∧
    ∃ G1, Cnf.binarizeGrammar fourLong = some G1 ∧
      (∀ e ∈ G1.rules, ∀ r ∈ e.2, r.length ≤ 2) ∧
      ∀ k ∈ fourLong.rules.keys,
        (G1.rules.get k).length = (fourLong.rules.get k).length ∧
        ∀ (i : Nat) (r : Alt), (fourLong.rules.get k)[i]? = some r →
          ∃ r1, (G1.rules.get k)[i]? = some r1 ∧ (r.length ≤ 2 → r1 = r) ∧
            (2 < r.length → ∃ j, r1 = [r.headD [], Cnf.yName j]) :=
  have hY : ∀ k ∈ fourLong.rules.keys, ∀ n, k ≠ Cnf.yName n := by
    intro k hk n hkn
    have h1 : ∀ k ∈ fourLong.rules.keys, k.head? ≠ some 89 := by decide
    exact h1 k hk (by rw [hkn]; rfl)
  ⟨by decide, hY, binarization_postcondition fourLong (by decide) hY⟩

/-! ## Fresh names and the two scenarios -/

/-- C12 at failing inputs: on `S → ab`, `X1 → c` the terminal isolation names its
first variable `X1`, a key of the input, and `X1` ends with the alternatives
`c | a`; on `S → ABC`, `Y1 → d` the binarization names its first variable `Y1`,
a key of the input, and `Y1` ends with the alternatives `d | BC`. -/
theorem fresh_names_collide :
    xTaken.rules.WF ∧ Cnf.xName 1 ∈ xTaken.rules.keys ∧
    Cnf.replaceTerminalsInMixedRHS xTaken = some xTakenOut ∧
    xTaken.rules.get (Cnf.xName 1) = [[ch 'c']] ∧
    xTakenOut.rules.get (Cnf.xName 1) = [[ch 'c'], [ch 'a']] ∧
    yTaken.rules.WF ∧ Cnf.yName 1 ∈ yTaken.rules.keys ∧
    Cnf.binarizeGrammar yTaken = some yTakenOut ∧
    yTaken.rules.get (Cnf.yName 1) = [[ch 'd']] ∧
    yTakenOut.rules.get (Cnf.yName 1) = [[ch 'd'], [ch 'B', ch 'C']] := by
  decide

/-- C13 as stated fails: the output of the three passes on `S → AB | b`,
`A → aA | a`, `B → b` has no nonterminal `A'`. -/
theorem gnf_scenario_has_no_primed :
    Gnf.toGNF 1 2 gnfMain = some gnfMainOut ∧
    [65, 39] ∉ gnfMainOut.rules.keys ∧
    gnfMainOut.rules.get [65, 39] ≠ [[ch 'a', [65, 39]], [eps]] := by
  decide

/-- C13, amended: for the input `S → AB | b`, `A → aA | a`, `B → b` with start
`S`, the output of `removeEpsilons`, `removeUnits`, `convertToGNF` is
`A → aA | a`, `B → b`, `S → aAB | aB | b`: every alternative starts with `a` or
`b`, and the nonterminals are `A`, `B`, `S`, no primed nonterminal being
introduced (no alternative of the input begins with its own nonterminal). -/
theorem gnf_scenario :
    (∀ rounds fuel, Gnf.toGNF (rounds + 1) (fuel + 2) gnfMain = some gnfMainOut) ∧
    (∀ e ∈ gnfMainOut.rules, ∀ r ∈ e.2, r.head? = some (ch 'a') ∨ r.head? = some (ch 'b')) ∧
    gnfMainOut.rules.keys = [ch 'A', ch 'B', ch 'S'] ∧
    (∀ e ∈ gnfMain.rules, ∀ r ∈ e.2, r.head? ≠ some e.1) :=
  ⟨fun rounds fuel => by
      rw [Nat.add_comm rounds, Nat.add_comm fuel]
      exact toGNF_more 1 rounds 2 fuel _ _ (by decide),
    by decide, by decide, by decide⟩

/-- C14: for the input `S → ASB`, `A → aAS | a | ε`, `B → SbS | A | bb` with start
`S`, `convertToCNF` returns `A → X1Y1 | a | X1S`,
`B → SY2 | X2X2 | X1Y3 | a | X1S`, `S → AY4 | SB`, `X1 → a`, `X2 → b`,
`Y1 → AS`, `Y2 → X2S`, `Y3 → AS`, `Y4 → SB`: no unit alternative, no `ε`
alternative, every alternative one terminal or two nonterminals. -/
theorem cnf_scenario :
    (∀ rounds, Cnf.convertToCNF (rounds + 2) cnfMain = some cnfMainOut) ∧
    (∀ e ∈ cnfMainOut.rules, ∀ r ∈ e.2, isUnit r = false ∧ r ≠ [eps] ∧ isCnfAlt r = true) ∧
    cnfMainOut.rules.keys = [ch 'A', ch 'B', ch 'S', Cnf.xName 1, Cnf.xName 2, Cnf.yName 1,
      Cnf.yName 2, Cnf.yName 3, Cnf.yName 4] :=
  ⟨fun rounds => by
      rw [Nat.add_comm]
      exact cnf_convert_more 2 rounds _ _ (by decide),
    by decide, by decide⟩

/-! ## Passes that find nothing to do -/

theorem set_set (k : Sym) (a b : List Alt) :
    ∀ (m : Rules), Rules.set (Rules.set m k a) k b = Rules.set m k b
  | [] => by simp [Rules.set]
  | (k1, v1) :: rest => by
    simp only [Rules.set]
    split_ifs with h1 h2
    · simp [Rules.set]
    · simp [Rules.set]
    · simp only [Rules.set, if_neg h1, if_neg h2]
      rw [set_set k a b rest]

theorem unitLoop_idle {body : Sym → Rules → Bool → Rules × Bool} (hb : UnitLike body)
    (m : Rules) (hwf : m.WF) (hno : ∀ k, NoUnits (m.get k)) (rounds : Nat) :
    unitLoop body sweepBound (rounds + 1) m = some m := by
  obtain ⟨r, hs⟩ := sweep_terminates hb (sweepBound m) none m false hwf (pending_card_lt m)
  have hid := sweep_idle hb _ none m false r hwf hno hs
  subst hid
  simp only [unitLoop, hs]

theorem isoAlt_idle (lhs : Sym) (size : Nat) (st : Cnf.IsoState) :
    ∀ (l : Alt), (1 < size → ∀ s ∈ l, isTerminal s = false) →
      Cnf.isoAlt lhs size st l = some (st, l)
  | [], _ => rfl
  | sym :: rest, h => by
    have h1 : Cnf.isoSym lhs size st sym = some (st, sym) := by
      unfold Cnf.isoSym
      rw [if_neg]
      simp only [Bool.and_eq_true, decide_eq_true_eq, not_and]
      intro ht hs
      rw [h hs sym (List.mem_cons_self _ _)] at ht
      exact absurd ht (by simp)
    have h2 := isoAlt_idle lhs size st rest fun hs s hm => h hs s (List.mem_cons_of_mem _ hm)
    simp only [Cnf.isoAlt, h1, h2]

theorem isoAlts_idle (lhs : Sym) (st : Cnf.IsoState) :
    ∀ (alts : List Alt), Isolated alts → Cnf.isoAlts lhs st alts = some (st, alts)
  | [], _ => rfl
  | rhs :: rest, h => by
    have h1 := isoAlt_idle lhs rhs.length st rhs (h rhs (List.mem_cons_self _ _))
    have h2 := isoAlts_idle lhs st rest fun r hr => h r (List.mem_cons_of_mem _ hr)
    simp only [Cnf.isoAlts, h1, h2]

theorem isoKeys_idle (st : Cnf.IsoState) (hwf : st.rules.WF)
    (hiso : ∀ k, Isolated (st.rules.get k)) :
    ∀ (rest : List Sym), (∀ k ∈ rest, k ∈ st.rules.keys) → Cnf.isoKeys st rest = some st
  | [], _ => rfl
  | lhs :: rest, hk => by
    have h1 := isoAlts_idle lhs st (st.rules.get lhs) (hiso lhs)
    have h2 : st.rules.set lhs (st.rules.get lhs) = st.rules :=
      set_self _ _ _ hwf (find_eq_get_of_mem _ _ (hk lhs (List.mem_cons_self _ _)))
    have h3 := isoKeys_idle st hwf hiso rest fun k hm => hk k (List.mem_cons_of_mem _ hm)
    simp only [Cnf.isoKeys, Cnf.isoKey, h1, h2, h3]

theorem binAlt_idle (lhs : Sym) (fuel : Nat) (st : Nat × Rules) :
    ∀ (rhs : Alt), rhs.length ≤ 2 → Cnf.binAlt lhs fuel st rhs = some (st, rhs)
  | [], _ => by simp [Cnf.binAlt]
  | [_], _ => by simp [Cnf.binAlt]
  | [_, _], _ => by simp [Cnf.binAlt]
  | _ :: _ :: _ :: _, h => by simp at h

theorem binAlts_idle (lhs : Sym) (st : Nat × Rules) :
    ∀ (alts : List Alt), Short alts → Cnf.binAlts lhs st alts = some (st, alts)
  | [], _ => rfl
  | rhs :: rest, h => by
    have h1 := binAlt_idle lhs rhs.length st rhs (h rhs (List.mem_cons_self _ _))
    have h2 := binAlts_idle lhs st rest fun r hr => h r (List.mem_cons_of_mem _ hr)
    simp only [Cnf.binAlts, h1, h2]

theorem binKeys_idle (st : Nat × Rules) (hwf : st.2.WF) (hs : ∀ k, Short (st.2.get k)) :
    ∀ (rest : List Sym), (∀ k ∈ rest, k ∈ st.2.keys) → Cnf.binKeys st rest = some st
  | [], _ => rfl
  | lhs :: rest, hk => by
    have h1 := binAlts_idle lhs st (st.2.get lhs) (hs lhs)
    have h2 : st.2.set lhs (st.2.get lhs) = st.2 :=
      set_self _ _ _ hwf (find_eq_get_of_mem _ _ (hk lhs (List.mem_cons_self _ _)))
    have h3 := binKeys_idle st hwf hs rest fun k hm => hk k (List.mem_cons_of_mem _ hm)
    simp only [Cnf.binKeys, h1, h2, h3]

theorem cnf_tail_idle (G : Grammar) (hwf : G.rules.WF) (h : Settled G.rules) (rounds : Nat) :
    Cnf.removeUnitProductions (rounds + 1) G = some G ∧
    Cnf.replaceTerminalsInMixedRHS G = some G ∧ Cnf.binarizeGrammar G = some G := by
  refine ⟨?_, ?_, ?_⟩
  · simp only [Cnf.removeUnitProductions,
      unitLoop_idle cnf_unitLike G.rules hwf (fun k => (h k).1) rounds, Option.map_some']
  · have := isoKeys_idle { terminalMap := [], counter := 0, rules := G.rules } hwf
      (fun k => (h k).2.1) G.rules.keys fun k hk => hk
    simp only [Cnf.replaceTerminalsInMixedRHS, this, Option.map_some']
  · have := binKeys_idle (0, G.rules) hwf (fun k => (h k).2.2) G.rules.keys fun k hk => hk
    simp only [Cnf.binarizeGrammar, this, Option.map_some']

theorem dropOnce_quiet (A : Sym) (r : Alt) (h : 1 < r.length → A ∉ r) : dropOnce A r = [] := by
  unfold dropOnce
  rw [List.filterMap_eq_nil_iff]
  intro i _
  rw [if_neg]
  rintro ⟨h1, h2⟩
  obtain ⟨hlt, heq⟩ := List.getElem?_eq_some.1 h1
  exact h h2 (heq ▸ List.getElem_mem hlt)

theorem flatMap_dropOnce_quiet (A : Sym) : ∀ (l : List Alt), (∀ r ∈ l, 1 < r.length → A ∉ r) →
    l.flatMap (dropOnce A) = []
  | [], _ => rfl
  | r :: l, h => by
    rw [List.flatMap_cons, dropOnce_quiet A r (h r (List.mem_cons_self _ _)),
      flatMap_dropOnce_quiet A l fun r1 h1 => h r1 (List.mem_cons_of_mem _ h1)]
    rfl

theorem addDropped_quiet (A : Sym) (m : Rules) (hwf : m.WF) (h : QuietFor A m) :
    addDropped A m = m := by
  unfold addDropped
  conv_rhs => rw [← List.map_id m]
  apply List.map_congr_left
  intro e he
  have hq : ∀ r ∈ e.2, 1 < r.length → A ∉ r := fun r hr =>
    h e.1 r (by rw [get_of_mem m e hwf he]; exact hr)
  rw [flatMap_dropOnce_quiet A e.2 hq, List.append_nil]
  rfl

theorem quietFor_of_subset (A : Sym) (m m1 : Rules) (h : QuietFor A m)
    (hs : ∀ k, (m1.get k).Sublist (m.get k)) : QuietFor A m1 :=
  fun k r hr => h k r ((hs k).subset hr)

theorem stripEps_sublist (v : List Alt) : (stripEps v).Sublist v := List.filter_sublist v

theorem cnf_eps_quiet_fold : ∀ (L : List Sym) (m : Rules), (∀ A ∈ L, QuietFor A m) → m.WF →
    (L.foldl Cnf.epsStep m).WF ∧ (∀ k, ((L.foldl Cnf.epsStep m).get k).Sublist (m.get k)) ∧
      ∀ k ∈ L, [eps] ∉ (L.foldl Cnf.epsStep m).get k
  | [], m, _, hwf => ⟨hwf, fun _ => List.Sublist.refl _, fun k hk => by simp at hk⟩
  | A :: L, m, hq, hwf => by
    have h1 : Cnf.epsStep m A = m.update A stripEps := by
      rw [Cnf.epsStep, addDropped_quiet A m hwf (hq A (List.mem_cons_self _ _))]
    have hsub : ∀ k, ((m.update A stripEps).get k).Sublist (m.get k) := by
      intro k
      by_cases hk : k = A
      · subst hk
        rw [get_update_same]
        exact stripEps_sublist _
      · rw [get_update_other _ _ _ _ hk]
    obtain ⟨w, s, e⟩ := cnf_eps_quiet_fold L (m.update A stripEps)
      (fun B hB => quietFor_of_subset B m _ (hq B (List.mem_cons_of_mem _ hB)) hsub)
      (WF_update _ _ _ hwf)
    simp only [List.foldl_cons, h1]
    refine ⟨w, fun k => (s k).trans (hsub k), fun k hk hmem => ?_⟩
    by_cases hkA : k = A
    · subst hkA
      have := (s k).subset hmem
      rw [get_update_same] at this
      exact ((mem_stripEps _ _).1 this).2 rfl
    · rcases List.mem_cons.1 hk with h | h
      · exact hkA h
      · exact e k h hmem

theorem gnf_add_quiet (m : Rules) (hwf : m.WF) : ∀ (L : List Sym), (∀ A ∈ L, QuietFor A m) →
    L.foldl (fun m A => addDropped A m) m = m
  | [], _ => rfl
  | A :: L, hq => by
    simp only [List.foldl_cons, addDropped_quiet A m hwf (hq A (List.mem_cons_self _ _))]
    exact gnf_add_quiet m hwf L fun B hB => hq B (List.mem_cons_of_mem _ hB)

theorem gnf_strip_sublist (start : Sym) : ∀ (L : List Sym) (m : Rules), m.WF →
    (L.foldl (fun m A => if A ≠ start then m.update A stripEps else m) m).WF ∧
      ∀ k, ((L.foldl (fun m A => if A ≠ start then m.update A stripEps else m) m).get k).Sublist
        (m.get k)
  | [], m, hwf => ⟨hwf, fun _ => List.Sublist.refl _⟩
  | A :: L, m, hwf => by
    simp only [List.foldl_cons]
    by_cases hA : A = start
    · simp only [hA, ne_eq, not_true_eq_false, if_false]
      exact gnf_strip_sublist start L m hwf
    · simp only [ne_eq, hA, not_false_eq_true, if_true]
      obtain ⟨w, s⟩ := gnf_strip_sublist start L (m.update A stripEps) (WF_update _ _ _ hwf)
      refine ⟨w, fun k => (s k).trans ?_⟩
      by_cases hk : k = A
      · subst hk
        rw [get_update_same]
        exact stripEps_sublist _
      · rw [get_update_other _ _ _ _ hk]

theorem nodup_get (m : Rules) (h : ∀ e ∈ m, e.2.Nodup) (k : Sym) : (m.get k).Nodup := by
  by_cases hk : k ∈ m.keys
  · exact h (k, m.get k) (mem_of_find m k _ (find_eq_get_of_mem m k hk))
  · rw [get_of_not_mem m k hk]
    exact List.nodup_nil

theorem quietFor_of_entries (A : Sym) (m : Rules)
    (h : ∀ e ∈ m, ∀ r ∈ e.2, 1 < r.length → A ∉ r) : QuietFor A m := by
  intro k r hr
  obtain ⟨e, he, _, hre⟩ := mem_of_mem_get m k r hr
  exact h e he r hre

theorem noUnits_of_entries (m : Rules) (h : ∀ e ∈ m, ∀ r ∈ e.2, isUnit r = false) (k : Sym) :
    NoUnits (m.get k) := by
  intro r hr
  obtain ⟨e, he, _, hre⟩ := mem_of_mem_get m k r hr
  exact h e he r hre

theorem nullable_nil (m : Rules) (h : ∀ e ∈ m, [eps] ∉ e.2) : nullable m = [] := by
  unfold nullable
  rw [List.map_eq_nil_iff, List.filter_eq_nil_iff]
  intro e he
  simp only [List.any_eq_true, not_exists, not_and]
  intro r hr hre
  simp only [isEpsAlt, decide_eq_true_eq] at hre
  exact h e he (hre ▸ hr)

theorem nullable_single (S : Sym) : ∀ (m : Rules), m.WF → S ∈ m.keys →
    (∀ e ∈ m, [eps] ∈ e.2 ↔ e.1 = S) → nullable m = [S]
  | [], _, hS, _ => by simp [keys] at hS
  | e :: rest, hwf, hS, h => by
    have hwf' := hwf
    simp only [WF, keys, List.map_cons, List.pairwise_cons] at hwf'
    have hany : ∀ e1 : Sym × List Alt, (e1.2.any isEpsAlt = true) ↔ [eps] ∈ e1.2 := by
      intro e1
      simp only [List.any_eq_true, isEpsAlt, decide_eq_true_eq]
      constructor
      · rintro ⟨r, hr, rfl⟩
        exact hr
      · intro hr
        exact ⟨_, hr, rfl⟩
    by_cases he : e.1 = S
    · have h1 : e.2.any isEpsAlt = true :=
        (hany e).2 ((h e (List.mem_cons_self _ _)).2 he)
      have h2 : nullable rest = [] := by
        apply nullable_nil
        intro e1 he1 hmem
        have := (h e1 (List.mem_cons_of_mem _ he1)).1 hmem
        have hlt := hwf'.1 e1.1 (List.mem_map_of_mem Prod.fst he1)
        rw [this, ← he] at hlt
        rw [strLt_irrefl] at hlt
        exact absurd hlt (by simp)
      simp only [nullable] at h2 ⊢
      rw [List.filter_cons, if_pos h1, List.map_cons, h2, he]
    · have h1 : ¬ (e.2.any isEpsAlt = true) := fun hh =>
        he ((h e (List.mem_cons_self _ _)).1 ((hany e).1 hh))
      have hS' : S ∈ keys rest := by
        simp only [keys, List.map_cons, List.mem_cons] at hS
        rcases hS with hS | hS
        · exact absurd hS.symm he
        · exact hS
      have := nullable_single S rest hwf'.2 hS' fun e1 he1 => h e1 (List.mem_cons_of_mem _ he1)
      simp only [nullable] at this ⊢
      rw [List.filter_cons, if_neg h1, this]

theorem stripEps_init (init : List Alt) (h : [eps] ∉ init) :
    stripEps (init ++ [[eps]]) = init := by
  unfold stripEps
  rw [List.filter_append]
  have h1 : init.filter (fun r => !isEpsAlt r) = init := by
    rw [List.filter_eq_self]
    intro r hr
    simp only [isEpsAlt, Bool.not_eq_true', decide_eq_false_iff_not]
    rintro rfl
    exact h hr
  rw [h1]
  simp [isEpsAlt]

theorem cnf_eps_idle (G : Grammar) (hwf : G.rules.WF)
    (honly : ∀ e ∈ G.rules, [eps] ∈ e.2 → e.1 = G.startSymbol)
    (hE : (∀ e ∈ G.rules, [eps] ∉ e.2) ∨
      ((∀ e ∈ G.rules, ∀ r ∈ e.2, 1 < r.length → G.startSymbol ∉ r) ∧
        ∃ init, G.rules.get G.startSymbol = init ++ [[eps]] ∧ [eps] ∉ init)) :
    Cnf.removeEpsilonProductions G = G := by
  rcases hE with hE | ⟨hq, init, hS, hi⟩
  · simp only [Cnf.removeEpsilonProductions, nullable_nil G.rules hE, List.foldl_nil,
      List.not_mem_nil, if_false]
  · have hmem : G.startSymbol ∈ G.rules.keys := by
      by_contra hk
      rw [get_of_not_mem _ _ hk] at hS
      simp at hS
    have hn : nullable G.rules = [G.startSymbol] := by
      apply nullable_single _ _ hwf hmem
      intro e he
      refine ⟨honly e he, fun hk => ?_⟩
      have := get_of_mem _ e hwf he
      rw [hk, hS] at this
      rw [← this]
      simp
    have h1 : Cnf.epsStep G.rules G.startSymbol = G.rules.update G.startSymbol stripEps := by
      rw [Cnf.epsStep, addDropped_quiet _ _ hwf (quietFor_of_entries _ _ hq)]
    simp only [Cnf.removeEpsilonProductions, hn, List.foldl_cons, List.foldl_nil, h1,
      List.mem_singleton, if_true]
    have h2 : (G.rules.update G.startSymbol stripEps).update G.startSymbol
        (fun v => v ++ [[eps]]) = G.rules := by
      simp only [update, get_set_same, set_set, hS, stripEps_init init hi]
      rw [← hS]
      exact set_self _ _ _ hwf (find_eq_get_of_mem _ _ hmem)
    rw [h2]

theorem isTerminal_of_isVariable (s : Sym) (h : isVariable s = true) : isTerminal s = false := by
  match s, h with
  | [], _ => rfl
  | [c], h =>
    simp only [isVariable, isNonTerminal, Bool.or_false] at h
    simp only [isTerminal, islower]
    simp only [isupper, Bool.and_eq_true, decide_eq_true_eq] at h
    simp only [Bool.and_eq_false_iff, decide_eq_false_iff_not]
    omega
  | _ :: _ :: _, _ => rfl

theorem settled_of_cnfForm (G : Grammar) (h : CnfForm G) : Settled G.rules := by
  intro k
  have hall : ∀ r ∈ G.rules.get k, isCnfAlt r = true ∨ r = [eps] := by
    intro r hr
    obtain ⟨e, he, _, hre⟩ := mem_of_mem_get G.rules k r hr
    rcases h e he r hre with h1 | h1
    · exact Or.inl h1
    · exact Or.inr h1.2
  refine ⟨fun r hr => ?_, fun r hr hlen s hs => ?_, fun r hr => ?_⟩
  · rcases hall r hr with h1 | h1
    · match r, h1 with
      | [t], h1 =>
        simp only [isCnfAlt] at h1
        simp only [isUnit]
        match t, h1 with
        | [c], h1 =>
          simp only [isTerminal, islower, Bool.and_eq_true, decide_eq_true_eq] at h1
          simp only [isNonTerminal, isupper, Bool.and_eq_false_iff, decide_eq_false_iff_not]
          omega
      | [_, _], _ => rfl
    · rw [h1]
      decide
  · rcases hall r hr with h1 | h1
    · match r, h1, hlen, hs with
      | [a, b], h1, _, hs =>
        simp only [isCnfAlt, Bool.and_eq_true] at h1
        simp only [List.mem_cons, List.mem_singleton, List.not_mem_nil, or_false] at hs
        rcases hs with rfl | rfl
        · exact isTerminal_of_isVariable _ h1.1
        · exact isTerminal_of_isVariable _ h1.2
    · rw [h1] at hlen
      simp at hlen
  · rcases hall r hr with h1 | h1
    · match r, h1 with
      | [_], _ => simp
      | [_, _], _ => simp
    · rw [h1]
      simp

/-- C15 as stated fails: `S → ε | AB`, `A → a`, `B → b` and `S → SA | a | ε`,
`A → a` satisfy the CNF postcondition; `convertToCNF` moves `ε` behind `AB` in
the first and adds a second alternative `a` to `S` in the second. -/
theorem cnf_not_idempotent :
    epsFirst.rules.WF ∧ CnfForm epsFirst ∧
    Cnf.convertToCNF 1 epsFirst = some epsFirstOut ∧ epsFirstOut ≠ epsFirst ∧
    startOnRight.rules.WF ∧ CnfForm startOnRight ∧
    Cnf.convertToCNF 2 startOnRight = some startOnRightOut ∧
    startOnRightOut ≠ startOnRight := by
  decide

/-- C15, amended: `convertToCNF` returns a grammar that satisfies the CNF
postcondition as it is, without adding, removing or reordering an alternative
and without a new nonterminal, when the grammar has no alternative `[ε]`, or
when its start symbol has `[ε]` once, as its last alternative, and occurs in no
alternative of two symbols. -/
theorem cnf_idempotent (G : Grammar) (hwf : G.rules.WF) (hcnf : CnfForm G)
    (hE : (∀ e ∈ G.rules, [eps] ∉ e.2) ∨
      ((∀ e ∈ G.rules, ∀ r ∈ e.2, 1 < r.length → G.startSymbol ∉ r) ∧
        ∃ init, G.rules.get G.startSymbol = init ++ [[eps]] ∧ [eps] ∉ init))
    (rounds : Nat) : Cnf.convertToCNF (rounds + 1) G = some G := by
  have honly : ∀ e ∈ G.rules, [eps] ∈ e.2 → e.1 = G.startSymbol := by
    intro e he hmem
    rcases hcnf e he _ hmem with h1 | h1
    · exact absurd h1 (by decide)
    · exact h1.1
  obtain ⟨h1, h2, h3⟩ := cnf_tail_idle G hwf (settled_of_cnfForm G hcnf) rounds
  simp only [Cnf.convertToCNF, cnf_eps_idle G hwf honly hE, h1, h2, h3, Option.some_bind]

/-- C15, amended, at `S → AB | ε`, `A → a`, `B → b`. -/
theorem cnf_idempotent_witness :
    epsLast.rules.WF ∧ CnfForm epsLast ∧
    ((∀ e ∈ epsLast.rules, [eps] ∉ e.2) ∨
      ((∀ e ∈ epsLast.rules, ∀ r ∈ e.2, 1 < r.length → epsLast.startSymbol ∉ r) ∧
        ∃ init, epsLast.rules.get epsLast.startSymbol = init ++ [[eps]] ∧ [eps] ∉ init)) ∧
    Cnf.convertToCNF (0 + 1) epsLast = some epsLast :=
  have hE : (∀ e ∈ epsLast.rules, [eps] ∉ e.2) ∨
      ((∀ e ∈ epsLast.rules, ∀ r ∈ e.2, 1 < r.length → epsLast.startSymbol ∉ r) ∧
        ∃ init, epsLast.rules.get epsLast.startSymbol = init ++ [[eps]] ∧ [eps] ∉ init) :=
    Or.inr ⟨by decide, [[ch 'A', ch 'B']], by decide, by decide⟩
  ⟨by decide, by decide, hE, cnf_idempotent epsLast (by decide) (by decide) hE 0⟩

/-! ## The linear bounded automata -/

theorem lba_run_more : ∀ (n k : Nat) (tape : List Nat) (state : Sym) (head : Int) (r : Bool),
    Lba.run n tape state head = some r → Lba.run (n + k) tape state head = some r
  | 0, _, _, _, _, _, h => by simp [Lba.run] at h
  | n + 1, k, tape, state, head, r, h => by
    rw [Nat.add_right_comm]
    simp only [Lba.run] at h ⊢
    split_ifs at h ⊢ with h1 h2
    · exact h
    · exact h
    · cases hf : Lba.transitions.find (state, tape.getD head.toNat 0) with
      | none => rw [hf] at h; exact h
      | some p =>
        obtain ⟨newState, write, move⟩ := p
        rw [hf] at h
        simp only at h ⊢
        split_ifs at h ⊢
        · exact lba_run_more n k _ _ _ r h
        · exact lba_run_more n k _ _ _ r h
        · exact h
        · exact lba_run_more n k _ _ _ r h

theorem lba2_run_more (t : Table) (acc : Sym) :
    ∀ (n k : Nat) (tape : List Nat) (state : Sym) (head : Int) (r : Bool),
    Lba2.run t acc n tape state head = some r → Lba2.run t acc (n + k) tape state head = some r
  | 0, _, _, _, _, _, h => by simp [Lba2.run] at h
  | n + 1, k, tape, state, head, r, h => by
    rw [Nat.add_right_comm]
    simp only [Lba2.run] at h ⊢
    split_ifs at h ⊢ with h1 h2
    · exact h
    · exact h
    · cases hf : t.find (state, tape.getD head.toNat 0) with
      | none => rw [hf] at h; exact h
      | some p =>
        obtain ⟨newState, write, move⟩ := p
        rw [hf] at h
        simp only at h ⊢
        split_ifs at h ⊢
        · exact lba2_run_more t acc n k _ _ _ r h
        · exact lba2_run_more t acc n k _ _ _ r h
        · exact h
        · exact lba2_run_more t acc n k _ _ _ r h

theorem anbn_length (n : Nat) : (anbn n).length = 2 * n := by
  simp [anbn]
  omega

/-- C19 at a failing input: `simulateLBA` of lba.cpp halts on `aababb` and returns
true, and `aababb` is no `a^n b^n` (on `aabb` it returns true, on `abab`
false). -/
theorem lba_accepts_aababb :
    (∀ fuel, Lba.simulateLBA (fuel + 19)
      [byte 'a', byte 'a', byte 'b', byte 'a', byte 'b', byte 'b'] = some true) ∧
    (∀ n, [byte 'a', byte 'a', byte 'b', byte 'a', byte 'b', byte 'b'] ≠ anbn n) ∧
    Lba.simulateLBA 12 [byte 'a', byte 'a', byte 'b', byte 'b'] = some true ∧
    Lba.simulateLBA 4 [byte 'a', byte 'b', byte 'a', byte 'b'] = some false := by
  refine ⟨fun fuel => ?_, fun n hn => ?_, by decide, by decide⟩
  · rw [Nat.add_comm]
    exact lba_run_more 19 fuel _ _ _ _ (by decide)
  · have hl := congrArg List.length hn
    rw [anbn_length] at hl
    have h3 : n = 3 := by
      simp only [List.length_cons, List.length_nil] at hl
      omega
    subst h3
    revert hn
    decide

/-- C20 at failing inputs: `simulateLBA(exampleTransitions, "q0", "q3", input)` of
lba2.cpp halts on `ab` and on `aabb` and returns false (the head leaves the tape
on the left in state `q2`, which is not the accept state), while `simulateLBA`
of lba.cpp returns true on `ab`. -/
theorem lba2_rejects_ab :
    (∀ fuel, Lba2.simulateLBA Lba2.exampleTransitions q0 q3 (fuel + 4) (anbn 1) = some false) ∧
    (∀ fuel, Lba2.simulateLBA Lba2.exampleTransitions q0 q3 (fuel + 11) (anbn 2)
      = some false) ∧
    Lba.simulateLBA 4 (anbn 1) = some true := by
  refine ⟨fun fuel => ?_, fun fuel => ?_, by decide⟩
  · rw [Nat.add_comm]
    exact lba2_run_more _ _ 4 fuel _ _ _ _ (by decide)
  · rw [Nat.add_comm]
    exact lba2_run_more _ _ 11 fuel _ _ _ _ (by decide)

/-! ## The order of enumeration -/

theorem find_none_of_not_mem (m : Rules) (k : Sym) (h : k ∉ m.keys) : m.find k = none := by
  rw [mem_keys_iff] at h
  simpa [count] using h

theorem mem_keys_of_find (m : Rules) (k : Sym) (v : List Alt) (h : m.find k = some v) :
    k ∈ m.keys := List.mem_map_of_mem Prod.fst (mem_of_find m k v h)

theorem wf_ext : ∀ (m1 m2 : Rules), m1.WF → m2.WF → (∀ k, m1.find k = m2.find k) → m1 = m2
  | [], [], _, _, _ => rfl
  | [], (k, v) :: r, _, _, h => by
    have := h k
    simp [find] at this
  | (k, v) :: r, [], _, _, h => by
    have := h k
    simp [find] at this
  | (k1, v1) :: r1, (k2, v2) :: r2, w1, w2, h => by
    have w1' := w1
    have w2' := w2
    simp only [WF, keys, List.map_cons, List.pairwise_cons] at w1' w2'
    have hk : k1 = k2 := by
      by_contra hne
      have a1 := h k1
      have a2 := h k2
      simp only [find, if_true, if_neg hne, if_neg (Ne.symm hne)] at a1 a2
      have b1 := w2'.1 k1 (mem_keys_of_find r2 k1 v1 a1.symm)
      have b2 := w1'.1 k2 (mem_keys_of_find r1 k2 v2 a2)
      rw [strLt_asymm _ _ b1] at b2
      exact absurd b2 (by simp)
    subst hk
    have hv : v1 = v2 := by
      have := h k1
      simpa [find] using this
    subst hv
    have hr : r1 = r2 := by
      apply wf_ext r1 r2 w1'.2 w2'.2
      intro k
      by_cases hkk : k = k1
      · subst hkk
        rw [find_none_of_not_mem r1 k fun hm => strLt_ne _ _ (w1'.1 k hm) rfl,
          find_none_of_not_mem r2 k fun hm => strLt_ne _ _ (w2'.1 k hm) rfl]
      · have := h k
        simpa [find, hkk] using this
    rw [hr]

theorem foldl_set_WF : ∀ (ins : List (Sym × List Alt)) (m : Rules), m.WF →
    (ins.foldl (fun m e => m.set e.1 e.2) m).WF
  | [], _, h => h
  | e :: rest, m, h => foldl_set_WF rest _ (WF_set m e.1 e.2 h)

theorem foldl_set_keys : ∀ (ins : List (Sym × List Alt)) (m : Rules) (k : Sym),
    k ∈ (ins.foldl (fun m e => m.set e.1 e.2) m).keys ↔ k ∈ ins.map Prod.fst ∨ k ∈ m.keys
  | [], _, _ => by simp
  | e :: rest, m, k => by
    simp only [List.foldl_cons, List.map_cons, List.mem_cons]
    rw [foldl_set_keys rest _ k, mem_keys_set]
    tauto

theorem foldl_set_find : ∀ (ins : List (Sym × List Alt)) (m : Rules),
    (ins.map Prod.fst).Nodup → ∀ (k : Sym) (v : List Alt),
      ((ins.foldl (fun m e => m.set e.1 e.2) m).find k = some v ↔
        (k, v) ∈ ins ∨ (k ∉ ins.map Prod.fst ∧ m.find k = some v))
  | [], _, _, _, _ => by simp
  | e :: rest, m, hnd, k, v => by
    simp only [List.map_cons, List.nodup_cons] at hnd
    simp only [List.foldl_cons, List.map_cons, List.mem_cons]
    rw [foldl_set_find rest _ hnd.2 k v]
    by_cases hk : k = e.1
    · subst hk
      rw [find_set_same]
      constructor
      · rintro (h | ⟨_, h⟩)
        · exact absurd (List.mem_map_of_mem Prod.fst h) hnd.1
        · simp only [Option.some.injEq] at h
          subst h
          exact Or.inl (Or.inl rfl)
      · rintro (h | h)
        · rcases h with h | h
          · have : v = e.2 := by rw [← h]
            subst this
            exact Or.inr ⟨hnd.1, rfl⟩
          · exact absurd (List.mem_map_of_mem Prod.fst h) hnd.1
        · exact absurd (Or.inl rfl) h.1
    · rw [find_set_other _ _ _ _ hk]
      constructor
      · rintro (h | ⟨h1, h2⟩)
        · exact Or.inl (Or.inr h)
        · exact Or.inr ⟨fun hh => hh.elim hk h1, h2⟩
      · rintro (h | ⟨h1, h2⟩)
        · rcases h with h | h
          · exact absurd (congrArg Prod.fst h) hk
          · exact Or.inl h
        · exact Or.inr ⟨fun hh => h1 (Or.inr hh), h2⟩

theorem build_perm (ins ins1 : List (Sym × List Alt)) (hnd : (ins.map Prod.fst).Nodup)
    (hp : ins.Perm ins1) : build ins1 = build ins := by
  have hnd1 : (ins1.map Prod.fst).Nodup := (hp.map Prod.fst).nodup_iff.1 hnd
  apply wf_ext _ _ (foldl_set_WF ins1 [] List.Pairwise.nil) (foldl_set_WF ins [] List.Pairwise.nil)
  intro k
  apply Option.ext
  intro v
  simp only [build, foldl_set_find ins1 [] hnd1, foldl_set_find ins [] hnd, find, and_false,
    or_false, Option.mem_def, reduceCtorEq]
  exact hp.symm.mem_iff

/-- C17, as stated, fails. The grammar of `main` in cnf.cpp is built by assigning `S`, then `A`,
then `B`; the map then holds the keys as `A`, `B`, `S`, and `printGrammar` writes
`A → aAS | a | ε`, `B → SbS | A | bb`, `S → ASB` in this order, the `S` line last and not
first. The numbering follows the same order: with `S → aB` assigned before `A → bB`, the
terminal of `A` gets `X1` and the terminal of `S` gets `X2`. -/
theorem insertion_order_not_kept :
    build cnfMainInserts = cnfMain.rules ∧
    cnfMainInserts.map Prod.fst = [ch 'S', ch 'A', ch 'B'] ∧
    (build cnfMainInserts).keys = [ch 'A', ch 'B', ch 'S'] ∧
    printGrammar ⟨ch 'S', build cnfMainInserts⟩ [] =
      [65, 32, 226, 134, 146, 32, 97, 65, 83, 32, 124, 32, 97, 32, 124, 32, 206, 181, 10] ++
      [66, 32, 226, 134, 146, 32, 83, 98, 83, 32, 124, 32, 65, 32, 124, 32, 98, 98, 10] ++
      [83, 32, 226, 134, 146, 32, 65, 83, 66, 10] ∧
    printLine (ch 'S', [[ch 'A', ch 'S', ch 'B']]) = [83, 32, 226, 134, 146, 32, 65, 83, 66, 10] ∧
    Cnf.replaceTerminalsInMixedRHS ⟨ch 'S', build twoInserts⟩ =
      some ⟨ch 'S', [(ch 'A', [[Cnf.xName 1, ch 'B']]), (ch 'S', [[Cnf.xName 2, ch 'B']]),
        (Cnf.xName 1, [[ch 'b']]), (Cnf.xName 2, [[ch 'a']])]⟩ := by
  decide

/-- C17, amended: the nonterminals are enumerated in ascending byte order of their names,
whatever the order of insertion, and the alternatives of each nonterminal in their insertion
order. For assignments to distinct keys, in any order: the map holds exactly the assigned keys,
strictly ascending; another order of the same assignments builds the same map, so
`printGrammar` writes the same text, one line an entry in map order after the title, and both
conversions return the same result; and `push_back` on the vector of a key puts the new
alternative last. -/
theorem enumeration_in_key_order (s : Sym) (ins ins1 : List (Sym × List Alt))
    (hnd : (ins.map Prod.fst).Nodup) (hp : ins.Perm ins1) :
    (build ins).WF ∧
    (∀ k, k ∈ (build ins).keys ↔ k ∈ ins.map Prod.fst) ∧
    (∀ k v, (k, v) ∈ ins → (build ins).get k = v) ∧
    build ins1 = build ins ∧
    (∀ title, printGrammar ⟨s, build ins1⟩ title =
      (if title = [] then [] else [10] ++ title ++ [10]) ++ (build ins).flatMap printLine) ∧
    (∀ rounds, Cnf.convertToCNF rounds ⟨s, build ins1⟩ = Cnf.convertToCNF rounds ⟨s, build ins⟩) ∧
    (∀ rounds fuel, Gnf.toGNF rounds fuel ⟨s, build ins1⟩ = Gnf.toGNF rounds fuel ⟨s, build ins⟩) ∧
    ∀ (m : Rules) (k : Sym) (r : Alt), (m.update k fun v => v ++ [r]).get k = m.get k ++ [r] := by
  have hb := build_perm ins ins1 hnd hp
  refine ⟨foldl_set_WF ins [] List.Pairwise.nil, ?_, ?_, hb, ?_, ?_, ?_, ?_⟩
  · intro k
    rw [build, foldl_set_keys]
    simp [keys]
  · intro k v hkv
    have := (foldl_set_find ins [] hnd k v).2 (Or.inl hkv)
    show ((build ins).find k).getD [] = v
    rw [build, this]
    rfl
  · intro title
    rw [hb]
    rfl
  · intro rounds
    rw [hb]
  · intro rounds fuel
    rw [hb]
  · intro m k r
    exact get_update_same m k _

/-- C17, amended, at the assignments of `main` in cnf.cpp and the same assignments in the
reverse order. -/
theorem enumeration_in_key_order_witness :
    (cnfMainInserts.map Prod.fst).Nodup ∧
    cnfMainInserts.Perm cnfMainInserts.reverse ∧
    build cnfMainInserts.reverse = build cnfMainInserts :=
  ⟨by decide, by decide,
    (enumeration_in_key_order (ch 'S') cnfMainInserts _ (by decide) (by decide)).2.2.2.1⟩

/-! ## What the final cleanup erases -/

theorem find_cleanup (m : Rules) (k : Sym) : (Gnf.cleanup m).find k =
    (m.find k).map fun v => v.filter fun r => !(r.isEmpty || !(isTerminal (r.headD []))) := by
  induction m with
  | nil => rfl
  | cons e rest ih =>
    obtain ⟨k1, v1⟩ := e
    simp only [Gnf.cleanup, List.map_cons, find] at ih ⊢
    split_ifs with h
    · rfl
    · exact ih

theorem get_cleanup (m : Rules) (k : Sym) : (Gnf.cleanup m).get k =
    (m.get k).filter fun r => !(r.isEmpty || !(isTerminal (r.headD []))) := by
  simp only [Rules.get, find_cleanup]
  cases m.find k <;> rfl

theorem keys_cleanup (m : Rules) : (Gnf.cleanup m).keys = m.keys := by
  simp [Gnf.cleanup, keys, List.map_map, Function.comp_def]

theorem kept_add_erased (p : Alt → Bool) : ∀ l : List Alt,
    (l.filter fun r => !p r).length + (l.filter p).length = l.length
  | [] => rfl
  | r :: l => by
    have ih := kept_add_erased p l
    cases h : p r <;> simp [List.filter_cons, h] <;> omega

theorem cleanup_count (m : Rules) :
    ((Gnf.cleanup m).map fun e => e.2.length).sum + discarded m = (m.map fun e => e.2.length).sum := by
  induction m with
  | nil => rfl
  | cons e rest ih =>
    have h := kept_add_erased (fun r => r.isEmpty || !(isTerminal (r.headD []))) e.2
    simp only [Gnf.cleanup, discarded, List.map_cons, List.sum_cons] at ih ⊢
    omega

/-- C18, as stated, fails: nothing is reported. On `A → Sb | a`, `S → a` the cleanup erases the
one alternative `Sb`, on `A → a`, `S → a` it erases none, and `convertToGNF` gives the caller
the same grammar in both cases, so that no function of what the conversion returns is the
number of erased alternatives. -/
theorem gnf_residual_not_reported :
    beforeCleanup 2 oneDropped = some oneDropped.rules ∧ discarded oneDropped.rules = 1 ∧
    beforeCleanup 2 noneDropped = some noneDropped.rules ∧ discarded noneDropped.rules = 0 ∧
    Gnf.convertToGNF 2 oneDropped = some noneDropped ∧
    Gnf.convertToGNF 2 noneDropped = some noneDropped ∧
    ¬ ∃ report : Option Grammar → Nat, ∀ fuel G m, beforeCleanup fuel G = some m →
      report (Gnf.convertToGNF fuel G) = discarded m := by
  refine ⟨by decide, by decide, by decide, by decide, by decide, by decide, ?_⟩
  rintro ⟨report, h⟩
  have h1 := h 2 oneDropped oneDropped.rules (by decide)
  have h2 := h 2 noneDropped noneDropped.rules (by decide)
  have e1 : Gnf.convertToGNF 2 oneDropped = some noneDropped := by decide
  have e2 : Gnf.convertToGNF 2 noneDropped = some noneDropped := by decide
  have d1 : discarded oneDropped.rules = 1 := by decide
  have d2 : discarded noneDropped.rules = 0 := by decide
  rw [e1, d1] at h1
  rw [e2, d2] at h2
  omega

/-- C18, amended: the final cleanup of `convertToGNF` drops the alternatives that are empty or
do not begin with a terminal, and the conversion gives the caller the cleaned grammar and
nothing else. On every grammar (a map with ascending keys) without empty alternative, with as
many rounds a loop as there are nonterminals, `convertToGNF` returns; the result has the start
symbol of the input and the nonterminals of the map before the cleanup, each with those of its
alternatives that begin with a terminal, in their order; and the alternatives kept and the
alternatives erased are together the alternatives before the cleanup. -/
theorem gnf_residual_dropped (G : Grammar) (hwf : G.rules.WF)
    (hne : ∀ e ∈ G.rules, ∀ r ∈ e.2, r ≠ []) (fuel : Nat) (hf : G.rules.length ≤ fuel) :
    ∃ m G1, beforeCleanup fuel G = some m ∧ Gnf.convertToGNF fuel G = some G1 ∧
      G1.startSymbol = G.startSymbol ∧ G1.rules.keys = m.keys ∧
      (∀ k, G1.rules.get k =
        (m.get k).filter fun r => !(r.isEmpty || !(isTerminal (r.headD [])))) ∧
      (G1.rules.map fun e => e.2.length).sum + discarded m = (m.map fun e => e.2.length).sum := by
  have hs : Gnf.sortStrings G.rules.keys = G.rules.keys := sortStrings_sorted _ hwf
  have hne1 : NoEmpty G.rules := by
    intro k r hr
    obtain ⟨e, he, _, hre⟩ := mem_of_mem_get G.rules k r hr
    exact hne e he r hre
  obtain ⟨m1, h1⟩ := gnfOrder_spec fuel G.rules.keys (keys_nodup _ hwf)
    (by simpa [keys] using hf) G.rules.keys [] G.rules rfl hwf hne1
    (fun v hv => by simp at hv) (fun v hv => hv)
  simp only [List.length_nil] at h1
  refine ⟨m1, { G with rules := Gnf.cleanup m1 }, ?_, ?_, rfl, keys_cleanup m1,
    get_cleanup m1, cleanup_count m1⟩
  · simp only [beforeCleanup, hs]
    exact h1
  · simp only [Gnf.convertToGNF, hs]
    rw [h1]
    rfl

/-- C18, amended, at `A → Sb | a`, `S → a` with two rounds a loop. -/
theorem gnf_residual_dropped_witness :
    oneDropped.rules.WF ∧ (∀ e ∈ oneDropped.rules, ∀ r ∈ e.2, r ≠ []) ∧
    oneDropped.rules.length ≤ 2 ∧
    ∃ m G1, beforeCleanup 2 oneDropped = some m ∧ Gnf.convertToGNF 2 oneDropped = some G1 ∧
      G1.startSymbol = oneDropped.startSymbol ∧ G1.rules.keys = m.keys ∧
      (∀ k, G1.rules.get k =
        (m.get k).filter fun r => !(r.isEmpty || !(isTerminal (r.headD [])))) ∧
      (G1.rules.map fun e => e.2.length).sum + discarded m = (m.map fun e => e.2.length).sum :=
  ⟨by decide, by decide, by decide,
    gnf_residual_dropped oneDropped (by decide) (by decide) 2 (by decide)⟩

/-! ## The derivation search and the pushdown simulation -/

/-- C21 at failing inputs: on the inputs `S` and `aSb`, which are no strings `a^n b^n`,
`simulateCFG` of cfg.cpp and `simulateCFG` of pda-cfg.cpp (with the grammar of its `main`) halt
and return true: the string taken from the queue is compared with the input before anything
asks whether it still holds a nonterminal. On `ab` they return true, on `ba` false; and
`simulateCFGtoPDA` of cfg-pda.cpp, for the same grammar, returns false on `S` and on `aSb`. -/
theorem cfg_accepts_sentential_forms :
    (∀ fuel, Cfg.simulateCFG (fuel + 1) [byte 'S'] = some true) ∧
    (∀ fuel, Cfg.simulateCFG (fuel + 2) [byte 'a', byte 'S', byte 'b'] = some true) ∧
    (∀ fuel, PdaCfg.simulateCFG (fuel + 1) [byte 'S'] exampleGrammar = some true) ∧
    (∀ fuel, PdaCfg.simulateCFG (fuel + 2) [byte 'a', byte 'S', byte 'b'] exampleGrammar
      = some true) ∧
    (∀ n, [byte 'S'] ≠ anbn n) ∧ (∀ n, [byte 'a', byte 'S', byte 'b'] ≠ anbn n) ∧
    Cfg.simulateCFG 3 (anbn 1) = some true ∧
    Cfg.simulateCFG 3 [byte 'b', byte 'a'] = some false ∧
    CfgPda.simulateCFGtoPDA 3 [byte 'S'] exampleGrammar = some false ∧
    CfgPda.simulateCFGtoPDA 8 [byte 'a', byte 'S', byte 'b'] exampleGrammar = some false := by
  refine ⟨fun fuel => rfl, fun fuel => rfl, fun fuel => rfl, fun fuel => rfl, fun n hn => ?_,
    fun n hn => ?_, by decide, by decide, by decide, by decide⟩
  · have hl := congrArg List.length hn
    rw [anbn_length] at hl
    simp at hl
    omega
  · have hl := congrArg List.length hn
    rw [anbn_length] at hl
    simp at hl
    omega

theorem pda_run_cons (g : CharMap) (input : List Nat) (fuel : Nat) (c : List Nat × Nat)
    (q : List (List Nat × Nat)) :
    CfgPda.run g input (fuel + 1) (c :: q) =
      if pdaAccepting input c = true then some true
      else CfgPda.run g input fuel (q ++ pdaNext g input c) := by
  obtain ⟨st, idx⟩ := c
  simp only [CfgPda.run, pdaAccepting, pdaNext, decide_eq_true_eq]
  split_ifs <;> simp_all

theorem treeBound_mono : ∀ (a b : Nat), a ≤ b → treeBound a ≤ treeBound b
  | a, 0, h => by
    have : a = 0 := by omega
    subst this
    exact Nat.le_refl _
  | a, b + 1, h => by
    by_cases hab : a = b + 1
    · subst hab
      exact Nat.le_refl _
    · have := treeBound_mono a b (by omega)
      simp only [treeBound]
      omega

theorem treeBound_pos (n : Nat) : 1 ≤ treeBound n := by
  cases n <;> simp [treeBound]

theorem getLastD_append_singleton (l : List Nat) (x d : Nat) : (l ++ [x]).getLastD d = x := by
  cases l <;> simp [List.getLastD]

theorem pdaWeight_next (input : List Nat) (c : List Nat × Nat) :
    pdaWeight input (pdaNext exampleGrammar input c) + 1 ≤ treeBound (pdaMeasure input c) := by
  obtain ⟨st, idx⟩ := c
  unfold pdaNext
  split_ifs with h1 h2 h3
  · simpa [pdaWeight] using treeBound_pos _
  · have htop : st.getLastD 0 = byte 'S' := by
      simpa [CharMap.count, exampleGrammar, eq_comm] using h2
    have hm : pdaMeasure input (st, idx) = 2 * (input.length + 1 - idx) + 1 := by
      simp only [pdaMeasure, htop, if_true]
    have h97 : ∀ l : List Nat, (if (l ++ [byte 'a']).getLastD 0 = byte 'S' then 1 else 0) = 0 := by
      intro l
      rw [getLastD_append_singleton]
      decide
    have e1 : pdaMeasure input (st.dropLast ++ [byte 'b', byte 'S', byte 'a'], idx)
        = 2 * (input.length + 1 - idx) := by
      have := h97 (st.dropLast ++ [byte 'b', byte 'S'])
      simp only [List.append_assoc, List.cons_append, List.nil_append] at this
      simp only [pdaMeasure, this, Nat.add_zero]
    have e2 : pdaMeasure input (st.dropLast ++ [byte 'b', byte 'a'], idx)
        = 2 * (input.length + 1 - idx) := by
      have := h97 (st.dropLast ++ [byte 'b'])
      simp only [List.append_assoc, List.cons_append, List.nil_append] at this
      simp only [pdaMeasure, this, Nat.add_zero]
    have hg : exampleGrammar.get (st.getLastD 0)
        = [[byte 'a', byte 'S', byte 'b'], [byte 'a', byte 'b']] := by
      rw [htop]
      rfl
    simp only [hg, hm, pdaWeight, List.map_cons, List.map_nil, List.reverse_cons,
      List.reverse_nil, List.nil_append, List.cons_append, List.sum_cons, List.sum_nil, e1, e2,
      treeBound]
    omega
  · have hle : pdaMeasure input (st.dropLast, idx + 1) ≤ 2 * (input.length + 1 - idx) - 1 := by
      simp only [pdaMeasure]
      split_ifs <;> omega
    have hm : 2 * (input.length + 1 - idx) ≤ pdaMeasure input (st, idx) := by
      simp only [pdaMeasure]
      omega
    have hpos : 1 ≤ 2 * (input.length + 1 - idx) := by omega
    obtain ⟨k, hk⟩ : ∃ k, pdaMeasure input (st, idx) = k + 1 := ⟨pdaMeasure input (st, idx) - 1, by omega⟩
    have := treeBound_mono (pdaMeasure input (st.dropLast, idx + 1)) k (by omega)
    simp only [pdaWeight, List.map_cons, List.map_nil, List.sum_cons, List.sum_nil, hk, treeBound]
    omega
  · simpa [pdaWeight] using treeBound_pos _

theorem pdaWeight_append (input : List Nat) (q1 q2 : List (List Nat × Nat)) :
    pdaWeight input (q1 ++ q2) = pdaWeight input q1 + pdaWeight input q2 := by
  simp [pdaWeight]

theorem pda_run_spec (input : List Nat) : ∀ (fuel : Nat) (q : List (List Nat × Nat)),
    pdaWeight input q ≤ fuel →
    ∃ b, CfgPda.run exampleGrammar input fuel q = some b ∧
      (b = true ↔ ∃ c ∈ q, PdaAccepts exampleGrammar input c)
  | fuel, [], _ => ⟨false, by cases fuel <;> rfl, by simp⟩
  | 0, c :: q, h => by
    have := treeBound_pos (pdaMeasure input c)
    simp only [pdaWeight, List.map_cons, List.sum_cons] at h
    omega
  | fuel + 1, c :: q, h => by
    rw [pda_run_cons]
    by_cases hacc : pdaAccepting input c = true
    · rw [if_pos hacc]
      exact ⟨true, rfl, fun _ => ⟨c, List.mem_cons_self _ _, PdaAccepts.here c hacc⟩, fun _ => rfl⟩
    · rw [if_neg hacc]
      have hw := pdaWeight_next input c
      have hq : pdaWeight input (q ++ pdaNext exampleGrammar input c) ≤ fuel := by
        rw [pdaWeight_append]
        simp only [pdaWeight, List.map_cons, List.sum_cons] at h hw ⊢
        omega
      obtain ⟨b, hb, hiff⟩ := pda_run_spec input fuel _ hq
      refine ⟨b, hb, hiff.trans ⟨?_, ?_⟩⟩
      · rintro ⟨d, hd, hacd⟩
        rcases List.mem_append.1 hd with h1 | h1
        · exact ⟨d, List.mem_cons_of_mem _ h1, hacd⟩
        · exact ⟨c, List.mem_cons_self _ _, PdaAccepts.next c d (by simpa using hacc) h1 hacd⟩
      · rintro ⟨d, hd, hacd⟩
        rcases List.mem_cons.1 hd with h1 | h1
        · subst h1
          cases hacd with
          | here _ h2 => exact absurd h2 hacc
          | next _ e _ he hae => exact ⟨e, List.mem_append_right _ he, hae⟩
        · exact ⟨d, List.mem_append_left _ h1, hacd⟩

theorem pdaAccepts_nil (g : CharMap) (input : List Nat) (i : Nat) :
    PdaAccepts g input ([], i) ↔ i = input.length := by
  constructor
  · intro h
    cases h with
    | here _ h1 => simpa [pdaAccepting] using h1
    | next _ d _ hd _ => simp [pdaNext] at hd
  · intro h
    exact PdaAccepts.here _ (by simp [pdaAccepting, h])

theorem drop_eq_cons_iff (l : List Nat) (i t : Nat) (rest : List Nat) :
    l.drop i = t :: rest ↔ i < l.length ∧ l.getD i 0 = t ∧ l.drop (i + 1) = rest := by
  constructor
  · intro h
    have hlt : i < l.length := by
      by_contra hge
      rw [List.drop_eq_nil_of_le (by omega)] at h
      simp at h
    rw [List.drop_eq_getElem_cons hlt] at h
    simp only [List.cons.injEq] at h
    refine ⟨hlt, ?_, h.2⟩
    rw [List.getD_eq_getElem _ _ hlt]
    exact h.1
  · rintro ⟨hlt, h1, h2⟩
    rw [List.drop_eq_getElem_cons hlt, h2, ← h1, List.getD_eq_getElem _ _ hlt]

theorem pdaAccepts_terminal (input st : List Nat) (t i : Nat) (ht : t ≠ byte 'S') :
    PdaAccepts exampleGrammar input (st ++ [t], i) ↔
      ∃ rest, input.drop i = t :: rest ∧ PdaAccepts exampleGrammar input (st, i + 1) := by
  have hcount : exampleGrammar.count t = false := by
    simp [CharMap.count, exampleGrammar, Ne.symm ht]
  have hnext : pdaNext exampleGrammar input (st ++ [t], i) =
      if i < input.length ∧ input.getD i 0 = t then [(st, i + 1)] else [] := by
    simp only [pdaNext, getLastD_append_singleton, hcount, List.dropLast_concat,
      List.append_eq_nil, List.cons_ne_nil, and_false, false_or, Bool.false_eq_true, if_false]
    by_cases h1 : i < input.length
    · have : ¬ i > input.length := by omega
      simp [h1, this, eq_comm]
    · by_cases h2 : i > input.length
      · simp [h1, h2]
      · simp [h1, h2]
  constructor
  · intro h
    cases h with
    | here _ h1 => simp [pdaAccepting] at h1
    | next _ d _ hd hacc =>
      rw [hnext] at hd
      split_ifs at hd with hc
      · simp only [List.mem_singleton] at hd
        subst hd
        exact ⟨input.drop (i + 1), (drop_eq_cons_iff input i t _).2 ⟨hc.1, hc.2, rfl⟩, hacc⟩
      · simp at hd
  · rintro ⟨rest, hdrop, hacc⟩
    obtain ⟨h1, h2, _⟩ := (drop_eq_cons_iff input i t rest).1 hdrop
    refine PdaAccepts.next _ (st, i + 1) (by simp [pdaAccepting]) ?_ hacc
    rw [hnext, if_pos ⟨h1, h2⟩]
    exact List.mem_singleton_self _

theorem pdaAccepts_S (input st : List Nat) (i : Nat) :
    PdaAccepts exampleGrammar input (st ++ [byte 'S'], i) ↔
      i ≤ input.length ∧
        (PdaAccepts exampleGrammar input (st ++ [byte 'b', byte 'S', byte 'a'], i) ∨
         PdaAccepts exampleGrammar input (st ++ [byte 'b', byte 'a'], i)) := by
  have hcount : exampleGrammar.count (byte 'S') = true := by decide
  have hget : exampleGrammar.get (byte 'S')
      = [[byte 'a', byte 'S', byte 'b'], [byte 'a', byte 'b']] := rfl
  have hnext : pdaNext exampleGrammar input (st ++ [byte 'S'], i) =
      if i ≤ input.length then
        [(st ++ [byte 'b', byte 'S', byte 'a'], i), (st ++ [byte 'b', byte 'a'], i)]
      else [] := by
    simp only [pdaNext, getLastD_append_singleton, hcount, hget, List.dropLast_concat,
      List.append_eq_nil, List.cons_ne_nil, and_false, false_or, if_true, List.map_cons,
      List.map_nil, List.reverse_cons, List.reverse_nil, List.nil_append, List.cons_append]
    by_cases h1 : i ≤ input.length
    · have : ¬ i > input.length := by omega
      simp [h1, this]
    · have : i > input.length := by omega
      simp [h1, this]
  constructor
  · intro h
    cases h with
    | here _ h1 => simp [pdaAccepting] at h1
    | next _ d _ hd hacc =>
      rw [hnext] at hd
      split_ifs at hd with hc
      · simp only [List.mem_cons, List.mem_singleton, List.not_mem_nil, or_false] at hd
        rcases hd with rfl | rfl
        · exact ⟨hc, Or.inl hacc⟩
        · exact ⟨hc, Or.inr hacc⟩
      · simp at hd
  · rintro ⟨hle, h | h⟩
    · refine PdaAccepts.next _ _ (by simp [pdaAccepting]) ?_ h
      rw [hnext, if_pos hle]
      simp
    · refine PdaAccepts.next _ _ (by simp [pdaAccepting]) ?_ h
      rw [hnext, if_pos hle]
      simp

theorem anbn_succ (n : Nat) : anbn (n + 1) = byte 'a' :: (anbn n ++ [byte 'b']) := by
  simp only [anbn, List.replicate_succ, List.cons_append, List.append_assoc]
  congr 2
  rw [← List.replicate_succ, List.replicate_succ']

theorem drop_of_drop_append (l u v : List Nat) (i : Nat) (h : l.drop i = u ++ v) :
    l.drop (i + u.length) = v := by
  rw [← List.drop_drop, h, List.drop_left]

theorem pdaAccepts_of_anbn (input : List Nat) : ∀ (m : Nat) (st : List Nat) (i : Nat)
    (rest : List Nat), input.drop i = anbn (m + 1) ++ rest →
    PdaAccepts exampleGrammar input (st, i + 2 * (m + 1)) →
    PdaAccepts exampleGrammar input (st ++ [byte 'S'], i)
  | 0, st, i, rest, hd, hacc => by
    have hd1 : input.drop i = byte 'a' :: (byte 'b' :: rest) := hd
    have hle : i ≤ input.length := Nat.le_of_lt ((drop_eq_cons_iff _ _ _ _).1 hd1).1
    have hd2 : input.drop (i + 1) = byte 'b' :: rest := ((drop_eq_cons_iff _ _ _ _).1 hd1).2.2
    have h1 : PdaAccepts exampleGrammar input (st ++ [byte 'b'], i + 1) :=
      (pdaAccepts_terminal input st (byte 'b') (i + 1) (by decide)).2 ⟨rest, hd2, hacc⟩
    have h2 : PdaAccepts exampleGrammar input ((st ++ [byte 'b']) ++ [byte 'a'], i) :=
      (pdaAccepts_terminal input _ (byte 'a') i (by decide)).2 ⟨_, hd1, h1⟩
    rw [List.append_assoc] at h2
    exact (pdaAccepts_S input st i).2 ⟨hle, Or.inr h2⟩
  | m + 1, st, i, rest, hd, hacc => by
    rw [anbn_succ, List.cons_append, List.append_assoc] at hd
    have hle : i ≤ input.length := Nat.le_of_lt ((drop_eq_cons_iff _ _ _ _).1 hd).1
    have hd2 : input.drop (i + 1) = anbn (m + 1) ++ ([byte 'b'] ++ rest) :=
      ((drop_eq_cons_iff _ _ _ _).1 hd).2.2
    have hd3 := drop_of_drop_append input _ _ _ hd2
    rw [anbn_length] at hd3
    have h1 : PdaAccepts exampleGrammar input (st ++ [byte 'b'], i + 1 + 2 * (m + 1)) :=
      (pdaAccepts_terminal input st (byte 'b') _ (by decide)).2
        ⟨rest, hd3, by
          have : i + 1 + 2 * (m + 1) + 1 = i + 2 * (m + 1 + 1) := by omega
          rw [this]
          exact hacc⟩
    have h2 := pdaAccepts_of_anbn input m (st ++ [byte 'b']) (i + 1) _ hd2 h1
    have h3 : PdaAccepts exampleGrammar input (((st ++ [byte 'b']) ++ [byte 'S']) ++ [byte 'a'], i) :=
      (pdaAccepts_terminal input _ (byte 'a') i (by decide)).2 ⟨_, hd, h2⟩
    rw [List.append_assoc, List.append_assoc] at h3
    exact (pdaAccepts_S input st i).2 ⟨hle, Or.inl h3⟩

theorem anbn_of_pdaAccepts (input : List Nat) : ∀ (k : Nat) (st : List Nat) (i : Nat),
    input.length - i ≤ k → PdaAccepts exampleGrammar input (st ++ [byte 'S'], i) →
    ∃ n rest, input.drop i = anbn (n + 1) ++ rest ∧
      PdaAccepts exampleGrammar input (st, i + 2 * (n + 1))
  | k, st, i, hk, h => by
    obtain ⟨_, h1 | h1⟩ := (pdaAccepts_S input st i).1 h
    · have e : st ++ [byte 'b', byte 'S', byte 'a'] = ((st ++ [byte 'b']) ++ [byte 'S']) ++ [byte 'a'] := by
        simp
      rw [e] at h1
      obtain ⟨r1, hd1, h2⟩ := (pdaAccepts_terminal input _ (byte 'a') i (by decide)).1 h1
      obtain ⟨hlt, _, hdrop⟩ := (drop_eq_cons_iff _ _ _ _).1 hd1
      match k, hk with
      | 0, hk => omega
      | k + 1, hk =>
        obtain ⟨n, rest, hd2, h3⟩ := anbn_of_pdaAccepts input k (st ++ [byte 'b']) (i + 1)
          (by omega) h2
        obtain ⟨r2, hd3, h4⟩ := (pdaAccepts_terminal input st (byte 'b') _ (by decide)).1 h3
        have hrest := drop_of_drop_append input _ _ _ hd2
        rw [anbn_length, hd3] at hrest
        refine ⟨n + 1, r2, ?_, ?_⟩
        · rw [hd1, ← hdrop, hd2, anbn_succ (n + 1), ← hrest]
          simp
        · have : i + 2 * (n + 1 + 1) = i + 1 + 2 * (n + 1) + 1 := by omega
          rw [this]
          exact h4
    · have e : st ++ [byte 'b', byte 'a'] = (st ++ [byte 'b']) ++ [byte 'a'] := by simp
      rw [e] at h1
      obtain ⟨r1, hd1, h2⟩ := (pdaAccepts_terminal input _ (byte 'a') i (by decide)).1 h1
      obtain ⟨r2, hd2, h3⟩ := (pdaAccepts_terminal input st (byte 'b') _ (by decide)).1 h2
      obtain ⟨_, _, hdrop⟩ := (drop_eq_cons_iff _ _ _ _).1 hd1
      refine ⟨0, r2, ?_, h3⟩
      rw [hd1, ← hdrop, hd2]
      rfl

theorem pdaAccepts_start (input : List Nat) :
    PdaAccepts exampleGrammar input ([byte 'S'], 0) ↔ ∃ n, 1 ≤ n ∧ input = anbn n := by
  constructor
  · intro h
    obtain ⟨n, rest, hd, hacc⟩ := anbn_of_pdaAccepts input input.length [] 0 (by omega) h
    rw [pdaAccepts_nil] at hacc
    simp only [List.drop_zero] at hd
    have hl := congrArg List.length hd
    rw [List.length_append, anbn_length] at hl
    have hr : rest = [] := List.eq_nil_of_length_eq_zero (by omega)
    rw [hr, List.append_nil] at hd
    exact ⟨n + 1, by omega, hd⟩
  · rintro ⟨n, hn, rfl⟩
    obtain ⟨m, rfl⟩ : ∃ m, n = m + 1 := ⟨n - 1, by omega⟩
    have := pdaAccepts_of_anbn (anbn (m + 1)) m [] 0 [] (by simp)
      ((pdaAccepts_nil _ _ _).2 (by rw [anbn_length]; omega))
    simpa using this

/-- C22: for every input string, `simulateCFGtoPDA` with the grammar `S → aSb | ab` halts,
within a number of rounds bounded by the length of the input, and returns true if and only if
the input is `a^n b^n` for some `n ≥ 1`. -/
theorem cfg_pda_decides_anbn (input : List Nat) (fuel : Nat) :
    ∃ b, CfgPda.simulateCFGtoPDA (treeBound (2 * input.length + 3) + fuel) input exampleGrammar
        = some b ∧
      (b = true ↔ ∃ n, 1 ≤ n ∧ input = anbn n) := by
  have hw : pdaWeight input [([byte 'S'], 0)] ≤ treeBound (2 * input.length + 3) + fuel := by
    have : pdaMeasure input ([byte 'S'], 0) = 2 * input.length + 3 := by
      simp only [pdaMeasure, List.getLastD]
      simp
      omega
    simp only [pdaWeight, List.map_cons, List.map_nil, List.sum_cons, List.sum_nil, this]
    omega
  obtain ⟨b, hb, hiff⟩ := pda_run_spec input _ _ hw
  refine ⟨b, hb, hiff.trans ?_⟩
  rw [← pdaAccepts_start]
  simp

/-! ## The expansion of binarized alternatives -/

/-- C25 at a failing input: on `S → ABCD` (with `A → a`, `B → b`, `C → c`, `D → d`, no name
`Y<n>` among the keys) `binarizeGrammar` returns `S → AY2`, `Y1 → BC`, `Y2 → DY1`; the
expansion of `AY2` through the rules of `Y1` and `Y2` is `ADBC`, not `ABCD`. On `S → ABC` it
returns `S → AY1`, `Y1 → BC`, whose expansion is `ABC`. -/
theorem binarization_reorders :
    (∀ k ∈ fourLong.rules.keys, isYName k = false) ∧
    Cnf.binarizeGrammar fourLong = some fourLongCnf ∧
    fourLong.rules.get (ch 'S') = [[ch 'A', ch 'B', ch 'C', ch 'D']] ∧
    fourLongCnf.rules.get (ch 'S') = [[ch 'A', Cnf.yName 2]] ∧
    fourLongCnf.rules.get (Cnf.yName 2) = [[ch 'D', Cnf.yName 1]] ∧
    fourLongCnf.rules.get (Cnf.yName 1) = [[ch 'B', ch 'C']] ∧
    (∀ fuel, expandY fourLongCnf.rules (fuel + 2) [ch 'A', Cnf.yName 2]
      = [ch 'A', ch 'D', ch 'B', ch 'C']) ∧
    [ch 'A', ch 'D', ch 'B', ch 'C'] ≠ [ch 'A', ch 'B', ch 'C', ch 'D'] ∧
    Cnf.binarizeGrammar threeLong
      = some ⟨ch 'S', [(ch 'S', [[ch 'A', Cnf.yName 1]]), (Cnf.yName 1, [[ch 'B', ch 'C']])]⟩ ∧
    expandY [(ch 'S', [[ch 'A', Cnf.yName 1]]), (Cnf.yName 1, [[ch 'B', ch 'C']])] 1
      [ch 'A', Cnf.yName 1] = [ch 'A', ch 'B', ch 'C'] := by
  refine ⟨by decide, by decide, by decide, by decide, by decide, by decide, fun fuel => ?_,
    by decide, by decide, by decide⟩
  induction fuel with
  | zero => decide
  | succ n ih =>
    have h1 : isYName (Cnf.yName 2) = true := by decide
    have h2 : isYName (ch 'A') = false := by decide
    have h3 : fourLongCnf.rules.get (Cnf.yName 2) = [[ch 'D', Cnf.yName 1]] := by decide
    have h4 : isYName (ch 'D') = false := by decide
    have h5 : isYName (Cnf.yName 1) = true := by decide
    have h6 : fourLongCnf.rules.get (Cnf.yName 1) = [[ch 'B', ch 'C']] := by decide
    have h7 : isYName (ch 'B') = false := by decide
    have h8 : isYName (ch 'C') = false := by decide
    have e1 : ∀ k, expandY fourLongCnf.rules (k + 1) [ch 'B', ch 'C'] = [ch 'B', ch 'C'] := by
      intro k
      simp [expandY, h7, h8]
    have e0 : ∀ k, expandY fourLongCnf.rules (k + 2) [ch 'D', Cnf.yName 1]
        = [ch 'D', ch 'B', ch 'C'] := by
      intro k
      rw [expandY]
      simp only [List.flatMap_cons, List.flatMap_nil, h4, h5, h6, e1]
      simp
    rw [expandY]
    simp only [List.flatMap_cons, List.flatMap_nil, h1, h2, h3, e0]
    simp

/-! ## The sweeps of the unit loop -/

theorem unitLoop_two_sweeps {body : Sym → Rules → Bool → Rules × Bool} (hb : UnitLike body)
    (m : Rules) (hwf : m.WF) :
    ∃ m1 c1, sweep body (sweepBound m) none m false = some (m1, c1) ∧
      sweep body (sweepBound m1) none m1 false = some (m1, false) ∧
      (∀ rounds, unitLoop body sweepBound (rounds + 2) m = some m1) ∧
      (c1 = false → unitLoop body sweepBound 1 m = some m1) := by
  obtain ⟨r, hs⟩ := sweep_terminates hb (sweepBound m) none m false hwf (pending_card_lt m)
  have hpost := sweep_post hb _ none m false r hwf (by intro k hk; simp [isAfter] at hk) hs
  obtain ⟨m1, c1⟩ := r
  obtain ⟨r2, hs2⟩ :=
    sweep_terminates hb (sweepBound m1) none m1 false hpost.1 (pending_card_lt m1)
  have hid := sweep_idle hb _ none m1 false r2 hpost.1 hpost.2 hs2
  subst hid
  refine ⟨m1, c1, hs, hs2, fun rounds => ?_, fun hc => ?_⟩
  · simp only [unitLoop, hs]
    cases c1 with
    | false => rfl
    | true => simp only [hs2]
  · subst hc
    simp only [unitLoop, hs]

/-- C26: on every grammar (a map with ascending keys), unit cycles included, the loop of
`removeUnitProductions` and the loop of `removeUnits` stop after at most two sweeps: the first
sweep returns a map on which a second sweep changes nothing and leaves `changed` false, so
that the function returns that map whenever it is given two or more sweeps, and after the
first sweep already when that sweep left `changed` false. -/
theorem unit_loop_two_sweeps (G : Grammar) (hwf : G.rules.WF) :
    (∃ m1 c1, sweep Cnf.unitBody (sweepBound G.rules) none G.rules false = some (m1, c1) ∧
      sweep Cnf.unitBody (sweepBound m1) none m1 false = some (m1, false) ∧
      (∀ rounds, Cnf.removeUnitProductions (rounds + 2) G = some { G with rules := m1 }) ∧
      (c1 = false → Cnf.removeUnitProductions 1 G = some { G with rules := m1 })) ∧
    (∃ m1 c1, sweep Gnf.unitBody (sweepBound G.rules) none G.rules false = some (m1, c1) ∧
      sweep Gnf.unitBody (sweepBound m1) none m1 false = some (m1, false) ∧
      (∀ rounds, Gnf.removeUnits (rounds + 2) G = some { G with rules := m1 }) ∧
      (c1 = false → Gnf.removeUnits 1 G = some { G with rules := m1 })) := by
  constructor
  · obtain ⟨m1, c1, h1, h2, h3, h4⟩ := unitLoop_two_sweeps cnf_unitLike G.rules hwf
    refine ⟨m1, c1, h1, h2, fun rounds => ?_, fun hc => ?_⟩
    · simp only [Cnf.removeUnitProductions, h3 rounds, Option.map_some']
    · simp only [Cnf.removeUnitProductions, h4 hc, Option.map_some']
  · obtain ⟨m1, c1, h1, h2, h3, h4⟩ := unitLoop_two_sweeps gnf_unitLike G.rules hwf
    refine ⟨m1, c1, h1, h2, fun rounds => ?_, fun hc => ?_⟩
    · simp only [Gnf.removeUnits, h3 rounds, Option.map_some']
    · simp only [Gnf.removeUnits, h4 hc, Option.map_some']

/-- C26 at the unit cycle `A → B`, `B → A`: the first sweep of `removeUnits` leaves both
nonterminals without alternative and `changed` true, the second changes nothing. -/
theorem unit_loop_two_sweeps_witness :
    unitCycle.rules.WF ∧
    sweep Gnf.unitBody (sweepBound unitCycle.rules) none unitCycle.rules false
      = some ([(ch 'A', []), (ch 'B', [])], true) ∧
    Gnf.removeUnits 1 unitCycle = none ∧
    ∃ m1 c1, sweep Gnf.unitBody (sweepBound unitCycle.rules) none unitCycle.rules false
        = some (m1, c1) ∧
      sweep Gnf.unitBody (sweepBound m1) none m1 false = some (m1, false) ∧
      (∀ rounds, Gnf.removeUnits (rounds + 2) unitCycle = some { unitCycle with rules := m1 }) ∧
      (c1 = false → Gnf.removeUnits 1 unitCycle = some { unitCycle with rules := m1 }) :=
  ⟨by decide, by decide, by decide, (unit_loop_two_sweeps unitCycle (by decide)).2⟩

/-! ## The rewrite of immediate left recursion -/

theorem removeLeftRecursion_exact (m : Rules) (A : Sym) (hA : A ∈ m.keys)
    (hne : ∀ r ∈ m.get A, r ≠ []) :
    ((∀ r ∈ m.get A, r.head? ≠ some A) → Gnf.removeLeftRecursion m A = some m) ∧
    ((∃ r ∈ m.get A, r.head? = some A) →
      ∃ Ap m1, Gnf.removeLeftRecursion m A = some m1 ∧ Ap ∉ m.keys ∧
        m1.get A = ((m.get A).filter fun r => !decide (r.head? = some A)).map
          (fun b => b ++ [Ap]) ∧
        m1.get Ap = ((m.get A).filter fun r => decide (r.head? = some A)).map
          (fun a => a.tail ++ [Ap]) ++ [[eps]] ∧
        (∀ k, k ≠ A → k ≠ Ap → m1.get k = m.get k) ∧
        (∀ k, k ∈ m1.keys ↔ k ∈ m.keys ∨ k = Ap)) := by
  have hany : (m.get A).any List.isEmpty = false := by
    rw [List.any_eq_false]
    intro r hr
    have := hne r hr
    simpa using this
  constructor
  · intro hno
    have hal : ((m.get A).filter fun rhs => decide (rhs.head? = some A)) = [] := by
      rw [List.filter_eq_nil_iff]
      intro r hr
      simpa using hno r hr
    simp only [Gnf.removeLeftRecursion, touch_of_mem _ _ hA, hany, Bool.false_eq_true, if_false,
      hal, List.isEmpty_nil, if_true]
  · rintro ⟨r0, hr0, hh0⟩
    have hal : ((m.get A).filter fun rhs => decide (rhs.head? = some A)).isEmpty = false := by
      cases hf : ((m.get A).filter fun rhs => decide (rhs.head? = some A)) with
      | nil =>
        have : r0 ∈ (m.get A).filter fun rhs => decide (rhs.head? = some A) :=
          List.mem_filter.2 ⟨hr0, by simpa using hh0⟩
        rw [hf] at this
        simp at this
      | cons _ _ => rfl
    obtain ⟨Ap, hpr, hfresh⟩ := primed_spec m (Gnf.maxKeyLen m + 1) (A ++ [39]) fun k hk => by
      have := le_maxKeyLen m k hk
      simp only [List.length_append, List.length_singleton]
      omega
    have hApA : Ap ≠ A := fun hh => hfresh (hh ▸ hA)
    refine ⟨Ap, (m.set A (((m.get A).filter fun rhs => !decide (rhs.head? = some A)).map
        fun b => b ++ [Ap])).update Ap fun v =>
          v ++ ((m.get A).filter fun rhs => decide (rhs.head? = some A)).map
            (fun a => a.tail ++ [Ap]) ++ [[eps]],
      ?_, hfresh, ?_, ?_, fun k hk1 hk2 => ?_, fun k => ?_⟩
    · simp only [Gnf.removeLeftRecursion, touch_of_mem _ _ hA, hany, Bool.false_eq_true, if_false,
        hal, hpr, Option.map_some']
    · rw [get_update_other _ _ _ _ hApA.symm, get_set_same]
    · rw [get_update_same, get_set_other _ _ _ _ hApA, get_of_not_mem m Ap hfresh]
      simp
    · rw [get_update_other _ _ _ _ hk2, get_set_other _ _ _ _ hk1]
    · rw [mem_keys_update, mem_keys_set]
      constructor
      · rintro (h | h | h)
        · exact Or.inr h
        · exact Or.inl (h ▸ hA)
        · exact Or.inl h
      · rintro (h | h)
        · exact Or.inr (Or.inr h)
        · exact Or.inl h

/-- C28: for every grammar without empty alternative and every nonterminal `A` of it, if
some alternative of `A` begins with `A`, then `removeLeftRecursion(G, A)` leaves `A` with the
alternatives `β A'` for the alternatives `β` of `A` that do not begin with `A`, in their
order, gives the new nonterminal `A'`, which was no key of the grammar, the alternatives
`α A'` for the alternatives `A α` of `A`, in their order, followed by `[ε]`, and leaves every
other nonterminal as it was; if no alternative of `A` begins with `A`, the grammar is left as
it was. -/
theorem left_recursion_rewrite (G : Grammar) (hne : ∀ e ∈ G.rules, ∀ r ∈ e.2, r ≠ [])
    (A : Sym) (hA : A ∈ G.rules.keys) :
    ((∃ r ∈ G.rules.get A, r.head? = some A) →
      ∃ Ap m1, Gnf.removeLeftRecursion G.rules A = some m1 ∧ Ap ∉ G.rules.keys ∧
        m1.get A = ((G.rules.get A).filter fun r => !decide (r.head? = some A)).map
          (fun b => b ++ [Ap]) ∧
        m1.get Ap = ((G.rules.get A).filter fun r => decide (r.head? = some A)).map
          (fun a => a.tail ++ [Ap]) ++ [[eps]] ∧
        (∀ k, k ≠ A → k ≠ Ap → m1.get k = G.rules.get k) ∧
        (∀ k, k ∈ m1.keys ↔ k ∈ G.rules.keys ∨ k = Ap)) ∧
    ((∀ r ∈ G.rules.get A, r.head? ≠ some A) →
      Gnf.removeLeftRecursion G.rules A = some G.rules) := by
  have hneA : ∀ r ∈ G.rules.get A, r ≠ [] := by
    intro r hr
    obtain ⟨e, he, _, hre⟩ := mem_of_mem_get G.rules A r hr
    exact hne e he r hre
  obtain ⟨h1, h2⟩ := removeLeftRecursion_exact G.rules A hA hneA
  exact ⟨h2, h1⟩

/-- C28 at `S → Sa | b | Sc | d`: the result is `S → bS' | dS'`, `S' → aS' | cS' | ε`. -/
theorem left_recursion_rewrite_witness :
    (∀ e ∈ leftRecTwo.rules, ∀ r ∈ e.2, r ≠ []) ∧ ch 'S' ∈ leftRecTwo.rules.keys ∧
    (∃ r ∈ leftRecTwo.rules.get (ch 'S'), r.head? = some (ch 'S')) ∧
    Gnf.removeLeftRecursion leftRecTwo.rules (ch 'S')
      = some [(ch 'S', [[ch 'b', [83, 39]], [ch 'd', [83, 39]]]),
              ([83, 39], [[ch 'a', [83, 39]], [ch 'c', [83, 39]], [eps]])] ∧
    ∃ Ap m1, Gnf.removeLeftRecursion leftRecTwo.rules (ch 'S') = some m1 ∧
      Ap ∉ leftRecTwo.rules.keys ∧
      m1.get (ch 'S') = ((leftRecTwo.rules.get (ch 'S')).filter
        fun r => !decide (r.head? = some (ch 'S'))).map (fun b => b ++ [Ap]) ∧
      m1.get Ap = ((leftRecTwo.rules.get (ch 'S')).filter
        fun r => decide (r.head? = some (ch 'S'))).map (fun a => a.tail ++ [Ap]) ++ [[eps]] ∧
      (∀ k, k ≠ ch 'S' → k ≠ Ap → m1.get k = leftRecTwo.rules.get k) ∧
      (∀ k, k ∈ m1.keys ↔ k ∈ leftRecTwo.rules.keys ∨ k = Ap) :=
  have hex : ∃ r ∈ leftRecTwo.rules.get (ch 'S'), r.head? = some (ch 'S') :=
    ⟨[ch 'S', ch 'a'], by decide, by decide⟩
  ⟨by decide, by decide, hex, by decide,
    (left_recursion_rewrite leftRecTwo (by decide) (ch 'S') (by decide)).1 hex⟩

/-! ## The rounds of the substitution loop -/

theorem findIdx_lt_of_mem (v : Sym) : ∀ (pre rest : List Sym), v ∈ pre →
    Gnf.findIdx v (pre ++ rest) < pre.length
  | [], _, h => by simp at h
  | x :: xs, rest, h => by
    simp only [List.cons_append, Gnf.findIdx]
    split_ifs with hx
    · simp
    · have hv : v ∈ xs := by
        rcases List.mem_cons.1 h with h1 | h1
        · exact absurd h1.symm hx
        · exact h1
      have := findIdx_lt_of_mem v xs rest hv
      simp only [List.length_cons]
      show Gnf.findIdx v (xs ++ rest) + 1 < xs.length + 1
      omega

theorem head_ne_of_lead (vars : List Sym) (i : Nat) (r : Alt) (hl : i ≤ lead vars r)
    (v : Sym) (hv : isNonTerminal v = true) (hi : Gnf.findIdx v vars < i)
    (hlen : Gnf.findIdx v vars < vars.length) : r.head? ≠ some v := by
  intro hh
  cases r with
  | nil => simp at hh
  | cons h t =>
    simp only [List.head?_cons, Option.some.injEq] at hh
    subst hh
    simp only [lead, hv, hlen, decide_True, Bool.and_self, if_true] at hl
    omega

theorem gnfOrder_steps (vars : List Sym) (hnd : vars.Nodup) :
    ∀ (todo done rest : List Sym) (m m1 : Rules) (fuel : Nat), vars = done ++ todo ++ rest →
      m.WF → NoEmpty m → Processed vars done.length m → (∀ v ∈ vars, v ∈ m.keys) →
      Gnf.gnfOrder fuel vars done.length todo m = some m1 →
      m1.WF ∧ NoEmpty m1 ∧ Processed vars (done.length + todo.length) m1 ∧
        (∀ v ∈ vars, v ∈ m1.keys) ∧ ∀ v ∈ done, m1.get v = m.get v
  | [], done, rest, m, m1, fuel, _, hwf, hne, hp, hkv, h => by
    simp only [Gnf.gnfOrder, Option.some.injEq] at h
    subst h
    exact ⟨hwf, hne, by simpa using hp, hkv, fun _ _ => rfl⟩
  | Ai :: todo, done, rest, m, m3, fuel, hv, hwf, hne, hp, hkv, h => by
    have hlen : done.length < vars.length := by
      rw [hv]
      simp
    have hAdone : Ai ∉ done := by
      rw [hv, List.append_assoc] at hnd
      have := (List.nodup_append.1 hnd).2.2
      intro hmem
      exact this hmem (by simp)
    have hAi : Gnf.findIdx Ai vars = done.length := by
      rw [hv, List.append_assoc, List.cons_append]
      exact findIdx_append Ai done _ hAdone
    obtain ⟨m1, h1, w1, n1, o1, l1, k1⟩ := substLoop_spec vars done.length (Nat.le_of_lt hlen) Ai
      hAi (done.length + 1) m 0 hwf hne hp (fun _ _ => Nat.zero_le _) (Nat.zero_le _) (by omega)
    have hp1 : Processed vars done.length m1 := by
      intro v hvi hvl r hr
      have hvA : v ≠ Ai := by
        rintro rfl
        omega
      rw [o1 v hvA] at hr
      exact hp v hvi hvl r hr
    have hkv1 : ∀ v ∈ vars, v ∈ m1.keys := fun v hvm => k1 v (hkv v hvm)
    obtain ⟨m2, h2, w2, n2, p2, k2⟩ := removeLeftRecursion_spec vars done.length hlen Ai hAi m1
      w1 n1 hp1 l1 hkv1
    simp only [Gnf.gnfOrder] at h
    cases hs : Gnf.substLoop vars done.length Ai fuel m with
    | none => rw [hs] at h; simp at h
    | some ma =>
      have e1 := substLoop_more vars done.length Ai fuel (done.length + 1) m ma hs
      have e2 := substLoop_more vars done.length Ai (done.length + 1) fuel m m1 h1
      rw [Nat.add_comm] at e2
      rw [e1] at e2
      simp only [Option.some.injEq] at e2
      subst e2
      rw [hs] at h
      simp only [h2] at h
      have ih := gnfOrder_steps vars hnd todo (done ++ [Ai]) rest m2 m3 fuel (by simp [hv]) w2 n2
        (by simpa using p2) (fun v hvm => k2 v (hkv1 v hvm))
        (by simpa using h)
      obtain ⟨a1, a2, a3, a4, a5⟩ := ih
      refine ⟨a1, a2, ?_, a4, fun v hvd => ?_⟩
      · simp only [List.length_append, List.length_singleton, List.length_cons] at a3 ⊢
        have : done.length + (todo.length + 1) = done.length + 1 + todo.length := by omega
        rw [this]
        exact a3
      · rw [a5 v (List.mem_append_left _ hvd)]
        have hvA : v ≠ Ai := fun hh => hAdone (hh ▸ hvd)
        have hvk : v ∈ ma.keys := hkv1 v (by rw [hv]; simp [hvd])
        have hAk : Ai ∈ ma.keys := hkv1 Ai (by rw [hv]; simp)
        obtain ⟨x1, x2⟩ := removeLeftRecursion_exact ma Ai hAk (fun r hr => n1 Ai r hr)
        by_cases hex : ∃ r ∈ ma.get Ai, r.head? = some Ai
        · obtain ⟨Ap, mb, hb, hfresh, _, _, hoth, _⟩ := x2 hex
          rw [h2] at hb
          simp only [Option.some.injEq] at hb
          subst hb
          rw [hoth v hvA (fun hh => hfresh (hh ▸ hvk)), o1 v hvA]
        · have := x1 (fun r hr hh => hex ⟨r, hr, hh⟩)
          rw [h2] at this
          simp only [Option.some.injEq] at this
          subst this
          exact o1 v hvA

theorem gnfOrder_total (vars : List Sym) (hnd : vars.Nodup) :
    ∀ (todo done rest : List Sym) (m : Rules) (fuel : Nat), vars = done ++ todo ++ rest →
      m.WF → NoEmpty m → Processed vars done.length m → (∀ v ∈ vars, v ∈ m.keys) →
      done.length + todo.length ≤ fuel →
      ∃ m1, Gnf.gnfOrder fuel vars done.length todo m = some m1
  | [], _, _, m, _, _, _, _, _, _, _ => ⟨m, rfl⟩
  | Ai :: todo, done, rest, m, fuel, hv, hwf, hne, hp, hkv, hf => by
    have hlen : done.length < vars.length := by
      rw [hv]
      simp
    have hAdone : Ai ∉ done := by
      rw [hv, List.append_assoc] at hnd
      have := (List.nodup_append.1 hnd).2.2
      intro hmem
      exact this hmem (by simp)
    have hAi : Gnf.findIdx Ai vars = done.length := by
      rw [hv, List.append_assoc, List.cons_append]
      exact findIdx_append Ai done _ hAdone
    simp only [List.length_cons] at hf
    obtain ⟨m1, h1, w1, n1, o1, l1, k1⟩ := substLoop_spec vars done.length (Nat.le_of_lt hlen) Ai
      hAi fuel m 0 hwf hne hp (fun _ _ => Nat.zero_le _) (Nat.zero_le _) (by omega)
    have hp1 : Processed vars done.length m1 := by
      intro v hvi hvl r hr
      have hvA : v ≠ Ai := by
        rintro rfl
        omega
      rw [o1 v hvA] at hr
      exact hp v hvi hvl r hr
    obtain ⟨m2, h2, w2, n2, p2, k2⟩ := removeLeftRecursion_spec vars done.length hlen Ai hAi m1
      w1 n1 hp1 l1 (fun v hvm => k1 v (hkv v hvm))
    have ih := gnfOrder_total vars hnd todo (done ++ [Ai]) rest m2 fuel (by simp [hv]) w2 n2
      (by simpa using p2) (fun v hvm => k2 v (k1 v (hkv v hvm)))
      (by simp only [List.length_append, List.length_singleton]; omega)
    simp only [List.length_append, List.length_singleton] at ih
    simp only [Gnf.gnfOrder, h1, h2]
    exact ih

/-- C29, amended: let `convertToGNF` run on a grammar (a map with ascending keys) without empty
alternative, let `Ai` be the nonterminal number `pre.length + 1` of the sorted names and `pre`
the nonterminals before it. The loop over the nonterminals gets through `pre`, with as many
rounds for each substitution loop as `pre` has members, and with more rounds it reaches the
same map `m`. In `m` every nonterminal of `pre` has only alternatives whose first symbol, if
it is a single upper-case letter of the sorted names, comes after that nonterminal in them,
and its alternatives stay what they are in `m` however far the conversion goes on. The
substitution loop for `Ai` stops within `pre.length + 1` rounds (the last of them finds
nothing to substitute), leaves the other nonterminals as they are, and leaves `Ai` no
alternative that begins with a single upper-case letter of `pre`. -/
theorem gnf_substitution_rounds (G : Grammar) (hwf : G.rules.WF)
    (hne : ∀ e ∈ G.rules, ∀ r ∈ e.2, r ≠ []) (pre : List Sym) (Ai : Sym) (rest : List Sym)
    (hv : Gnf.sortStrings G.rules.keys = pre ++ Ai :: rest) :
    ∃ m, Gnf.gnfOrder pre.length (Gnf.sortStrings G.rules.keys) 0 pre G.rules = some m ∧
      (∀ fuel m2, Gnf.gnfOrder fuel (Gnf.sortStrings G.rules.keys) 0 pre G.rules = some m2 →
        m2 = m) ∧
      (∀ v ∈ pre, ∀ r ∈ m.get v,
        Gnf.findIdx v (Gnf.sortStrings G.rules.keys) < lead (Gnf.sortStrings G.rules.keys) r) ∧
      (∀ (more rest2 : List Sym) (fuel2 : Nat) (m2 : Rules),
        Gnf.sortStrings G.rules.keys = pre ++ more ++ rest2 →
        Gnf.gnfOrder fuel2 (Gnf.sortStrings G.rules.keys) pre.length more m = some m2 →
        ∀ v ∈ pre, m2.get v = m.get v) ∧
      ∃ m1, Gnf.substLoop (Gnf.sortStrings G.rules.keys) pre.length Ai (pre.length + 1) m
          = some m1 ∧
        (∀ k, k ≠ Ai → m1.get k = m.get k) ∧
        (∀ r ∈ m1.get Ai, pre.length ≤ lead (Gnf.sortStrings G.rules.keys) r) ∧
        ∀ r ∈ m1.get Ai, ∀ v ∈ pre, isNonTerminal v = true → r.head? ≠ some v := by
  have hs : Gnf.sortStrings G.rules.keys = G.rules.keys := sortStrings_sorted _ hwf
  have hnd : (Gnf.sortStrings G.rules.keys).Nodup := by
    rw [hs]
    exact keys_nodup _ hwf
  have hne1 : NoEmpty G.rules := by
    intro k r hr
    obtain ⟨e, he, _, hre⟩ := mem_of_mem_get G.rules k r hr
    exact hne e he r hre
  have hkv : ∀ v ∈ Gnf.sortStrings G.rules.keys, v ∈ G.rules.keys := by
    rw [hs]
    exact fun v hv => hv
  obtain ⟨m, hm⟩ := gnfOrder_total _ hnd pre [] (Ai :: rest) G.rules pre.length
    (by simpa using hv) hwf hne1 (fun v hv => by simp at hv) hkv (by simp)
  simp only [List.length_nil] at hm
  obtain ⟨w, n, p, kv, _⟩ := gnfOrder_steps _ hnd pre [] (Ai :: rest) G.rules m pre.length
    (by simpa using hv) hwf hne1 (fun v hv => by simp at hv) hkv (by simpa using hm)
  simp only [List.length_nil, Nat.zero_add] at p
  have hlt : ∀ v ∈ pre, Gnf.findIdx v (Gnf.sortStrings G.rules.keys) < pre.length := by
    intro v hvp
    rw [hv]
    exact findIdx_lt_of_mem v pre _ hvp
  have hlen : pre.length < (Gnf.sortStrings G.rules.keys).length := by
    rw [hv]
    simp
  have hApre : Ai ∉ pre := by
    rw [hv] at hnd
    have := (List.nodup_append.1 hnd).2.2
    intro hmem
    exact this hmem (List.mem_cons_self _ _)
  have hAi : Gnf.findIdx Ai (Gnf.sortStrings G.rules.keys) = pre.length := by
    rw [hv]
    exact findIdx_append Ai pre rest hApre
  refine ⟨m, hm, fun fuel m2 h2 => ?_,
    fun v hvp r hr => p v (hlt v hvp) (by have := hlt v hvp; omega) r hr,
    fun more rest2 fuel2 m2 hv2 h2 =>
      (gnfOrder_steps _ hnd more pre rest2 m m2 fuel2 hv2 w n p kv h2).2.2.2.2, ?_⟩
  · have e1 := gnfOrder_more fuel pre.length _ pre 0 G.rules m2 h2
    have e2 := gnfOrder_more pre.length fuel _ pre 0 G.rules m hm
    rw [Nat.add_comm] at e2
    rw [e1] at e2
    exact Option.some.inj e2
  · obtain ⟨m1, h1, _, _, o1, l1, _⟩ := substLoop_spec _ pre.length (Nat.le_of_lt hlen) Ai
      hAi (pre.length + 1) m 0 w n p (fun _ _ => Nat.zero_le _) (Nat.zero_le _) (by omega)
    exact ⟨m1, h1, o1, l1, fun r hr v hvp hnt =>
      head_ne_of_lead _ pre.length r (l1 r hr) v hnt (hlt v hvp) (by have := hlt v hvp; omega)⟩

/-- C29, amended, at `A → Bx`, `B → b`, `C → Ac` and its third nonterminal `C`: the map is unchanged
when `A` and `B` are processed, and the loop for `C` needs its three rounds (two rounds do not
end it). -/
theorem gnf_substitution_rounds_witness :
    chainLead.rules.WF ∧ (∀ e ∈ chainLead.rules, ∀ r ∈ e.2, r ≠ []) ∧
    Gnf.sortStrings chainLead.rules.keys = [ch 'A', ch 'B'] ++ ch 'C' :: [] ∧
    Gnf.gnfOrder 2 (Gnf.sortStrings chainLead.rules.keys) 0 [ch 'A', ch 'B'] chainLead.rules
      = some chainLead.rules ∧
    Gnf.substLoop (Gnf.sortStrings chainLead.rules.keys) 2 (ch 'C') 2 chainLead.rules = none ∧
    Gnf.substLoop (Gnf.sortStrings chainLead.rules.keys) 2 (ch 'C') 3 chainLead.rules
      = some [(ch 'A', [[ch 'B', ch 'x']]), (ch 'B', [[ch 'b']]),
              (ch 'C', [[ch 'b', ch 'x', ch 'c']])] ∧
    ∃ m, Gnf.gnfOrder [ch 'A', ch 'B'].length (Gnf.sortStrings chainLead.rules.keys) 0
        [ch 'A', ch 'B'] chainLead.rules = some m ∧
      ∃ m1, Gnf.substLoop (Gnf.sortStrings chainLead.rules.keys) [ch 'A', ch 'B'].length
          (ch 'C') ([ch 'A', ch 'B'].length + 1) m = some m1 ∧
        ∀ r ∈ m1.get (ch 'C'), ∀ v ∈ [ch 'A', ch 'B'], isNonTerminal v = true →
          r.head? ≠ some v :=
  have t := gnf_substitution_rounds chainLead (by decide) (by decide) [ch 'A', ch 'B']
    (ch 'C') [] (by decide)
  ⟨by decide, by decide, by decide, by decide, by decide, by decide,
    t.elim fun m hm => ⟨m, hm.1, hm.2.2.2.2.elim fun m1 h1 => ⟨m1, h1.1, h1.2.2.2⟩⟩⟩

/-! ## Alternatives stay non-empty -/

theorem dropOnce_ne_nil (A : Sym) (rhs t : Alt) (h : t ∈ dropOnce A rhs) : t ≠ [] := by
  obtain ⟨hlen, i, rfl⟩ := mem_dropOnce A rhs t h
  intro hnil
  have := congrArg List.length hnil
  rw [List.length_eraseIdx] at this
  simp only [List.length_nil] at this
  split_ifs at this <;> omega

theorem noEmpty_addDropped (A : Sym) (m : Rules) (h : NoEmpty m) : NoEmpty (addDropped A m) := by
  intro k r hr
  rw [get_addDropped] at hr
  rcases List.mem_append.1 hr with h1 | h1
  · exact h k r h1
  · obtain ⟨rhs, _, ht⟩ := List.mem_flatMap.1 h1
    exact dropOnce_ne_nil A rhs r ht

theorem noEmpty_update (m : Rules) (k : Sym) (f : List Alt → List Alt) (h : NoEmpty m)
    (hf : ∀ r ∈ f (m.get k), r ≠ []) : NoEmpty (m.update k f) := by
  intro k1 r hr
  by_cases hk : k1 = k
  · subst hk
    rw [get_update_same] at hr
    exact hf r hr
  · rw [get_update_other _ _ _ _ hk] at hr
    exact h k1 r hr

theorem noEmpty_set (m : Rules) (k : Sym) (v : List Alt) (h : NoEmpty m)
    (hv : ∀ r ∈ v, r ≠ []) : NoEmpty (m.set k v) := by
  intro k1 r hr
  by_cases hk : k1 = k
  · subst hk
    rw [get_set_same] at hr
    exact hv r hr
  · rw [get_set_other _ _ _ _ hk] at hr
    exact h k1 r hr

theorem noEmpty_touch (m : Rules) (k : Sym) (h : NoEmpty m) : NoEmpty (m.touch k) := by
  intro k1 r hr
  rw [get_touch] at hr
  exact h k1 r hr

theorem noEmpty_strip (m : Rules) (k : Sym) (h : NoEmpty m) : NoEmpty (m.update k stripEps) :=
  noEmpty_update m k _ h fun r hr => h k r ((mem_stripEps _ _).1 hr).1

theorem cnf_eps_noEmpty : ∀ (L : List Sym) (m : Rules), NoEmpty m →
    NoEmpty (L.foldl Cnf.epsStep m)
  | [], _, h => h
  | A :: L, m, h =>
    cnf_eps_noEmpty L _ (noEmpty_strip _ A (noEmpty_addDropped A m h))

theorem gnf_add_noEmpty : ∀ (L : List Sym) (m : Rules), NoEmpty m →
    NoEmpty (L.foldl (fun m A => addDropped A m) m)
  | [], _, h => h
  | A :: L, m, h => gnf_add_noEmpty L _ (noEmpty_addDropped A m h)

theorem gnf_strip_noEmpty (start : Sym) : ∀ (L : List Sym) (m : Rules), NoEmpty m →
    NoEmpty (L.foldl (fun m A => if A ≠ start then m.update A stripEps else m) m)
  | [], _, h => h
  | A :: L, m, h => by
    simp only [List.foldl_cons]
    apply gnf_strip_noEmpty start L
    split_ifs
    · exact noEmpty_strip m A h
    · exact h

theorem eps_passes_noEmpty (G : Grammar) (h : NoEmpty G.rules) :
    NoEmpty (Cnf.removeEpsilonProductions G).rules ∧ NoEmpty (Gnf.removeEpsilons G).rules := by
  constructor
  · simp only [Cnf.removeEpsilonProductions]
    split_ifs
    · refine noEmpty_update _ _ _ (cnf_eps_noEmpty _ _ h) fun r hr => ?_
      rcases List.mem_append.1 hr with h1 | h1
      · exact cnf_eps_noEmpty _ _ h _ r h1
      · simp only [List.mem_singleton] at h1
        subst h1
        simp
    · exact cnf_eps_noEmpty _ _ h
  · exact gnf_strip_noEmpty _ _ _ (gnf_add_noEmpty _ _ h)

theorem cnf_unitScan_inner_mem (lhs : Sym) : ∀ (l : List Alt) (acc : Rules × List Alt × Bool)
    (r : Alt),
    r ∈ (l.foldl (fun acc r2 => if r2 = [lhs] then acc else (acc.1, acc.2.1 ++ [r2], true))
      acc).2.1 → r ∈ acc.2.1 ∨ r ∈ l
  | [], _, _, h => Or.inl h
  | r2 :: l, acc, r, h => by
    simp only [List.foldl_cons] at h
    rcases cnf_unitScan_inner_mem lhs l _ r h with h1 | h1
    · split_ifs at h1
      · exact Or.inl h1
      · rcases List.mem_append.1 h1 with h2 | h2
        · exact Or.inl h2
        · simp only [List.mem_singleton] at h2
          exact Or.inr (h2 ▸ List.mem_cons_self _ _)
    · exact Or.inr (List.mem_cons_of_mem _ h1)

theorem cnf_unitScan_fold_mem (lhs : Sym) (m : Rules) : ∀ (l : List Alt)
    (st : Rules × List Alt × Bool) (r : Alt), (∀ k, st.1.get k = m.get k) →
    r ∈ (l.foldl (Cnf.unitScan lhs) st).2.1 → r ∈ st.2.1 ∨ ∃ B, r ∈ m.get B
  | [], _, _, _, h => Or.inl h
  | rhs :: l, st, r, hg, h => by
    simp only [List.foldl_cons] at h
    have hg1 : ∀ k, (Cnf.unitScan lhs st rhs).1.get k = m.get k := by
      intro k
      unfold Cnf.unitScan
      split_ifs
      · rw [cnf_unitScan_inner_fst]
        simp only
        rw [get_touch, hg]
      · exact hg k
    rcases cnf_unitScan_fold_mem lhs m l _ r hg1 h with h1 | h1
    · unfold Cnf.unitScan at h1
      split_ifs at h1
      · rcases cnf_unitScan_inner_mem lhs _ _ r h1 with h2 | h2
        · exact Or.inl h2
        · rw [get_touch, hg] at h2
          exact Or.inr ⟨_, h2⟩
      · exact Or.inl h1
    · exact Or.inr h1

theorem gnf_unitScan_fold_mem (A : Sym) (m : Rules) : ∀ (l : List Alt)
    (st : Rules × List Alt) (r : Alt), (∀ k, st.1.get k = m.get k) →
    r ∈ (l.foldl (Gnf.unitScan A) st).2 → r ∈ st.2 ∨ ∃ B, r ∈ m.get B
  | [], _, _, _, h => Or.inl h
  | rhs :: l, st, r, hg, h => by
    simp only [List.foldl_cons] at h
    have hg1 : ∀ k, (Gnf.unitScan A st rhs).1.get k = m.get k := by
      intro k
      unfold Gnf.unitScan
      split_ifs
      · simp only
        rw [get_touch, hg]
      · exact hg k
    rcases gnf_unitScan_fold_mem A m l _ r hg1 h with h1 | h1
    · unfold Gnf.unitScan at h1
      split_ifs at h1
      · simp only at h1
        rcases List.mem_append.1 h1 with h2 | h2
        · exact Or.inl h2
        · have h3 := (List.mem_filter.1 h2).1
          rw [get_touch, hg] at h3
          exact Or.inr ⟨_, h3⟩
      · exact Or.inl h1
    · exact Or.inr h1

theorem noEmpty_touchUnits : ∀ (l : List Alt) (m : Rules), NoEmpty m → NoEmpty (touchUnits l m) :=
  fun l m h k r hr => by
    rw [touchUnits_get] at hr
    exact h k r hr

theorem cnf_unitBody_noEmpty (lhs : Sym) (m : Rules) (ch : Bool) (h : NoEmpty m) :
    NoEmpty (Cnf.unitBody lhs m ch).1 := by
  simp only [Cnf.unitBody]
  refine noEmpty_update _ _ _ ?_ fun r hr => ?_
  · rw [cnf_unitScan_fold_fst]
    exact noEmpty_touchUnits _ _ h
  · have hr1 := (List.mem_filter.1 hr).1
    rcases List.mem_append.1 hr1 with h1 | h1
    · rw [cnf_unitScan_fold_fst, touchUnits_get] at h1
      exact h lhs r h1
    · rcases cnf_unitScan_fold_mem lhs m _ (m, [], ch) r (fun _ => rfl) h1 with h2 | ⟨B, h2⟩
      · simp at h2
      · exact h B r h2

theorem gnf_unitBody_noEmpty (A : Sym) (m : Rules) (ch : Bool) (h : NoEmpty m) :
    NoEmpty (Gnf.unitBody A m ch).1 := by
  simp only [Gnf.unitBody]
  refine noEmpty_update _ _ _ ?_ fun r hr => ?_
  · rw [gnf_unitScan_fold_fst]
    exact noEmpty_touchUnits _ _ h
  · have hr1 := (List.mem_filter.1 hr).1
    rcases List.mem_append.1 hr1 with h1 | h1
    · rw [gnf_unitScan_fold_fst, touchUnits_get] at h1
      exact h A r h1
    · rcases gnf_unitScan_fold_mem A m _ (m, []) r (fun _ => rfl) h1 with h2 | ⟨B, h2⟩
      · simp at h2
      · exact h B r h2

theorem sweep_noEmpty {body : Sym → Rules → Bool → Rules × Bool}
    (hb : ∀ lhs m ch, NoEmpty m → NoEmpty (body lhs m ch).1) :
    ∀ (fuel : Nat) (cur : Option Sym) (m : Rules) (ch : Bool) (r : Rules × Bool), NoEmpty m →
      sweep body fuel cur m ch = some r → NoEmpty r.1
  | 0, _, _, _, _, _, h => by simp [sweep] at h
  | fuel + 1, cur, m, ch, r, hm, h => by
    simp only [sweep] at h
    cases hn : nextKey m cur with
    | none =>
      rw [hn] at h
      simp only [Option.some.injEq] at h
      exact h ▸ hm
    | some lhs =>
      rw [hn] at h
      exact sweep_noEmpty hb fuel _ _ _ r (hb lhs m ch hm) h

theorem unitLoop_noEmpty {body : Sym → Rules → Bool → Rules × Bool}
    (hb : ∀ lhs m ch, NoEmpty m → NoEmpty (body lhs m ch).1) :
    ∀ (rounds : Nat) (m m1 : Rules), NoEmpty m →
      unitLoop body sweepBound rounds m = some m1 → NoEmpty m1
  | 0, _, _, _, h => by simp [unitLoop] at h
  | rounds + 1, m, m1, hm, h => by
    simp only [unitLoop] at h
    cases hs : sweep body (sweepBound m) none m false with
    | none => rw [hs] at h; simp at h
    | some r =>
      obtain ⟨ma, c⟩ := r
      rw [hs] at h
      have hma : NoEmpty ma := sweep_noEmpty hb _ _ _ _ _ hm hs
      cases c with
      | true => exact unitLoop_noEmpty hb rounds ma m1 hma h
      | false =>
        simp only [Option.some.injEq] at h
        exact h ▸ hma

theorem isoSym_noEmpty (lhs : Sym) (size : Nat) (st st1 : Cnf.IsoState) (sym s1 : Sym)
    (h : Cnf.isoSym lhs size st sym = some (st1, s1)) (hm : NoEmpty st.rules) :
    NoEmpty st1.rules := by
  obtain ⟨rel, _, _⟩ := isoSym_spec lhs size st st1 sym s1 h
  intro k r hr
  obtain ⟨ex, he, hlen⟩ := rel.grow k
  rw [he] at hr
  rcases List.mem_append.1 hr with h1 | h1
  · exact hm k r h1
  · intro hnil
    have := hlen r h1
    rw [hnil] at this
    simp at this

theorem isoAlt_noEmpty (lhs : Sym) (size : Nat) : ∀ (l : Alt) (st st1 : Cnf.IsoState)
    (out : Alt), Cnf.isoAlt lhs size st l = some (st1, out) → NoEmpty st.rules →
    NoEmpty st1.rules
  | [], st, st1, out, h, hm => by
    simp only [Cnf.isoAlt, Option.some.injEq, Prod.mk.injEq] at h
    exact h.1 ▸ hm
  | sym :: rest, st, st1, out, h, hm => by
    simp only [Cnf.isoAlt] at h
    cases h1 : Cnf.isoSym lhs size st sym with
    | none => rw [h1] at h; simp at h
    | some p =>
      obtain ⟨sa, s1⟩ := p
      rw [h1] at h
      simp only at h
      cases h2 : Cnf.isoAlt lhs size sa rest with
      | none => rw [h2] at h; simp at h
      | some q =>
        obtain ⟨sb, r⟩ := q
        rw [h2] at h
        simp only [Option.some.injEq, Prod.mk.injEq] at h
        rw [← h.1]
        exact isoAlt_noEmpty lhs size rest sa sb r h2 (isoSym_noEmpty lhs size st sa sym s1 h1 hm)

theorem isoAlts_noEmpty (lhs : Sym) : ∀ (alts : List Alt) (st st1 : Cnf.IsoState)
    (out : List Alt), Cnf.isoAlts lhs st alts = some (st1, out) → NoEmpty st.rules →
    (∀ r ∈ alts, r ≠ []) → NoEmpty st1.rules ∧ ∀ r ∈ out, r ≠ []
  | [], st, st1, out, h, hm, _ => by
    simp only [Cnf.isoAlts, Option.some.injEq, Prod.mk.injEq] at h
    obtain ⟨rfl, rfl⟩ := h
    exact ⟨hm, fun r hr => by simp at hr⟩
  | rhs :: rest, st, st1, out, h, hm, hne => by
    simp only [Cnf.isoAlts] at h
    cases h1 : Cnf.isoAlt lhs rhs.length st rhs with
    | none => rw [h1] at h; simp at h
    | some p =>
      obtain ⟨sa, r1⟩ := p
      rw [h1] at h
      simp only at h
      cases h2 : Cnf.isoAlts lhs sa rest with
      | none => rw [h2] at h; simp at h
      | some q =>
        obtain ⟨sb, rs⟩ := q
        rw [h2] at h
        simp only [Option.some.injEq, Prod.mk.injEq] at h
        obtain ⟨rfl, rfl⟩ := h
        obtain ⟨hb, hrs⟩ := isoAlts_noEmpty lhs rest sa sb rs h2
          (isoAlt_noEmpty lhs _ rhs st sa r1 h1 hm) fun r hr => hne r (List.mem_cons_of_mem _ hr)
        refine ⟨hb, fun r hr => ?_⟩
        rcases List.mem_cons.1 hr with h3 | h3
        · subst h3
          have hl := (isoAlt_spec lhs _ rhs st sa r h1).2.1
          intro hnil
          rw [hnil] at hl
          exact hne rhs (List.mem_cons_self _ _) (List.eq_nil_of_length_eq_zero hl.symm)
        · exact hrs r h3

theorem isoKeys_noEmpty : ∀ (rest : List Sym) (st st1 : Cnf.IsoState),
    Cnf.isoKeys st rest = some st1 → NoEmpty st.rules → NoEmpty st1.rules
  | [], st, st1, h, hm => by
    simp only [Cnf.isoKeys, Option.some.injEq] at h
    exact h ▸ hm
  | lhs :: rest, st, st1, h, hm => by
    simp only [Cnf.isoKeys] at h
    cases hk : Cnf.isoKey st lhs with
    | none => rw [hk] at h; simp at h
    | some sa =>
      rw [hk] at h
      refine isoKeys_noEmpty rest sa st1 h ?_
      simp only [Cnf.isoKey] at hk
      cases ha : Cnf.isoAlts lhs st (st.rules.get lhs) with
      | none => rw [ha] at hk; simp at hk
      | some p =>
        obtain ⟨sb, alts⟩ := p
        rw [ha] at hk
        simp only [Option.some.injEq] at hk
        subst hk
        obtain ⟨hb, ho⟩ := isoAlts_noEmpty lhs _ st sb alts ha hm (hm lhs)
        exact noEmpty_set _ _ _ hb ho

theorem binAlt_noEmpty (lhs : Sym) : ∀ (fuel : Nat) (st : Nat × Rules) (rhs : Alt)
    (st1 : Nat × Rules) (out : Alt), Cnf.binAlt lhs fuel st rhs = some (st1, out) →
    NoEmpty st.2 → rhs ≠ [] → NoEmpty st1.2 ∧ out ≠ []
  | fuel, st, [], st1, out, _, _, hr => absurd rfl hr
  | fuel, st, [a], st1, out, h, hm, _ => by
    simp only [Cnf.binAlt, Option.some.injEq, Prod.mk.injEq] at h
    obtain ⟨rfl, rfl⟩ := h
    exact ⟨hm, by simp⟩
  | fuel, st, [a, b], st1, out, h, hm, _ => by
    simp only [Cnf.binAlt, Option.some.injEq, Prod.mk.injEq] at h
    obtain ⟨rfl, rfl⟩ := h
    exact ⟨hm, by simp⟩
  | 0, st, s0 :: s1 :: s2 :: rest, st1, out, h, _, _ => by simp [Cnf.binAlt] at h
  | fuel + 1, st, s0 :: s1 :: s2 :: rest, st1, out, h, hm, _ => by
    simp only [Cnf.binAlt] at h
    split_ifs at h with hc
    exact binAlt_noEmpty lhs fuel _ _ st1 out h
      (noEmpty_update st.2 (Cnf.yName (st.1 + 1)) (fun v => v ++ [[s1, s2]]) hm fun r hr => by
        rcases List.mem_append.1 hr with h1 | h1
        · exact hm _ r h1
        · simp only [List.mem_singleton] at h1
          subst h1
          simp) (by simp)

theorem binAlts_noEmpty (lhs : Sym) : ∀ (alts : List Alt) (st st1 : Nat × Rules)
    (out : List Alt), Cnf.binAlts lhs st alts = some (st1, out) → NoEmpty st.2 →
    (∀ r ∈ alts, r ≠ []) → NoEmpty st1.2 ∧ ∀ r ∈ out, r ≠ []
  | [], st, st1, out, h, hm, _ => by
    simp only [Cnf.binAlts, Option.some.injEq, Prod.mk.injEq] at h
    obtain ⟨rfl, rfl⟩ := h
    exact ⟨hm, fun r hr => by simp at hr⟩
  | rhs :: rest, st, st1, out, h, hm, hne => by
    simp only [Cnf.binAlts] at h
    cases h1 : Cnf.binAlt lhs rhs.length st rhs with
    | none => rw [h1] at h; simp at h
    | some p =>
      obtain ⟨sa, r1⟩ := p
      rw [h1] at h
      simp only at h
      cases h2 : Cnf.binAlts lhs sa rest with
      | none => rw [h2] at h; simp at h
      | some q =>
        obtain ⟨sb, rs⟩ := q
        rw [h2] at h
        simp only [Option.some.injEq, Prod.mk.injEq] at h
        obtain ⟨rfl, rfl⟩ := h
        obtain ⟨ha, hr1⟩ := binAlt_noEmpty lhs _ st rhs sa r1 h1 hm
          (hne rhs (List.mem_cons_self _ _))
        obtain ⟨hb, hrs⟩ := binAlts_noEmpty lhs rest sa sb rs h2 ha
          fun r hr => hne r (List.mem_cons_of_mem _ hr)
        refine ⟨hb, fun r hr => ?_⟩
        rcases List.mem_cons.1 hr with h3 | h3
        · exact h3 ▸ hr1
        · exact hrs r h3

theorem binKeys_noEmpty : ∀ (rest : List Sym) (st st1 : Nat × Rules),
    Cnf.binKeys st rest = some st1 → NoEmpty st.2 → NoEmpty st1.2
  | [], st, st1, h, hm => by
    simp only [Cnf.binKeys, Option.some.injEq] at h
    exact h ▸ hm
  | lhs :: rest, st, st1, h, hm => by
    simp only [Cnf.binKeys] at h
    cases ha : Cnf.binAlts lhs st (st.2.get lhs) with
    | none => rw [ha] at h; simp at h
    | some p =>
      obtain ⟨sb, alts⟩ := p
      rw [ha] at h
      obtain ⟨hb, ho⟩ := binAlts_noEmpty lhs _ st sb alts ha hm (hm lhs)
      exact binKeys_noEmpty rest _ st1 h (noEmpty_set sb.2 lhs alts hb ho)

theorem substAlt_ne_nil (vars : List Sym) (i : Nat) (m : Rules) (hm : NoEmpty m) (r : Alt)
    (hr : r ≠ []) (r1 : Alt) (h : r1 ∈ substAlt vars i m r) : r1 ≠ [] := by
  unfold substAlt at h
  split_ifs at h
  · obtain ⟨gamma, hg, rfl⟩ := List.mem_map.1 h
    have := hm _ gamma hg
    simp [this]
  · simp only [List.mem_singleton] at h
    exact h ▸ hr

theorem substRound_noEmpty (vars : List Sym) (i : Nat) (Ai : Sym) (m : Rules) (hm : NoEmpty m)
    (hwf : m.WF) :
    ∃ m1 b, Gnf.substRound vars i Ai m = some (m1, b) ∧ NoEmpty m1 ∧ m1.WF := by
  obtain ⟨m1, h1, hget, hoth, _, hw⟩ := substRound_spec vars i Ai m hm hwf
  refine ⟨m1, _, h1, fun k r hr => ?_, hw⟩
  by_cases hk : k = Ai
  · subst hk
    rw [hget] at hr
    obtain ⟨r0, hr0, hr1⟩ := List.mem_flatMap.1 hr
    exact substAlt_ne_nil vars i m hm r0 (hm k r0 hr0) r hr1
  · rw [hoth k hk] at hr
    exact hm k r hr

theorem substLoop_noEmpty (vars : List Sym) (i : Nat) (Ai : Sym) :
    ∀ (fuel : Nat) (m m1 : Rules), NoEmpty m → m.WF →
      Gnf.substLoop vars i Ai fuel m = some m1 → NoEmpty m1
  | 0, _, _, _, _, h => by simp [Gnf.substLoop] at h
  | fuel + 1, m, m1, hm, hwf, h => by
    obtain ⟨ma, b, hr, hna, hwa⟩ := substRound_noEmpty vars i Ai m hm hwf
    simp only [Gnf.substLoop, hr] at h
    cases b with
    | true => exact substLoop_noEmpty vars i Ai fuel ma m1 hna hwa h
    | false =>
      simp only [Option.some.injEq] at h
      exact h ▸ hna

theorem removeLeftRecursion_noEmpty (m : Rules) (A : Sym) (hm : NoEmpty m) :
    ∃ m1, Gnf.removeLeftRecursion m A = some m1 ∧ NoEmpty m1 := by
  have hA : A ∈ (m.touch A).keys := (mem_keys_touch m A A).2 (Or.inl rfl)
  have h0 : NoEmpty (m.touch A) := noEmpty_touch m A hm
  have he : Gnf.removeLeftRecursion m A = Gnf.removeLeftRecursion (m.touch A) A := by
    simp only [Gnf.removeLeftRecursion, touch_of_mem _ _ hA]
  obtain ⟨x1, x2⟩ := removeLeftRecursion_exact (m.touch A) A hA (h0 A)
  by_cases hex : ∃ r ∈ (m.touch A).get A, r.head? = some A
  · obtain ⟨Ap, m1, h1, _, hgA, hgP, hoth, _⟩ := x2 hex
    refine ⟨m1, he.trans h1, fun k r hr => ?_⟩
    by_cases hkP : k = Ap
    · subst hkP
      rw [hgP] at hr
      rcases List.mem_append.1 hr with h2 | h2
      · obtain ⟨a, _, rfl⟩ := List.mem_map.1 h2
        simp
      · simp only [List.mem_singleton] at h2
        subst h2
        simp
    · by_cases hkA : k = A
      · subst hkA
        rw [hgA] at hr
        obtain ⟨b, _, rfl⟩ := List.mem_map.1 hr
        simp
      · rw [hoth k hkA hkP] at hr
        exact h0 k r hr
  · exact ⟨m.touch A, he.trans (x1 fun r hr hh => hex ⟨r, hr, hh⟩), h0⟩

/-- C30: if no alternative of a grammar (a map with ascending keys) is empty, then none is
after the epsilon pass of cnf.cpp or of gnf.cpp; the unit pass of either returns, within two
sweeps, a grammar with no empty alternative; whatever the terminal isolation and the
binarization return has no empty alternative; one round of the leading substitution of
`convertToGNF` and `removeLeftRecursion` return, for every nonterminal, a map with no empty
alternative, and so does the whole loop over the ordered nonterminals of `convertToGNF`, so
that every access `rhs[0]` in them is in bounds. -/
theorem nonempty_alternatives_kept (G : Grammar) (hwf : G.rules.WF) (hne : NoEmpty G.rules) :
    NoEmpty (Cnf.removeEpsilonProductions G).rules ∧
    NoEmpty (Gnf.removeEpsilons G).rules ∧
    (∀ rounds, ∃ G1, Cnf.removeUnitProductions (rounds + 2) G = some G1 ∧ NoEmpty G1.rules) ∧
    (∀ rounds, ∃ G1, Gnf.removeUnits (rounds + 2) G = some G1 ∧ NoEmpty G1.rules) ∧
    (∀ G1, Cnf.replaceTerminalsInMixedRHS G = some G1 → NoEmpty G1.rules) ∧
    (∀ G1, Cnf.binarizeGrammar G = some G1 → NoEmpty G1.rules) ∧
    (∀ vars i Ai, ∃ m1 b, Gnf.substRound vars i Ai G.rules = some (m1, b) ∧ NoEmpty m1) ∧
    (∀ A, ∃ m1, Gnf.removeLeftRecursion G.rules A = some m1 ∧ NoEmpty m1) ∧
    (∀ fuel, G.rules.length ≤ fuel → ∃ m, beforeCleanup fuel G = some m ∧ NoEmpty m) := by
  refine ⟨(eps_passes_noEmpty G hne).1, (eps_passes_noEmpty G hne).2, fun rounds => ?_,
    fun rounds => ?_, fun G1 h => ?_, fun G1 h => ?_, fun vars i Ai => ?_,
    fun A => removeLeftRecursion_noEmpty G.rules A hne, fun fuel hf => ?_⟩
  · obtain ⟨m1, h1, _⟩ := unitLoop_result cnf_unitLike G.rules hwf (rounds + 2) (by omega)
    refine ⟨{ G with rules := m1 }, by simp only [Cnf.removeUnitProductions, h1, Option.map_some'],
      unitLoop_noEmpty cnf_unitBody_noEmpty _ _ _ hne h1⟩
  · obtain ⟨m1, h1, _⟩ := unitLoop_result gnf_unitLike G.rules hwf (rounds + 2) (by omega)
    refine ⟨{ G with rules := m1 }, by simp only [Gnf.removeUnits, h1, Option.map_some'],
      unitLoop_noEmpty gnf_unitBody_noEmpty _ _ _ hne h1⟩
  · simp only [Cnf.replaceTerminalsInMixedRHS, Option.map_eq_some'] at h
    obtain ⟨st, hs, rfl⟩ := h
    exact isoKeys_noEmpty _ _ st hs hne
  · simp only [Cnf.binarizeGrammar, Option.map_eq_some'] at h
    obtain ⟨st, hs, rfl⟩ := h
    exact binKeys_noEmpty _ _ st hs hne
  · obtain ⟨m1, b, h1, h2, _⟩ := substRound_noEmpty vars i Ai G.rules hne hwf
    exact ⟨m1, b, h1, h2⟩
  · have hs : Gnf.sortStrings G.rules.keys = G.rules.keys := sortStrings_sorted _ hwf
    have hnd : G.rules.keys.Nodup := keys_nodup _ hwf
    obtain ⟨m1, h1⟩ := gnfOrder_spec fuel G.rules.keys hnd
      (by simpa [keys] using hf) G.rules.keys [] G.rules rfl hwf hne
      (fun v hv => by simp at hv) (fun v hv => hv)
    simp only [List.length_nil] at h1
    obtain ⟨_, n1, _⟩ := gnfOrder_steps G.rules.keys hnd G.rules.keys [] [] G.rules m1 fuel
      (by simp) hwf hne (fun v hv => by simp at hv) (fun v hv => hv) h1
    exact ⟨m1, by simp only [beforeCleanup, hs]; exact h1, n1⟩

/-- C30 at the grammar of `main` in cnf.cpp. -/
theorem nonempty_alternatives_kept_witness :
    cnfMain.rules.WF ∧ NoEmpty cnfMain.rules ∧
    NoEmpty (Cnf.removeEpsilonProductions cnfMain).rules ∧
    NoEmpty (Gnf.removeEpsilons cnfMain).rules :=
  have h : NoEmpty cnfMain.rules := by
    intro k r hr
    obtain ⟨e, he, _, hre⟩ := mem_of_mem_get cnfMain.rules k r hr
    have hall : ∀ e ∈ cnfMain.rules, ∀ r ∈ e.2, r ≠ [] := by decide
    exact hall e he r hre
  have t := nonempty_alternatives_kept cnfMain (by decide) h
  ⟨by decide, h, t.1, t.2.1⟩

/-! ## The alternatives the epsilon passes derive -/

theorem mem_dropOnce_of (A : Sym) (r : Alt) (i : Nat) (hlen : 1 < r.length)
    (hi : r[i]? = some A) : r.eraseIdx i ∈ dropOnce A r := by
  have hlt : i < r.length := by
    by_contra hge
    rw [List.getElem?_eq_none (by omega)] at hi
    simp at hi
  simp only [dropOnce, List.mem_filterMap, List.mem_range]
  exact ⟨i, hlt, by simp [hi, hlen]⟩

theorem addDropped_epsStepLike : EpsStepLike fun m A => addDropped A m where
  persist m A B r hr _ := by
    simp only [get_addDropped]
    exact List.mem_append_left _ hr
  add m A B r i hr hlen hi _ := by
    simp only [get_addDropped]
    exact List.mem_append_right _ (List.mem_flatMap.2 ⟨r, hr, mem_dropOnce_of A r i hlen hi⟩)

theorem mem_get_update_strip (m : Rules) (A B : Sym) (r : Alt) (hr : r ∈ m.get B)
    (hne : r ≠ [eps]) : r ∈ (m.update A stripEps).get B := by
  by_cases hB : B = A
  · subst hB
    rw [get_update_same]
    exact (mem_stripEps _ _).2 ⟨hr, hne⟩
  · rw [get_update_other _ _ _ _ hB]
    exact hr

theorem epsStep_epsStepLike : EpsStepLike Cnf.epsStep where
  persist m A B r hr hne :=
    mem_get_update_strip _ A B r (addDropped_epsStepLike.persist m A B r hr hne) hne
  add m A B r i hr hlen hi hne :=
    mem_get_update_strip _ A B _ (addDropped_epsStepLike.add m A B r i hr hlen hi hne) hne

theorem fold_persist {step : Rules → Sym → Rules} (hs : EpsStepLike step) (B : Sym) (r : Alt)
    (hne : r ≠ [eps]) : ∀ (L : List Sym) (m : Rules), r ∈ m.get B →
    r ∈ (L.foldl step m).get B
  | [], _, h => h
  | A :: L, m, h => fold_persist hs B r hne L _ (hs.persist m A B r h hne)

theorem fold_single {step : Rules → Sym → Rules} (hs : EpsStepLike step) (A B : Sym) (p : Alt)
    (i : Nat) (htne : p.eraseIdx i ≠ [eps]) (hlen : 1 < p.length) (hi : p[i]? = some A) :
    ∀ (L : List Sym) (m : Rules), A ∈ L → p ∈ m.get B → p.eraseIdx i ∈ (L.foldl step m).get B
  | [], _, h, _ => by simp at h
  | A1 :: L, m, hA, hp => by
    have hpne : p ≠ [eps] := fun hh => by
      rw [hh] at hlen
      simp at hlen
    simp only [List.foldl_cons]
    by_cases h1 : A1 = A
    · subst h1
      exact fold_persist hs B _ htne L _ (hs.add m A1 B p i hp hlen hi htne)
    · have hAL : A ∈ L := by
        rcases List.mem_cons.1 hA with h2 | h2
        · exact absurd h2.symm h1
        · exact h2
      exact fold_single hs A B p i htne hlen hi L _ hAL (hs.persist m A1 B p hp hpne)

theorem gnf_strip_persist (start B : Sym) (r : Alt) (hne : r ≠ [eps]) :
    ∀ (L : List Sym) (m : Rules), r ∈ m.get B →
    r ∈ (L.foldl (fun m A => if A ≠ start then m.update A stripEps else m) m).get B
  | [], _, h => h
  | A :: L, m, h => by
    simp only [List.foldl_cons]
    apply gnf_strip_persist start B r hne L
    split_ifs
    · exact mem_get_update_strip m A B r h hne
    · exact h

theorem cnf_eps_mem (G : Grammar) (B : Sym) (r : Alt)
    (h : r ∈ ((nullable G.rules).foldl Cnf.epsStep G.rules).get B) :
    r ∈ (Cnf.removeEpsilonProductions G).rules.get B := by
  simp only [Cnf.removeEpsilonProductions]
  split_ifs
  · by_cases hB : B = G.startSymbol
    · subst hB
      rw [get_update_same]
      exact List.mem_append_left _ h
    · rw [get_update_other _ _ _ _ hB]
      exact h
  · exact h

theorem gnf_eps_mem (G : Grammar) (B : Sym) (r : Alt) (hne : r ≠ [eps])
    (h : r ∈ ((nullable G.rules).foldl (fun m A => addDropped A m) G.rules).get B) :
    r ∈ (Gnf.removeEpsilons G).rules.get B :=
  gnf_strip_persist G.startSymbol B r hne _ _ h

/-- Single occurrences: for every nonterminal `A` with a direct `ε` alternative and every
alternative `p` of any nonterminal `B`, after either epsilon pass the alternatives of `B`
include, for every single occurrence of `A` in `p`, the production obtained from `p` by
deleting exactly that occurrence, whenever that production is not empty (`p` has more than
one symbol, and what is left is not `[ε]`). -/
theorem eps_pass_single_removal (G : Grammar) (A B : Sym) (p : Alt) (i : Nat)
    (hA : [eps] ∈ G.rules.get A) (hp : p ∈ G.rules.get B) (hlen : 1 < p.length)
    (hi : p[i]? = some A) (htne : p.eraseIdx i ≠ [eps]) :
    p.eraseIdx i ∈ (Cnf.removeEpsilonProductions G).rules.get B ∧
    p.eraseIdx i ∈ (Gnf.removeEpsilons G).rules.get B := by
  have hn : A ∈ nullable G.rules := mem_nullable G.rules A hA
  exact ⟨cnf_eps_mem G B _ (fold_single epsStep_epsStepLike A B p i htne hlen hi _ _ hn hp),
    gnf_eps_mem G B _ htne (fold_single addDropped_epsStepLike A B p i htne hlen hi _ _ hn hp)⟩

/-- Single occurrences at `S → AbA`, `A → a | ε` and the second occurrence of `A`. -/
theorem eps_pass_single_removal_witness :
    [eps] ∈ twoOccurrences.rules.get (ch 'A') ∧
    [ch 'A', ch 'b', ch 'A'] ∈ twoOccurrences.rules.get (ch 'S') ∧
    [ch 'A', ch 'b', ch 'A'][2]? = some (ch 'A') ∧
    [ch 'A', ch 'b', ch 'A'].eraseIdx 2 ≠ [eps] ∧
    [ch 'A', ch 'b'] ∈ (Cnf.removeEpsilonProductions twoOccurrences).rules.get (ch 'S') ∧
    [ch 'A', ch 'b'] ∈ (Gnf.removeEpsilons twoOccurrences).rules.get (ch 'S') :=
  ⟨by decide, by decide, by decide, by decide,
    eps_pass_single_removal twoOccurrences (ch 'A') (ch 'S') [ch 'A', ch 'b', ch 'A'] 2
      (by decide) (by decide) (by decide) (by decide) (by decide)⟩

theorem erase_of_once (A : Sym) : ∀ (q : Alt),
    (q.filter fun s => decide (s = A)).length = 1 →
    ∃ i, q[i]? = some A ∧ q.eraseIdx i = q.filter fun s => decide (s ≠ A)
  | [], h => by simp at h
  | x :: xs, h => by
    by_cases hx : x = A
    · subst hx
      simp only [List.filter_cons, decide_True, if_true, List.length_cons] at h
      have h0 : (xs.filter fun s => decide (s = x)) = [] :=
        List.eq_nil_of_length_eq_zero (by omega)
      rw [List.filter_eq_nil_iff] at h0
      refine ⟨0, by simp, ?_⟩
      simp only [List.eraseIdx_cons_zero, ne_eq, List.filter_cons, not_true_eq_false,
        decide_False, Bool.false_eq_true, if_false]
      symm
      rw [List.filter_eq_self]
      intro s hs
      simpa using h0 s hs
    · have hxs : (xs.filter fun s => decide (s = A)).length = 1 := by
        simpa [List.filter_cons, hx] using h
      obtain ⟨i, h1, h2⟩ := erase_of_once A xs hxs
      refine ⟨i + 1, by simpa using h1, ?_⟩
      simp [List.filter_cons, hx, h2]

theorem fold_subsets {step : Rules → Sym → Rules} (hs : EpsStepLike step) (B : Sym) :
    ∀ (L : List Sym) (m : Rules) (q : Alt) (T : List Sym), q ∈ m.get B →
      (q.filter fun s => decide (s ∉ T)) ≠ [eps] →
      (∀ A ∈ T, A ∈ L) → (∀ A ∈ T, (q.filter fun s => decide (s = A)).length = 1) →
      (q.filter fun s => decide (s ∉ T)) ≠ [] →
      (q.filter fun s => decide (s ∉ T)) ∈ (L.foldl step m).get B
  | [], m, q, T, hq, _, hT, _, _ => by
    have hnil : T = [] := List.eq_nil_iff_forall_not_mem.2 fun A hA => by simpa using hT A hA
    subst hnil
    simpa using hq
  | A :: L, m, q, T, hq, heps, hT, hone, hne => by
    have hsubl : ∀ q1 : Alt, (q.filter fun s => decide (s ∉ T)).Sublist q1 → q1 ≠ [eps] := by
      intro q1 hs1 hh
      rw [hh, List.sublist_singleton] at hs1
      rcases hs1 with h1 | h1
      · exact hne h1
      · exact heps h1
    have hqne : q ≠ [eps] := hsubl q (List.filter_sublist q)
    simp only [List.foldl_cons]
    by_cases hAT : A ∈ T
    · obtain ⟨i, hi, herase⟩ := erase_of_once A q (hone A hAT)
      have hAq : A ∈ q := by
        obtain ⟨hlt, heq⟩ := List.getElem?_eq_some.1 hi
        exact heq ▸ List.getElem_mem hlt
      obtain ⟨s, hs1⟩ := List.exists_mem_of_ne_nil _ hne
      obtain ⟨hsq, hsT⟩ := List.mem_filter.1 hs1
      have hsT1 : s ∉ T := by simpa using hsT
      have hsA : s ≠ A := fun hh => hsT1 (hh ▸ hAT)
      have hlen : 1 < q.length := by
        by_contra hle
        have hl : q.length ≤ 1 := by omega
        match q, hsq, hAq, hl with
        | [x], h1, h2, _ =>
          simp only [List.mem_singleton] at h1 h2
          exact hsA (h1.trans h2.symm)
      have key0 : (q.filter fun s => decide (s ∉ T)).Sublist (q.eraseIdx i) := by
        rw [herase]
        have : (q.filter fun s => decide (s ∉ T))
            = (q.filter fun s => decide (s ≠ A)).filter fun s => decide (s ∉ T) := by
          rw [List.filter_filter]
          apply List.filter_congr
          intro x _
          by_cases hxA : x = A
          · subst hxA
            simp [hAT]
          · simp [hxA]
        rw [this]
        exact List.filter_sublist _
      have htne : q.eraseIdx i ≠ [eps] := hsubl _ key0
      have hadd := hs.add m A B q i hq hlen hi htne
      have key : ((q.eraseIdx i).filter fun s => decide (s ∉ T.filter fun t => decide (t ≠ A)))
          = q.filter fun s => decide (s ∉ T) := by
        rw [herase, List.filter_filter]
        apply List.filter_congr
        intro x _
        by_cases hxA : x = A
        · subst hxA
          simp [hAT]
        · simp [hxA]
      rw [← key]
      apply fold_subsets hs B L _ (q.eraseIdx i) _ hadd (by rw [key]; exact heps)
      · intro A1 hA1
        obtain ⟨h1, h2⟩ := List.mem_filter.1 hA1
        have h3 : A1 ≠ A := by simpa using h2
        rcases List.mem_cons.1 (hT A1 h1) with h4 | h4
        · exact absurd h4 h3
        · exact h4
      · intro A1 hA1
        obtain ⟨h1, h2⟩ := List.mem_filter.1 hA1
        have h3 : A1 ≠ A := by simpa using h2
        rw [herase, List.filter_filter]
        have : (q.filter fun a => decide (a = A1) && decide (a ≠ A))
            = q.filter fun s => decide (s = A1) := by
          apply List.filter_congr
          intro x _
          by_cases hx : x = A1
          · subst hx
            simp [h3]
          · simp [hx]
        rw [this]
        exact hone A1 h1
      · rw [key]
        exact hne
    · apply fold_subsets hs B L _ q T (hs.persist m A B q hq hqne) heps _ hone hne
      intro A1 hA1
      rcases List.mem_cons.1 (hT A1 hA1) with h4 | h4
      · exact absurd (h4 ▸ hA1) hAT
      · exact h4

/-- C24: let `p` be an alternative of a nonterminal `B` and `T` any nonterminals that have
each a direct `ε` alternative and occur each exactly once in `p`. After either epsilon pass
the alternatives of `B` include the production obtained from `p` by deleting the occurrences
of the nonterminals of `T`, whenever that production is not empty (it has a symbol, and is not
`[ε]`). -/
theorem eps_pass_all_subsets (G : Grammar) (B : Sym) (p : Alt) (hp : p ∈ G.rules.get B)
    (T : List Sym)
    (hT : ∀ A ∈ T, [eps] ∈ G.rules.get A ∧ (p.filter fun s => decide (s = A)).length = 1)
    (hne : (p.filter fun s => decide (s ∉ T)) ≠ [])
    (htne : (p.filter fun s => decide (s ∉ T)) ≠ [eps]) :
    (p.filter fun s => decide (s ∉ T)) ∈ (Cnf.removeEpsilonProductions G).rules.get B ∧
    (p.filter fun s => decide (s ∉ T)) ∈ (Gnf.removeEpsilons G).rules.get B := by
  have hL : ∀ A ∈ T, A ∈ nullable G.rules := fun A hA => mem_nullable G.rules A (hT A hA).1
  have hone : ∀ A ∈ T, (p.filter fun s => decide (s = A)).length = 1 := fun A hA => (hT A hA).2
  exact ⟨cnf_eps_mem G B _ (fold_subsets epsStep_epsStepLike B _ _ p T hp htne hL hone hne),
    gnf_eps_mem G B _ htne (fold_subsets addDropped_epsStepLike B _ _ p T hp htne hL hone hne)⟩

/-- C24 at `S → AcB`, `A → a | ε`, `B → b | ε`, with both `A` and `B` deleted: `S → c`. -/
theorem eps_pass_all_subsets_witness :
    [ch 'A', ch 'c', ch 'B'] ∈ twoNullables.rules.get (ch 'S') ∧
    (∀ A ∈ [ch 'A', ch 'B'], [eps] ∈ twoNullables.rules.get A ∧
      ([ch 'A', ch 'c', ch 'B'].filter fun s => decide (s = A)).length = 1) ∧
    ([ch 'A', ch 'c', ch 'B'].filter fun s => decide (s ∉ [ch 'A', ch 'B'])) = [[99]] ∧
    (Cnf.removeEpsilonProductions twoNullables).rules.get (ch 'S')
      = [[ch 'A', ch 'c', ch 'B'], [ch 'c', ch 'B'], [ch 'A', ch 'c'], [ch 'c']] ∧
    ([ch 'A', ch 'c', ch 'B'].filter fun s => decide (s ∉ [ch 'A', ch 'B']))
      ∈ (Cnf.removeEpsilonProductions twoNullables).rules.get (ch 'S') ∧
    ([ch 'A', ch 'c', ch 'B'].filter fun s => decide (s ∉ [ch 'A', ch 'B']))
      ∈ (Gnf.removeEpsilons twoNullables).rules.get (ch 'S') :=
  ⟨by decide, by decide, by decide, by decide,
    eps_pass_all_subsets twoNullables (ch 'S') [ch 'A', ch 'c', ch 'B'] (by decide)
      [ch 'A', ch 'B'] (by decide) (by decide) (by decide)⟩

/-! ## The names of the isolated terminals -/

theorem digitChar_val (k : Nat) (h : k < 10) : (Nat.digitChar k).toNat - 48 = k := by
  interval_cases k <;> rfl

theorem decVal_toDigitsCore : ∀ (fuel n : Nat) (ds : List Char), n < fuel →
    decVal ((Nat.toDigitsCore 10 fuel n ds).map Char.toNat)
      = n * 10 ^ ds.length + decVal (ds.map Char.toNat)
  | 0, _, _, h => by omega
  | fuel + 1, n, ds, h => by
    simp only [Nat.toDigitsCore]
    split_ifs with h0
    · have hn : n % 10 = n := by omega
      have h10 : n < 10 := by omega
      simp only [List.map_cons, decVal, List.length_map, hn, digitChar_val n h10]
    · have hlt : n / 10 < fuel := by omega
      rw [decVal_toDigitsCore fuel (n / 10) _ hlt]
      simp only [List.map_cons, decVal, List.length_map, List.length_cons,
        digitChar_val _ (Nat.mod_lt n (by omega))]
      have hn : n = 10 * (n / 10) + n % 10 := (Nat.div_add_mod n 10).symm
      generalize n / 10 = a at hn
      generalize n % 10 = b at hn
      subst hn
      ring

theorem decVal_toStr (n : Nat) : decVal (toStr n) = n := by
  simp only [toStr, Nat.toDigits]
  rw [decVal_toDigitsCore (n + 1) n [] (by omega)]
  simp [decVal]

theorem xName_inj (i j : Nat) (h : Cnf.xName i = Cnf.xName j) : i = j := by
  simp only [Cnf.xName, List.cons.injEq, true_and] at h
  have := congrArg decVal h
  rwa [decVal_toStr, decVal_toStr] at this

theorem findIdx_lt_iff (t : Sym) : ∀ (l : List Sym), Gnf.findIdx t l < l.length ↔ t ∈ l
  | [] => by simp [Gnf.findIdx]
  | x :: xs => by
    simp only [Gnf.findIdx, List.length_cons, List.mem_cons]
    by_cases hx : x = t
    · simp [hx]
    · simp only [if_neg hx, Nat.add_lt_add_iff_right, findIdx_lt_iff t xs]
      constructor
      · exact Or.inr
      · rintro (h | h)
        · exact absurd h.symm hx
        · exact h

theorem findIdx_append_left (t : Sym) : ∀ (l e : List Sym), t ∈ l →
    Gnf.findIdx t (l ++ e) = Gnf.findIdx t l
  | [], _, h => by simp at h
  | x :: xs, e, h => by
    simp only [List.cons_append, Gnf.findIdx]
    by_cases hx : x = t
    · simp [hx]
    · simp only [if_neg hx]
      have hmem : t ∈ xs := by
        rcases List.mem_cons.1 h with h1 | h1
        · exact absurd h1.symm hx
        · exact h1
      exact congrArg (fun n => n + 1) (findIdx_append_left t xs e hmem)

theorem findIdx_getElem (l : List Sym) (hnd : l.Nodup) (j : Nat) (t : Sym)
    (h : l[j]? = some t) : Gnf.findIdx t l = j := by
  induction l generalizing j with
  | nil => simp at h
  | cons x xs ih =>
    rw [List.nodup_cons] at hnd
    cases j with
    | zero =>
      simp only [List.getElem?_cons_zero, Option.some.injEq] at h
      simp [Gnf.findIdx, h]
    | succ j =>
      simp only [List.getElem?_cons_succ] at h
      have hmem : t ∈ xs := by
        obtain ⟨hlt, heq⟩ := List.getElem?_eq_some.1 h
        exact heq ▸ List.getElem_mem hlt
      have hx : x ≠ t := fun hh => hnd.1 (hh ▸ hmem)
      simp only [Gnf.findIdx, if_neg hx, ih hnd.2 j h]

theorem nameOf_append (ts e : List Sym) (t : Sym) (h : t ∈ ts) :
    nameOf (ts ++ e) t = nameOf ts t := by
  simp only [nameOf, findIdx_append_left t ts e h]

theorem addNew_ext (seen : List Sym) (s : Sym) : ∃ e, addNew seen s = seen ++ e := by
  unfold addNew
  split_ifs
  · exact ⟨[], by simp⟩
  · exact ⟨[s], rfl⟩

theorem mem_addNew (seen : List Sym) (s : Sym) : s ∈ addNew seen s := by
  unfold addNew
  split_ifs with h
  · exact h
  · simp

theorem addNew_nodup (seen : List Sym) (s : Sym) (h : seen.Nodup) : (addNew seen s).Nodup := by
  unfold addNew
  split_ifs with hs
  · exact h
  · exact List.Nodup.append h (List.nodup_singleton s) (by simpa using hs)

theorem foldl_addNew_ext : ∀ (l seen : List Sym), ∃ e, l.foldl addNew seen = seen ++ e
  | [], seen => ⟨[], by simp⟩
  | s :: l, seen => by
    obtain ⟨e1, h1⟩ := addNew_ext seen s
    obtain ⟨e2, h2⟩ := foldl_addNew_ext l (addNew seen s)
    exact ⟨e1 ++ e2, by rw [List.foldl_cons, h2, h1, List.append_assoc]⟩

theorem foldl_addNew_nodup : ∀ (l seen : List Sym), seen.Nodup → (l.foldl addNew seen).Nodup
  | [], _, h => h
  | s :: l, seen, h => foldl_addNew_nodup l _ (addNew_nodup seen s h)

theorem mem_foldl_addNew : ∀ (l seen : List Sym) (s : Sym), s ∈ l ∨ s ∈ seen →
    s ∈ l.foldl addNew seen
  | [], _, s, h => by simpa using h
  | x :: l, seen, s, h => by
    simp only [List.foldl_cons]
    apply mem_foldl_addNew l
    rcases h with h | h
    · rcases List.mem_cons.1 h with h1 | h1
      · exact Or.inr (h1 ▸ mem_addNew seen x)
      · exact Or.inl h1
    · obtain ⟨e, he⟩ := addNew_ext seen x
      exact Or.inr (he ▸ List.mem_append_left _ h)

theorem isoImage_append (ts e : List Sym) (r : Alt) (h : ∀ t ∈ toIsolate r, t ∈ ts) :
    isoImage (ts ++ e) r = isoImage ts r := by
  unfold isoImage
  split_ifs with hl
  · apply List.map_congr_left
    intro s hs
    split_ifs with ht
    · exact nameOf_append ts e s (h s (by simp [toIsolate, hl, hs, ht]))
    · rfl
  · rfl

theorem isoSym_exact (K0 : List Sym) (lhs : Sym) (hx : ∀ n, lhs ≠ Cnf.xName n) (size : Nat)
    (st : Cnf.IsoState) (seen : List Sym) (sym : Sym) (inv : IsoInv K0 st seen) :
    ∃ st1, Cnf.isoSym lhs size st sym
        = some (st1, if isTerminal sym && decide (1 < size) then
            nameOf (scanSym size seen sym) sym else sym) ∧
      IsoInv K0 st1 (scanSym size seen sym) ∧
      ∀ k, (∀ n, k ≠ Cnf.xName n) → st1.rules.get k = st.rules.get k := by
  unfold Cnf.isoSym scanSym
  by_cases hc : (isTerminal sym && decide (1 < size)) = true
  · simp only [hc, if_true]
    rw [inv.lookup sym]
    by_cases hs : sym ∈ seen
    · have ha : addNew seen sym = seen := by simp [addNew, hs]
      simp only [hs, if_true, ha]
      exact ⟨st, rfl, inv, fun _ _ => rfl⟩
    · have ha : addNew seen sym = seen ++ [sym] := by simp [addNew, hs]
      have hname : nameOf (seen ++ [sym]) sym = Cnf.xName (st.counter + 1) := by
        simp only [nameOf, findIdx_append sym seen [] hs, inv.counter]
      have hne : ¬ Cnf.xName (st.counter + 1) = lhs := fun hh => hx _ hh.symm
      simp only [hs, if_false, ha, hname, if_neg hne]
      refine ⟨_, rfl, ⟨?_, ?_, ?_, ?_, ?_, ?_⟩, fun k hk => ?_⟩
      · simp [inv.counter]
      · exact List.Nodup.append inv.nodup (List.nodup_singleton sym) (by simpa using hs)
      · intro t
        simp only [List.lookup_cons]
        by_cases hts : t = sym
        · subst hts
          simp [hname]
        · have hb : (t == sym) = false := by simpa using hts
          simp only [hb, inv.lookup t, List.mem_append, List.mem_singleton, hts, or_false]
          split_ifs with htm
          · rw [nameOf_append seen [sym] t htm]
          · rfl
      · intro j t hj
        simp only
        by_cases hjl : j < seen.length
        · rw [List.getElem?_append_left hjl] at hj
          rw [get_update_other _ _ _ _ (fun hh => by
            have := xName_inj _ _ hh
            rw [inv.counter] at this
            omega)]
          exact inv.xget j t hj
        · have hjl2 : j = seen.length := by
            have hlt : j < (seen ++ [sym]).length := by
              by_contra hge
              rw [List.getElem?_eq_none (by omega)] at hj
              simp at hj
            simp at hlt
            omega
          subst hjl2
          simp only [List.getElem?_concat_length, Option.some.injEq] at hj
          subst hj
          rw [← inv.counter, get_update_same, inv.xfree _ (by rw [inv.counter]; omega)]
          rfl
      · intro n hn
        simp only [List.length_append, List.length_singleton] at hn
        simp only
        rw [get_update_other _ _ _ _ (fun hh => by
          have := xName_inj _ _ hh
          rw [inv.counter] at this
          omega)]
        exact inv.xfree n (by omega)
      · intro k
        simp only [mem_keys_update, inv.keys k, List.length_append, List.length_singleton]
        constructor
        · rintro (h | h | ⟨j, hj, hk⟩)
          · exact Or.inr ⟨seen.length, by omega, by rw [h, inv.counter]⟩
          · exact Or.inl h
          · exact Or.inr ⟨j, by omega, hk⟩
        · rintro (h | ⟨j, hj, hk⟩)
          · exact Or.inr (Or.inl h)
          · by_cases hjl : j < seen.length
            · exact Or.inr (Or.inr ⟨j, hjl, hk⟩)
            · have : j = seen.length := by omega
              subst this
              exact Or.inl (by rw [hk, inv.counter])
      · simp only
        exact get_update_other _ _ _ _ (hk _)
  · simp only [hc, Bool.false_eq_true, if_false]
    exact ⟨st, rfl, inv, fun _ _ => rfl⟩

theorem scanSym_ext (size : Nat) (seen : List Sym) (sym : Sym) :
    ∃ e, scanSym size seen sym = seen ++ e := by
  unfold scanSym
  split_ifs
  · exact addNew_ext seen sym
  · exact ⟨[], by simp⟩

theorem foldl_scanSym_ext (size : Nat) : ∀ (l : Alt) (seen : List Sym),
    ∃ e, l.foldl (scanSym size) seen = seen ++ e
  | [], seen => ⟨[], by simp⟩
  | s :: l, seen => by
    obtain ⟨e1, h1⟩ := scanSym_ext size seen s
    obtain ⟨e2, h2⟩ := foldl_scanSym_ext size l (scanSym size seen s)
    exact ⟨e1 ++ e2, by rw [List.foldl_cons, h2, h1, List.append_assoc]⟩

theorem foldl_scanSym_eq : ∀ (l : Alt) (size : Nat) (seen : List Sym),
    l.foldl (scanSym size) seen
      = (if 1 < size then l.filter isTerminal else []).foldl addNew seen
  | [], size, seen => by split_ifs <;> rfl
  | s :: l, size, seen => by
    rw [List.foldl_cons, foldl_scanSym_eq l size]
    by_cases h1 : 1 < size
    · simp only [h1, if_true, scanSym, decide_True, Bool.and_true, List.filter_cons]
      cases isTerminal s <;> simp
    · simp [h1, scanSym]

theorem isoAlt_exact (K0 : List Sym) (lhs : Sym) (hx : ∀ n, lhs ≠ Cnf.xName n) (size : Nat) :
    ∀ (l : Alt) (st : Cnf.IsoState) (seen : List Sym), IsoInv K0 st seen →
    ∃ st1, Cnf.isoAlt lhs size st l
        = some (st1, l.map fun s => if isTerminal s && decide (1 < size) then
            nameOf (l.foldl (scanSym size) seen) s else s) ∧
      IsoInv K0 st1 (l.foldl (scanSym size) seen) ∧
      ∀ k, (∀ n, k ≠ Cnf.xName n) → st1.rules.get k = st.rules.get k
  | [], st, seen, inv => ⟨st, rfl, inv, fun _ _ => rfl⟩
  | sym :: rest, st, seen, inv => by
    obtain ⟨sa, h1, inva, sama⟩ := isoSym_exact K0 lhs hx size st seen sym inv
    obtain ⟨sb, h2, invb, samb⟩ := isoAlt_exact K0 lhs hx size rest sa _ inva
    refine ⟨sb, ?_, invb, fun k hk => (samb k hk).trans (sama k hk)⟩
    simp only [Cnf.isoAlt, h1, h2, List.map_cons, List.foldl_cons]
    congr 3
    split_ifs with hc
    · obtain ⟨e, he⟩ := foldl_scanSym_ext size rest (scanSym size seen sym)
      rw [he]
      refine (nameOf_append _ e sym ?_).symm
      simp only [scanSym, hc, if_true]
      exact mem_addNew seen sym
    · rfl

theorem isoAlt_image (ts : List Sym) (r : Alt) :
    (r.map fun s => if isTerminal s && decide (1 < r.length) then nameOf ts s else s)
      = isoImage ts r := by
  unfold isoImage
  by_cases h : 1 < r.length
  · simp [h]
  · simp [h]

theorem scanAlt_ext (seen : List Sym) (r : Alt) : ∃ e, scanAlt seen r = seen ++ e :=
  foldl_addNew_ext _ _

theorem foldl_scanAlt_ext : ∀ (alts : List Alt) (seen : List Sym),
    ∃ e, alts.foldl scanAlt seen = seen ++ e
  | [], seen => ⟨[], by simp⟩
  | r :: alts, seen => by
    obtain ⟨e1, h1⟩ := scanAlt_ext seen r
    obtain ⟨e2, h2⟩ := foldl_scanAlt_ext alts (scanAlt seen r)
    exact ⟨e1 ++ e2, by rw [List.foldl_cons, h2, h1, List.append_assoc]⟩

theorem mem_scanAlt (seen : List Sym) (r : Alt) (t : Sym) (h : t ∈ toIsolate r) :
    t ∈ scanAlt seen r := mem_foldl_addNew _ _ t (Or.inl h)

theorem isoAlts_exact (K0 : List Sym) (lhs : Sym) (hx : ∀ n, lhs ≠ Cnf.xName n) :
    ∀ (alts : List Alt) (st : Cnf.IsoState) (seen : List Sym), IsoInv K0 st seen →
    ∃ st1, Cnf.isoAlts lhs st alts
        = some (st1, alts.map (isoImage (alts.foldl scanAlt seen))) ∧
      IsoInv K0 st1 (alts.foldl scanAlt seen) ∧
      ∀ k, (∀ n, k ≠ Cnf.xName n) → st1.rules.get k = st.rules.get k
  | [], st, seen, inv => ⟨st, rfl, inv, fun _ _ => rfl⟩
  | rhs :: rest, st, seen, inv => by
    obtain ⟨sa, h1, inva, sama⟩ := isoAlt_exact K0 lhs hx rhs.length rhs st seen inv
    have hscan : rhs.foldl (scanSym rhs.length) seen = scanAlt seen rhs := by
      rw [foldl_scanSym_eq]
      rfl
    rw [isoAlt_image, hscan] at h1
    rw [hscan] at inva
    obtain ⟨sb, h2, invb, samb⟩ := isoAlts_exact K0 lhs hx rest sa _ inva
    refine ⟨sb, ?_, invb, fun k hk => (samb k hk).trans (sama k hk)⟩
    simp only [Cnf.isoAlts, h1, h2, List.map_cons, List.foldl_cons]
    congr 3
    obtain ⟨e, he⟩ := foldl_scanAlt_ext rest (scanAlt seen rhs)
    rw [he]
    exact (isoImage_append _ e rhs fun t ht => mem_scanAlt seen rhs t ht).symm

theorem isoImage_stable (seen : List Sym) (alts : List Alt) (e : List Sym) :
    alts.map (isoImage (alts.foldl scanAlt seen ++ e))
      = alts.map (isoImage (alts.foldl scanAlt seen)) := by
  apply List.map_congr_left
  intro r hr
  apply isoImage_append
  intro t ht
  obtain ⟨pre, post, rfl⟩ := List.append_of_mem hr
  rw [List.foldl_append, List.foldl_cons]
  obtain ⟨e2, he2⟩ := foldl_scanAlt_ext post (scanAlt (pre.foldl scanAlt seen) r)
  rw [he2]
  exact List.mem_append_left _ (mem_scanAlt _ r t ht)

theorem isoKeys_exact (K0 : List Sym) : ∀ (todo : List Sym) (st : Cnf.IsoState)
    (seen : List Sym), todo.Nodup → (∀ k ∈ todo, ∀ n, k ≠ Cnf.xName n) → (∀ k ∈ todo, k ∈ K0) →
    IsoInv K0 st seen →
    ∃ st1, Cnf.isoKeys st todo = some st1 ∧
      IsoInv K0 st1 ((todo.map st.rules.get).foldl (fun sn alts => alts.foldl scanAlt sn) seen) ∧
      (∀ k ∈ todo, st1.rules.get k = (st.rules.get k).map
        (isoImage ((todo.map st.rules.get).foldl (fun sn alts => alts.foldl scanAlt sn) seen))) ∧
      ∀ k, k ∉ todo → (∀ n, k ≠ Cnf.xName n) → st1.rules.get k = st.rules.get k
  | [], st, seen, _, _, _, inv =>
    ⟨st, rfl, inv, fun k hk => by simp at hk, fun _ _ _ => rfl⟩
  | lhs :: rest, st, seen, hnd, hX, hK, inv => by
    rw [List.nodup_cons] at hnd
    have hxl : ∀ n, lhs ≠ Cnf.xName n := hX lhs (List.mem_cons_self _ _)
    obtain ⟨sa, h1, inva, sama⟩ := isoAlts_exact K0 lhs hxl (st.rules.get lhs) st seen inv
    have hkey : Cnf.isoKey st lhs = some { sa with rules := (sa.rules.set lhs
        ((st.rules.get lhs).map (isoImage ((st.rules.get lhs).foldl scanAlt seen)))) } := by
      simp only [Cnf.isoKey, h1]
    have invk : IsoInv K0 { sa with rules := (sa.rules.set lhs
        ((st.rules.get lhs).map (isoImage ((st.rules.get lhs).foldl scanAlt seen)))) }
        ((st.rules.get lhs).foldl scanAlt seen) := by
      refine ⟨inva.counter, inva.nodup, inva.lookup, fun j t hj => ?_, fun n hn => ?_,
        fun k => ?_⟩
      · simp only
        rw [get_set_other _ _ _ _ (fun hh => hxl _ hh.symm)]
        exact inva.xget j t hj
      · simp only
        rw [get_set_other _ _ _ _ (fun hh => hxl _ hh.symm)]
        exact inva.xfree n hn
      · simp only [mem_keys_set, inva.keys k]
        constructor
        · rintro (h | h)
          · exact Or.inl (h ▸ hK lhs (List.mem_cons_self _ _))
          · exact h
        · exact Or.inr
    have hrest : ∀ k ∈ rest, (sa.rules.set lhs
        ((st.rules.get lhs).map (isoImage ((st.rules.get lhs).foldl scanAlt seen)))).get k
        = st.rules.get k := by
      intro k hk
      have hkl : k ≠ lhs := fun hh => hnd.1 (hh ▸ hk)
      rw [get_set_other _ _ _ _ hkl]
      exact sama k (hX k (List.mem_cons_of_mem _ hk))
    obtain ⟨sb, h2, invb, imb, samb⟩ := isoKeys_exact K0 rest _ _ hnd.2
      (fun k hk => hX k (List.mem_cons_of_mem _ hk)) (fun k hk => hK k (List.mem_cons_of_mem _ hk))
      invk
    have hmap : rest.map (Cnf.IsoState.rules { sa with rules := (sa.rules.set lhs
        ((st.rules.get lhs).map (isoImage ((st.rules.get lhs).foldl scanAlt seen)))) }).get
        = rest.map st.rules.get := List.map_congr_left fun k hk => hrest k hk
    rw [hmap] at invb imb
    refine ⟨sb, by simp only [Cnf.isoKeys, hkey, h2], by simpa using invb, fun k hk => ?_,
      fun k hk hkx => ?_⟩
    · simp only [List.map_cons, List.foldl_cons]
      rcases List.mem_cons.1 hk with h3 | h3
      · subst h3
        rw [samb k hnd.1 hxl]
        simp only
        rw [get_set_same]
        obtain ⟨e, he⟩ : ∃ e, (rest.map st.rules.get).foldl (fun sn alts => alts.foldl scanAlt sn)
            ((st.rules.get k).foldl scanAlt seen) = (st.rules.get k).foldl scanAlt seen ++ e := by
          generalize (st.rules.get k).foldl scanAlt seen = s0
          generalize rest.map st.rules.get = LL
          induction LL generalizing s0 with
          | nil => exact ⟨[], by simp⟩
          | cons a LL ih =>
            obtain ⟨e1, h4⟩ := foldl_scanAlt_ext a s0
            obtain ⟨e2, h5⟩ := ih (a.foldl scanAlt s0)
            exact ⟨e1 ++ e2, by rw [List.foldl_cons, h5, h4, List.append_assoc]⟩
        rw [he, isoImage_stable]
      · rw [imb k h3, hrest k h3]
    · have hkl : k ≠ lhs := fun hh => hk (hh ▸ List.mem_cons_self _ _)
      have hkr : k ∉ rest := fun hh => hk (List.mem_cons_of_mem _ hh)
      rw [samb k hkr hkx]
      simp only
      rw [get_set_other _ _ _ _ hkl]
      exact sama k hkx

theorem foldl_scanAlt_eq : ∀ (alts : List Alt) (sn : List Sym),
    alts.foldl scanAlt sn = (alts.flatMap toIsolate).foldl addNew sn
  | [], _ => rfl
  | r :: alts, sn => by
    rw [List.foldl_cons, List.flatMap_cons, List.foldl_append, foldl_scanAlt_eq alts]
    rfl

theorem foldl_scanAlts_eq : ∀ (LL : List (List Alt)) (sn : List Sym),
    LL.foldl (fun sn alts => alts.foldl scanAlt sn) sn
      = (LL.flatMap fun alts => alts.flatMap toIsolate).foldl addNew sn
  | [], _ => rfl
  | a :: LL, sn => by
    rw [List.foldl_cons, List.flatMap_cons, List.foldl_append, foldl_scanAlts_eq LL,
      foldl_scanAlt_eq]

theorem keys_map_get (m : Rules) (hwf : m.WF) : m.keys.map m.get = m.map Prod.snd := by
  simp only [keys, List.map_map]
  exact List.map_congr_left fun e he => get_of_mem m e hwf he

theorem isolated_eq (m : Rules) (hwf : m.WF) :
    (m.keys.map m.get).foldl (fun sn alts => alts.foldl scanAlt sn) [] = isolated m := by
  rw [foldl_scanAlts_eq, keys_map_get m hwf, isolated, firsts]
  congr 1
  simp [List.flatMap, List.map_map, Function.comp_def]

theorem mem_foldl_addNew_iff : ∀ (l seen : List Sym) (s : Sym),
    s ∈ l.foldl addNew seen ↔ s ∈ l ∨ s ∈ seen
  | [], _, s => by simp
  | x :: l, seen, s => by
    rw [List.foldl_cons, mem_foldl_addNew_iff l]
    have : s ∈ addNew seen x ↔ s = x ∨ s ∈ seen := by
      unfold addNew
      split_ifs with hx
      · constructor
        · exact Or.inr
        · rintro (h | h)
          · exact h ▸ hx
          · exact h
      · simp only [List.mem_append, List.mem_singleton]
        tauto
    rw [this, List.mem_cons]
    tauto

theorem mem_isolated (m : Rules) (t : Sym) :
    t ∈ isolated m ↔ ∃ e ∈ m, ∃ r ∈ e.2, 1 < r.length ∧ t ∈ r ∧ isTerminal t = true := by
  simp only [isolated, firsts, mem_foldl_addNew_iff, List.not_mem_nil, or_false,
    List.mem_flatMap, toIsolate]
  constructor
  · rintro ⟨e, he, r, hr, ht⟩
    split_ifs at ht with hl
    · obtain ⟨h1, h2⟩ := List.mem_filter.1 ht
      exact ⟨e, he, r, hr, hl, h1, h2⟩
    · simp at ht
  · rintro ⟨e, he, r, hr, hl, h1, h2⟩
    exact ⟨e, he, r, hr, by rw [if_pos hl]; exact List.mem_filter.2 ⟨h1, h2⟩⟩

/-- C27: on every grammar (a map with ascending keys) with no key named `X<n>`,
`replaceTerminalsInMixedRHS` returns a grammar in which every alternative of more than one
symbol of every nonterminal of the input has each of its terminals replaced by the name `X<k>`
of that terminal, `k` being the place, counted from 1, of the terminal among the terminals of
such alternatives in the order of their first occurrence, and every other alternative is as it
was; distinct terminals have distinct names; the nonterminal `X<k>` has the one alternative
made of its terminal; and the keys are those of the input and these names. -/
theorem terminal_isolation_mapping (G : Grammar) (hwf : G.rules.WF)
    (hX : ∀ k ∈ G.rules.keys, ∀ n, k ≠ Cnf.xName n) :
    ∃ G1, Cnf.replaceTerminalsInMixedRHS G = some G1 ∧
      (∀ k ∈ G.rules.keys,
        G1.rules.get k = (G.rules.get k).map (isoImage (isolated G.rules))) ∧
      (isolated G.rules).Nodup ∧
      (∀ t, t ∈ isolated G.rules ↔
        ∃ e ∈ G.rules, ∃ r ∈ e.2, 1 < r.length ∧ t ∈ r ∧ isTerminal t = true) ∧
      (∀ t1 ∈ isolated G.rules, ∀ t2 ∈ isolated G.rules,
        nameOf (isolated G.rules) t1 = nameOf (isolated G.rules) t2 → t1 = t2) ∧
      (∀ j t, (isolated G.rules)[j]? = some t →
        nameOf (isolated G.rules) t = Cnf.xName (j + 1) ∧
        G1.rules.get (Cnf.xName (j + 1)) = [[t]]) ∧
      ∀ k, k ∈ G1.rules.keys ↔
        k ∈ G.rules.keys ∨ ∃ j, j < (isolated G.rules).length ∧ k = Cnf.xName (j + 1) := by
  have inv0 : IsoInv G.rules.keys { terminalMap := [], counter := 0, rules := G.rules } [] := by
    refine ⟨rfl, List.nodup_nil, fun t => by simp, fun j t hj => by simp at hj, fun n _ => ?_,
      fun k => by simp⟩
    exact get_of_not_mem _ _ fun hh => hX _ hh n rfl
  obtain ⟨st1, h1, inv1, im1, _⟩ := isoKeys_exact G.rules.keys G.rules.keys _ []
    (keys_nodup _ hwf) hX (fun k hk => hk) inv0
  simp only [isolated_eq G.rules hwf] at inv1 im1
  refine ⟨{ G with rules := st1.rules }, by simp only [Cnf.replaceTerminalsInMixedRHS, h1,
    Option.map_some'], im1, inv1.nodup, mem_isolated G.rules, fun t1 h1 t2 _ hn => ?_,
    fun j t hj => ⟨?_, inv1.xget j t hj⟩, inv1.keys⟩
  · simp only [nameOf] at hn
    have := xName_inj _ _ hn
    exact findIdx_inj t1 t2 _ ((findIdx_lt_iff t1 _).2 h1) (by omega)
  · simp only [nameOf, findIdx_getElem _ inv1.nodup j t hj]

/-- C27 at the grammar of `main` in cnf.cpp: the terminals are `a`, `b`, in this order. -/
theorem terminal_isolation_mapping_witness :
    cnfMain.rules.WF ∧ (∀ k ∈ cnfMain.rules.keys, ∀ n, k ≠ Cnf.xName n) ∧
    isolated cnfMain.rules = [ch 'a', ch 'b'] ∧
    ∃ G1, Cnf.replaceTerminalsInMixedRHS cnfMain = some G1 ∧
      (∀ k ∈ cnfMain.rules.keys,
        G1.rules.get k = (cnfMain.rules.get k).map (isoImage (isolated cnfMain.rules))) ∧
      (isolated cnfMain.rules).Nodup ∧
      (∀ t, t ∈ isolated cnfMain.rules ↔
        ∃ e ∈ cnfMain.rules, ∃ r ∈ e.2, 1 < r.length ∧ t ∈ r ∧ isTerminal t = true) ∧
      (∀ t1 ∈ isolated cnfMain.rules, ∀ t2 ∈ isolated cnfMain.rules,
        nameOf (isolated cnfMain.rules) t1 = nameOf (isolated cnfMain.rules) t2 → t1 = t2) ∧
      (∀ j t, (isolated cnfMain.rules)[j]? = some t →
        nameOf (isolated cnfMain.rules) t = Cnf.xName (j + 1) ∧
        G1.rules.get (Cnf.xName (j + 1)) = [[t]]) ∧
      ∀ k, k ∈ G1.rules.keys ↔
        k ∈ cnfMain.rules.keys ∨
          ∃ j, j < (isolated cnfMain.rules).length ∧ k = Cnf.xName (j + 1) :=
  have hX : ∀ k ∈ cnfMain.rules.keys, ∀ n, k ≠ Cnf.xName n := by
    intro k hk n hkn
    have h1 : ∀ k ∈ cnfMain.rules.keys, k.head? ≠ some 88 := by decide
    exact h1 k hk (by rw [hkn]; rfl)
  ⟨by decide, hX, by decide, terminal_isolation_mapping cnfMain (by decide) hX⟩

/-! ## The two copies of the shared passes -/

theorem cnf_unitScan_inner_snd (lhs : Sym) : ∀ (l : List Alt) (acc : Rules × List Alt × Bool),
    (l.foldl (fun acc r2 => if r2 = [lhs] then acc else (acc.1, acc.2.1 ++ [r2], true))
      acc).2.1 = acc.2.1 ++ l.filter fun r => decide (r ≠ [lhs])
  | [], _ => by simp
  | r :: l, acc => by
    rw [List.foldl_cons, cnf_unitScan_inner_snd lhs l]
    by_cases h : r = [lhs]
    · simp [h]
    · simp [h, List.filter_cons]

theorem cnf_unitScan_fold_snd (lhs : Sym) (m : Rules) : ∀ (l : List Alt)
    (st : Rules × List Alt × Bool), (∀ k, st.1.get k = m.get k) →
    (l.foldl (Cnf.unitScan lhs) st).2.1 = st.2.1 ++ l.flatMap fun rhs =>
      if isUnit rhs then (m.get (rhs.headD [])).filter fun r => decide (r ≠ [lhs]) else []
  | [], _, _ => by simp
  | rhs :: l, st, hg => by
    have hg1 : ∀ k, (Cnf.unitScan lhs st rhs).1.get k = m.get k := by
      intro k
      unfold Cnf.unitScan
      split_ifs
      · rw [cnf_unitScan_inner_fst]
        simp only
        rw [get_touch, hg]
      · exact hg k
    rw [List.foldl_cons, cnf_unitScan_fold_snd lhs m l _ hg1, List.flatMap_cons,
      ← List.append_assoc]
    congr 1
    unfold Cnf.unitScan
    split_ifs
    · rw [cnf_unitScan_inner_snd]
      simp only
      rw [get_touch, hg]
    · simp

theorem gnf_unitScan_fold_snd (A : Sym) (m : Rules) : ∀ (l : List Alt)
    (st : Rules × List Alt), (∀ k, st.1.get k = m.get k) →
    (l.foldl (Gnf.unitScan A) st).2 = st.2 ++ l.flatMap fun rhs =>
      if isUnit rhs then (m.get (rhs.headD [])).filter fun r => decide (r ≠ [A]) else []
  | [], _, _ => by simp
  | rhs :: l, st, hg => by
    have hg1 : ∀ k, (Gnf.unitScan A st rhs).1.get k = m.get k := by
      intro k
      unfold Gnf.unitScan
      split_ifs
      · simp only
        rw [get_touch, hg]
      · exact hg k
    rw [List.foldl_cons, gnf_unitScan_fold_snd A m l _ hg1, List.flatMap_cons,
      ← List.append_assoc]
    congr 1
    unfold Gnf.unitScan
    split_ifs
    · simp only
      rw [get_touch, hg]
    · simp

theorem cnf_unitBody_exact (lhs : Sym) (m : Rules) (ch : Bool) :
    (Cnf.unitBody lhs m ch).1
      = (touchUnits (m.get lhs) m).update lhs fun v => stripUnits (v ++ unitAdd lhs m) := by
  simp only [Cnf.unitBody]
  rw [cnf_unitScan_fold_fst, cnf_unitScan_fold_snd lhs m _ _ fun _ => rfl]
  simp only [List.nil_append, unitAdd]

theorem gnf_unitBody_exact (A : Sym) (m : Rules) (ch : Bool) :
    (Gnf.unitBody A m ch).1
      = (touchUnits (m.get A) m).update A fun v => stripUnits (v ++ unitAdd A m) := by
  simp only [Gnf.unitBody]
  rw [gnf_unitScan_fold_fst, gnf_unitScan_fold_snd A m _ _ fun _ => rfl]
  simp only [List.nil_append, unitAdd]

theorem unitBody_same_map (lhs : Sym) (m : Rules) (c1 c2 : Bool) :
    (Cnf.unitBody lhs m c1).1 = (Gnf.unitBody lhs m c2).1 := by
  rw [cnf_unitBody_exact, gnf_unitBody_exact]

theorem mem_unitAdd (lhs : Sym) (m : Rules) (r : Alt) :
    r ∈ unitAdd lhs m ↔
      ∃ rhs ∈ m.get lhs, isUnit rhs = true ∧ r ∈ m.get (rhs.headD []) ∧ r ≠ [lhs] := by
  simp only [unitAdd, List.mem_flatMap]
  constructor
  · rintro ⟨rhs, hrhs, h⟩
    split_ifs at h with hu
    · obtain ⟨h1, h2⟩ := List.mem_filter.1 h
      exact ⟨rhs, hrhs, hu, h1, by simpa using h2⟩
    · simp at h
  · rintro ⟨rhs, hrhs, hu, h1, h2⟩
    exact ⟨rhs, hrhs, by rw [if_pos hu]; exact List.mem_filter.2 ⟨h1, by simpa using h2⟩⟩

theorem mem_keys_touchUnits : ∀ (l : List Alt) (m : Rules) (x : Sym),
    x ∈ (touchUnits l m).keys ↔ x ∈ m.keys ∨ ∃ r ∈ l, isUnit r = true ∧ r.headD [] = x
  | [], _, _ => by simp [touchUnits]
  | r :: l, m, x => by
    simp only [touchUnits, List.foldl_cons]
    have ih := mem_keys_touchUnits l (if isUnit r then m.touch (r.headD []) else m) x
    simp only [touchUnits] at ih
    rw [ih]
    by_cases hu : isUnit r = true
    · simp only [hu, if_true, mem_keys_touch, List.mem_cons, exists_eq_or_imp, true_and]
      constructor
      · rintro ((h | h) | h)
        · exact Or.inr (Or.inl h.symm)
        · exact Or.inl h
        · exact Or.inr (Or.inr h)
      · rintro (h | h | h)
        · exact Or.inl (Or.inr h)
        · exact Or.inl (Or.inl h.symm)
        · exact Or.inr h
    · simp only [hu, Bool.false_eq_true, if_false, List.mem_cons, exists_eq_or_imp, false_and,
        false_or]

theorem sameSets_refl (m : Rules) : SameSets m m := ⟨fun _ => Iff.rfl, fun _ _ => Iff.rfl⟩

theorem sameSets_body (lhs : Sym) (m1 m2 : Rules) (c1 c2 : Bool) (h : SameSets m1 m2) :
    SameSets (Cnf.unitBody lhs m1 c1).1 (Gnf.unitBody lhs m2 c2).1 := by
  rw [cnf_unitBody_exact, gnf_unitBody_exact]
  obtain ⟨hk, hg⟩ := h
  constructor
  · intro k
    simp only [mem_keys_update, mem_keys_touchUnits, hk k]
    constructor
    · rintro (h1 | h1 | ⟨r, hr, hu, hx⟩)
      · exact Or.inl h1
      · exact Or.inr (Or.inl h1)
      · exact Or.inr (Or.inr ⟨r, (hg lhs r).1 hr, hu, hx⟩)
    · rintro (h1 | h1 | ⟨r, hr, hu, hx⟩)
      · exact Or.inl h1
      · exact Or.inr (Or.inl h1)
      · exact Or.inr (Or.inr ⟨r, (hg lhs r).2 hr, hu, hx⟩)
  · intro k r
    by_cases hkl : k = lhs
    · subst hkl
      simp only [get_update_same, touchUnits_get, stripUnits, List.mem_filter, List.mem_append,
        mem_unitAdd, hg]
    · simp only [get_update_other _ _ _ _ hkl, touchUnits_get, hg]

theorem sorted_keys_eq : ∀ (l1 l2 : List Sym), l1.Pairwise (fun a b => strLt a b = true) →
    l2.Pairwise (fun a b => strLt a b = true) → (∀ k, k ∈ l1 ↔ k ∈ l2) → l1 = l2
  | [], [], _, _, _ => rfl
  | [], b :: l2, _, _, h => by
    have := (h b).2 (List.mem_cons_self _ _)
    simp at this
  | a :: l1, [], _, _, h => by
    have := (h a).1 (List.mem_cons_self _ _)
    simp at this
  | a :: l1, b :: l2, w1, w2, h => by
    rw [List.pairwise_cons] at w1 w2
    have hab : a = b := by
      by_contra hne
      have h1 : a ∈ l2 := by
        rcases List.mem_cons.1 ((h a).1 (List.mem_cons_self _ _)) with h0 | h0
        · exact absurd h0 hne
        · exact h0
      have h2 : b ∈ l1 := by
        rcases List.mem_cons.1 ((h b).2 (List.mem_cons_self _ _)) with h0 | h0
        · exact absurd h0.symm hne
        · exact h0
      have e1 := w2.1 a h1
      have e2 := w1.1 b h2
      rw [strLt_asymm _ _ e1] at e2
      exact absurd e2 (by simp)
    subst hab
    have ht : l1 = l2 := by
      apply sorted_keys_eq l1 l2 w1.2 w2.2
      intro k
      constructor
      · intro hk
        rcases List.mem_cons.1 ((h k).1 (List.mem_cons_of_mem _ hk)) with h0 | h0
        · exact absurd h0.symm (strLt_ne _ _ (w1.1 k hk))
        · exact h0
      · intro hk
        rcases List.mem_cons.1 ((h k).2 (List.mem_cons_of_mem _ hk)) with h0 | h0
        · exact absurd h0.symm (strLt_ne _ _ (w2.1 k hk))
        · exact h0
    rw [ht]

theorem sameSets_keys (m1 m2 : Rules) (h : SameSets m1 m2) (w1 : m1.WF) (w2 : m2.WF) :
    m1.keys = m2.keys := sorted_keys_eq _ _ w1 w2 h.1

theorem sweep_cross (R : Rules → Rules → Prop)
    (hkeys : ∀ m1 m2, R m1 m2 → m1.WF → m2.WF → m1.keys = m2.keys)
    (hbody : ∀ lhs m1 m2 c1 c2, R m1 m2 →
      R (Cnf.unitBody lhs m1 c1).1 (Gnf.unitBody lhs m2 c2).1) :
    ∀ (f1 f2 : Nat) (cur : Option Sym) (m1 m2 : Rules) (c1 c2 : Bool) (r1 r2 : Rules × Bool),
      R m1 m2 → m1.WF → m2.WF → sweep Cnf.unitBody f1 cur m1 c1 = some r1 →
      sweep Gnf.unitBody f2 cur m2 c2 = some r2 → R r1.1 r2.1
  | 0, _, _, _, _, _, _, _, _, _, _, _, h, _ => by simp [sweep] at h
  | _ + 1, 0, _, _, _, _, _, _, _, _, _, _, _, h => by simp [sweep] at h
  | f1 + 1, f2 + 1, cur, m1, m2, c1, c2, r1, r2, hR, w1, w2, h1, h2 => by
    simp only [sweep] at h1 h2
    have hk : nextKey m2 cur = nextKey m1 cur := by
      simp only [nextKey, hkeys m1 m2 hR w1 w2]
    rw [hk] at h2
    cases hn : nextKey m1 cur with
    | none =>
      rw [hn] at h1 h2
      simp only [Option.some.injEq] at h1 h2
      subst h1
      subst h2
      exact hR
    | some lhs =>
      rw [hn] at h1 h2
      exact sweep_cross R hkeys hbody f1 f2 (some lhs) _ _ _ _ r1 r2 (hbody lhs m1 m2 c1 c2 hR)
        (cnf_unitLike.wf lhs m1 c1 w1) (gnf_unitLike.wf lhs m2 c2 w2) h1 h2

theorem unit_passes_cross (R : Rules → Rules → Prop)
    (hkeys : ∀ m1 m2, R m1 m2 → m1.WF → m2.WF → m1.keys = m2.keys)
    (hbody : ∀ lhs m1 m2 c1 c2, R m1 m2 →
      R (Cnf.unitBody lhs m1 c1).1 (Gnf.unitBody lhs m2 c2).1)
    (m1 m2 : Rules) (hR : R m1 m2) (w1 : m1.WF) (w2 : m2.WF) :
    ∃ r1 r2, (∀ rounds, unitLoop Cnf.unitBody sweepBound (rounds + 2) m1 = some r1) ∧
      (∀ rounds, unitLoop Gnf.unitBody sweepBound (rounds + 2) m2 = some r2) ∧ R r1 r2 ∧
      r1.WF ∧ r2.WF := by
  obtain ⟨a1, c1, s1, _, l1, _⟩ := unitLoop_two_sweeps cnf_unitLike m1 w1
  obtain ⟨a2, c2, s2, _, l2, _⟩ := unitLoop_two_sweeps gnf_unitLike m2 w2
  have p1 := sweep_post cnf_unitLike _ none m1 false _ w1
    (by intro k hk; simp [isAfter] at hk) s1
  have p2 := sweep_post gnf_unitLike _ none m2 false _ w2
    (by intro k hk; simp [isAfter] at hk) s2
  exact ⟨a1, a2, l1, l2, sweep_cross R hkeys hbody _ _ none m1 m2 false false _ _ hR w1 w2 s1 s2,
    p1.1, p2.1⟩

theorem dropOnce_short (A : Sym) (r : Alt) (h : r.length ≤ 1) : dropOnce A r = [] := by
  simp only [dropOnce, List.filterMap_eq_nil_iff]
  intro i _
  have : ¬ 1 < r.length := by omega
  simp [this]

theorem flatMap_dropOnce_strip (A : Sym) : ∀ (v : List Alt),
    (stripEps v).flatMap (dropOnce A) = v.flatMap (dropOnce A)
  | [] => rfl
  | r :: v => by
    simp only [stripEps, List.filter_cons, List.flatMap_cons]
    have ih := flatMap_dropOnce_strip A v
    simp only [stripEps] at ih
    by_cases hr : isEpsAlt r = true
    · have hre : r = [eps] := by simpa [isEpsAlt] using hr
      simp only [hr, Bool.not_true, Bool.false_eq_true, if_false, ih]
      rw [hre, dropOnce_short A [eps] (by simp)]
      rfl
    · simp only [hr, Bool.not_false, if_true, List.flatMap_cons, ih]

theorem stripEps_idem (v : List Alt) : stripEps (stripEps v) = stripEps v := by
  simp [stripEps, List.filter_filter]

theorem stripEps_add (A : Sym) (v : List Alt) (hv : ∀ r ∈ v, eps ∈ r → r = [eps]) :
    stripEps (v ++ v.flatMap (dropOnce A)) = stripEps v ++ v.flatMap (dropOnce A) := by
  simp only [stripEps, List.filter_append]
  congr 1
  rw [List.filter_eq_self]
  intro t ht
  obtain ⟨r, hr, htr⟩ := List.mem_flatMap.1 ht
  have := dropOnce_no_eps A r t (hv r hr) htr
  simp only [isEpsAlt, Bool.not_eq_true', decide_eq_false_iff_not]
  intro hh
  exact this (hh ▸ List.mem_singleton_self _)

theorem stripEps_app (a b : List Alt) : stripEps (a ++ b) = stripEps a ++ stripEps b := by
  simp [stripEps]

theorem stripEps_drop (A : Sym) (v : List Alt) (hv : ∀ r ∈ v, eps ∈ r → r = [eps]) :
    stripEps (v.flatMap (dropOnce A)) = v.flatMap (dropOnce A) := by
  have h := stripEps_add A v hv
  rw [stripEps_app] at h
  exact List.append_cancel_left h

theorem nullable_sub_keys (m : Rules) (k : Sym) (h : k ∈ nullable m) : k ∈ m.keys := by
  simp only [nullable, List.mem_map, List.mem_filter] at h
  obtain ⟨e, ⟨he, _⟩, rfl⟩ := h
  exact List.mem_map_of_mem Prod.fst he

theorem eps_of_nullable (m : Rules) (hwf : m.WF) (k : Sym) (h : k ∈ nullable m) :
    [eps] ∈ m.get k := by
  simp only [nullable, List.mem_map, List.mem_filter] at h
  obtain ⟨e, ⟨he, ha⟩, rfl⟩ := h
  rw [get_of_mem m e hwf he]
  obtain ⟨r, hr, hre⟩ := List.any_eq_true.1 ha
  have : r = [eps] := by simpa [isEpsAlt] using hre
  exact this ▸ hr

theorem add_fold_mem (k : Sym) (r : Alt) : ∀ (L : List Sym) (m : Rules), r ∈ m.get k →
    r ∈ (L.foldl (fun m A => addDropped A m) m).get k
  | [], _, h => h
  | A :: L, m, h => by
    apply add_fold_mem k r L
    rw [get_addDropped]
    exact List.mem_append_left _ h

theorem add_fold_keys : ∀ (L : List Sym) (m : Rules),
    (L.foldl (fun m A => addDropped A m) m).keys = m.keys
  | [], _ => rfl
  | A :: L, m => by
    rw [List.foldl_cons, add_fold_keys L, keys_addDropped]

theorem add_fold_epsWhole : ∀ (L : List Sym) (m : Rules), EpsWhole m →
    EpsWhole (L.foldl (fun m A => addDropped A m) m)
  | [], _, h => h
  | A :: L, m, h => add_fold_epsWhole L _ (EpsWhole_addDropped A m h)

theorem eps_folds_rel : ∀ (L P : List Sym) (m1 m2 : Rules), EpsWhole m2 →
    (∀ A ∈ L, A ∈ m2.keys) → (∀ k, k ∈ m1.keys ↔ k ∈ m2.keys) →
    (∀ k, m1.get k = if k ∈ P then stripEps (m2.get k) else m2.get k) →
    (∀ k, k ∈ (L.foldl Cnf.epsStep m1).keys ↔ k ∈ m2.keys) ∧
    ∀ k, (L.foldl Cnf.epsStep m1).get k =
      if k ∈ L ∨ k ∈ P then stripEps ((L.foldl (fun m A => addDropped A m) m2).get k)
      else (L.foldl (fun m A => addDropped A m) m2).get k
  | [], P, m1, m2, _, _, hk, hg => ⟨hk, fun k => by simpa using hg k⟩
  | A :: L, P, m1, m2, he, hL, hk, hg => by
    have hA : A ∈ m2.keys := hL A (List.mem_cons_self _ _)
    have hk1 : ∀ k, k ∈ (Cnf.epsStep m1 A).keys ↔ k ∈ (addDropped A m2).keys := by
      intro k
      simp only [Cnf.epsStep, mem_keys_update, keys_addDropped, hk k]
      constructor
      · rintro (h | h)
        · exact h ▸ hA
        · exact h
      · exact Or.inr
    have hev : ∀ k, ∀ r ∈ m2.get k, eps ∈ r → r = [eps] := fun k r hr => he k r hr
    have hg1 : ∀ k, (Cnf.epsStep m1 A).get k =
        if k ∈ A :: P then stripEps ((addDropped A m2).get k) else (addDropped A m2).get k := by
      intro k
      simp only [Cnf.epsStep]
      by_cases hkA : k = A
      · subst hkA
        simp only [get_update_same, get_addDropped, List.mem_cons, true_or, if_true, hg k]
        split_ifs
        · rw [flatMap_dropOnce_strip, stripEps_add _ _ (hev k), stripEps_app, stripEps_idem,
            stripEps_drop _ _ (hev k)]
        · rfl
      · simp only [get_update_other _ _ _ _ hkA, get_addDropped, List.mem_cons, hkA, false_or,
          hg k]
        split_ifs
        · rw [flatMap_dropOnce_strip, stripEps_add _ _ (hev k)]
        · rfl
    obtain ⟨ik, ig⟩ := eps_folds_rel L (A :: P) (Cnf.epsStep m1 A) (addDropped A m2)
      (EpsWhole_addDropped A m2 he) (fun B hB => by
        rw [keys_addDropped]
        exact hL B (List.mem_cons_of_mem _ hB)) hk1 hg1
    refine ⟨fun k => by rw [List.foldl_cons, ik k, keys_addDropped], fun k => ?_⟩
    rw [List.foldl_cons, List.foldl_cons, ig k]
    have : (k ∈ L ∨ k ∈ A :: P) ↔ (k ∈ A :: L ∨ k ∈ P) := by
      simp only [List.mem_cons]
      tauto
    simp only [this]

theorem gnf_strip_get (start : Sym) : ∀ (L : List Sym) (m : Rules) (k : Sym),
    (L.foldl (fun m A => if A ≠ start then m.update A stripEps else m) m).get k =
      if k ∈ L ∧ k ≠ start then stripEps (m.get k) else m.get k
  | [], _, _ => by simp
  | A :: L, m, k => by
    rw [List.foldl_cons, gnf_strip_get start L]
    by_cases hA : A = start
    · subst hA
      simp only [ne_eq, not_true_eq_false, if_false, List.mem_cons]
      by_cases hk : k = A
      · simp [hk]
      · simp [hk]
    · simp only [ne_eq, hA, not_false_eq_true, if_true, List.mem_cons]
      by_cases hk : k = A
      · subst hk
        simp only [get_update_same, true_or, true_and, hA, not_false_eq_true, if_true,
          stripEps_idem]
        split_ifs <;> rfl
      · simp only [get_update_other _ _ _ _ hk, hk, false_or]

theorem gnf_strip_keys (start : Sym) : ∀ (L : List Sym) (m : Rules), (∀ A ∈ L, A ∈ m.keys) →
    ∀ k, k ∈ (L.foldl (fun m A => if A ≠ start then m.update A stripEps else m) m).keys ↔
      k ∈ m.keys
  | [], _, _, _ => Iff.rfl
  | A :: L, m, hL, k => by
    rw [List.foldl_cons]
    have hA : A ∈ m.keys := hL A (List.mem_cons_self _ _)
    have hstep : ∀ x, x ∈ (if A ≠ start then m.update A stripEps else m).keys ↔ x ∈ m.keys := by
      intro x
      split_ifs
      · rw [mem_keys_update]
        constructor
        · rintro (h | h)
          · exact h ▸ hA
          · exact h
        · exact Or.inr
      · exact Iff.rfl
    rw [gnf_strip_keys start L _ (fun B hB => (hstep B).2 (hL B (List.mem_cons_of_mem _ hB))) k]
    exact hstep k

theorem eps_passes_get (G : Grammar) (hwf : G.rules.WF) (he : EpsWhole G.rules) :
    (Cnf.removeEpsilonProductions G).rules.WF ∧ (Gnf.removeEpsilons G).rules.WF ∧
    (∀ k, k ∈ (Cnf.removeEpsilonProductions G).rules.keys ↔ k ∈ G.rules.keys) ∧
    (∀ k, k ∈ (Gnf.removeEpsilons G).rules.keys ↔ k ∈ G.rules.keys) ∧
    (∀ k, (Cnf.removeEpsilonProductions G).rules.get k =
      if k ∈ nullable G.rules then
        if k = G.startSymbol then
          stripEps (((nullable G.rules).foldl (fun m A => addDropped A m) G.rules).get k) ++
            [[eps]]
        else stripEps (((nullable G.rules).foldl (fun m A => addDropped A m) G.rules).get k)
      else ((nullable G.rules).foldl (fun m A => addDropped A m) G.rules).get k) ∧
    (∀ k, (Gnf.removeEpsilons G).rules.get k =
      if k ∈ nullable G.rules ∧ k ≠ G.startSymbol then
        stripEps (((nullable G.rules).foldl (fun m A => addDropped A m) G.rules).get k)
      else ((nullable G.rules).foldl (fun m A => addDropped A m) G.rules).get k) := by
  obtain ⟨fk, fg⟩ := eps_folds_rel (nullable G.rules) [] G.rules G.rules he
    (fun A hA => nullable_sub_keys _ A hA) (fun _ => Iff.rfl) (fun k => by simp)
  have cw := (cnf_epsStep_fold (nullable G.rules) G.rules he hwf).1
  have aw := (gnf_add_fold (nullable G.rules) G.rules he hwf).1
  have ak := add_fold_keys (nullable G.rules) G.rules
  refine ⟨?_, ?_, ?_, ?_, ?_, ?_⟩
  · simp only [Cnf.removeEpsilonProductions]
    split_ifs
    · exact WF_update _ _ _ cw
    · exact cw
  · exact (gnf_strip_fold G.startSymbol (nullable G.rules) _ aw).1
  · intro k
    simp only [Cnf.removeEpsilonProductions]
    split_ifs with hs
    · rw [mem_keys_update, fk k]
      constructor
      · rintro (h | h)
        · exact h ▸ nullable_sub_keys _ _ hs
        · exact h
      · exact Or.inr
    · exact fk k
  · intro k
    simp only [Gnf.removeEpsilons]
    rw [gnf_strip_keys G.startSymbol (nullable G.rules) _
      (fun A hA => by rw [ak]; exact nullable_sub_keys _ A hA) k, ak]
  · intro k
    simp only [Cnf.removeEpsilonProductions]
    by_cases hs : G.startSymbol ∈ nullable G.rules
    · simp only [hs, if_true]
      by_cases hk : k = G.startSymbol
      · subst hk
        simp only [get_update_same, fg, hs, List.not_mem_nil, or_false, if_true]
      · simp only [get_update_other _ _ _ _ hk, fg, List.not_mem_nil, or_false, hk, if_false]
    · simp only [hs, if_false, fg, List.not_mem_nil, or_false]
      by_cases hk : k ∈ nullable G.rules
      · have : k ≠ G.startSymbol := fun h => hs (h ▸ hk)
        simp only [hk, this, if_true, if_false]
      · simp only [hk, if_false]
  · intro k
    simp only [Gnf.removeEpsilons]
    exact gnf_strip_get G.startSymbol (nullable G.rules) _ k

theorem eps_passes_sameSets (G : Grammar) (hwf : G.rules.WF) (he : EpsWhole G.rules) :
    SameSets (Cnf.removeEpsilonProductions G).rules (Gnf.removeEpsilons G).rules := by
  obtain ⟨_, _, ck, gk, cg, gg⟩ := eps_passes_get G hwf he
  refine ⟨fun k => by rw [ck k, gk k], fun k r => ?_⟩
  rw [cg k, gg k]
  by_cases hk : k ∈ nullable G.rules
  · by_cases hs : k = G.startSymbol
    · subst hs
      have hmem := add_fold_mem G.startSymbol [eps] (nullable G.rules) G.rules
        (eps_of_nullable G.rules hwf G.startSymbol hk)
      simp only [hk, if_true, true_and, ne_eq, not_true_eq_false, if_false,
        List.mem_append, List.mem_singleton, mem_stripEps]
      constructor
      · rintro (h | h)
        · exact h.1
        · exact h ▸ hmem
      · intro h
        by_cases hr : r = [eps]
        · exact Or.inr hr
        · exact Or.inl ⟨h, hr⟩
    · simp only [hk, hs, if_true, if_false, true_and, ne_eq, not_false_eq_true]
  · simp only [hk, if_false, false_and]

theorem eps_passes_eq (G : Grammar) (hwf : G.rules.WF) (he : EpsWhole G.rules)
    (hs : [eps] ∉ G.rules.get G.startSymbol) :
    Cnf.removeEpsilonProductions G = Gnf.removeEpsilons G := by
  obtain ⟨cw, gw, ck, gk, cg, gg⟩ := eps_passes_get G hwf he
  have hrules : (Cnf.removeEpsilonProductions G).rules = (Gnf.removeEpsilons G).rules := by
    apply wf_ext _ _ cw gw
    intro k
    by_cases hk : k ∈ G.rules.keys
    · rw [find_eq_get_of_mem _ k ((ck k).2 hk), find_eq_get_of_mem _ k ((gk k).2 hk), cg k, gg k]
      by_cases hn : k ∈ nullable G.rules
      · have : k ≠ G.startSymbol := fun h => hs (h ▸ eps_of_nullable G.rules hwf k hn)
        simp only [hn, this, if_true, if_false, true_and, ne_eq, not_false_eq_true]
      · simp only [hn, if_false, false_and]
    · rw [find_none_of_not_mem _ k (fun h => hk ((ck k).1 h)),
        find_none_of_not_mem _ k (fun h => hk ((gk k).1 h))]
  have hstart : (Cnf.removeEpsilonProductions G).startSymbol = (Gnf.removeEpsilons G).startSymbol :=
    rfl
  cases hc : Cnf.removeEpsilonProductions G
  cases hg : Gnf.removeEpsilons G
  rw [hc, hg] at hrules hstart
  simp only at hrules hstart
  rw [hrules, hstart]

/-- C31: for every grammar in which `ε` occurs only as a whole alternative, the passes of
cnf.cpp (`removeEpsilonProductions`, then `removeUnitProductions`) and those of gnf.cpp
(`removeEpsilons`, then `removeUnits`) both return within two sweeps of the unit loop, and
the two results have the same keys and, under every key, the same set of alternatives; when
the start symbol has no alternative `[ε]`, the two results are the same grammar, lists of
alternatives included. -/
theorem shared_passes_agree (G : Grammar) (hwf : G.rules.WF)
    (heps : ∀ e ∈ G.rules, ∀ r ∈ e.2, eps ∈ r → r = [eps]) :
    ∃ Gc Gg,
      (∀ rounds, Cnf.removeUnitProductions (rounds + 2) (Cnf.removeEpsilonProductions G) =
        some Gc) ∧
      (∀ rounds, Gnf.removeUnits (rounds + 2) (Gnf.removeEpsilons G) = some Gg) ∧
      Gc.startSymbol = Gg.startSymbol ∧ Gc.rules.keys = Gg.rules.keys ∧
      (∀ k r, r ∈ Gc.rules.get k ↔ r ∈ Gg.rules.get k) ∧
      ([eps] ∉ G.rules.get G.startSymbol → Gc = Gg) := by
  have he := epsWhole_of_entries G.rules heps
  obtain ⟨cw, gw, _⟩ := eps_passes_get G hwf he
  obtain ⟨r1, r2, l1, l2, hR, w1, w2⟩ := unit_passes_cross SameSets
    (fun m1 m2 h a b => sameSets_keys m1 m2 h a b)
    (fun lhs m1 m2 c1 c2 h => sameSets_body lhs m1 m2 c1 c2 h) _ _
    (eps_passes_sameSets G hwf he) cw gw
  refine ⟨⟨G.startSymbol, r1⟩, ⟨G.startSymbol, r2⟩, fun rounds => ?_, fun rounds => ?_, rfl,
    sameSets_keys r1 r2 hR w1 w2, hR.2, fun hs => ?_⟩
  · simp only [Cnf.removeUnitProductions, l1 rounds, Option.map_some']
    rfl
  · simp only [Gnf.removeUnits, l2 rounds, Option.map_some']
    rfl
  · have hE := eps_passes_eq G hwf he hs
    obtain ⟨q1, q2, k1, k2, hq, _, _⟩ := unit_passes_cross Eq
      (fun m1 m2 h _ _ => by rw [h])
      (fun lhs m1 m2 c1 c2 h => by rw [h]; exact unitBody_same_map lhs m2 c1 c2)
      (Cnf.removeEpsilonProductions G).rules (Gnf.removeEpsilons G).rules
      (by rw [hE]) cw gw
    have e1 : r1 = q1 := Option.some.inj ((l1 0).symm.trans (k1 0))
    have e2 : r2 = q2 := Option.some.inj ((l2 0).symm.trans (k2 0))
    rw [e1, e2, hq]

theorem shared_passes_agree_witness :
    sharedSample.rules.WF ∧
    (∀ e ∈ sharedSample.rules, ∀ r ∈ e.2, eps ∈ r → r = [eps]) ∧
    ∃ Gc Gg,
      (∀ rounds, Cnf.removeUnitProductions (rounds + 2)
        (Cnf.removeEpsilonProductions sharedSample) = some Gc) ∧
      (∀ rounds, Gnf.removeUnits (rounds + 2) (Gnf.removeEpsilons sharedSample) = some Gg) ∧
      Gc.startSymbol = Gg.startSymbol ∧ Gc.rules.keys = Gg.rules.keys ∧
      (∀ k r, r ∈ Gc.rules.get k ↔ r ∈ Gg.rules.get k) ∧
      ([eps] ∉ sharedSample.rules.get sharedSample.startSymbol → Gc = Gg) :=
  ⟨by decide, by decide, shared_passes_agree sharedSample (by decide) (by decide)⟩

/-! ## Undoing the isolation of terminals -/

theorem isolation_state (G : Grammar) (hwf : G.rules.WF)
    (hX : ∀ k ∈ G.rules.keys, ∀ n, k ≠ Cnf.xName n) :
    ∃ st1, Cnf.isoKeys { terminalMap := [], counter := 0, rules := G.rules } G.rules.keys =
        some st1 ∧
      IsoInv G.rules.keys st1 (isolated G.rules) ∧
      ∀ k ∈ G.rules.keys, st1.rules.get k = (G.rules.get k).map (isoImage (isolated G.rules)) := by
  have inv0 : IsoInv G.rules.keys { terminalMap := [], counter := 0, rules := G.rules } [] := by
    refine ⟨rfl, List.nodup_nil, fun t => by simp, fun j t hj => by simp at hj, fun n _ => ?_,
      fun k => by simp⟩
    exact get_of_not_mem _ _ fun hh => hX _ hh n rfl
  obtain ⟨st1, h1, inv1, im1, _⟩ := isoKeys_exact G.rules.keys G.rules.keys _ []
    (keys_nodup _ hwf) hX (fun k hk => hk) inv0
  simp only [isolated_eq G.rules hwf] at inv1 im1
  exact ⟨st1, h1, inv1, im1⟩

theorem getElem_findIdx (l : List Sym) (hnd : l.Nodup) (t : Sym) (h : t ∈ l) :
    l[Gnf.findIdx t l]? = some t := by
  obtain ⟨j, hj⟩ := List.mem_iff_getElem?.1 h
  rw [findIdx_getElem l hnd j t hj, hj]

theorem restoreSym_plain (inp out : Rules) (s : Sym)
    (hkeys : ∀ k, k ∈ out.keys → k ∈ inp.keys ∨ ∃ j, k = Cnf.xName (j + 1))
    (hs : ∀ n, s ≠ Cnf.xName n) : restoreSym inp out s = s := by
  unfold restoreSym
  by_cases hc : inp.count s = true
  · simp only [hc, if_true]
  · have hno : s ∉ out.keys := by
      intro hin
      rcases hkeys s hin with h | ⟨j, h⟩
      · exact hc ((mem_keys_iff _ _).1 h)
      · exact hs _ h
    simp only [hc, Bool.false_eq_true, if_false, find_none_of_not_mem out s hno]

theorem restoreSym_name (G : Grammar) (st1 : Cnf.IsoState)
    (hX : ∀ k ∈ G.rules.keys, ∀ n, k ≠ Cnf.xName n)
    (inv : IsoInv G.rules.keys st1 (isolated G.rules)) (t : Sym) (ht : t ∈ isolated G.rules) :
    restoreSym G.rules st1.rules (nameOf (isolated G.rules) t) = t := by
  have hidx := getElem_findIdx _ inv.nodup t ht
  have hget := inv.xget _ t hidx
  have hk : nameOf (isolated G.rules) t ∈ st1.rules.keys :=
    (inv.keys _).2 (Or.inr ⟨_, (findIdx_lt_iff t _).2 ht, rfl⟩)
  have hc : G.rules.count (nameOf (isolated G.rules) t) = false := by
    cases h : G.rules.count (nameOf (isolated G.rules) t) with
    | false => rfl
    | true => exact absurd rfl (hX _ ((mem_keys_iff _ _).2 h) _)
  have hf := find_eq_get_of_mem _ _ hk
  simp only [nameOf] at hget hf hc ⊢
  rw [hget] at hf
  simp only [restoreSym, hc, Bool.false_eq_true, if_false, hf]

theorem restore_isoImage (G : Grammar) (st1 : Cnf.IsoState)
    (hX : ∀ k ∈ G.rules.keys, ∀ n, k ≠ Cnf.xName n)
    (inv : IsoInv G.rules.keys st1 (isolated G.rules)) (e : Sym × List Alt) (he : e ∈ G.rules)
    (r : Alt) (hr : r ∈ e.2) (hS : ∀ s ∈ r, ∀ n, s ≠ Cnf.xName n) :
    (isoImage (isolated G.rules) r).map (restoreSym G.rules st1.rules) = r := by
  have hkeys : ∀ k, k ∈ st1.rules.keys → k ∈ G.rules.keys ∨ ∃ j, k = Cnf.xName (j + 1) := by
    intro k hk
    rcases (inv.keys k).1 hk with h | ⟨j, _, h⟩
    · exact Or.inl h
    · exact Or.inr ⟨j, h⟩
  unfold isoImage
  by_cases hl : 1 < r.length
  · simp only [hl, if_true, List.map_map]
    conv_rhs => rw [← List.map_id r]
    apply List.map_congr_left
    intro s hs
    simp only [Function.comp, id]
    by_cases ht : isTerminal s = true
    · simp only [ht, if_true]
      exact restoreSym_name G st1 hX inv s
        ((mem_isolated G.rules s).2 ⟨e, he, r, hr, hl, hs, ht⟩)
    · simp only [ht, Bool.false_eq_true, if_false]
      exact restoreSym_plain _ _ s hkeys (hS s hs)
  · simp only [hl, if_false]
    conv_rhs => rw [← List.map_id r]
    apply List.map_congr_left
    intro s hs
    exact restoreSym_plain _ _ s hkeys (hS s hs)

/-- C32: on every grammar (a map with ascending keys) in which no key and no symbol of an
alternative is named `X<n>`, as is the case when every symbol is one letter or `ε`,
`replaceTerminalsInMixedRHS` returns a grammar from which the input is recovered by
substitution: replacing every generated variable (a key of the output that the input does not
have) by the symbol of its one rule gives, under every key of the input, the list of
alternatives of the input, in the same order and with the same lengths; and the symbols this
substitution changes are names `X<k>` whose rule in the output is `X<k> → t`, `t` being what
the name is replaced by. -/
theorem isolation_undone_by_substitution (G : Grammar) (hwf : G.rules.WF)
    (hX : ∀ k ∈ G.rules.keys, ∀ n, k ≠ Cnf.xName n)
    (hS : ∀ e ∈ G.rules, ∀ r ∈ e.2, ∀ s ∈ r, ∀ n, s ≠ Cnf.xName n) :
    ∃ G1, Cnf.replaceTerminalsInMixedRHS G = some G1 ∧
      (∀ k ∈ G.rules.keys, restoreAlts G.rules G1.rules (G1.rules.get k) = G.rules.get k) ∧
      (∀ k ∈ G.rules.keys, (G1.rules.get k).map List.length = (G.rules.get k).map List.length) ∧
      ∀ s, restoreSym G.rules G1.rules s ≠ s →
        s ∉ G.rules.keys ∧ (∃ j, s = Cnf.xName (j + 1)) ∧
          G1.rules.get s = [[restoreSym G.rules G1.rules s]] := by
  obtain ⟨st1, h1, inv, im⟩ := isolation_state G hwf hX
  have hrest : ∀ k ∈ G.rules.keys,
      restoreAlts G.rules st1.rules (st1.rules.get k) = G.rules.get k := by
    intro k hk
    rw [im k hk]
    simp only [restoreAlts, List.map_map]
    conv_rhs => rw [← List.map_id (G.rules.get k)]
    apply List.map_congr_left
    intro r hr
    obtain ⟨e, he, _, hre⟩ := mem_of_mem_get _ _ _ hr
    exact restore_isoImage G st1 hX inv e he r hre (hS e he r hre)
  refine ⟨{ G with rules := st1.rules }, by simp only [Cnf.replaceTerminalsInMixedRHS, h1,
    Option.map_some'], hrest, fun k hk => ?_, fun s hs => ?_⟩
  · have := congrArg (List.map List.length) (hrest k hk)
    rw [← this]
    simp only [restoreAlts, List.map_map]
    apply List.map_congr_left
    intro r _
    simp only [Function.comp, List.length_map]
  · simp only at hs ⊢
    unfold restoreSym at hs ⊢
    by_cases hc : G.rules.count s = true
    · simp [hc] at hs
    · simp only [hc, Bool.false_eq_true, if_false] at hs ⊢
      cases hf : st1.rules.find s with
      | none => simp [hf] at hs
      | some v =>
        have hk := mem_keys_of_find _ _ _ hf
        have hg : st1.rules.get s = v := by simp [Rules.get, hf]
        have hnk : s ∉ G.rules.keys := fun h => hc ((mem_keys_iff _ _).1 h)
        refine ⟨hnk, ?_, ?_⟩
        · rcases (inv.keys s).1 hk with h | ⟨j, _, h⟩
          · exact absurd h hnk
          · exact ⟨j, h⟩
        · rw [hg]
          match v, hf with
          | [[t]], _ => rfl
          | [], hf => simp [hf] at hs
          | [] :: _, hf => simp [hf] at hs
          | (_ :: _ :: _) :: _, hf => simp [hf] at hs
          | [_] :: _ :: _, hf => simp [hf] at hs

theorem toDigitsCore_ne_nil : ∀ (fuel n : Nat) (acc : List Char), 0 < fuel →
    Nat.toDigitsCore 10 fuel n acc ≠ []
  | 0, _, _, h => absurd h (by omega)
  | fuel + 1, n, acc, _ => by
    simp only [Nat.toDigitsCore]
    split
    · simp
    · cases fuel with
      | zero => simp [Nat.toDigitsCore]
      | succ f => exact toDigitsCore_ne_nil (f + 1) _ _ (by omega)

theorem one_letter_not_xName (s : Sym) (h : s.length = 1) (n : Nat) : s ≠ Cnf.xName n := by
  intro hs
  have hne : toStr n ≠ [] := by
    simp only [toStr, Nat.toDigits, ne_eq, List.map_eq_nil_iff]
    exact toDigitsCore_ne_nil (n + 1) n [] (by omega)
  rw [hs, Cnf.xName, List.length_cons] at h
  exact hne (List.eq_nil_of_length_eq_zero (by omega))

/-- C32 at the grammar of `main` in gnf.cpp, all of whose symbols are one letter: the rule
`A → aA` becomes `A → X1 A`, and the substitution gives it back. -/
theorem isolation_undone_by_substitution_witness :
    gnfMain.rules.WF ∧ (∀ k ∈ gnfMain.rules.keys, ∀ n, k ≠ Cnf.xName n) ∧
    (∀ e ∈ gnfMain.rules, ∀ r ∈ e.2, ∀ s ∈ r, ∀ n, s ≠ Cnf.xName n) ∧
    ∃ G1, Cnf.replaceTerminalsInMixedRHS gnfMain = some G1 ∧
      (∀ k ∈ gnfMain.rules.keys,
        restoreAlts gnfMain.rules G1.rules (G1.rules.get k) = gnfMain.rules.get k) ∧
      (∀ k ∈ gnfMain.rules.keys,
        (G1.rules.get k).map List.length = (gnfMain.rules.get k).map List.length) ∧
      ∀ s, restoreSym gnfMain.rules G1.rules s ≠ s →
        s ∉ gnfMain.rules.keys ∧ (∃ j, s = Cnf.xName (j + 1)) ∧
          G1.rules.get s = [[restoreSym gnfMain.rules G1.rules s]] :=
  have hX : ∀ k ∈ gnfMain.rules.keys, ∀ n, k ≠ Cnf.xName n := fun k hk =>
    one_letter_not_xName k ((by decide : ∀ k ∈ gnfMain.rules.keys, k.length = 1) k hk)
  have hS : ∀ e ∈ gnfMain.rules, ∀ r ∈ e.2, ∀ s ∈ r, ∀ n, s ≠ Cnf.xName n := fun e he r hr s hs =>
    one_letter_not_xName s
      ((by decide : ∀ e ∈ gnfMain.rules, ∀ r ∈ e.2, ∀ s ∈ r, s.length = 1) e he r hr s hs)
  ⟨by decide, hX, hS, isolation_undone_by_substitution gnfMain (by decide) hX hS⟩

/-! ## Names of more than one letter -/

/-- C29 as stated fails at `A' → a`, `B → A'b`, `C → c`: the sorted names are `A'`, `B`, `C`;
processing `A'` leaves the map as it is, and the substitution loop for `B` ends in its first
round without substituting, because the first symbol `A'` of `A'b` is no single upper-case
letter. At loop exit the alternative `A'b` of `B` begins with `A'`, which is a nonterminal of
the grammar and comes before `B`; and when `C` is processed, the nonterminal `B`, processed
before it, has this alternative, which begins with a nonterminal of lower index than `B`. -/
theorem gnf_substitution_skips_long_names :
    primedLead.rules.WF ∧ (∀ e ∈ primedLead.rules, ∀ r ∈ e.2, r ≠ []) ∧
    Gnf.sortStrings primedLead.rules.keys = [primedA] ++ ch 'B' :: [ch 'C'] ∧
    Gnf.gnfOrder 1 (Gnf.sortStrings primedLead.rules.keys) 0 [primedA] primedLead.rules
      = some primedLead.rules ∧
    Gnf.substLoop (Gnf.sortStrings primedLead.rules.keys) 1 (ch 'B') 1 primedLead.rules
      = some primedLead.rules ∧
    Gnf.substLoop (Gnf.sortStrings primedLead.rules.keys) 1 (ch 'B') 2 primedLead.rules
      = some primedLead.rules ∧
    Gnf.gnfOrder 2 (Gnf.sortStrings primedLead.rules.keys) 0 [primedA, ch 'B'] primedLead.rules
      = some primedLead.rules ∧
    primedA ∈ primedLead.rules.keys ∧ isNonTerminal primedA = false ∧
    [primedA, ch 'b'] ∈ primedLead.rules.get (ch 'B') ∧
    [primedA, ch 'b'].head? = some primedA ∧
    Gnf.findIdx primedA (Gnf.sortStrings primedLead.rules.keys)
      < Gnf.findIdx (ch 'B') (Gnf.sortStrings primedLead.rules.keys) :=
  ⟨by decide, by decide, by decide, by decide, by decide, by decide, by decide, by decide,
    by decide, by decide, by decide, by decide⟩

/-! ## Words the epsilon passes lose -/

theorem weight_append (w : Sym → Nat) (f g : List Sym) :
    weight w (f ++ g) = weight w f + weight w g := by
  simp [weight]

theorem weight_step (m : Rules) (w : Sym → Nat)
    (h : ∀ e ∈ m, ∀ rhs ∈ e.2, w e.1 ≤ weight w (if rhs = [eps] then [] else rhs))
    (f g : List Sym) (hs : Step m f g) : weight w f ≤ weight w g := by
  cases hs with
  | mk u v A rhs hr =>
    obtain ⟨e, he, hk, hre⟩ := mem_of_mem_get m A rhs hr
    have := h e he rhs hre
    rw [hk] at this
    simp only [weight_append]
    have hA : weight w (A :: v) = w A + weight w v := by simp [weight]
    rw [hA]
    omega

theorem weight_derives (m : Rules) (w : Sym → Nat)
    (h : ∀ e ∈ m, ∀ rhs ∈ e.2, w e.1 ≤ weight w (if rhs = [eps] then [] else rhs))
    (f g : List Sym) (hd : Derives m f g) : weight w f ≤ weight w g := by
  induction hd with
  | refl => exact Nat.le_refl _
  | tail _ hstep ih => exact Nat.le_trans ih (weight_step m w h _ _ hstep)

/-- C23 at its own example: in `S → AbA`, `A → a | ε` the nonterminal `A` has the alternative
`[ε]` and occurs twice in the alternative `AbA` of `S`; both epsilon passes return
`S → AbA | bA | Ab`, `A → a`, one new alternative for each single occurrence of `A` erased,
and not the alternative `b`, in which both are erased. The input generates the word `b`, the
output of either pass does not. -/
theorem eps_pass_misses_double_removal :
    [eps] ∈ twoOccurrences.rules.get (ch 'A') ∧
    [ch 'A', ch 'b', ch 'A'] ∈ twoOccurrences.rules.get (ch 'S') ∧
    Cnf.removeEpsilonProductions twoOccurrences = twoOccurrencesOut ∧
    Gnf.removeEpsilons twoOccurrences = twoOccurrencesOut ∧
    [ch 'b'] ∉ twoOccurrencesOut.rules.get (ch 'S') ∧
    Generates twoOccurrences [ch 'b'] ∧ ¬ Generates twoOccurrencesOut [ch 'b'] := by
  refine ⟨by decide, by decide, by decide, by decide, by decide, ⟨by decide, ?_⟩, ?_⟩
  · have s1 : Step twoOccurrences.rules [ch 'S'] [ch 'A', ch 'b', ch 'A'] :=
      step_of_mem _ [] [] (ch 'S') [ch 'A', ch 'b', ch 'A'] _ (by decide) (by decide)
    have s2 : Step twoOccurrences.rules [ch 'A', ch 'b', ch 'A'] [ch 'b', ch 'A'] :=
      step_of_mem _ [] [ch 'b', ch 'A'] (ch 'A') [eps] _ (by decide) (by decide)
    have s3 : Step twoOccurrences.rules [ch 'b', ch 'A'] [ch 'b'] :=
      step_of_mem _ [ch 'b'] [] (ch 'A') [eps] _ (by decide) (by decide)
    exact ((Relation.ReflTransGen.single s1).tail s2).tail s3
  · rintro ⟨_, hd⟩
    have := weight_derives twoOccurrencesOut.rules (fun s => if s = ch 'S' then 2 else 1)
      (by decide) _ _ hd
    exact absurd this (by decide)

/-! ## Lists without duplicates -/

theorem occurrences_index (A : Sym) : ∀ (r : Alt) (i j : Nat), occurrences A r ≤ 1 →
    r[i]? = some A → r[j]? = some A → i = j
  | [], i, _, _, hi, _ => by simp at hi
  | x :: r, i, j, h, hi, hj => by
    have hpos : ∀ (k : Nat), r[k]? = some A → 1 ≤ occurrences A r := by
      intro k hk
      have hm : A ∈ r.filter fun s => decide (s = A) :=
        List.mem_filter.2 ⟨(List.mem_iff_getElem?.2 ⟨_, hk⟩), by simp⟩
      exact List.length_pos_of_mem hm
    simp only [occurrences, List.filter_cons] at h
    cases i with
    | zero =>
      cases j with
      | zero => rfl
      | succ j =>
        simp only [List.getElem?_cons_zero, Option.some.injEq] at hi
        simp only [List.getElem?_cons_succ] at hj
        have := hpos j hj
        simp only [occurrences] at this
        simp only [hi, decide_True, if_true, List.length_cons] at h
        omega
    | succ i =>
      simp only [List.getElem?_cons_succ] at hi
      cases j with
      | zero =>
        simp only [List.getElem?_cons_zero, Option.some.injEq] at hj
        have := hpos i hi
        simp only [occurrences] at this
        simp only [hj, decide_True, if_true, List.length_cons] at h
        omega
      | succ j =>
        simp only [List.getElem?_cons_succ] at hj
        have h2 : occurrences A r ≤ 1 := by
          simp only [occurrences]
          split_ifs at h
          · simp only [List.length_cons] at h
            omega
          · exact h
        rw [occurrences_index A r i j h2 hi hj]

theorem not_mem_eraseIdx (A : Sym) : ∀ (r : Alt) (i : Nat), occurrences A r ≤ 1 →
    r[i]? = some A → A ∉ r.eraseIdx i
  | [], i, _, hi => by simp at hi
  | x :: r, 0, h, hi => by
    simp only [List.getElem?_cons_zero, Option.some.injEq] at hi
    simp only [List.eraseIdx_cons_zero]
    intro hm
    have hm2 : A ∈ r.filter fun s => decide (s = A) := List.mem_filter.2 ⟨hm, by simp⟩
    have := List.length_pos_of_mem hm2
    simp only [occurrences, List.filter_cons, hi, decide_True, if_true, List.length_cons] at h
    omega
  | x :: r, i + 1, h, hi => by
    simp only [List.getElem?_cons_succ] at hi
    simp only [List.eraseIdx_cons_succ, List.mem_cons, not_or]
    have hm2 : A ∈ r.filter fun s => decide (s = A) :=
      List.mem_filter.2 ⟨(List.mem_iff_getElem?.2 ⟨_, hi⟩), by simp⟩
    have hp := List.length_pos_of_mem hm2
    simp only [occurrences, List.filter_cons] at h
    constructor
    · intro hx
      simp only [← hx, decide_True, if_true, List.length_cons] at h
      omega
    · apply not_mem_eraseIdx A r i _ hi
      simp only [occurrences]
      split_ifs at h
      · simp only [List.length_cons] at h
        omega
      · exact h

theorem without_eraseIdx (R : List Sym) (A : Sym) (hA : A ∈ R) : ∀ (r : Alt) (i : Nat),
    r[i]? = some A → without R (r.eraseIdx i) = without R r
  | [], i, hi => by simp at hi
  | x :: r, 0, hi => by
    simp only [List.getElem?_cons_zero, Option.some.injEq] at hi
    simp [without, List.filter_cons, hi, hA]
  | x :: r, i + 1, hi => by
    simp only [List.getElem?_cons_succ] at hi
    have := without_eraseIdx R A hA r i hi
    simp only [without] at this
    simp only [without, List.eraseIdx_cons_succ, List.filter_cons, this]

theorem without_without (A : Sym) (R : List Sym) (r : Alt) :
    without (A :: R) r = (without R r).filter fun s => decide (s ≠ A) := by
  simp only [without, List.filter_filter]
  congr 1
  funext s
  simp only [List.mem_cons, not_or, ne_eq, Bool.decide_and, Bool.and_comm]

theorem mem_dropOnce_iff (A : Sym) (rhs t : Alt) :
    t ∈ dropOnce A rhs ↔ ∃ i, rhs[i]? = some A ∧ 1 < rhs.length ∧ t = rhs.eraseIdx i := by
  simp only [dropOnce, List.mem_filterMap, List.mem_range]
  constructor
  · rintro ⟨i, _, h⟩
    split_ifs at h with hc
    simp only [Option.some.injEq] at h
    exact ⟨i, hc.1, hc.2, h.symm⟩
  · rintro ⟨i, hi, hl, rfl⟩
    refine ⟨i, ?_, by simp [hi, hl]⟩
    by_contra hge
    rw [List.getElem?_eq_none (by omega)] at hi
    exact absurd hi (by simp)

theorem dropOnce_nodup (A : Sym) (r : Alt) (h : occurrences A r ≤ 1) : (dropOnce A r).Nodup := by
  unfold dropOnce
  apply List.Nodup.filterMap _ (List.nodup_range _)
  intro i j t hi hj
  simp only [Option.mem_def] at hi hj
  split_ifs at hi with hc
  split_ifs at hj with hd
  exact occurrences_index A r i j h hc.1 hd.1

theorem occurrences_sublist (A : Sym) (r t : Alt) (h : t.Sublist r) :
    occurrences A t ≤ occurrences A r :=
  (h.filter _).length_le

theorem dropSafe_step (A : Sym) (R : List Sym) (hA : A ∉ R) (v : List Alt)
    (h : DropSafe (A :: R) v) :
    DropSafe R (v ++ v.flatMap (dropOnce A)) ∧ ∀ t ∈ v.flatMap (dropOnce A), t ∉ v := by
  obtain ⟨hn, hc, hs⟩ := h
  have key : ∀ r ∈ v, ∀ t ∈ dropOnce A r,
      without (A :: R) t = without (A :: R) r ∧ A ∉ t ∧ A ∈ r ∧ t.Sublist r ∧
        Drops (A :: R) r := by
    intro r hr t ht
    obtain ⟨i, hi, hl, rfl⟩ := (mem_dropOnce_iff A r t).1 ht
    exact ⟨without_eraseIdx _ A (List.mem_cons_self _ _) r i hi,
      not_mem_eraseIdx A r i (hc r hr A (List.mem_cons_self _ _)) hi,
      (List.mem_iff_getElem?.2 ⟨_, hi⟩), List.eraseIdx_sublist r i,
      hl, A, List.mem_cons_self _ _, List.mem_iff_getElem?.2 ⟨_, hi⟩⟩
  have up : ∀ r t : Alt, without R r = without R t → without (A :: R) r = without (A :: R) t := by
    intro r t e
    rw [without_without, without_without, e]
  have keep : ∀ r : Alt, A ∈ r → A ∈ without R r := fun r hr =>
    List.mem_filter.2 ⟨hr, by simpa using hA⟩
  have lose : ∀ t : Alt, A ∉ t → A ∉ without R t := fun t ht hm =>
    ht (List.mem_filter.1 hm).1
  have fresh : ∀ t ∈ v.flatMap (dropOnce A), t ∉ v := by
    intro t ht htv
    obtain ⟨r, hr, htr⟩ := List.mem_flatMap.1 ht
    obtain ⟨e, hnt, hAr, _, hd⟩ := key r hr t htr
    have := hs r hr t htv hd e.symm
    exact hnt (this ▸ hAr)
  refine ⟨⟨?_, ?_, ?_⟩, fresh⟩
  · refine List.Nodup.append hn ?_ ?_
    · rw [List.nodup_flatMap]
      refine ⟨fun r hr => dropOnce_nodup A r (hc r hr A (List.mem_cons_self _ _)), ?_⟩
      refine List.Pairwise.imp_of_mem ?_ (show List.Pairwise (fun a b => a ≠ b) v from hn)
      intro a b ha hb hne
      simp only [Function.onFun]
      intro t hta htb
      have e1 := (key a ha t hta).1
      have e2 := (key b hb t htb).1
      exact hne (hs a ha b hb (key a ha t hta).2.2.2.2 (e1.symm.trans e2))
    · intro t htv ht
      exact fresh t ht htv
  · intro r hr B hB
    rcases List.mem_append.1 hr with h1 | h1
    · exact hc r h1 B (List.mem_cons_of_mem _ hB)
    · obtain ⟨r0, hr0, ht⟩ := List.mem_flatMap.1 h1
      exact Nat.le_trans (occurrences_sublist B r0 r (key r0 hr0 r ht).2.2.2.1)
        (hc r0 hr0 B (List.mem_cons_of_mem _ hB))
  · intro r hr r2 hr2 hdr e
    rcases List.mem_append.1 hr with h1 | h1
    · rcases List.mem_append.1 hr2 with h2 | h2
      · exact hs r h1 r2 h2 ⟨hdr.1, hdr.2.imp fun B hB => ⟨List.mem_cons_of_mem _ hB.1, hB.2⟩⟩
          (up r r2 e)
      · obtain ⟨p, hp, ht⟩ := List.mem_flatMap.1 h2
        obtain ⟨e2, hnt, hAp, _, hd⟩ := key p hp r2 ht
        have hrp := hs p hp r h1 hd ((up r r2 e).trans e2).symm
        exfalso
        apply lose r2 hnt
        rw [← e]
        exact keep r (hrp ▸ hAp)
    · obtain ⟨p, hp, ht⟩ := List.mem_flatMap.1 h1
      obtain ⟨e1, hnt, hAp, _, hd⟩ := key p hp r ht
      rcases List.mem_append.1 hr2 with h2 | h2
      · have hrp := hs p hp r2 h2 hd (e1.symm.trans (up r r2 e))
        exfalso
        apply lose r hnt
        rw [e]
        exact keep r2 (hrp ▸ hAp)
      · obtain ⟨q, hq, ht2⟩ := List.mem_flatMap.1 h2
        obtain ⟨e2, _, _, _⟩ := key q hq r2 ht2
        have hpq := hs p hp q hq hd (e1.symm.trans ((up r r2 e).trans e2))
        subst hpq
        obtain ⟨i, hi, _, rfl⟩ := (mem_dropOnce_iff A p r).1 ht
        obtain ⟨j, hj, _, rfl⟩ := (mem_dropOnce_iff A p r2).1 ht2
        rw [occurrences_index A p i j (hc p hp A (List.mem_cons_self _ _)) hi hj]

theorem sublist_flatMap (f : Alt → List Alt) : ∀ {l1 l2 : List Alt}, l1.Sublist l2 →
    (l1.flatMap f).Sublist (l2.flatMap f)
  | _, _, .slnil => List.Sublist.refl _
  | _, _, .cons a h => by
    rw [List.flatMap_cons]
    exact (sublist_flatMap f h).trans (List.sublist_append_right _ _)
  | _, _, .cons₂ a h => by
    rw [List.flatMap_cons, List.flatMap_cons]
    exact List.Sublist.append (List.Sublist.refl _) (sublist_flatMap f h)

theorem eps_folds_sub : ∀ (L P : List Sym) (m1 m2 : Rules), L.Nodup →
    (∀ k, DropSafe L (m2.get k)) → (∀ k ∈ P, [eps] ∈ m2.get k) →
    (∀ k ∈ L, [eps] ∈ m2.get k) →
    (∀ k, (m1.get k).Sublist (if k ∈ P then stripEps (m2.get k) else m2.get k)) →
    (∀ k, DropSafe [] ((L.foldl (fun m A => addDropped A m) m2).get k)) ∧
    ∀ k, ((L.foldl Cnf.epsStep m1).get k).Sublist
      (if k ∈ L ∨ k ∈ P then stripEps ((L.foldl (fun m A => addDropped A m) m2).get k)
       else (L.foldl (fun m A => addDropped A m) m2).get k)
  | [], P, m1, m2, _, hd, _, _, hs => ⟨hd, fun k => by simpa using hs k⟩
  | A :: L, P, m1, m2, hn, hd, hP, hL, hs => by
    rw [List.nodup_cons] at hn
    have step := fun k => dropSafe_step A L hn.1 (m2.get k) (hd k)
    have hd1 : ∀ k, DropSafe L ((addDropped A m2).get k) := fun k => by
      rw [get_addDropped]
      exact (step k).1
    have hP1 : ∀ k ∈ A :: P, [eps] ∈ (addDropped A m2).get k := fun k hk => by
      rw [get_addDropped]
      rcases List.mem_cons.1 hk with rfl | h
      · exact List.mem_append_left _ (hL _ (List.mem_cons_self _ _))
      · exact List.mem_append_left _ (hP k h)
    have hL1 : ∀ k ∈ L, [eps] ∈ (addDropped A m2).get k := fun k hk => by
      rw [get_addDropped]
      exact List.mem_append_left _ (hL k (List.mem_cons_of_mem _ hk))
    have hv : ∀ k, (m1.get k).Sublist (m2.get k) := fun k => by
      have := hs k
      split_ifs at this
      · exact this.trans (stripEps_sublist _)
      · exact this
    have hs1 : ∀ k, ((Cnf.epsStep m1 A).get k).Sublist
        (if k ∈ A :: P then stripEps ((addDropped A m2).get k) else (addDropped A m2).get k) := by
      intro k
      have hall : (m1.get k ++ (m1.get k).flatMap (dropOnce A)).Sublist
          (m2.get k ++ (m2.get k).flatMap (dropOnce A)) :=
        List.Sublist.append (hv k) (sublist_flatMap _ (hv k))
      simp only [Cnf.epsStep, get_addDropped]
      by_cases hkA : k = A
      · subst hkA
        simp only [get_update_same, get_addDropped, List.mem_cons, true_or, if_true]
        exact hall.filter _
      · simp only [get_update_other _ _ _ _ hkA, get_addDropped, List.mem_cons, hkA, false_or]
        by_cases hkP : k ∈ P
        · simp only [hkP, if_true]
          have h1 := hs k
          simp only [hkP, if_true] at h1
          rw [stripEps_app]
          refine List.Sublist.append h1 ?_
          have h2 : ((m1.get k).flatMap (dropOnce A)).Sublist ((m2.get k).flatMap (dropOnce A)) :=
            sublist_flatMap _ (hv k)
          have h3 : stripEps ((m1.get k).flatMap (dropOnce A)) = (m1.get k).flatMap (dropOnce A) := by
            simp only [stripEps]
            rw [List.filter_eq_self]
            intro t ht
            have h4 := (step k).2 t (h2.subset ht)
            simp only [isEpsAlt, Bool.not_eq_true', decide_eq_false_iff_not]
            intro hte
            exact h4 (hte ▸ hP k hkP)
          rw [← h3]
          exact h2.filter _
        · simp only [hkP, if_false]
          exact hall
    obtain ⟨id, is⟩ := eps_folds_sub L (A :: P) (Cnf.epsStep m1 A) (addDropped A m2) hn.2
      hd1 hP1 hL1 hs1
    refine ⟨fun k => by rw [List.foldl_cons]; exact id k, fun k => ?_⟩
    rw [List.foldl_cons, List.foldl_cons]
    have : (k ∈ L ∨ k ∈ A :: P) ↔ (k ∈ A :: L ∨ k ∈ P) := by
      simp only [List.mem_cons]
      tauto
    have h5 := is k
    simp only [this] at h5
    exact h5

theorem cnf_fold_wf : ∀ (L : List Sym) (m : Rules), m.WF → (L.foldl Cnf.epsStep m).WF
  | [], _, h => h
  | A :: L, m, h => cnf_fold_wf L _ (WF_update _ _ _ (WF_addDropped A m h))

theorem add_fold_wf : ∀ (L : List Sym) (m : Rules), m.WF →
    (L.foldl (fun m A => addDropped A m) m).WF
  | [], _, h => h
  | A :: L, m, h => add_fold_wf L _ (WF_addDropped A m h)

theorem nullable_nodup (m : Rules) (hwf : m.WF) : (nullable m).Nodup := by
  have h : (nullable m).Sublist m.keys := by
    simp only [nullable, Rules.keys]
    exact (List.filter_sublist m).map _
  exact (keys_nodup m hwf).sublist h

theorem dropSafe_of_entries (m : Rules) (hwf : m.WF) (N : List Sym)
    (hdup : ∀ e ∈ m, e.2.Nodup)
    (hocc : ∀ A ∈ N, ∀ e ∈ m, ∀ r ∈ e.2, occurrences A r ≤ 1)
    (hdiff : ∀ e ∈ m, ∀ p ∈ e.2, ∀ q ∈ e.2, Drops N p → without N p = without N q → p = q)
    (k : Sym) : DropSafe N (m.get k) := by
  refine ⟨nodup_get m hdup k, fun r hr A hA => ?_, fun p hp q hq hd e => ?_⟩
  · obtain ⟨e, he, _, hre⟩ := mem_of_mem_get m k r hr
    exact hocc A hA e he r hre
  · obtain ⟨e1, he1, hk1, hp1⟩ := mem_of_mem_get m k p hp
    have hg := get_of_mem m e1 hwf he1
    rw [hk1] at hg
    rw [hg] at hq
    exact hdiff e1 he1 p hp1 q hq hd e

theorem eps_passes_nodup (G : Grammar) (hwf : G.rules.WF)
    (hdup : ∀ e ∈ G.rules, e.2.Nodup)
    (hocc : ∀ A ∈ nullable G.rules, ∀ e ∈ G.rules, ∀ r ∈ e.2, occurrences A r ≤ 1)
    (hdiff : ∀ e ∈ G.rules, ∀ p ∈ e.2, ∀ q ∈ e.2, Drops (nullable G.rules) p →
      without (nullable G.rules) p = without (nullable G.rules) q → p = q) :
    (∀ e ∈ (Cnf.removeEpsilonProductions G).rules, e.2.Nodup) ∧
    (∀ e ∈ (Gnf.removeEpsilons G).rules, e.2.Nodup) := by
  obtain ⟨hu, hsub⟩ := eps_folds_sub (nullable G.rules) [] G.rules G.rules
    (nullable_nodup _ hwf) (dropSafe_of_entries _ hwf _ hdup hocc hdiff)
    (fun k hk => by simp at hk) (fun k hk => eps_of_nullable _ hwf k hk)
    (fun k => by simp)
  have hnu : ∀ k, ((nullable G.rules).foldl (fun m A => addDropped A m) G.rules).get k
      |>.Nodup := fun k => (hu k).1
  have cw := cnf_fold_wf (nullable G.rules) G.rules hwf
  have aw := add_fold_wf (nullable G.rules) G.rules hwf
  constructor
  · intro e he
    simp only [Cnf.removeEpsilonProductions] at he
    split_ifs at he with hs
    · rw [← get_of_mem _ e (WF_update _ _ _ cw) he]
      by_cases hk : e.1 = G.startSymbol
      · rw [hk, get_update_same]
        have h1 := hsub G.startSymbol
        simp only [hs, true_or, if_true] at h1
        refine List.Nodup.append (((hnu _).sublist (stripEps_sublist _)).sublist h1)
          (List.nodup_singleton _) ?_
        intro r hr1 hr2
        rw [List.mem_singleton] at hr2
        exact ((mem_stripEps _ _).1 (h1.subset hr1)).2 hr2
      · rw [get_update_other _ _ _ _ hk]
        have h1 := hsub e.1
        split_ifs at h1
        · exact ((hnu _).sublist (stripEps_sublist _)).sublist h1
        · exact (hnu _).sublist h1
    · rw [← get_of_mem _ e cw he]
      have h1 := hsub e.1
      split_ifs at h1
      · exact ((hnu _).sublist (stripEps_sublist _)).sublist h1
      · exact (hnu _).sublist h1
  · intro e he
    simp only [Gnf.removeEpsilons] at he
    rw [← get_of_mem _ e (gnf_strip_fold G.startSymbol (nullable G.rules) _ aw).1 he,
      gnf_strip_get]
    split_ifs
    · exact (hnu _).sublist (stripEps_sublist _)
    · exact hnu _

theorem unitAdd_of_noUnits (m : Rules) (k : Sym) (h : NoUnits (m.get k)) : unitAdd k m = [] := by
  simp only [unitAdd, List.flatMap_eq_nil_iff]
  intro r hr
  simp [h r hr]

theorem unitOut_of_noUnits (m : Rules) (k : Sym) (h : NoUnits (m.get k)) :
    unitOut m k = m.get k := by
  simp only [unitOut, unitAdd_of_noUnits m k h, List.append_nil]
  exact stripUnits_of_noUnits _ h

theorem unitOut_absent (m : Rules) (k : Sym) (h : k ∉ m.keys) : unitOut m k = [] := by
  have hg := get_of_not_mem m k h
  rw [unitOut_of_noUnits m k (by rw [hg]; intro r hr; simp at hr), hg]

theorem flatMap_congr_mem (f g : Alt → List Alt) : ∀ (l : List Alt), (∀ x ∈ l, f x = g x) →
    l.flatMap f = l.flatMap g
  | [], _ => rfl
  | x :: l, h => by
    rw [List.flatMap_cons, List.flatMap_cons, h x (List.mem_cons_self _ _),
      flatMap_congr_mem f g l fun y hy => h y (List.mem_cons_of_mem _ hy)]

theorem unitAdd_congr (lhs : Sym) (m m0 : Rules) (hl : m.get lhs = m0.get lhs)
    (ht : ∀ r ∈ m0.get lhs, isUnit r = true → m.get (r.headD []) = m0.get (r.headD [])) :
    unitAdd lhs m = unitAdd lhs m0 := by
  simp only [unitAdd, hl]
  apply flatMap_congr_mem
  intro r hr
  by_cases hu : isUnit r = true
  · simp only [hu, if_true, ht r hr hu]
  · simp only [hu, Bool.false_eq_true, if_false]

theorem sweep_closed (body : Sym → Rules → Bool → Rules × Bool)
    (hex : ∀ lhs m ch, (body lhs m ch).1
      = (touchUnits (m.get lhs) m).update lhs fun v => stripUnits (v ++ unitAdd lhs m))
    (m0 : Rules)
    (hchain : ∀ k, ∀ r ∈ m0.get k, isUnit r = true →
      NoUnits (m0.get (r.headD [])) ∨ strLt k (r.headD []) = true) :
    ∀ (fuel : Nat) (cur : Option Sym) (m : Rules) (ch : Bool) (r : Rules × Bool), m.WF →
      (∀ k ∈ m0.keys, k ∈ m.keys) →
      (∀ k, m.get k = if isAfter cur k = true then m0.get k else unitOut m0 k) →
      sweep body fuel cur m ch = some r → ∀ k, r.1.get k = unitOut m0 k
  | 0, _, _, _, _, _, _, _, h => by simp [sweep] at h
  | fuel + 1, cur, m, ch, r, hwf, hk, hg, h => by
    simp only [sweep] at h
    cases hn : nextKey m cur with
    | none =>
      rw [hn] at h
      simp only [Option.some.injEq] at h
      subst h
      intro k
      by_cases hkm : k ∈ m.keys
      · rw [hg k, nextKey_none m cur hn k hkm]
        simp
      · rw [get_of_not_mem m k hkm, unitOut_absent m0 k fun hh => hkm (hk k hh)]
    | some lhs =>
      rw [hn] at h
      obtain ⟨hmem, haft, hmin⟩ := nextKey_some m cur lhs hwf hn
      have hl : m.get lhs = m0.get lhs := by rw [hg lhs, haft]; simp
      have hadd : unitAdd lhs m = unitAdd lhs m0 := by
        apply unitAdd_congr lhs m m0 hl
        intro r hr hu
        rw [hg]
        split_ifs with hc
        · rfl
        · rcases hchain lhs r hr hu with h1 | h1
          · exact unitOut_of_noUnits m0 _ h1
          · exact absurd (isAfter_trans cur lhs _ haft h1) hc
      refine sweep_closed body hex m0 hchain fuel (some lhs) _ _ r ?_ ?_ ?_ h
      · rw [hex]
        exact WF_update _ _ _ (touchUnits_WF _ _ hwf)
      · intro k hk0
        rw [hex, mem_keys_update, mem_keys_touchUnits]
        exact Or.inr (Or.inl (hk k hk0))
      · intro k
        rw [hex]
        by_cases hkl : k = lhs
        · subst hkl
          rw [get_update_same, touchUnits_get, isAfter_self, hadd, hl]
          simp [unitOut]
        · rw [get_update_other _ _ _ _ hkl, touchUnits_get, hg k]
          cases ha : isAfter (some lhs) k with
          | true => simp [isAfter_trans cur lhs k haft ha]
          | false =>
            rcases isAfter_false lhs k ha with h1 | h1
            · exact absurd h1 hkl
            · cases hc : isAfter cur k with
              | false => simp
              | true =>
                have hkm : k ∉ m.keys := fun hh => by
                  have := hmin k hh h1
                  rw [hc] at this
                  exact absurd this (by simp)
                have hk0 : k ∉ m0.keys := fun hh => hkm (hk k hh)
                simp [unitOut_absent m0 k hk0, get_of_not_mem m0 k hk0]

theorem unitOut_nodup (m : Rules) (hdup : ∀ e ∈ m, e.2.Nodup)
    (hnew : ∀ e ∈ m, ∀ r ∈ e.2, isUnit r = true → ∀ t ∈ m.get (r.headD []), t ∉ e.2)
    (hapart : ∀ e ∈ m, ∀ a ∈ e.2, ∀ b ∈ e.2, isUnit a = true → isUnit b = true → a ≠ b →
      ∀ t ∈ m.get (a.headD []), t ∉ m.get (b.headD [])) (k : Sym) :
    (unitOut m k).Nodup := by
  by_cases hk : k ∈ m.keys
  · have he : (k, m.get k) ∈ m := mem_of_find m k _ (find_eq_get_of_mem m k hk)
    refine List.Nodup.sublist (List.filter_sublist _) ?_
    refine List.Nodup.append (nodup_get m hdup k) ?_ ?_
    · simp only [unitAdd]
      rw [List.nodup_flatMap]
      constructor
      · intro r _
        split_ifs
        · exact (nodup_get m hdup _).sublist (List.filter_sublist _)
        · exact List.nodup_nil
      · refine List.Pairwise.imp_of_mem ?_
          (show List.Pairwise (fun a b => a ≠ b) (m.get k) from nodup_get m hdup k)
        intro a b ha hb hne
        simp only [Function.onFun]
        intro t hta htb
        split_ifs at hta with hua
        · split_ifs at htb with hub
          · exact hapart _ he a ha b hb hua hub hne t (List.mem_filter.1 hta).1
              (List.mem_filter.1 htb).1
          · simp at htb
        · simp at hta
    · intro t htv ht
      obtain ⟨r, hr, hu, htr, _⟩ := (mem_unitAdd k m t).1 ht
      exact hnew _ he r hr hu t htr htv
  · rw [unitOut_absent m k hk]
    exact List.nodup_nil

theorem unit_pass_nodup (body : Sym → Rules → Bool → Rules × Bool) (hb : UnitLike body)
    (hex : ∀ lhs m ch, (body lhs m ch).1
      = (touchUnits (m.get lhs) m).update lhs fun v => stripUnits (v ++ unitAdd lhs m))
    (m : Rules) (hwf : m.WF) (hdup : ∀ e ∈ m, e.2.Nodup)
    (hchain : ∀ e ∈ m, ∀ r ∈ e.2, isUnit r = true →
      (∀ t ∈ m.get (r.headD []), isUnit t = false) ∨ strLt e.1 (r.headD []) = true)
    (hnew : ∀ e ∈ m, ∀ r ∈ e.2, isUnit r = true → ∀ t ∈ m.get (r.headD []), t ∉ e.2)
    (hapart : ∀ e ∈ m, ∀ a ∈ e.2, ∀ b ∈ e.2, isUnit a = true → isUnit b = true → a ≠ b →
      ∀ t ∈ m.get (a.headD []), t ∉ m.get (b.headD [])) :
    ∃ m1, (∀ rounds, unitLoop body sweepBound (rounds + 2) m = some m1) ∧
      ∀ e ∈ m1, e.2.Nodup := by
  obtain ⟨m1, c1, s1, _, l1, _⟩ := unitLoop_two_sweeps hb m hwf
  have p1 := sweep_post hb _ none m false _ hwf (by intro k hk; simp [isAfter] at hk) s1
  have hc : ∀ k, ∀ r ∈ m.get k, isUnit r = true →
      NoUnits (m.get (r.headD [])) ∨ strLt k (r.headD []) = true := by
    intro k r hr hu
    obtain ⟨e, he, hk, hre⟩ := mem_of_mem_get m k r hr
    rw [← hk]
    exact hchain e he r hre hu
  have cl := sweep_closed body hex m hc _ none m false _ hwf (fun k hk => hk)
    (fun k => by simp [isAfter]) s1
  refine ⟨m1, l1, fun e he => ?_⟩
  rw [← get_of_mem m1 e p1.1 he]
  simp only at cl
  rw [cl e.1]
  exact unitOut_nodup m hdup hnew hapart e.1

/-- C16 as stated fails, in five ways. In none of these grammars does an alternative list hold
a production twice. Epsilon passes: on `S → AA`, `A → a | ε` erasing either `A` gives `A`, and
`S` gets `AA | A | A`; on `S → Ab | b`, `A → a | ε`, where no alternative holds `A` twice,
erasing `A` gives the `b` that is there, and `S` gets `Ab | b | b`. Unit passes: on
`A → B | a`, `B → a` the alternative copied from `B` is one of `A`, which gets `a | a`; on
`A → B | C`, `B → b`, `C → b` the same alternative is copied from `B` and from `C`; on
`A → a`, `B → A`, `C → B | a` the alternative `a` reaches `C` through `B`, which has a unit
alternative itself and is swept before `C`. In each case the other conditions of the amended
statement hold. -/
theorem passes_make_duplicates :
    ((∀ e ∈ twiceA.rules, e.2.Nodup) ∧ ¬ NullableOnce twiceA ∧ DistinctWithoutNullable twiceA ∧
      (Cnf.removeEpsilonProductions twiceA).rules.get (ch 'S')
        = [[ch 'A', ch 'A'], [ch 'A'], [ch 'A']] ∧
      (Gnf.removeEpsilons twiceA).rules.get (ch 'S')
        = [[ch 'A', ch 'A'], [ch 'A'], [ch 'A']]) ∧
    ((∀ e ∈ dropMeets.rules, e.2.Nodup) ∧ NullableOnce dropMeets ∧
      ¬ DistinctWithoutNullable dropMeets ∧
      (Cnf.removeEpsilonProductions dropMeets).rules.get (ch 'S')
        = [[ch 'A', ch 'b'], [ch 'b'], [ch 'b']] ∧
      (Gnf.removeEpsilons dropMeets).rules.get (ch 'S')
        = [[ch 'A', ch 'b'], [ch 'b'], [ch 'b']]) ∧
    ((∀ e ∈ unitTwice.rules, e.2.Nodup) ∧ UnitsLeadOn unitTwice.rules ∧
      ¬ UnitsBringNew unitTwice.rules ∧ UnitsBringApart unitTwice.rules ∧
      Cnf.removeUnitProductions 2 unitTwice = some unitTwiceOut ∧
      Gnf.removeUnits 2 unitTwice = some unitTwiceOut ∧
      ¬ (unitTwiceOut.rules.get (ch 'A')).Nodup) ∧
    ((∀ e ∈ unitShared.rules, e.2.Nodup) ∧ UnitsLeadOn unitShared.rules ∧
      UnitsBringNew unitShared.rules ∧ ¬ UnitsBringApart unitShared.rules ∧
      Cnf.removeUnitProductions 2 unitShared = some unitSharedOut ∧
      Gnf.removeUnits 2 unitShared = some unitSharedOut ∧
      ¬ (unitSharedOut.rules.get (ch 'A')).Nodup) ∧
    ((∀ e ∈ unitTwoSteps.rules, e.2.Nodup) ∧ ¬ UnitsLeadOn unitTwoSteps.rules ∧
      UnitsBringNew unitTwoSteps.rules ∧
      UnitsBringApart unitTwoSteps.rules ∧
      Cnf.removeUnitProductions 2 unitTwoSteps = some unitTwoStepsOut ∧
      Gnf.removeUnits 2 unitTwoSteps = some unitTwoStepsOut ∧
      ¬ (unitTwoStepsOut.rules.get (ch 'C')).Nodup) :=
  ⟨by decide, by decide, by decide, by decide, by decide⟩

/-- C16, amended: on a grammar (a map with ascending keys) in which no alternative list holds a
production twice, the lists produced by either epsilon pass hold no production twice when no
alternative holds twice a nonterminal that has the alternative `[ε]` and no alternative of
more than one symbol that holds such a nonterminal differs from another alternative of its
nonterminal only in such nonterminals; and either unit pass returns, within two
sweeps, lists that hold no production twice when every unit alternative `A → B` leads to a
`B` that has no unit alternative or comes after `A` in the order of the names, no alternative
of such a `B` is an alternative of `A`, and no two such `B` of one `A` have an alternative in
common. (What the passes derive they append without looking for duplicates.) -/
theorem passes_keep_duplicate_free (G : Grammar) (hwf : G.rules.WF)
    (hdup : ∀ e ∈ G.rules, e.2.Nodup) :
    (NullableOnce G → DistinctWithoutNullable G →
      (∀ e ∈ (Cnf.removeEpsilonProductions G).rules, e.2.Nodup) ∧
      (∀ e ∈ (Gnf.removeEpsilons G).rules, e.2.Nodup)) ∧
    (UnitsLeadOn G.rules → UnitsBringNew G.rules → UnitsBringApart G.rules →
      (∃ G1, (∀ rounds, Cnf.removeUnitProductions (rounds + 2) G = some G1) ∧
        ∀ e ∈ G1.rules, e.2.Nodup) ∧
      (∃ G1, (∀ rounds, Gnf.removeUnits (rounds + 2) G = some G1) ∧
        ∀ e ∈ G1.rules, e.2.Nodup)) := by
  refine ⟨fun h1 h2 => eps_passes_nodup G hwf hdup h1 h2, fun h1 h2 h3 => ⟨?_, ?_⟩⟩
  · obtain ⟨m1, l1, n1⟩ := unit_pass_nodup Cnf.unitBody cnf_unitLike cnf_unitBody_exact
      G.rules hwf hdup h1 h2 h3
    exact ⟨{ G with rules := m1 }, fun rounds => by
      simp only [Cnf.removeUnitProductions, l1 rounds, Option.map_some'], n1⟩
  · obtain ⟨m1, l1, n1⟩ := unit_pass_nodup Gnf.unitBody gnf_unitLike gnf_unitBody_exact
      G.rules hwf hdup h1 h2 h3
    exact ⟨{ G with rules := m1 }, fun rounds => by
      simp only [Gnf.removeUnits, l1 rounds, Option.map_some'], n1⟩

/-- C16, amended, at `S → Ab | B`, `A → a | ε`, `B → c`, where both passes derive: the epsilon
passes give `S` the new alternative `b`, the unit passes give it the alternative `c` of `B`. -/
theorem passes_keep_duplicate_free_witness :
    derivesApart.rules.WF ∧ (∀ e ∈ derivesApart.rules, e.2.Nodup) ∧
    NullableOnce derivesApart ∧ DistinctWithoutNullable derivesApart ∧
    UnitsLeadOn derivesApart.rules ∧ UnitsBringNew derivesApart.rules ∧
    UnitsBringApart derivesApart.rules ∧
    (Cnf.removeEpsilonProductions derivesApart).rules.get (ch 'S')
      = [[ch 'A', ch 'b'], [ch 'B'], [ch 'b']] ∧
    (Gnf.removeEpsilons derivesApart).rules.get (ch 'S')
      = [[ch 'A', ch 'b'], [ch 'B'], [ch 'b']] ∧
    ((Cnf.removeUnitProductions 2 derivesApart).map fun G1 => G1.rules.get (ch 'S'))
      = some [[ch 'A', ch 'b'], [ch 'c']] ∧
    ((Gnf.removeUnits 2 derivesApart).map fun G1 => G1.rules.get (ch 'S'))
      = some [[ch 'A', ch 'b'], [ch 'c']] ∧
    ((∀ e ∈ (Cnf.removeEpsilonProductions derivesApart).rules, e.2.Nodup) ∧
      (∀ e ∈ (Gnf.removeEpsilons derivesApart).rules, e.2.Nodup)) ∧
    ((∃ G1, (∀ rounds, Cnf.removeUnitProductions (rounds + 2) derivesApart = some G1) ∧
        ∀ e ∈ G1.rules, e.2.Nodup) ∧
      (∃ G1, (∀ rounds, Gnf.removeUnits (rounds + 2) derivesApart = some G1) ∧
        ∀ e ∈ G1.rules, e.2.Nodup)) :=
  ⟨by decide, by decide, by decide, by decide, by decide, by decide, by decide, by decide,
    by decide, by decide, by decide,
    (passes_keep_duplicate_free derivesApart (by decide) (by decide)).1 (by decide)
      (by decide),
    (passes_keep_duplicate_free derivesApart (by decide) (by decide)).2 (by decide)
      (by decide) (by decide)⟩

end Automata
